import Mathlib

/-!
# ECShell: line tokenizer, history ring, line editor and session loop

A shallow embedding of `RTOS/ECShell` (`ecshell_exec.c`, `linenoise/readline.c`,
`shell.c`, `shell.h`).

Conventions of the embedding.

* A byte is a `Nat`; a C buffer is a `List Nat`. `buf.getD i 0` reads `buf[i]`,
  `buf.set i v` writes it. A C string inside a buffer is the run of bytes before
  the first zero byte (`cstr`).
* `size_t` / `int` values are `Nat` / `Int`; the places where the C arithmetic
  could wrap are noted at the definitions.
* The two descriptors of a session are carried with it: `rx` holds the bytes the
  input stream will still deliver (a read at the end of `rx` returns 0, end of
  input) and `tx` the bytes written so far.
* `write` and `sh_malloc` are taken to succeed, so the branches the code takes
  only when `write` returns -1 or `sh_malloc` returns `NULL` are left out.
* A loop that needs fuel returns an `Option`: `none` stands for fuel that ran
  out, and the theorems show it does not happen.
-/

namespace ECShell

/-! ## C strings -/

/-- The C string stored at the start of a buffer: the bytes before the first NUL. -/
def cstr (buf : List Nat) : List Nat := buf.takeWhile (fun c => c != 0)

/-- Model of `strlen`. -/
def strlen (buf : List Nat) : Nat := (cstr buf).length

/-- Model of `strcmp(a, b)`, reduced to what the code uses: zero iff the two
C strings are equal. -/
def strcmp (a b : List Nat) : Int := if cstr a = cstr b then 0 else 1

/-- Model of `isspace` in the "C" locale: space, `\t`, `\n`, `\v`, `\f`, `\r`. -/
def isspace (c : Nat) : Bool := c == 32 || (9 ≤ c && c ≤ 13)

/-! ## `ecshell_exec.c`: the tokenizer -/

/-- The scanner states of `split_line_to_argv`. -/
inductive split_state where
  | SKIP_SPACE
  | SKIP_NONSPACE
  | IN_DOUBLE_QUOTE
  | IN_SINGLE_QUOTE
  deriving DecidableEq, Repr

/-- What `split_line_to_argv` leaves behind: the returned `int`, the line buffer
as rewritten in place, and the `argv` entries written, each an offset into the
line buffer (`argv[k] = &line[offset]`). `argc` is the number of entries written,
since the code only ever writes `argv[argc++]`. -/
structure split_result where
  ret : Int
  line : List Nat
  argv : List Nat
  deriving DecidableEq, Repr

/-- The `for` loop of `split_line_to_argv`. One unit of fuel is one iteration;
`none` means the fuel ran out before the loop ended. -/
def split_loop (max_argc : Int) :
    Nat → split_state → Nat → List Nat → List Nat → Option split_result
  | 0, _, _, _, _ => none
  | fuel + 1, state, index, line, argv =>
    let c := line.getD index 0
    if (argv.length : Int) < max_argc ∧ c ≠ 0 then
      match state with
      | .SKIP_SPACE =>
        if isspace c then
          split_loop max_argc fuel .SKIP_SPACE (index + 1) line argv
        else if c = 34 then
          split_loop max_argc fuel .IN_DOUBLE_QUOTE (index + 1) line (argv ++ [index + 1])
        else if c = 39 then
          split_loop max_argc fuel .IN_SINGLE_QUOTE (index + 1) line (argv ++ [index + 1])
        else
          split_loop max_argc fuel .SKIP_NONSPACE (index + 1) line (argv ++ [index])
      | .SKIP_NONSPACE =>
        if c ≠ 0 ∧ ¬ isspace c then
          split_loop max_argc fuel .SKIP_NONSPACE (index + 1) line argv
        else
          split_loop max_argc fuel .SKIP_SPACE (index + 1) (line.set index 0) argv
      | .IN_DOUBLE_QUOTE =>
        if c = 34 then
          split_loop max_argc fuel .SKIP_SPACE (index + 1) (line.set index 0) argv
        else if c = 0 then
          some ⟨-1, line, argv⟩
        else
          split_loop max_argc fuel .IN_DOUBLE_QUOTE (index + 1) line argv
      | .IN_SINGLE_QUOTE =>
        if c = 39 then
          split_loop max_argc fuel .SKIP_SPACE (index + 1) (line.set index 0) argv
        else if c = 0 then
          some ⟨-1, line, argv⟩
        else
          split_loop max_argc fuel .IN_SINGLE_QUOTE (index + 1) line argv
    else
      some ⟨argv.length, line, argv⟩

/-- Model of `split_line_to_argv(line, argv, max_argc)`. `line` is the whole
buffer, terminator included. Every iteration passes a non-zero byte, so
`line.length + 1` iterations are always enough. -/
def split_line_to_argv (line : List Nat) (max_argc : Int) : Option split_result :=
  split_loop max_argc (line.length + 1) .SKIP_SPACE 0 line []

/-- The strings the caller finds in `argv[0 .. argc-1]` after the call. -/
def argv_strings (r : split_result) : List (List Nat) :=
  r.argv.map (fun p => cstr (r.line.drop p))

/-! ## `shell.h`: the session object -/

def SHELL_HISTORY_MAXNUM : Nat := 16
def SHELL_LINE_MAXLEN : Nat := 256
def SHELL_PROMPT_MAXLEN : Nat := 64

inductive shell_status_t where
  | e_SHELLSTAT_WaitUserLogin
  | e_SHELLSTAT_WaitUserAuthen
  | e_SHELLSTAT_NormalCMDLine
  | e_SHELLSTAT_RecvTelnetIAC
  | e_SHELLSTAT_UserProgramIO
  deriving DecidableEq, Repr

inductive shell_type_t where
  | e_SHELLTYPE_Default
  | e_SHELLTYPE_Telnet
  deriving DecidableEq, Repr

/-- The session object `ecshell_t`, field for field. The last group is not part
of the C struct; it is the environment the session runs against:
`rx`, the bytes the input descriptor will still deliver, `tx`, the bytes written
to the output descriptor so far, `seq0 seq1 seq2`, the storage of the local
`char seq[3]` of `linenoiseEdit` (never initialised by the code, so its first
content is arbitrary), and `lit_tail`, the bytes that follow the string literal
`""` in memory (`linenoiseHistoryAdd` copies a full line of bytes from it). -/
structure ecshell_t where
  stdin_fd : Int
  stdout_fd : Int
  shell_cols : Nat
  echo_mode : Bool
  multiline_mode : Bool
  echo_mask_mode : Bool
  shell_status : shell_status_t
  shell_used_rows : Nat
  shell_prompt : List Nat
  prompt_len : Nat
  cmd_line : List Nat
  cmd_len : Nat
  cmd_cursor : Nat
  cmd_oldcursor : Nat
  history_head : Nat
  history_tail : Nat
  history_used : Nat
  history_offset : Nat
  cmd_history : List (List Nat)
  timeout_ms : Nat
  rx : List Nat
  tx : List Nat
  seq0 : Nat
  seq1 : Nat
  seq2 : Nat
  lit_tail : List Nat
  deriving DecidableEq, Repr

/-- Model of `write(sh->stdout_fd, bytes, n)`. -/
def write (sh : ecshell_t) (bytes : List Nat) : ecshell_t :=
  { sh with tx := sh.tx ++ bytes }

/-- Model of `read(sh->stdin_fd, &c, 1)`: the next byte, or `none` when the
stream is at its end (the call returns 0 and stores nothing). -/
def read (sh : ecshell_t) : Option Nat × ecshell_t :=
  match sh.rx with
  | [] => (none, sh)
  | c :: rest => (some c, { sh with rx := rest })

/-- The decimal digits `%d` prints for a natural number. -/
def fmt_nat (n : Nat) : List Nat := (Nat.toDigits 10 n).map Char.toNat

/-- Model of the `%d` conversion of `snprintf`. -/
def fmt_d (n : Int) : List Nat :=
  if n < 0 then 45 :: fmt_nat n.natAbs else fmt_nat n.toNat

/-! ## `linenoise/readline.c`: redraw -/

/-- Model of `getColumns`: the terminal query is compiled out, 132 is returned. -/
def getColumns (_ifd _ofd : Int) : Nat := 132

/-- First loop of `refreshSingleLine`,
`while ((plen + pos) >= cols) { buf++; len--; pos--; }`, on the offset of `buf`
into `cmd_line`, `len` and `pos`, for the calls in which no counter is
decremented at zero, that is, with `plen < cols` and `pos <= len`; there it is
the loop the machine runs (`refreshSingleLine_scroll_c`). `none` when `len` or
`pos` would be decremented at zero: the C `size_t` wraps, `buf` leaves the text
and the loop goes on, for ever when `cols` is 0. -/
def refreshSingleLine_scroll (plen cols : Nat) : Nat → Nat → Nat → Option (Nat × Nat × Nat)
  | off, len, pos =>
    if plen + pos ≥ cols then
      match len, pos with
      | len + 1, pos + 1 => refreshSingleLine_scroll plen cols (off + 1) len pos
      | _, _ => none
    else some (off, len, pos)

/-- Second loop of `refreshSingleLine`, `while (plen + len > cols) { len--; }`.
`none` when `len` would be decremented at zero. -/
def refreshSingleLine_clip (plen cols : Nat) : Nat → Option Nat
  | 0 => if plen > cols then none else some 0
  | len + 1 => if plen + (len + 1) > cols then refreshSingleLine_clip plen cols len else some (len + 1)

/-- The bytes `refreshSingleLine` hands to its single `write`. -/
def refreshSingleLine_bytes (sh : ecshell_t) : Option (List Nat) :=
  match refreshSingleLine_scroll sh.prompt_len sh.shell_cols 0 sh.cmd_len sh.cmd_cursor with
  | none => none
  | some (off, len, pos) =>
    match refreshSingleLine_clip sh.prompt_len sh.shell_cols len with
    | none => none
    | some len =>
      some ([13] ++ sh.shell_prompt.take sh.prompt_len
        ++ (if sh.echo_mask_mode then List.replicate len 42 else (sh.cmd_line.drop off).take len)
        ++ [27, 91, 48, 75]
        ++ ([13, 27, 91] ++ fmt_d ((pos + sh.prompt_len : Nat) : Int) ++ [67]))

/-- Model of `refreshSingleLine` for the sessions with
`prompt_len < shell_cols` and `cmd_cursor <= cmd_len`, which are those the edit
loop redraws: `linenoiseEdit` sets `shell_cols` to 132 and `prompt_len` to the
length of the prompt before its first key. The session fields are not touched.
Outside these sessions a counter of the C code wraps below zero; the call then
reads outside `cmd_line`, or does not return at all (`shell_cols == 0`, see
`refreshSingleLine_loops_c`), and the value given here, the session with
nothing written, says nothing about the code. -/
def refreshSingleLine (sh : ecshell_t) : ecshell_t :=
  write sh ((refreshSingleLine_bytes sh).getD [])

/-- The first loop of `refreshSingleLine`,
`while ((plen + pos) >= sh->shell_cols) { buf++; len--; pos--; }`, as the
machine runs it: `plen`, `len` and `pos` are `size_t`, here of `w` bits, so the
sum and the two decrements are taken modulo `2 ^ w`, and a counter decremented
at zero becomes `2 ^ w - 1`. The first argument bounds the number of times the
loop condition is tested; `none` says that the loop is still running when they
are used up. -/
def refreshSingleLine_scroll_c (w plen cols : Nat) :
    Nat → Nat → Nat → Nat → Option (Nat × Nat × Nat)
  | 0, _, _, _ => none
  | fuel + 1, off, len, pos =>
    if (plen + pos) % 2 ^ w ≥ cols then
      refreshSingleLine_scroll_c w plen cols fuel (off + 1)
        ((len + (2 ^ w - 1)) % 2 ^ w) ((pos + (2 ^ w - 1)) % 2 ^ w)
    else some (off, len, pos)

/-- The second loop of `refreshSingleLine`,
`while (plen + len > sh->shell_cols) { len--; }`, as the machine runs it, in
`size_t` of `w` bits; `none` says that the loop is still running after the
number of tests given by the first argument. -/
def refreshSingleLine_clip_c (w plen cols : Nat) : Nat → Nat → Option Nat
  | 0, _ => none
  | fuel + 1, len =>
    if (plen + len) % 2 ^ w > cols then
      refreshSingleLine_clip_c w plen cols fuel ((len + (2 ^ w - 1)) % 2 ^ w)
    else some len

/-- The two loops of `refreshSingleLine(sh)` as the machine runs them, from
`plen = sh->prompt_len`, `len = sh->cmd_len`, `pos = sh->cmd_cursor` and `buf`
at the start of `cmd_line`: the offset of `buf`, `len` and `pos` with which the
output is built, or `none` when one of the loops is still running after `fuel`
tests of its condition. -/
def refreshSingleLine_loops_c (w fuel : Nat) (sh : ecshell_t) : Option (Nat × Nat × Nat) :=
  match refreshSingleLine_scroll_c w sh.prompt_len sh.shell_cols fuel 0 sh.cmd_len sh.cmd_cursor with
  | none => none
  | some (off, len, pos) =>
    match refreshSingleLine_clip_c w sh.prompt_len sh.shell_cols fuel len with
    | none => none
    | some len1 => some (off, len1, pos)

/-- Model of `refreshMultiLine`: the bytes written, the new `shell_used_rows`
and `cmd_oldcursor`. The row arithmetic is done in `int` as in the code. -/
def refreshMultiLine (sh : ecshell_t) : ecshell_t :=
  let plen : Int := sh.prompt_len
  let cols : Int := sh.shell_cols
  let rows : Int := (plen + sh.cmd_len + cols - 1) / cols
  let rpos : Int := (plen + sh.cmd_oldcursor + cols) / cols
  let old_rows : Int := sh.shell_used_rows
  let used1 : Nat := if rows > (sh.shell_used_rows : Int) then rows.toNat else sh.shell_used_rows
  let ab1 : List Nat := if old_rows - rpos > 0 then [27, 91] ++ fmt_d (old_rows - rpos) ++ [66] else []
  let ab2 : List Nat := (List.replicate (old_rows - 1).toNat [13, 27, 91, 48, 75, 27, 91, 49, 65]).flatten
  let ab3 : List Nat := [13, 27, 91, 48, 75]
  let ab4 : List Nat := sh.shell_prompt.take sh.prompt_len
    ++ (if sh.echo_mask_mode then List.replicate sh.cmd_len 42 else sh.cmd_line.take sh.cmd_len)
  let wrap : Bool := sh.cmd_cursor != 0 && sh.cmd_cursor == sh.cmd_len
    && ((sh.cmd_cursor + sh.prompt_len) % sh.shell_cols == 0)
  let ab5 : List Nat := if wrap then [10, 13] else []
  let rows2 : Int := if wrap then rows + 1 else rows
  let used2 : Nat := if wrap ∧ rows2 > (used1 : Int) then rows2.toNat else used1
  let rpos2 : Int := (plen + sh.cmd_cursor + cols) / cols
  let ab6 : List Nat := if rows2 - rpos2 > 0 then [27, 91] ++ fmt_d (rows2 - rpos2) ++ [65] else []
  let col : Int := (plen + sh.cmd_cursor) % cols
  let ab7 : List Nat := if col ≠ 0 then [13, 27, 91] ++ fmt_d col ++ [67] else [13]
  write { sh with shell_used_rows := used2, cmd_oldcursor := sh.cmd_cursor }
    (ab1 ++ ab2 ++ ab3 ++ ab4 ++ ab5 ++ ab6 ++ ab7)

/-- Model of `refreshLine`. -/
def refreshLine (sh : ecshell_t) : ecshell_t :=
  if sh.multiline_mode then refreshMultiLine sh else refreshSingleLine sh

/-! ## `linenoise/readline.c`: editing operations -/

/-- Model of `memmove(buf + dst, buf + src, n)` inside one buffer. -/
def memmove (buf : List Nat) (dst src n : Nat) : List Nat :=
  buf.take dst ++ ((buf.drop src).take n ++ buf.drop (dst + n))

/-- Model of `linenoiseEditInsert`. The static `hintsCallback` is never set, so
`!hintsCallback` holds. Returns the `int` result together with the session. -/
def linenoiseEditInsert (sh : ecshell_t) (c : Nat) : Int × ecshell_t :=
  if sh.cmd_len < SHELL_LINE_MAXLEN - 1 then
    if sh.cmd_len = sh.cmd_cursor then
      let sh1 := { sh with
        cmd_line := (sh.cmd_line.set sh.cmd_cursor c).set (sh.cmd_len + 1) 0
        cmd_cursor := sh.cmd_cursor + 1
        cmd_len := sh.cmd_len + 1 }
      if ¬ sh1.multiline_mode ∧ sh1.prompt_len + sh1.cmd_len < sh1.shell_cols then
        (0, write sh1 [if sh1.echo_mask_mode then 42 else c])
      else
        (0, refreshLine sh1)
    else
      let moved := memmove sh.cmd_line (sh.cmd_cursor + 1) sh.cmd_cursor (sh.cmd_len - sh.cmd_cursor)
      (0, refreshLine { sh with
        cmd_line := (moved.set sh.cmd_cursor c).set (sh.cmd_len + 1) 0
        cmd_len := sh.cmd_len + 1
        cmd_cursor := sh.cmd_cursor + 1 })
  else
    (0, sh)

/-- Model of `linenoiseEditMoveLeft`. -/
def linenoiseEditMoveLeft (sh : ecshell_t) : ecshell_t :=
  if sh.cmd_cursor > 0 then refreshLine { sh with cmd_cursor := sh.cmd_cursor - 1 } else sh

/-- Model of `linenoiseEditMoveRight`. -/
def linenoiseEditMoveRight (sh : ecshell_t) : ecshell_t :=
  if sh.cmd_cursor ≠ sh.cmd_len then refreshLine { sh with cmd_cursor := sh.cmd_cursor + 1 } else sh

/-- Model of `linenoiseEditMoveHome`. -/
def linenoiseEditMoveHome (sh : ecshell_t) : ecshell_t :=
  if sh.cmd_cursor ≠ 0 then refreshLine { sh with cmd_cursor := 0 } else sh

/-- Model of `linenoiseEditMoveEnd`. -/
def linenoiseEditMoveEnd (sh : ecshell_t) : ecshell_t :=
  if sh.cmd_cursor ≠ sh.cmd_len then refreshLine { sh with cmd_cursor := sh.cmd_len } else sh

/-- Model of `linenoiseHistoryAdd(sh, line)`; `line` is the memory the pointer
refers to, of which `memcpy` copies `SHELL_LINE_MAXLEN` bytes. Returns the `int`
result together with the session. -/
def linenoiseHistoryAdd (sh : ecshell_t) (line : List Nat) : Int × ecshell_t :=
  let index := if sh.history_tail = 0 then SHELL_HISTORY_MAXNUM - 1 else sh.history_tail - 1
  if sh.history_used > 0 ∧ strcmp (sh.cmd_history.getD index []) line = 0 then
    (0, sh)
  else
    let sh1 :=
      if sh.history_used ≥ SHELL_HISTORY_MAXNUM then
        { sh with
          cmd_history := sh.cmd_history.set sh.history_head
            ((sh.cmd_history.getD sh.history_head []).set 0 0)
          history_head := if sh.history_head = sh.history_used - 1 then 0 else sh.history_head + 1
          history_used := sh.history_used - 1 }
      else sh
    (1, { sh1 with
      cmd_history := sh1.cmd_history.set sh1.history_tail (line.take SHELL_LINE_MAXLEN)
      history_used := sh1.history_used + 1
      history_tail := if sh1.history_tail = SHELL_HISTORY_MAXNUM - 1 then 0 else sh1.history_tail + 1 })

def LINENOISE_HISTORY_NEXT : Nat := 0
def LINENOISE_HISTORY_PREV : Nat := 1

/-- The slot index `linenoiseEditHistoryNext` computes from `history_tail` and
`history_offset` (in `size_t`; the subtraction cannot go below zero while
`history_offset < SHELL_HISTORY_MAXNUM`). -/
def history_index (sh : ecshell_t) : Nat :=
  if sh.history_tail ≤ sh.history_offset then
    SHELL_HISTORY_MAXNUM - 1 + sh.history_tail - sh.history_offset
  else
    sh.history_tail - 1 - sh.history_offset

/-- Model of `strncpy(dst, src, n)`, as the `n` bytes it leaves in `dst`: the
string of `src` (at most `n` bytes of it), padded with zeros to `n` bytes. -/
def strncpy (src : List Nat) (n : Nat) : List Nat :=
  let s := cstr (src.take n)
  s ++ List.replicate (n - s.length) 0

/-- Model of `linenoiseEditHistoryNext(sh, dir)`. -/
def linenoiseEditHistoryNext (sh : ecshell_t) (dir : Nat) : ecshell_t :=
  if sh.history_used > 0 then
    let sh1 := { sh with
      cmd_history := sh.cmd_history.set (history_index sh) (sh.cmd_line.take SHELL_LINE_MAXLEN) }
    let load (s : ecshell_t) : ecshell_t :=
      let line := (strncpy (s.cmd_history.getD (history_index s) []) SHELL_LINE_MAXLEN).set (SHELL_LINE_MAXLEN - 1) 0
      refreshLine { s with cmd_line := line, cmd_len := strlen line, cmd_cursor := strlen line }
    if dir = LINENOISE_HISTORY_PREV then
      let sh2 := { sh1 with history_offset := sh1.history_offset + 1 }
      if sh2.history_offset ≥ sh2.history_used then
        { sh2 with history_offset := sh2.history_used - 1 }
      else load sh2
    else if sh1.history_offset = 0 then
      sh1
    else
      load { sh1 with history_offset := sh1.history_offset - 1 }
  else sh

/-- Model of `linenoiseEditDelete`. -/
def linenoiseEditDelete (sh : ecshell_t) : ecshell_t :=
  if sh.cmd_len > 0 ∧ sh.cmd_cursor < sh.cmd_len then
    let moved := memmove sh.cmd_line sh.cmd_cursor (sh.cmd_cursor + 1) (sh.cmd_len - sh.cmd_cursor - 1)
    refreshLine { sh with cmd_line := moved.set (sh.cmd_len - 1) 0, cmd_len := sh.cmd_len - 1 }
  else sh

/-- Model of `linenoiseEditBackspace`. -/
def linenoiseEditBackspace (sh : ecshell_t) : ecshell_t :=
  if sh.cmd_cursor > 0 ∧ sh.cmd_len > 0 then
    let moved := memmove sh.cmd_line (sh.cmd_cursor - 1) sh.cmd_cursor (sh.cmd_len - sh.cmd_cursor)
    refreshLine { sh with
      cmd_line := moved.set (sh.cmd_len - 1) 0
      cmd_cursor := sh.cmd_cursor - 1
      cmd_len := sh.cmd_len - 1 }
  else sh

/-- First loop of `linenoiseEditDeletePrevWord`: step the cursor back over spaces. -/
def skip_spaces_back (line : List Nat) : Nat → Nat
  | 0 => 0
  | pos + 1 => if line.getD pos 0 = 32 then skip_spaces_back line pos else pos + 1

/-- Second loop of `linenoiseEditDeletePrevWord`: step the cursor back over a word. -/
def skip_word_back (line : List Nat) : Nat → Nat
  | 0 => 0
  | pos + 1 => if line.getD pos 0 ≠ 32 then skip_word_back line pos else pos + 1

/-- Model of `linenoiseEditDeletePrevWord`. -/
def linenoiseEditDeletePrevWord (sh : ecshell_t) : ecshell_t :=
  let old_pos := sh.cmd_cursor
  let cursor := skip_word_back sh.cmd_line (skip_spaces_back sh.cmd_line sh.cmd_cursor)
  let diff := old_pos - cursor
  refreshLine { sh with
    cmd_cursor := cursor
    cmd_line := memmove sh.cmd_line cursor old_pos (sh.cmd_len - old_pos + 1)
    cmd_len := sh.cmd_len - diff }

/-- Model of `linenoiseClearScreen`. -/
def linenoiseClearScreen (sh : ecshell_t) : ecshell_t :=
  write sh [27, 91, 72, 27, 91, 50, 74]

/-! ## `linenoise/readline.c`: the edit loop -/

/-- What `linenoiseEdit` does before its loop, up to and including the
placeholder `linenoiseHistoryAdd(sh, "")`. -/
def linenoiseEdit_setup (sh : ecshell_t) : ecshell_t :=
  let sh1 := { sh with
    prompt_len := strlen sh.shell_prompt
    cmd_oldcursor := 0
    cmd_cursor := 0
    cmd_len := 0
    shell_cols := getColumns sh.stdin_fd sh.stdout_fd
    shell_used_rows := 0
    history_offset := 0
    cmd_line := sh.cmd_line.set 0 0 }
  (linenoiseHistoryAdd sh1 (0 :: sh1.lit_tail)).2

/-- The placeholder pop done on Enter and on Ctrl-D with an empty buffer:
`history_used--`, `history_tail` one step back, first byte of that slot cleared.
On Ctrl-D the code does not test `history_used` first; it is at least 1 there,
since the edit started with the placeholder add. -/
def history_pop (sh : ecshell_t) : ecshell_t :=
  let tail := if sh.history_tail = 0 then SHELL_HISTORY_MAXNUM - 1 else sh.history_tail - 1
  { sh with
    history_used := sh.history_used - 1
    history_tail := tail
    cmd_history := sh.cmd_history.set tail ((sh.cmd_history.getD tail []).set 0 0) }

/-- The Ctrl-U case of `linenoiseEdit`. -/
def linenoiseEdit_ctrl_u (sh : ecshell_t) : ecshell_t :=
  refreshLine { sh with cmd_line := sh.cmd_line.set 0 0, cmd_cursor := 0, cmd_len := 0 }

/-- The Ctrl-K case of `linenoiseEdit`. -/
def linenoiseEdit_ctrl_k (sh : ecshell_t) : ecshell_t :=
  refreshLine { sh with cmd_line := sh.cmd_line.set sh.cmd_cursor 0, cmd_len := sh.cmd_cursor }

/-- The Ctrl-T case of `linenoiseEdit`. -/
def linenoiseEdit_ctrl_t (sh : ecshell_t) : ecshell_t :=
  if sh.cmd_cursor > 0 ∧ sh.cmd_cursor < sh.cmd_len then
    let aux := sh.cmd_line.getD (sh.cmd_cursor - 1) 0
    let line := (sh.cmd_line.set (sh.cmd_cursor - 1) (sh.cmd_line.getD sh.cmd_cursor 0)).set sh.cmd_cursor aux
    refreshLine { sh with
      cmd_line := line
      cmd_cursor := if sh.cmd_cursor ≠ sh.cmd_len - 1 then sh.cmd_cursor + 1 else sh.cmd_cursor }
  else sh

/-- A `read` into `seq[0]`. -/
def read_seq0 (sh : ecshell_t) : ecshell_t :=
  match read sh with
  | (some c, sh1) => { sh1 with seq0 := c }
  | (none, sh1) => sh1

/-- A `read` into `seq[1]`. -/
def read_seq1 (sh : ecshell_t) : ecshell_t :=
  match read sh with
  | (some c, sh1) => { sh1 with seq1 := c }
  | (none, sh1) => sh1

/-- A `read` into `seq[2]`. -/
def read_seq2 (sh : ecshell_t) : ecshell_t :=
  match read sh with
  | (some c, sh1) => { sh1 with seq2 := c }
  | (none, sh1) => sh1

/-- The ESC case of `linenoiseEdit`. A `read` never returns -1 here (at the end
of input it returns 0 and leaves `seq` as it was). -/
def linenoiseEdit_escape (sh : ecshell_t) : ecshell_t :=
  let sh1 := read_seq1 (read_seq0 sh)
  if sh1.seq0 = 91 then
    if 48 ≤ sh1.seq1 ∧ sh1.seq1 ≤ 57 then
      let sh2 := read_seq2 sh1
      if sh2.seq2 = 126 then
        if sh2.seq1 = 51 then linenoiseEditDelete sh2 else sh2
      else sh2
    else if sh1.seq1 = 65 then linenoiseEditHistoryNext sh1 LINENOISE_HISTORY_PREV
    else if sh1.seq1 = 66 then linenoiseEditHistoryNext sh1 LINENOISE_HISTORY_NEXT
    else if sh1.seq1 = 67 then linenoiseEditMoveRight sh1
    else if sh1.seq1 = 68 then linenoiseEditMoveLeft sh1
    else if sh1.seq1 = 72 then linenoiseEditMoveHome sh1
    else if sh1.seq1 = 70 then linenoiseEditMoveEnd sh1
    else sh1
  else if sh1.seq0 = 79 then
    if sh1.seq1 = 72 then linenoiseEditMoveHome sh1
    else if sh1.seq1 = 70 then linenoiseEditMoveEnd sh1
    else sh1
  else sh1

/-- The Enter case of `linenoiseEdit`, up to its `return`: the placeholder pop,
and in multi-line mode the move to the end of the line. -/
def linenoiseEdit_enter (sh : ecshell_t) : ecshell_t :=
  let sh1 := if sh.history_used > 0 then history_pop sh else sh
  if sh1.multiline_mode then linenoiseEditMoveEnd sh1 else sh1

/-- The `switch (c)` of `linenoiseEdit` for one byte `c` already read:
`(some r, sh)` when the case returns `r`, `(none, sh)` when the loop goes on. -/
def linenoiseEdit_key (c : Nat) (sh : ecshell_t) : Option Int × ecshell_t :=
  if c = 13 then (some ((linenoiseEdit_enter sh).cmd_len : Int), linenoiseEdit_enter sh)
  else if c = 3 then (some (-1), sh)
  else if c = 127 ∨ c = 8 then (none, linenoiseEditBackspace sh)
  else if c = 4 then
    if sh.cmd_len > 0 then (none, linenoiseEditDelete sh)
    else (some (-1), history_pop sh)
  else if c = 20 then (none, linenoiseEdit_ctrl_t sh)
  else if c = 2 then (none, linenoiseEditMoveLeft sh)
  else if c = 6 then (none, linenoiseEditMoveRight sh)
  else if c = 16 then (none, linenoiseEditHistoryNext sh LINENOISE_HISTORY_PREV)
  else if c = 14 then (none, linenoiseEditHistoryNext sh LINENOISE_HISTORY_NEXT)
  else if c = 27 then (none, linenoiseEdit_escape sh)
  else if c = 21 then (none, linenoiseEdit_ctrl_u sh)
  else if c = 11 then (none, linenoiseEdit_ctrl_k sh)
  else if c = 1 then (none, linenoiseEditMoveHome sh)
  else if c = 5 then (none, linenoiseEditMoveEnd sh)
  else if c = 12 then (none, refreshLine (linenoiseClearScreen sh))
  else if c = 23 then (none, linenoiseEditDeletePrevWord sh)
  else if (linenoiseEditInsert sh c).1 ≠ 0 then (some (-1), (linenoiseEditInsert sh c).2)
  else (none, (linenoiseEditInsert sh c).2)

/-- The `while (1)` loop of `linenoiseEdit`. One unit of fuel is one iteration;
`none` means the fuel ran out before the loop returned. -/
def linenoiseEdit_loop : Nat → ecshell_t → Option (Int × ecshell_t)
  | 0, _ => none
  | fuel + 1, sh =>
    match read sh with
    | (none, sh1) => some ((sh1.cmd_len : Int), sh1)
    | (some c, sh1) =>
      if c = 9 then linenoiseEdit_loop fuel sh1
      else
        match linenoiseEdit_key c sh1 with
        | (some r, sh2) => some (r, sh2)
        | (none, sh2) => linenoiseEdit_loop fuel sh2

/-- Model of `linenoiseEdit`: set-up, the prompt, then the loop. Every iteration
of the loop takes at least one byte from the input, so `rx.length + 1`
iterations are always enough. -/
def linenoiseEdit (sh : ecshell_t) : Option (Int × ecshell_t) :=
  let sh1 := linenoiseEdit_setup sh
  let sh2 := write sh1 (sh1.shell_prompt.take sh1.prompt_len)
  linenoiseEdit_loop (sh2.rx.length + 1) sh2

/-! ## `ecshell_exec.c`: the dispatcher -/

def EINVAL : Int := 22
def ENOENT : Int := 2
def ENOMEM : Int := 12
def EBADF : Int := 9
def MAX_ARGC : Int := 64

/-- The execution context `ecshell_env_t`. -/
structure ecshell_env_t where
  stdin_fd : Int
  stdout_fd : Int
  shell_cols : Nat
  deriving DecidableEq, Repr

/-- What a command handler does: its `int` result, and what it leaves of the
input stream and adds to the output stream of the descriptors in its context. -/
structure cmd_effect where
  ret : Int
  rx : List Nat
  tx : List Nat
  deriving DecidableEq, Repr

/-- A command descriptor `ecshell_cmd_t`: the handler, called with `argc`, the
strings of `argv`, the context, and the two streams as they stand. -/
structure ecshell_cmd_t where
  cmd : Int → List (List Nat) → ecshell_env_t → List Nat → List Nat → cmd_effect

/-- Modelled from the spec: the name to handler store `cmd_map` of `avlhash.h`,
which is not part of the sources, seen through `avl_map_get`: a lookup by exact
name that yields the handler registered under it, or nothing. -/
abbrev cmd_map_t := List Nat → Option ecshell_cmd_t

/-- Model of `ecshell_get_cmd_by_name`. -/
def ecshell_get_cmd_by_name (cmd_map : cmd_map_t) (name : List Nat) : Option ecshell_cmd_t :=
  cmd_map (cstr name)

/-- The name `clear`. -/
def name_clear : List Nat := [99, 108, 101, 97, 114]

/-- Model of the registry `ecshell_cmd_map_init` builds: the one name `clear`,
bound to its handler. The handler `ecshell_cmd_clear_screen` reads its arguments
with `optparse`, which is not part of the sources, and is taken as a parameter. -/
def ecshell_cmd_map_init (clear_screen : ecshell_cmd_t) : cmd_map_t :=
  fun name => if name = name_clear then some clear_screen else none

/-- The bytes of `perror_cmd_404`, terminator included (`sizeof`). -/
def perror_cmd_404 : List Nat :=
  [27, 91, 51, 49, 109,
   67, 111, 109, 109, 97, 110, 100, 32, 110, 111, 116, 32, 102, 111, 117, 110, 100, 46, 13, 10,
   27, 91, 51, 57, 109, 0]

/-- The bytes of `perror_cmd_400`, terminator included (`sizeof`). -/
def perror_cmd_400 : List Nat :=
  [27, 91, 51, 49, 109,
   69, 114, 114, 111, 114, 32, 119, 104, 105, 108, 101, 32, 112, 97, 114, 115, 105, 110, 103, 32,
   99, 111, 109, 109, 97, 110, 100, 32, 108, 105, 110, 101, 46, 13, 10,
   27, 91, 51, 57, 109, 0]

/-- What `ecshell_exec_by_line` leaves behind: the returned `int`, the two
streams, and the handler invocations made, each with its `argc`, `argv` strings
and context. -/
structure exec_result where
  err : Int
  rx : List Nat
  tx : List Nat
  invoked : List (Int × List (List Nat) × ecshell_env_t)
  deriving DecidableEq, Repr

/-- Model of `ecshell_exec_by_line(line, env)` against the streams `rx`, `tx`.
`none` only if the tokenizer ran out of fuel. -/
def ecshell_exec_by_line (cmd_map : cmd_map_t) (line : List Nat) (env : ecshell_env_t)
    (rx tx : List Nat) : Option exec_result :=
  let new_line := cstr line ++ [0]
  match split_line_to_argv new_line MAX_ARGC with
  | none => none
  | some r =>
    if r.ret > 0 then
      match ecshell_get_cmd_by_name cmd_map ((argv_strings r).headD []) with
      | some cmd =>
        let e := cmd.cmd r.ret (argv_strings r) env rx tx
        some ⟨e.ret, e.rx, e.tx, [(r.ret, argv_strings r, env)]⟩
      | none => some ⟨-ENOENT, rx, tx ++ perror_cmd_404, []⟩
    else some ⟨-EINVAL, rx, tx ++ perror_cmd_400, []⟩

/-! ## `shell.c`: the session loop -/

/-- Model of `user_authentication`. -/
def user_authentication (uname : List Nat) (_ulen : Nat) (passwd : List Nat) (_plen : Nat) : Int :=
  if strcmp uname passwd = 0 then 0 else -1

/-- The object `ecshell_new` builds: every byte zero (`memset`), then the fields
it assigns. The streams behind the descriptors start empty. -/
def ecshell_new_object (i_fd o_fd : Int) (timeout : Nat) : ecshell_t where
  stdin_fd := i_fd
  stdout_fd := o_fd
  shell_cols := 0
  echo_mode := true
  multiline_mode := false
  echo_mask_mode := false
  shell_status := .e_SHELLSTAT_WaitUserLogin
  shell_used_rows := 0
  shell_prompt := List.replicate SHELL_PROMPT_MAXLEN 0
  prompt_len := 0
  cmd_line := List.replicate SHELL_LINE_MAXLEN 0
  cmd_len := 0
  cmd_cursor := 0
  cmd_oldcursor := 0
  history_head := 0
  history_tail := 0
  history_used := 0
  history_offset := 0
  cmd_history := List.replicate SHELL_HISTORY_MAXNUM (List.replicate SHELL_LINE_MAXLEN 0)
  timeout_ms := timeout
  rx := []
  tx := []
  seq0 := 0
  seq1 := 0
  seq2 := 0
  lit_tail := []

/-- Model of `ecshell_new`; `none` is the `NULL` result. -/
def ecshell_new (i_fd o_fd : Int) (_type : shell_type_t) (timeout : Nat) : Option ecshell_t :=
  if i_fd < 0 ∨ o_fd < 0 then none else some (ecshell_new_object i_fd o_fd timeout)

/-- Model of `sprintf(sh->shell_prompt, ...)` for the formatted text `s`: the
text and its terminator are stored at the start of the prompt buffer. -/
def sprintf_prompt (sh : ecshell_t) (s : List Nat) : ecshell_t :=
  { sh with
    shell_prompt := s ++ (0 :: sh.shell_prompt.drop (s.length + 1))
    prompt_len := s.length }

/-- One call of `user_authentication` as the session loop makes it, with the
content of `cmd_line` at that moment. -/
structure auth_call where
  uname : List Nat
  ulen : Nat
  passwd : List Nat
  plen : Nat
  cmd_line : List Nat
  deriving DecidableEq, Repr

/-- The state of `shell_run` between two iterations of its `for (;;)`: the
session, the locals `err`, `_user_name` (the block it points to) and
`_user_name_len`, and a record of the calls made so far to
`user_authentication` and to command handlers. -/
structure run_state where
  sh : ecshell_t
  err : Int
  user_name : List Nat
  user_name_len : Nat
  auth_calls : List auth_call
  invoked : List (Int × List (List Nat) × ecshell_env_t)
  deriving DecidableEq, Repr

/-- The text "User Login:". -/
def prompt_login : List Nat := [85, 115, 101, 114, 32, 76, 111, 103, 105, 110, 58]

/-- The text "Password:". -/
def prompt_password : List Nat := [80, 97, 115, 115, 119, 111, 114, 100, 58]

/-- The text "@ecshell>". -/
def prompt_suffix : List Nat := [64, 101, 99, 115, 104, 101, 108, 108, 62]

/-- The `e_SHELLSTAT_WaitUserLogin` case of `shell_run` from the point where
`linenoiseEdit` has returned `err`, leaving the session `sh1`. -/
def shell_run_login_done (rs : run_state) (err : Int) (sh1 : ecshell_t) : run_state :=
  let sh2 := write sh1 [13, 10]
  if err > 0 then
    let user_name_len := sh2.cmd_len
    let user_name := strncpy sh2.cmd_line user_name_len ++ [0]
    { rs with
      sh := { sh2 with shell_status := .e_SHELLSTAT_WaitUserAuthen, echo_mask_mode := true }
      err := err
      user_name := user_name
      user_name_len := user_name_len }
  else
    { rs with sh := sh2, err := err }

/-- The `e_SHELLSTAT_WaitUserLogin` case of `shell_run`. -/
def shell_run_login (rs : run_state) : Option run_state :=
  match linenoiseEdit (sprintf_prompt rs.sh prompt_login) with
  | none => none
  | some (err, sh1) => some (shell_run_login_done rs err sh1)

/-- The `e_SHELLSTAT_WaitUserAuthen` case of `shell_run` from the point where
`linenoiseEdit` has returned `err`, leaving the session `sh1`. -/
def shell_run_authen_done (rs : run_state) (err : Int) (sh1 : ecshell_t) : run_state :=
  let sh2 := write { sh1 with echo_mask_mode := false } [13, 10]
  if err > 0 then
    let password_len := sh2.cmd_len
    let password := strncpy sh2.cmd_line password_len ++ [0]
    let sh3 := { sh2 with cmd_line := List.replicate SHELL_LINE_MAXLEN 0 }
    let call : auth_call := ⟨rs.user_name, rs.user_name_len, password, password_len, sh3.cmd_line⟩
    let status :=
      if user_authentication rs.user_name rs.user_name_len password password_len = 0 then
        shell_status_t.e_SHELLSTAT_NormalCMDLine
      else
        shell_status_t.e_SHELLSTAT_WaitUserLogin
    { rs with
      sh := { sh3 with shell_status := status }
      err := err
      auth_calls := rs.auth_calls ++ [call] }
  else
    { rs with
      sh := { sh2 with shell_status := .e_SHELLSTAT_WaitUserLogin }
      err := err
      user_name := List.replicate rs.user_name_len 0 ++ rs.user_name.drop rs.user_name_len }

/-- The `e_SHELLSTAT_WaitUserAuthen` case of `shell_run`. -/
def shell_run_authen (rs : run_state) : Option run_state :=
  match linenoiseEdit (sprintf_prompt rs.sh prompt_password) with
  | none => none
  | some (err, sh1) => some (shell_run_authen_done rs err sh1)

/-- The `e_SHELLSTAT_NormalCMDLine` case of `shell_run` from the point where
`linenoiseEdit` has returned `err`, leaving the session `sh1`. -/
def shell_run_cmdline_done (cmd_map : cmd_map_t) (rs : run_state) (err : Int) (sh1 : ecshell_t) :
    Option run_state :=
  let sh2 := write sh1 [13, 10]
  if err > 0 then
    let sh3 := (linenoiseHistoryAdd sh2 sh2.cmd_line).2
    let exec_env : ecshell_env_t := ⟨sh3.stdin_fd, sh3.stdout_fd, sh3.shell_cols⟩
    match ecshell_exec_by_line cmd_map sh3.cmd_line exec_env sh3.rx sh3.tx with
    | none => none
    | some e =>
      some { rs with
        sh := { sh3 with rx := e.rx, tx := e.tx, shell_status := .e_SHELLSTAT_NormalCMDLine }
        err := err
        invoked := rs.invoked ++ e.invoked }
  else
    some { rs with sh := sh2, err := err }

/-- The `e_SHELLSTAT_NormalCMDLine` case of `shell_run`. -/
def shell_run_cmdline (cmd_map : cmd_map_t) (rs : run_state) : Option run_state :=
  match linenoiseEdit (sprintf_prompt rs.sh (cstr rs.user_name ++ prompt_suffix)) with
  | none => none
  | some (err, sh1) => shell_run_cmdline_done cmd_map rs err sh1

/-- One iteration of the `for (;;)` of `shell_run`: the `switch` on
`shell_status`. `none` only if an inner loop ran out of fuel. -/
def shell_run_step (cmd_map : cmd_map_t) (rs : run_state) : Option run_state :=
  match rs.sh.shell_status with
  | .e_SHELLSTAT_WaitUserLogin => shell_run_login rs
  | .e_SHELLSTAT_WaitUserAuthen => shell_run_authen rs
  | .e_SHELLSTAT_NormalCMDLine => shell_run_cmdline cmd_map rs
  | .e_SHELLSTAT_RecvTelnetIAC => some rs
  | shell_status_t.e_SHELLSTAT_UserProgramIO => some rs

/-- The first `n` iterations of the `for (;;)` of `shell_run`. -/
def shell_run_steps (cmd_map : cmd_map_t) : Nat → run_state → Option run_state
  | 0, rs => some rs
  | n + 1, rs =>
    match shell_run_step cmd_map rs with
    | none => none
    | some rs1 => shell_run_steps cmd_map n rs1

/-- The checks `shell_run` makes before its loop: the error it returns at once,
if any (`none` stands for a `NULL` session pointer). -/
def shell_run_check (sh : Option ecshell_t) : Option Int :=
  match sh with
  | none => some (-EINVAL)
  | some s => if s.stdin_fd < 0 ∨ s.stdout_fd < 0 then some (-EBADF) else none

/-- The state in which `shell_run` enters its loop; the locals are not
initialised by the code, so their first content is a parameter. -/
def shell_run_init (sh : ecshell_t) (err : Int) (user_name : List Nat) (user_name_len : Nat) :
    run_state :=
  ⟨sh, err, user_name, user_name_len, [], []⟩

/-- Model of `shell_run`, cut after `n` iterations of its `for (;;)`.
`Sum.inl (err, sh)`: the function has returned `err` at once, leaving the session
as it was (`none` stands for a `NULL` pointer). `Sum.inr`: the checks passed and
the loop was entered; the state after `n` iterations. The locals are not
initialised by the code, so their first content is a parameter. -/
def shell_run (cmd_map : cmd_map_t) (sh : Option ecshell_t) (err : Int) (user_name : List Nat)
    (user_name_len : Nat) (n : Nat) : (Int × Option ecshell_t) ⊕ Option run_state :=
  match sh with
  | none => Sum.inl (-EINVAL, none)
  | some s =>
    if s.stdin_fd < 0 ∨ s.stdout_fd < 0 then Sum.inl (-EBADF, some s)
    else Sum.inr (shell_run_steps cmd_map n (shell_run_init s err user_name user_name_len))

/-! ## Lines made of tokens -/

/-- A token as written on a command line. -/
inductive Token where
  | bare (w : List Nat)
  | dquoted (w : List Nat)
  | squoted (w : List Nat)
  deriving DecidableEq, Repr

/-- The bytes of a token as they stand in the line. -/
def Token.text : Token → List Nat
  | .bare w => w
  | .dquoted w => 34 :: (w ++ [34])
  | .squoted w => 39 :: (w ++ [39])

/-- The un-quoted content of a token. -/
def Token.content : Token → List Nat
  | .bare w => w
  | .dquoted w => w
  | .squoted w => w

/-- A bare word is non-empty, has no whitespace and does not start with a quote;
a quoted token has no quote of its own kind inside. No token holds a NUL. -/
def Token.wf : Token → Prop
  | .bare w => w ≠ [] ∧ (∀ c ∈ w, c ≠ 0 ∧ isspace c = false) ∧ w.head? ≠ some 34 ∧ w.head? ≠ some 39
  | .dquoted w => ∀ c ∈ w, c ≠ 0 ∧ c ≠ 34
  | .squoted w => ∀ c ∈ w, c ≠ 0 ∧ c ≠ 39

/-- A run of whitespace bytes. -/
def Blank (ws : List Nat) : Prop := ∀ c ∈ ws, isspace c = true

/-- The bytes of a sequence of tokens, each followed by its run of whitespace. -/
def lineOf : List (Token × List Nat) → List Nat
  | [] => []
  | (t, ws) :: rest => t.text ++ (ws ++ lineOf rest)

/-- Tokens separated by whitespace: every token is well formed, what follows it
is whitespace, and that whitespace is non-empty between two tokens. -/
def Separated : List (Token × List Nat) → Prop
  | [] => True
  | (t, ws) :: rest => t.wf ∧ Blank ws ∧ (rest ≠ [] → ws ≠ []) ∧ Separated rest

/-- The scan of `split_loop` told on a split buffer: `pre` holds the bytes
already visited (as rewritten), `rest` the bytes from `index` on. A device for
the proofs; `split_loop_eq_split_scan` ties it to `split_loop`. -/
def split_scan (max_argc : Int) :
    split_state → List Nat → List Nat → List Nat → split_result
  | _, pre, [], argv => ⟨argv.length, pre, argv⟩
  | state, pre, c :: rest, argv =>
    if (argv.length : Int) < max_argc ∧ c ≠ 0 then
      match state with
      | .SKIP_SPACE =>
        if isspace c then split_scan max_argc .SKIP_SPACE (pre ++ [c]) rest argv
        else if c = 34 then
          split_scan max_argc .IN_DOUBLE_QUOTE (pre ++ [c]) rest (argv ++ [pre.length + 1])
        else if c = 39 then
          split_scan max_argc .IN_SINGLE_QUOTE (pre ++ [c]) rest (argv ++ [pre.length + 1])
        else split_scan max_argc .SKIP_NONSPACE (pre ++ [c]) rest (argv ++ [pre.length])
      | .SKIP_NONSPACE =>
        if c ≠ 0 ∧ ¬ isspace c then split_scan max_argc .SKIP_NONSPACE (pre ++ [c]) rest argv
        else split_scan max_argc .SKIP_SPACE (pre ++ [0]) rest argv
      | .IN_DOUBLE_QUOTE =>
        if c = 34 then split_scan max_argc .SKIP_SPACE (pre ++ [0]) rest argv
        else if c = 0 then ⟨-1, pre ++ c :: rest, argv⟩
        else split_scan max_argc .IN_DOUBLE_QUOTE (pre ++ [c]) rest argv
      | .IN_SINGLE_QUOTE =>
        if c = 39 then split_scan max_argc .SKIP_SPACE (pre ++ [0]) rest argv
        else if c = 0 then ⟨-1, pre ++ c :: rest, argv⟩
        else split_scan max_argc .IN_SINGLE_QUOTE (pre ++ [c]) rest argv
    else ⟨argv.length, pre ++ c :: rest, argv⟩

/-! ## Predicates used to state the properties -/

/-- The ring relation of the history store: `SHELL_HISTORY_MAXNUM` slots, `head`
in range, at most that many entries, and `tail` that many slots after `head`. -/
def history_wf (sh : ecshell_t) : Prop :=
  sh.cmd_history.length = SHELL_HISTORY_MAXNUM
    ∧ sh.history_head < SHELL_HISTORY_MAXNUM
    ∧ sh.history_used ≤ SHELL_HISTORY_MAXNUM
    ∧ sh.history_tail = (sh.history_head + sh.history_used) % SHELL_HISTORY_MAXNUM

/-- The `k`-th live entry of the history store, counted from `head`. -/
def history_entry (sh : ecshell_t) (k : Nat) : List Nat :=
  sh.cmd_history.getD ((sh.history_head + k) % SHELL_HISTORY_MAXNUM) []

/-- `linenoiseHistoryAdd` of the lines `line 0`, ..., `line (n - 1)`, in order. -/
def history_add_seq (line : Nat → List Nat) : Nat → ecshell_t → ecshell_t
  | 0, sh => sh
  | n + 1, sh => (linenoiseHistoryAdd (history_add_seq line n sh) (line n)).2

/-- The edit-buffer invariant: `cmd_line` is its `SHELL_LINE_MAXLEN` bytes,
`cmd_cursor <= cmd_len < SHELL_LINE_MAXLEN` and `cmd_line[cmd_len] == 0`. -/
def edit_inv (sh : ecshell_t) : Prop :=
  sh.cmd_line.length = SHELL_LINE_MAXLEN
    ∧ sh.cmd_cursor ≤ sh.cmd_len
    ∧ sh.cmd_len < SHELL_LINE_MAXLEN
    ∧ sh.cmd_line.getD sh.cmd_len 0 = 0

/-- The editor operations a key can trigger. -/
inductive edit_op where
  | insert (c : Nat)
  | backspace
  | delete
  | delete_prev_word
  | kill_to_end
  | kill_line
  | transpose
  | move_left
  | move_right
  | move_home
  | move_end
  | history_prev
  | history_next
  deriving DecidableEq, Repr

/-- The effect of an editor operation on the session. -/
def edit_op.apply : edit_op → ecshell_t → ecshell_t
  | .insert c, sh => (linenoiseEditInsert sh c).2
  | .backspace, sh => linenoiseEditBackspace sh
  | .delete, sh => linenoiseEditDelete sh
  | .delete_prev_word, sh => linenoiseEditDeletePrevWord sh
  | .kill_to_end, sh => linenoiseEdit_ctrl_k sh
  | .kill_line, sh => linenoiseEdit_ctrl_u sh
  | .transpose, sh => linenoiseEdit_ctrl_t sh
  | .move_left, sh => linenoiseEditMoveLeft sh
  | .move_right, sh => linenoiseEditMoveRight sh
  | .move_home, sh => linenoiseEditMoveHome sh
  | .move_end, sh => linenoiseEditMoveEnd sh
  | .history_prev, sh => linenoiseEditHistoryNext sh LINENOISE_HISTORY_PREV
  | .history_next, sh => linenoiseEditHistoryNext sh LINENOISE_HISTORY_NEXT

/-- A sequence of editor operations, applied in order. -/
def edit_ops (ops : List edit_op) (sh : ecshell_t) : ecshell_t :=
  ops.foldl (fun s op => op.apply s) sh

/-- `n` presses of a history key: `linenoiseEditHistoryNext(sh, dir)`, `n` times. -/
def history_nav (dir : Nat) : Nat → ecshell_t → ecshell_t
  | 0, sh => sh
  | n + 1, sh => history_nav dir n (linenoiseEditHistoryNext sh dir)

/-- The session fields no editing operation touches. -/
def edit_frame (s t : ecshell_t) : Prop :=
  t.stdin_fd = s.stdin_fd ∧ t.stdout_fd = s.stdout_fd ∧ t.shell_cols = s.shell_cols
    ∧ t.echo_mode = s.echo_mode ∧ t.multiline_mode = s.multiline_mode
    ∧ t.echo_mask_mode = s.echo_mask_mode ∧ t.shell_status = s.shell_status
    ∧ t.shell_prompt = s.shell_prompt ∧ t.prompt_len = s.prompt_len
    ∧ t.timeout_ms = s.timeout_ms ∧ t.lit_tail = s.lit_tail

/-- A byte the key `switch` of `linenoiseEdit` has no case for (and that is not
Tab): it reaches the `default` case and is inserted. -/
def ordinary_key (c : Nat) : Prop :=
  c ∉ [13, 3, 127, 8, 4, 20, 2, 6, 16, 14, 27, 21, 11, 1, 5, 12, 23, 9]

/-- The history store of `t` is that of `s`: the four counters and every slot. -/
def same_history (s t : ecshell_t) : Prop :=
  t.history_head = s.history_head ∧ t.history_tail = s.history_tail
    ∧ t.history_used = s.history_used ∧ t.history_offset = s.history_offset
    ∧ t.cmd_history = s.cmd_history

/-- What a key that does not end the edit may do to the counters of the history
store: `head`, `tail` and `used` stay, and an offset below `used` stays below it. -/
def nav_step (s t : ecshell_t) : Prop :=
  t.history_head = s.history_head ∧ t.history_tail = s.history_tail
    ∧ t.history_used = s.history_used
    ∧ (s.history_offset < s.history_used → t.history_offset < t.history_used)

/-- The invariants of the history counters: `used <= N`, `head < N`, `tail < N`
and `offset <= used`. -/
def history_inv (s : ecshell_t) : Prop :=
  s.history_used ≤ SHELL_HISTORY_MAXNUM ∧ s.history_head < SHELL_HISTORY_MAXNUM
    ∧ s.history_tail < SHELL_HISTORY_MAXNUM ∧ s.history_offset ≤ s.history_used

/-- The session states that can be reached from a new session, as far as the
history store is concerned. The flag tells whether the session is inside the
loop of `linenoiseEdit` (`true`) or between two line reads (`false`).
`other` stands for everything that leaves the history store alone: a byte read
from the input, output written, the prompt, the status, the flags or the edit
buffer set by `shell_run`. -/
inductive session_reach : Bool → ecshell_t → Prop where
  | new (i_fd o_fd : Int) (timeout : Nat) :
      session_reach false (ecshell_new_object i_fd o_fd timeout)
  | other (b : Bool) (s t : ecshell_t) :
      session_reach b s → same_history s t → session_reach b t
  | add (s : ecshell_t) (line : List Nat) :
      session_reach false s → session_reach false (linenoiseHistoryAdd s line).2
  | setup (s : ecshell_t) :
      session_reach false s → session_reach true (linenoiseEdit_setup s)
  | key (c : Nat) (s : ecshell_t) :
      session_reach true s → (linenoiseEdit_key c s).1 = none →
      session_reach true (linenoiseEdit_key c s).2
  | ret (c : Nat) (s : ecshell_t) :
      session_reach true s → (linenoiseEdit_key c s).1 ≠ none →
      session_reach false (linenoiseEdit_key c s).2
  | end_of_input (s : ecshell_t) :
      session_reach true s → session_reach false s

/-- The session `s` with the scratch bytes `seq[0]`, `seq[1]`, `seq[2]` of the
edit loop set to `a`, `b`, `c`. These bytes are a local of `linenoiseEdit`, not
part of the C struct: two sessions that differ in them alone are the same
session state with the same input and output. -/
def with_seq (s : ecshell_t) (a b c : Nat) : ecshell_t :=
  { s with seq0 := a, seq1 := b, seq2 := c }

/-- The text of the edit buffer holds no NUL: no byte below `cmd_len` is zero.
Together with `cmd_line[cmd_len] == 0` this says `cmd_len == strlen(cmd_line)`. -/
def text_inv (sh : ecshell_t) : Prop :=
  ∀ i, i < sh.cmd_len → sh.cmd_line.getD i 0 ≠ 0

/-! # Theorems -/

/-! ## Lists and C strings -/

theorem getD_append_cons (pre rest : List Nat) (c d : Nat) :
    (pre ++ c :: rest).getD pre.length d = c := by
  induction pre with
  | nil => simp
  | cons a pre ih => simpa using ih

theorem set_append_cons (pre rest : List Nat) (c v : Nat) :
    (pre ++ c :: rest).set pre.length v = pre ++ v :: rest := by
  induction pre with
  | nil => simp
  | cons a pre ih => simp

theorem append_cons_eq (pre rest : List Nat) (c : Nat) :
    pre ++ c :: rest = (pre ++ [c]) ++ rest := by simp

/-! ## The tokenizer -/

/-- The loop of `split_line_to_argv`, given fuel beyond the bytes left, is the scan. -/
theorem split_loop_eq_split_scan (max_argc : Int) :
    ∀ (rest : List Nat) (fuel : Nat) (state : split_state) (pre argv : List Nat),
      rest.length < fuel →
      split_loop max_argc fuel state pre.length (pre ++ rest) argv
        = some (split_scan max_argc state pre rest argv) := by
  intro rest
  induction rest with
  | nil =>
    intro fuel state pre argv h
    obtain ⟨f, rfl⟩ : ∃ f, fuel = f + 1 := ⟨fuel - 1, by simp at h; omega⟩
    simp [split_loop, split_scan]
  | cons c rest ih =>
    intro fuel state pre argv h
    obtain ⟨f, rfl⟩ : ∃ f, fuel = f + 1 := ⟨fuel - 1, by simp at h; omega⟩
    have hf : rest.length < f := by simp at h; omega
    have hlen : pre.length + 1 = (pre ++ [c]).length := by simp
    have hlen0 : pre.length + 1 = (pre ++ [0]).length := by simp
    simp only [split_loop, split_scan, getD_append_cons, set_append_cons]
    by_cases hc : (argv.length : Int) < max_argc ∧ c ≠ 0
    · rw [if_pos hc, if_pos hc]
      cases state <;> simp only
      · split_ifs
        all_goals (rw [hlen, append_cons_eq pre rest c]; exact ih f _ _ _ hf)
      · split_ifs
        all_goals first
          | (rw [hlen, append_cons_eq pre rest c]; exact ih f _ _ _ hf)
          | (rw [hlen0, append_cons_eq pre rest 0]; exact ih f _ _ _ hf)
      · split_ifs
        all_goals first
          | (rw [hlen, append_cons_eq pre rest c]; exact ih f _ _ _ hf)
          | (rw [hlen0, append_cons_eq pre rest 0]; exact ih f _ _ _ hf)
          | rfl
      · split_ifs
        all_goals first
          | (rw [hlen, append_cons_eq pre rest c]; exact ih f _ _ _ hf)
          | (rw [hlen0, append_cons_eq pre rest 0]; exact ih f _ _ _ hf)
          | rfl
    · rw [if_neg hc, if_neg hc]

theorem cstr_append_zero (w x : List Nat) (hw : ∀ c ∈ w, c ≠ 0) : cstr (w ++ 0 :: x) = w := by
  induction w with
  | nil => simp [cstr]
  | cons a w ih =>
    have ha : a ≠ 0 := hw a (by simp)
    have := ih (fun c hc => hw c (by simp [hc]))
    simp [cstr, ha] at this ⊢
    exact this

theorem drop_append_length (pre x : List Nat) : (pre ++ x).drop pre.length = x := by
  induction pre with
  | nil => simp
  | cons a pre ih => simp

theorem isspace_ne_zero {c : Nat} (h : isspace c = true) : c ≠ 0 := by
  intro h0; subst h0; simp [isspace] at h

/-- Whitespace is skipped in state `SKIP_SPACE`. -/
theorem split_scan_blank (max_argc : Int) :
    ∀ (ws pre rest argv : List Nat), Blank ws → (argv.length : Int) < max_argc →
      split_scan max_argc .SKIP_SPACE pre (ws ++ rest) argv
        = split_scan max_argc .SKIP_SPACE (pre ++ ws) rest argv := by
  intro ws
  induction ws with
  | nil => intro pre rest argv _ _; simp
  | cons c ws ih =>
    intro pre rest argv hb hlt
    have hc : isspace c = true := hb c (by simp)
    have hc0 : c ≠ 0 := isspace_ne_zero hc
    have := ih (pre ++ [c]) rest argv (fun d hd => hb d (by simp [hd])) hlt
    simp only [List.cons_append, split_scan, hlt, hc0, hc, ne_eq, not_false_eq_true, and_self,
      if_true]
    simpa using this

/-- The bytes of a bare word are passed in state `SKIP_NONSPACE`. -/
theorem split_scan_word (max_argc : Int) :
    ∀ (w pre rest argv : List Nat), (∀ c ∈ w, c ≠ 0 ∧ isspace c = false) →
      (argv.length : Int) < max_argc →
      split_scan max_argc .SKIP_NONSPACE pre (w ++ rest) argv
        = split_scan max_argc .SKIP_NONSPACE (pre ++ w) rest argv := by
  intro w
  induction w with
  | nil => intro pre rest argv _ _; simp
  | cons c w ih =>
    intro pre rest argv hw hlt
    obtain ⟨hc0, hcs⟩ := hw c (by simp)
    have := ih (pre ++ [c]) rest argv (fun d hd => hw d (by simp [hd])) hlt
    simp only [List.cons_append, split_scan, hlt, hc0, hcs, ne_eq, not_false_eq_true, and_self,
      if_true, Bool.false_eq_true]
    simpa using this

/-- The bytes inside double quotes are passed in state `IN_DOUBLE_QUOTE`. -/
theorem split_scan_dquote (max_argc : Int) :
    ∀ (w pre rest argv : List Nat), (∀ c ∈ w, c ≠ 0 ∧ c ≠ 34) →
      (argv.length : Int) < max_argc →
      split_scan max_argc .IN_DOUBLE_QUOTE pre (w ++ rest) argv
        = split_scan max_argc .IN_DOUBLE_QUOTE (pre ++ w) rest argv := by
  intro w
  induction w with
  | nil => intro pre rest argv _ _; simp
  | cons c w ih =>
    intro pre rest argv hw hlt
    obtain ⟨hc0, hcq⟩ := hw c (by simp)
    have := ih (pre ++ [c]) rest argv (fun d hd => hw d (by simp [hd])) hlt
    simp only [List.cons_append, split_scan, hlt, hc0, hcq, ne_eq, not_false_eq_true, and_self,
      if_true, if_false]
    simpa using this

/-- The bytes inside single quotes are passed in state `IN_SINGLE_QUOTE`. -/
theorem split_scan_squote (max_argc : Int) :
    ∀ (w pre rest argv : List Nat), (∀ c ∈ w, c ≠ 0 ∧ c ≠ 39) →
      (argv.length : Int) < max_argc →
      split_scan max_argc .IN_SINGLE_QUOTE pre (w ++ rest) argv
        = split_scan max_argc .IN_SINGLE_QUOTE (pre ++ w) rest argv := by
  intro w
  induction w with
  | nil => intro pre rest argv _ _; simp
  | cons c w ih =>
    intro pre rest argv hw hlt
    obtain ⟨hc0, hcq⟩ := hw c (by simp)
    have := ih (pre ++ [c]) rest argv (fun d hd => hw d (by simp [hd])) hlt
    simp only [List.cons_append, split_scan, hlt, hc0, hcq, ne_eq, not_false_eq_true, and_self,
      if_true, if_false]
    simpa using this

theorem split_scan_space_bare (max_argc : Int) (c : Nat) (pre rest argv : List Nat)
    (hlt : (argv.length : Int) < max_argc) (hc0 : c ≠ 0) (hcs : isspace c = false)
    (h34 : c ≠ 34) (h39 : c ≠ 39) :
    split_scan max_argc .SKIP_SPACE pre (c :: rest) argv
      = split_scan max_argc .SKIP_NONSPACE (pre ++ [c]) rest (argv ++ [pre.length]) := by
  simp [split_scan, hlt, hc0, hcs, h34, h39]

theorem split_scan_space_dq (max_argc : Int) (pre rest argv : List Nat)
    (hlt : (argv.length : Int) < max_argc) :
    split_scan max_argc .SKIP_SPACE pre (34 :: rest) argv
      = split_scan max_argc .IN_DOUBLE_QUOTE (pre ++ [34]) rest (argv ++ [pre.length + 1]) := by
  simp [split_scan, hlt, isspace]

theorem split_scan_space_sq (max_argc : Int) (pre rest argv : List Nat)
    (hlt : (argv.length : Int) < max_argc) :
    split_scan max_argc .SKIP_SPACE pre (39 :: rest) argv
      = split_scan max_argc .IN_SINGLE_QUOTE (pre ++ [39]) rest (argv ++ [pre.length + 1]) := by
  simp [split_scan, hlt, isspace]

theorem split_scan_word_end (max_argc : Int) (s : Nat) (pre rest argv : List Nat)
    (hlt : (argv.length : Int) < max_argc) (hs : isspace s = true) :
    split_scan max_argc .SKIP_NONSPACE pre (s :: rest) argv
      = split_scan max_argc .SKIP_SPACE (pre ++ [0]) rest argv := by
  simp [split_scan, hlt, hs, isspace_ne_zero hs]

theorem split_scan_dq_close (max_argc : Int) (pre rest argv : List Nat)
    (hlt : (argv.length : Int) < max_argc) :
    split_scan max_argc .IN_DOUBLE_QUOTE pre (34 :: rest) argv
      = split_scan max_argc .SKIP_SPACE (pre ++ [0]) rest argv := by
  simp [split_scan, hlt]

theorem split_scan_sq_close (max_argc : Int) (pre rest argv : List Nat)
    (hlt : (argv.length : Int) < max_argc) :
    split_scan max_argc .IN_SINGLE_QUOTE pre (39 :: rest) argv
      = split_scan max_argc .SKIP_SPACE (pre ++ [0]) rest argv := by
  simp [split_scan, hlt]

theorem split_scan_zero (max_argc : Int) (state : split_state) (pre rest argv : List Nat) :
    split_scan max_argc state pre (0 :: rest) argv = ⟨argv.length, pre ++ 0 :: rest, argv⟩ := by
  simp [split_scan]

theorem split_scan_items (max_argc : Int) :
    ∀ (items : List (Token × List Nat)) (pre argv : List Nat), Separated items →
      ((argv.length + items.length : Nat) : Int) < max_argc →
      ∃ tail ptrs,
        split_scan max_argc .SKIP_SPACE pre (lineOf items ++ [0]) argv
          = ⟨((argv.length + items.length : Nat) : Int), pre ++ tail, argv ++ ptrs⟩
        ∧ ptrs.map (fun p => cstr ((pre ++ tail).drop p)) = items.map (fun it => it.1.content) := by
  intro items
  induction items with
  | nil =>
    intro pre argv _ _
    refine ⟨[0], [], ?_, ?_⟩ <;> simp [lineOf, split_scan]
  | cons it rest ih =>
    obtain ⟨t, ws⟩ := it
    intro pre argv hsep hlt
    obtain ⟨htwf, hws, hne, hrest⟩ := hsep
    have hlt0 : (argv.length : Int) < max_argc := by
      simp only [List.length_cons] at hlt; omega
    have hlt1 : ∀ p : Nat, ((argv ++ [p]).length : Int) < max_argc := by
      intro p; simp only [List.length_cons, List.length_append, List.length_nil] at hlt ⊢; omega
    have hlt2 : ∀ p : Nat, (((argv ++ [p]).length + rest.length : Nat) : Int) < max_argc := by
      intro p; simp only [List.length_cons, List.length_append, List.length_nil] at hlt ⊢; omega
    have hcount : ∀ p : Nat, (argv ++ [p]).length + rest.length
        = argv.length + ((t, ws) :: rest).length := by
      intro p; simp only [List.length_append, List.length_cons, List.length_nil]; omega
    cases t with
    | bare w =>
      obtain ⟨hwne, hw, hq1, hq2⟩ := htwf
      cases w with
      | nil => exact absurd rfl hwne
      | cons c w =>
        obtain ⟨hc0, hcs⟩ := hw c (by simp)
        have hc34 : c ≠ 34 := by intro h; apply hq1; simp [h]
        have hc39 : c ≠ 39 := by intro h; apply hq2; simp [h]
        have hw' : ∀ d ∈ w, d ≠ 0 ∧ isspace d = false := fun d hd => hw d (by simp [hd])
        have hall : ∀ d ∈ c :: w, d ≠ 0 := fun d hd => (hw d hd).1
        have hl : lineOf ((Token.bare (c :: w), ws) :: rest) ++ [0]
            = c :: (w ++ (ws ++ (lineOf rest ++ [0]))) := by
          simp [lineOf, Token.text]
        have e1 : split_scan max_argc .SKIP_SPACE pre (lineOf ((Token.bare (c :: w), ws) :: rest) ++ [0]) argv
            = split_scan max_argc .SKIP_NONSPACE (pre ++ c :: w) (ws ++ (lineOf rest ++ [0]))
                (argv ++ [pre.length]) := by
          rw [hl, split_scan_space_bare max_argc c pre _ argv hlt0 hc0 hcs hc34 hc39,
            split_scan_word max_argc w _ _ _ hw' (hlt1 _)]
          simp
        cases ws with
        | nil =>
          have hr : rest = [] := by
            by_contra h; exact hne h rfl
          subst hr
          refine ⟨c :: w ++ [0], [pre.length], ?_, ?_⟩
          · rw [e1]
            simp [lineOf, split_scan_zero]
          · simp only [List.map_cons, List.map_nil, Token.content, drop_append_length]
            rw [cstr_append_zero _ _ hall]
        | cons s ws =>
          have hs : isspace s = true := hws s (by simp)
          have hws' : Blank ws := fun d hd => hws d (by simp [hd])
          obtain ⟨tail, ptrs, h1, h2⟩ := ih (pre ++ c :: w ++ [0] ++ ws) (argv ++ [pre.length])
            hrest (hlt2 _)
          refine ⟨c :: w ++ [0] ++ ws ++ tail, pre.length :: ptrs, ?_, ?_⟩
          · rw [e1, List.cons_append, split_scan_word_end max_argc s _ _ _ (hlt1 _) hs,
              split_scan_blank max_argc ws _ _ _ hws' (hlt1 _), h1, hcount]
            simp
          · simp only [List.map_cons, Token.content, List.cons.injEq]
            constructor
            · rw [drop_append_length]
              simp only [List.append_assoc, List.cons_append, List.singleton_append, List.nil_append]
              exact cstr_append_zero (c :: w) _ hall
            · simp only [List.append_assoc, List.cons_append, List.singleton_append, List.nil_append] at h2 ⊢
              exact h2
    | dquoted w =>
      have hall : ∀ d ∈ w, d ≠ 0 := fun d hd => (htwf d hd).1
      have hl : lineOf ((Token.dquoted w, ws) :: rest) ++ [0]
          = 34 :: (w ++ (34 :: (ws ++ (lineOf rest ++ [0])))) := by
        simp [lineOf, Token.text]
      obtain ⟨tail, ptrs, h1, h2⟩ := ih (pre ++ [34] ++ w ++ [0] ++ ws) (argv ++ [pre.length + 1])
        hrest (hlt2 _)
      refine ⟨34 :: w ++ [0] ++ ws ++ tail, (pre.length + 1) :: ptrs, ?_, ?_⟩
      · rw [hl, split_scan_space_dq max_argc pre _ argv hlt0,
          split_scan_dquote max_argc w _ _ _ htwf (hlt1 _),
          split_scan_dq_close max_argc _ _ _ (hlt1 _),
          split_scan_blank max_argc ws _ _ _ hws (hlt1 _), h1, hcount]
        simp
      · simp only [List.map_cons, Token.content, List.cons.injEq]
        constructor
        · have : pre ++ (34 :: w ++ [0] ++ ws ++ tail) = (pre ++ [34]) ++ (w ++ 0 :: (ws ++ tail)) := by
            simp
          rw [this, show pre.length + 1 = (pre ++ [34]).length by simp, drop_append_length]
          exact cstr_append_zero w _ hall
        · simp only [List.append_assoc, List.cons_append, List.singleton_append, List.nil_append] at h2 ⊢
          exact h2
    | squoted w =>
      have hall : ∀ d ∈ w, d ≠ 0 := fun d hd => (htwf d hd).1
      have hl : lineOf ((Token.squoted w, ws) :: rest) ++ [0]
          = 39 :: (w ++ (39 :: (ws ++ (lineOf rest ++ [0])))) := by
        simp [lineOf, Token.text]
      obtain ⟨tail, ptrs, h1, h2⟩ := ih (pre ++ [39] ++ w ++ [0] ++ ws) (argv ++ [pre.length + 1])
        hrest (hlt2 _)
      refine ⟨39 :: w ++ [0] ++ ws ++ tail, (pre.length + 1) :: ptrs, ?_, ?_⟩
      · rw [hl, split_scan_space_sq max_argc pre _ argv hlt0,
          split_scan_squote max_argc w _ _ _ htwf (hlt1 _),
          split_scan_sq_close max_argc _ _ _ (hlt1 _),
          split_scan_blank max_argc ws _ _ _ hws (hlt1 _), h1, hcount]
        simp
      · simp only [List.map_cons, Token.content, List.cons.injEq]
        constructor
        · have : pre ++ (39 :: w ++ [0] ++ ws ++ tail) = (pre ++ [39]) ++ (w ++ 0 :: (ws ++ tail)) := by
            simp
          rw [this, show pre.length + 1 = (pre ++ [39]).length by simp, drop_append_length]
          exact cstr_append_zero w _ hall
        · simp only [List.append_assoc, List.cons_append, List.singleton_append, List.nil_append] at h2 ⊢
          exact h2

/-- The scan never yields a negative result: inside the loop body the byte at
`index` is never NUL, so the two `return -1` cannot be reached. -/
theorem split_scan_ret_nonneg (max_argc : Int) :
    ∀ (rest : List Nat) (state : split_state) (pre argv : List Nat),
      0 ≤ (split_scan max_argc state pre rest argv).ret := by
  intro rest
  induction rest with
  | nil => intro state pre argv; simp [split_scan]
  | cons c rest ih =>
    intro state pre argv
    by_cases hc : (argv.length : Int) < max_argc ∧ c ≠ 0
    · have hc0 : ¬ (c = 0) := hc.2
      simp only [split_scan, if_pos hc]
      cases state <;> simp only [hc0, if_false] <;> split_ifs <;> exact ih _ _ _
    · simp [split_scan, if_neg hc]

/-- For every line and every limit, `split_line_to_argv` returns, and what it
returns is not negative. -/
theorem split_line_to_argv_ret_nonneg (line : List Nat) (max_argc : Int) :
    ∃ r, split_line_to_argv line max_argc = some r ∧ 0 ≤ r.ret := by
  have h := split_loop_eq_split_scan max_argc line (line.length + 1) .SKIP_SPACE [] [] (by omega)
  simp only [List.length_nil, List.nil_append] at h
  exact ⟨_, h, split_scan_ret_nonneg max_argc line _ _ _⟩

/-- C2. Tokenizer round trip: a line made of fewer than `max_argc` well-formed
tokens (bare words, double-quoted and single-quoted strings) separated by
whitespace, with optional whitespace before the first and after the last, is
split into exactly the un-quoted contents of its tokens, in order, and their
number is returned. -/
theorem split_line_to_argv_roundtrip (lead : List Nat) (items : List (Token × List Nat))
    (max_argc : Int) (hlead : Blank lead) (hsep : Separated items)
    (hcount : (items.length : Int) < max_argc) :
    ∃ r, split_line_to_argv (lead ++ lineOf items ++ [0]) max_argc = some r
      ∧ r.ret = (items.length : Int)
      ∧ argv_strings r = items.map (fun it => it.1.content) := by
  have h := split_loop_eq_split_scan max_argc (lead ++ lineOf items ++ [0])
    ((lead ++ lineOf items ++ [0]).length + 1) .SKIP_SPACE [] [] (by omega)
  simp only [List.length_nil, List.nil_append] at h
  have h0 : (([] : List Nat).length : Int) < max_argc := by
    simp only [List.length_nil]; omega
  obtain ⟨tail, ptrs, h1, h2⟩ := split_scan_items max_argc items lead [] hsep
    (by simpa using hcount)
  refine ⟨_, h, ?_, ?_⟩
  · rw [List.append_assoc, split_scan_blank max_argc lead [] _ [] hlead h0, List.nil_append, h1]
    simp
  · rw [List.append_assoc, split_scan_blank max_argc lead [] _ [] hlead h0, List.nil_append, h1]
    simpa [argv_strings] using h2

/-- C2, witness: the line `ping -c 1 "8.8.8.8"` is split into `ping`, `-c`, `1`
and `8.8.8.8`. -/
theorem split_line_to_argv_roundtrip_witness :
    ∃ r, split_line_to_argv
        [112, 105, 110, 103, 32, 45, 99, 32, 49, 32, 34, 56, 46, 56, 46, 56, 46, 56, 34, 0] 64
          = some r
      ∧ r.ret = 4
      ∧ argv_strings r = [[112, 105, 110, 103], [45, 99], [49], [56, 46, 56, 46, 56, 46, 56]] := by
  have h := split_line_to_argv_roundtrip []
    [(Token.bare [112, 105, 110, 103], [32]), (Token.bare [45, 99], [32]),
     (Token.bare [49], [32]), (Token.dquoted [56, 46, 56, 46, 56, 46, 56], [])] 64
    (by simp [Blank]) (by simp [Separated, Token.wf, Blank, isspace]) (by simp)
  simpa [lineOf, Token.text, Token.content] using h

/-- C3. The line `echo "unterminated`, whose double quote is never closed: the
call returns 2, an argument count, with `argv` holding `echo` and
`unterminated`, and not a negative error code. -/
theorem split_line_to_argv_unterminated_quote :
    (split_line_to_argv
        [101, 99, 104, 111, 32, 34, 117, 110, 116, 101, 114, 109, 105, 110, 97, 116, 101, 100, 0]
        64).map (fun r => (r.ret, argv_strings r))
      = some (2, [[101, 99, 104, 111], [117, 110, 116, 101, 114, 109, 105, 110, 97, 116, 101, 100]]) := by
  decide

/-! ## The history ring -/

theorem getD_set_eq {α : Type} (l : List α) (i : Nat) (v d : α) (h : i < l.length) :
    (l.set i v).getD i d = v := by
  simp [List.getD_eq_getElem?_getD, List.getElem?_set, h]

theorem getD_set_ne {α : Type} (l : List α) (i j : Nat) (v d : α) (h : i ≠ j) :
    (l.set i v).getD j d = l.getD j d := by
  simp [List.getD_eq_getElem?_getD, List.getElem?_set, h]

theorem cstr_take (l : List Nat) (n : Nat) (h : (cstr l).length < n) :
    cstr (l.take n) = cstr l := by
  unfold cstr at *
  induction l generalizing n with
  | nil => simp
  | cons a l ih =>
    cases n with
    | zero => simp at h
    | succ n =>
      by_cases ha : a = 0
      · simp [ha]
      · simp [ha] at h ⊢
        exact ih n (by omega)

theorem strcmp_eq_zero (a b : List Nat) : strcmp a b = 0 ↔ cstr a = cstr b := by
  unfold strcmp; split_ifs with h <;> simp [h]

/-- A line that is not a duplicate, added to a store that is not full. -/
theorem linenoiseHistoryAdd_not_full (sh : ecshell_t) (line : List Nat) (hwf : history_wf sh)
    (hlt : sh.history_used < SHELL_HISTORY_MAXNUM)
    (hnd : sh.history_used = 0 ∨ cstr (history_entry sh (sh.history_used - 1)) ≠ cstr line) :
    (linenoiseHistoryAdd sh line).1 = 1
      ∧ history_wf (linenoiseHistoryAdd sh line).2
      ∧ (linenoiseHistoryAdd sh line).2.history_head = sh.history_head
      ∧ (linenoiseHistoryAdd sh line).2.history_used = sh.history_used + 1
      ∧ (∀ k, k < sh.history_used →
          history_entry (linenoiseHistoryAdd sh line).2 k = history_entry sh k)
      ∧ history_entry (linenoiseHistoryAdd sh line).2 sh.history_used
          = line.take SHELL_LINE_MAXLEN := by
  obtain ⟨hlen, hhead, hused, htail⟩ := hwf
  simp only [SHELL_HISTORY_MAXNUM] at hlen hhead hused htail hlt
  have hidx : (if sh.history_tail = 0 then SHELL_HISTORY_MAXNUM - 1 else sh.history_tail - 1)
      = (sh.history_head + (sh.history_used - 1)) % SHELL_HISTORY_MAXNUM ∨ sh.history_used = 0 := by
    simp only [SHELL_HISTORY_MAXNUM]
    split_ifs <;> omega
  have hno : ¬ (sh.history_used > 0 ∧ strcmp (sh.cmd_history.getD
      (if sh.history_tail = 0 then SHELL_HISTORY_MAXNUM - 1 else sh.history_tail - 1) []) line = 0) := by
    rintro ⟨hpos, hz⟩
    rw [strcmp_eq_zero] at hz
    rcases hnd with h0 | hne
    · omega
    · rcases hidx with hi | h0
      · rw [hi] at hz; exact hne hz
      · omega
  have hnf : ¬ (sh.history_used ≥ SHELL_HISTORY_MAXNUM) := by
    simp only [SHELL_HISTORY_MAXNUM]; omega
  simp only [linenoiseHistoryAdd, if_neg hno, if_neg hnf, history_wf, history_entry,
    List.length_set, true_and]
  refine ⟨⟨hlen, ?_, ?_, ?_⟩, ?_, ?_⟩
  · simp only [SHELL_HISTORY_MAXNUM]; omega
  · simp only [SHELL_HISTORY_MAXNUM]; omega
  · simp only [SHELL_HISTORY_MAXNUM]; split_ifs <;> omega
  · intro k hk
    rw [getD_set_ne]
    simp only [SHELL_HISTORY_MAXNUM]; omega
  · have : (sh.history_head + sh.history_used) % SHELL_HISTORY_MAXNUM = sh.history_tail := by
      simp only [SHELL_HISTORY_MAXNUM]; omega
    rw [this, getD_set_eq]
    omega

/-- A line that is not a duplicate, added to a full store: the oldest entry
goes, the others move up one place. -/
theorem linenoiseHistoryAdd_full (sh : ecshell_t) (line : List Nat) (hwf : history_wf sh)
    (hfull : sh.history_used = SHELL_HISTORY_MAXNUM)
    (hnd : cstr (history_entry sh (sh.history_used - 1)) ≠ cstr line) :
    (linenoiseHistoryAdd sh line).1 = 1
      ∧ history_wf (linenoiseHistoryAdd sh line).2
      ∧ (linenoiseHistoryAdd sh line).2.history_head
          = (sh.history_head + 1) % SHELL_HISTORY_MAXNUM
      ∧ (linenoiseHistoryAdd sh line).2.history_used = SHELL_HISTORY_MAXNUM
      ∧ (∀ k, k + 1 < SHELL_HISTORY_MAXNUM →
          history_entry (linenoiseHistoryAdd sh line).2 k = history_entry sh (k + 1))
      ∧ history_entry (linenoiseHistoryAdd sh line).2 (SHELL_HISTORY_MAXNUM - 1)
          = line.take SHELL_LINE_MAXLEN := by
  obtain ⟨hlen, hhead, hused, htail⟩ := hwf
  simp only [SHELL_HISTORY_MAXNUM] at hlen hhead hused htail hfull
  have hidx : (if sh.history_tail = 0 then SHELL_HISTORY_MAXNUM - 1 else sh.history_tail - 1)
      = (sh.history_head + (sh.history_used - 1)) % SHELL_HISTORY_MAXNUM := by
    simp only [SHELL_HISTORY_MAXNUM]
    split_ifs <;> omega
  have hno : ¬ (sh.history_used > 0 ∧ strcmp (sh.cmd_history.getD
      (if sh.history_tail = 0 then SHELL_HISTORY_MAXNUM - 1 else sh.history_tail - 1) []) line = 0) := by
    rintro ⟨_, hz⟩
    rw [strcmp_eq_zero, hidx] at hz
    exact hnd hz
  have hf : sh.history_used ≥ SHELL_HISTORY_MAXNUM := by
    simp only [SHELL_HISTORY_MAXNUM]; omega
  have hth : sh.history_tail = sh.history_head := by omega
  simp only [linenoiseHistoryAdd, if_neg hno, if_pos hf, history_wf, history_entry,
    List.length_set, true_and]
  refine ⟨⟨hlen, ?_, ?_, ?_⟩, ?_, ?_, ?_, ?_⟩
  · simp only [SHELL_HISTORY_MAXNUM]; split_ifs <;> omega
  · simp only [SHELL_HISTORY_MAXNUM]; omega
  · simp only [SHELL_HISTORY_MAXNUM]; split_ifs <;> omega
  · simp only [SHELL_HISTORY_MAXNUM]; split_ifs <;> omega
  · simp only [SHELL_HISTORY_MAXNUM]; omega
  · intro k hk
    simp only [SHELL_HISTORY_MAXNUM] at hk
    have h1 : ((if sh.history_head = sh.history_used - 1 then 0 else sh.history_head + 1) + k)
        % SHELL_HISTORY_MAXNUM = (sh.history_head + (k + 1)) % SHELL_HISTORY_MAXNUM := by
      simp only [SHELL_HISTORY_MAXNUM]; split_ifs <;> omega
    rw [h1, getD_set_ne, getD_set_ne]
    · simp only [SHELL_HISTORY_MAXNUM]; omega
    · simp only [SHELL_HISTORY_MAXNUM]; omega
  · have h1 : ((if sh.history_head = sh.history_used - 1 then 0 else sh.history_head + 1)
        + (SHELL_HISTORY_MAXNUM - 1)) % SHELL_HISTORY_MAXNUM = sh.history_tail := by
      simp only [SHELL_HISTORY_MAXNUM]; split_ifs <;> omega
    rw [h1, getD_set_eq]
    simp only [List.length_set]; omega

/-- Adding `n` lines, none the same string as the one before it, to an empty
store, as long as they fit: the store holds them in order from `head`. -/
theorem history_add_seq_fill (line : Nat → List Nat) (sh : ecshell_t) (hwf : history_wf sh)
    (hempty : sh.history_used = 0) :
    ∀ n, n ≤ SHELL_HISTORY_MAXNUM →
      (∀ i, i < n → (cstr (line i)).length < SHELL_LINE_MAXLEN) →
      (∀ i, i + 1 < n → cstr (line i) ≠ cstr (line (i + 1))) →
      history_wf (history_add_seq line n sh)
        ∧ (history_add_seq line n sh).history_head = sh.history_head
        ∧ (history_add_seq line n sh).history_used = n
        ∧ ∀ k, k < n → history_entry (history_add_seq line n sh) k
            = (line k).take SHELL_LINE_MAXLEN := by
  intro n
  induction n with
  | zero => intro _ _ _; exact ⟨hwf, rfl, hempty, fun k hk => absurd hk (by omega)⟩
  | succ n ih =>
    intro hn hfit hne
    obtain ⟨hw, hh, hu, he⟩ := ih (by omega) (fun i hi => hfit i (by omega))
      (fun i hi => hne i (by omega))
    have hnd : (history_add_seq line n sh).history_used = 0
        ∨ cstr (history_entry (history_add_seq line n sh)
            ((history_add_seq line n sh).history_used - 1)) ≠ cstr (line n) := by
      rcases Nat.eq_zero_or_pos n with h0 | hpos
      · left; omega
      · right
        rw [hu, he (n - 1) (by omega), cstr_take _ _ (hfit _ (by omega))]
        have := hne (n - 1) (by omega)
        rwa [Nat.sub_add_cancel hpos] at this
    obtain ⟨_, hw', hh', hu', he', hl'⟩ :=
      linenoiseHistoryAdd_not_full (history_add_seq line n sh) (line n) hw (by omega) hnd
    refine ⟨hw', hh'.trans hh, hu'.trans (by rw [hu]), ?_⟩
    intro k hk
    show history_entry (linenoiseHistoryAdd (history_add_seq line n sh) (line n)).2 k = _
    by_cases hkn : k = n
    · subst hkn
      rw [hu] at hl'
      exact hl'
    · rw [he' k (by omega)]
      exact he k (by omega)

theorem history_add_seq_succ (line : Nat → List Nat) (n : Nat) (sh : ecshell_t) :
    history_add_seq line (n + 1) sh
      = (linenoiseHistoryAdd (history_add_seq line n sh) (line n)).2 := rfl

/-- C6. History capacity: after `SHELL_HISTORY_MAXNUM + 1` lines, pairwise
distinct as strings and each fitting a slot, have been added to an empty store,
`history_used` is `SHELL_HISTORY_MAXNUM`, the store is full (`tail` has come
round to `head`), the live entries counted from `head` are the second to the
last line in order, and no slot holds the string of the first line. -/
theorem linenoiseHistoryAdd_capacity (line : Nat → List Nat) (sh : ecshell_t)
    (hwf : history_wf sh) (hempty : sh.history_used = 0)
    (hfit : ∀ i, i ≤ SHELL_HISTORY_MAXNUM → (cstr (line i)).length < SHELL_LINE_MAXLEN)
    (hdist : ∀ i j, i ≤ SHELL_HISTORY_MAXNUM → j ≤ SHELL_HISTORY_MAXNUM → i ≠ j →
      cstr (line i) ≠ cstr (line j)) :
    (history_add_seq line (SHELL_HISTORY_MAXNUM + 1) sh).history_used = SHELL_HISTORY_MAXNUM
      ∧ (history_add_seq line (SHELL_HISTORY_MAXNUM + 1) sh).history_tail
          = (history_add_seq line (SHELL_HISTORY_MAXNUM + 1) sh).history_head
      ∧ (∀ k, k < SHELL_HISTORY_MAXNUM →
          history_entry (history_add_seq line (SHELL_HISTORY_MAXNUM + 1) sh) k
            = (line (k + 1)).take SHELL_LINE_MAXLEN
          ∧ cstr (history_entry (history_add_seq line (SHELL_HISTORY_MAXNUM + 1) sh) k)
            = cstr (line (k + 1)))
      ∧ ∀ j, j < SHELL_HISTORY_MAXNUM →
          cstr ((history_add_seq line (SHELL_HISTORY_MAXNUM + 1) sh).cmd_history.getD j [])
            ≠ cstr (line 0) := by
  obtain ⟨hw, hh, hu, he⟩ := history_add_seq_fill line sh hwf hempty SHELL_HISTORY_MAXNUM
    (le_refl _) (fun i hi => hfit i (by omega)) (fun i hi => hdist i (i + 1) (by omega) (by omega) (by omega))
  have hnd : cstr (history_entry (history_add_seq line SHELL_HISTORY_MAXNUM sh)
      ((history_add_seq line SHELL_HISTORY_MAXNUM sh).history_used - 1))
        ≠ cstr (line SHELL_HISTORY_MAXNUM) := by
    rw [hu, he _ (by simp [SHELL_HISTORY_MAXNUM]), cstr_take _ _ (hfit _ (by simp [SHELL_HISTORY_MAXNUM]))]
    exact hdist _ _ (by simp [SHELL_HISTORY_MAXNUM]) (le_refl _) (by simp [SHELL_HISTORY_MAXNUM])
  obtain ⟨_, hw', hh', hu', he', hl'⟩ :=
    linenoiseHistoryAdd_full (history_add_seq line SHELL_HISTORY_MAXNUM sh)
      (line SHELL_HISTORY_MAXNUM) hw hu hnd
  have hent : ∀ k, k < SHELL_HISTORY_MAXNUM →
      history_entry (history_add_seq line (SHELL_HISTORY_MAXNUM + 1) sh) k
        = (line (k + 1)).take SHELL_LINE_MAXLEN := by
    intro k hk
    rw [history_add_seq_succ]
    by_cases hk1 : k + 1 < SHELL_HISTORY_MAXNUM
    · rw [he' k hk1]; exact he (k + 1) hk1
    · have : k = SHELL_HISTORY_MAXNUM - 1 := by omega
      subst this
      rw [hl']
      simp [SHELL_HISTORY_MAXNUM]
  rw [← history_add_seq_succ] at hu' hw'
  generalize history_add_seq line (SHELL_HISTORY_MAXNUM + 1) sh = S at hu' hw' hent ⊢
  obtain ⟨hlen', hhead', hused', htail'⟩ := hw'
  have hfit' : ∀ k, k < SHELL_HISTORY_MAXNUM → (cstr (line (k + 1))).length < SHELL_LINE_MAXLEN :=
    fun k hk => hfit _ (by omega)
  refine ⟨hu', ?_, ?_, ?_⟩
  · rw [htail', hu']
    simp only [SHELL_HISTORY_MAXNUM] at hhead' ⊢
    omega
  · intro k hk
    refine ⟨hent k hk, ?_⟩
    rw [hent k hk, cstr_take _ _ (hfit' k hk)]
  · intro j hj
    have hk : (j + SHELL_HISTORY_MAXNUM - S.history_head) % SHELL_HISTORY_MAXNUM
        < SHELL_HISTORY_MAXNUM := Nat.mod_lt _ (by simp [SHELL_HISTORY_MAXNUM])
    have hidx : (S.history_head + (j + SHELL_HISTORY_MAXNUM - S.history_head)
        % SHELL_HISTORY_MAXNUM) % SHELL_HISTORY_MAXNUM = j := by
      simp only [SHELL_HISTORY_MAXNUM] at hhead' hj ⊢
      omega
    have hj' : S.cmd_history.getD j []
        = history_entry S ((j + SHELL_HISTORY_MAXNUM - S.history_head) % SHELL_HISTORY_MAXNUM) := by
      unfold history_entry
      rw [hidx]
    rw [hj', hent _ hk, cstr_take _ _ (hfit' _ hk)]
    exact hdist _ _ (by omega) (Nat.zero_le _) (by omega)

/-- C6, witness: the seventeen one-byte lines `1`, ..., `17` added to the store
of a new session. -/
theorem linenoiseHistoryAdd_capacity_witness :
    history_wf (ecshell_new_object 0 1 0) ∧ (ecshell_new_object 0 1 0).history_used = 0
      ∧ (history_add_seq (fun i => [i + 1, 0]) (SHELL_HISTORY_MAXNUM + 1)
          (ecshell_new_object 0 1 0)).history_used = SHELL_HISTORY_MAXNUM :=
  have hwf : history_wf (ecshell_new_object 0 1 0) := by
    simp [history_wf, ecshell_new_object, SHELL_HISTORY_MAXNUM]
  ⟨hwf, rfl,
    (linenoiseHistoryAdd_capacity (fun i => [i + 1, 0]) (ecshell_new_object 0 1 0) hwf rfl
      (by intro i _; simp [cstr, SHELL_LINE_MAXLEN])
      (by intro i j _ _ hij; simp [cstr]; exact hij)).1⟩

/-- C7. History dedup: when the store is not empty and the line is the same
string as the most recent entry, the slot at `(tail - 1) mod N`,
`linenoiseHistoryAdd` returns 0 and leaves the whole session as it was; and
adding any line that fits a slot a second time right after the first is such a
case, so the second add changes nothing, `history_used` included. -/
theorem linenoiseHistoryAdd_duplicate (sh : ecshell_t) (line : List Nat)
    (htail : sh.history_tail < SHELL_HISTORY_MAXNUM) :
    (0 < sh.history_used →
      cstr (sh.cmd_history.getD
        ((sh.history_tail + SHELL_HISTORY_MAXNUM - 1) % SHELL_HISTORY_MAXNUM) []) = cstr line →
      linenoiseHistoryAdd sh line = (0, sh))
    ∧ (sh.cmd_history.length = SHELL_HISTORY_MAXNUM →
      (cstr line).length < SHELL_LINE_MAXLEN →
      linenoiseHistoryAdd (linenoiseHistoryAdd sh line).2 line
        = (0, (linenoiseHistoryAdd sh line).2)) := by
  have hidx : ∀ t : Nat, t < SHELL_HISTORY_MAXNUM →
      (if t = 0 then SHELL_HISTORY_MAXNUM - 1 else t - 1)
        = (t + SHELL_HISTORY_MAXNUM - 1) % SHELL_HISTORY_MAXNUM := by
    intro t ht
    simp only [SHELL_HISTORY_MAXNUM] at ht ⊢
    split_ifs <;> omega
  have hdup : ∀ s : ecshell_t, s.history_tail < SHELL_HISTORY_MAXNUM → 0 < s.history_used →
      cstr (s.cmd_history.getD
        ((s.history_tail + SHELL_HISTORY_MAXNUM - 1) % SHELL_HISTORY_MAXNUM) []) = cstr line →
      linenoiseHistoryAdd s line = (0, s) := by
    intro s hs hu hc
    have : s.history_used > 0 ∧ strcmp (s.cmd_history.getD
        (if s.history_tail = 0 then SHELL_HISTORY_MAXNUM - 1 else s.history_tail - 1) []) line
          = 0 := by
      rw [hidx _ hs, strcmp_eq_zero]
      exact ⟨hu, hc⟩
    simp only [linenoiseHistoryAdd, if_pos this]
  refine ⟨hdup sh htail, ?_⟩
  intro hlen hfit
  by_cases hd : sh.history_used > 0 ∧ strcmp (sh.cmd_history.getD
      (if sh.history_tail = 0 then SHELL_HISTORY_MAXNUM - 1 else sh.history_tail - 1) []) line = 0
  · have e : linenoiseHistoryAdd sh line = (0, sh) := by
      simp only [linenoiseHistoryAdd, if_pos hd]
    rw [e]
    exact e
  · have e : (linenoiseHistoryAdd sh line).2.history_tail < SHELL_HISTORY_MAXNUM
        ∧ 0 < (linenoiseHistoryAdd sh line).2.history_used
        ∧ (linenoiseHistoryAdd sh line).2.cmd_history.getD
            (((linenoiseHistoryAdd sh line).2.history_tail + SHELL_HISTORY_MAXNUM - 1)
              % SHELL_HISTORY_MAXNUM) [] = line.take SHELL_LINE_MAXLEN := by
      have hcases : sh.history_tail = SHELL_HISTORY_MAXNUM - 1
          ∨ sh.history_tail ≠ SHELL_HISTORY_MAXNUM - 1 := by omega
      by_cases hf : sh.history_used ≥ SHELL_HISTORY_MAXNUM
      · rcases hcases with ht | ht
        · simp only [linenoiseHistoryAdd, if_neg hd, if_pos hf, if_pos ht]
          simp only [SHELL_HISTORY_MAXNUM] at htail hlen hf ht ⊢
          refine ⟨by omega, by omega, ?_⟩
          rw [show (0 + 16 - 1) % 16 = sh.history_tail by omega, getD_set_eq]
          simp only [List.length_set]; omega
        · simp only [linenoiseHistoryAdd, if_neg hd, if_pos hf, if_neg ht]
          simp only [SHELL_HISTORY_MAXNUM] at htail hlen hf ht ⊢
          refine ⟨by omega, by omega, ?_⟩
          rw [show (sh.history_tail + 1 + 16 - 1) % 16 = sh.history_tail by omega, getD_set_eq]
          simp only [List.length_set]; omega
      · rcases hcases with ht | ht
        · simp only [linenoiseHistoryAdd, if_neg hd, if_neg hf, if_pos ht]
          simp only [SHELL_HISTORY_MAXNUM] at htail hlen hf ht ⊢
          refine ⟨by omega, by omega, ?_⟩
          rw [show (0 + 16 - 1) % 16 = sh.history_tail by omega, getD_set_eq]
          omega
        · simp only [linenoiseHistoryAdd, if_neg hd, if_neg hf, if_neg ht]
          simp only [SHELL_HISTORY_MAXNUM] at htail hlen hf ht ⊢
          refine ⟨by omega, by omega, ?_⟩
          rw [show (sh.history_tail + 1 + 16 - 1) % 16 = sh.history_tail by omega, getD_set_eq]
          omega
    obtain ⟨e1, e2, e3⟩ := e
    exact hdup _ e1 e2 (by rw [e3, cstr_take _ _ hfit])

/-- C7, witness: `ls` added twice to the store of a new session; the first add
stores it, the second returns 0 and leaves `history_used` at 1. -/
theorem linenoiseHistoryAdd_duplicate_witness :
    (ecshell_new_object 0 1 0).history_tail < SHELL_HISTORY_MAXNUM
      ∧ (linenoiseHistoryAdd (ecshell_new_object 0 1 0) [108, 115, 0]).2.history_used = 1
      ∧ (linenoiseHistoryAdd (linenoiseHistoryAdd (ecshell_new_object 0 1 0) [108, 115, 0]).2
          [108, 115, 0]).1 = 0
      ∧ (linenoiseHistoryAdd (linenoiseHistoryAdd (ecshell_new_object 0 1 0) [108, 115, 0]).2
          [108, 115, 0]).2.history_used = 1 := by
  have h := (linenoiseHistoryAdd_duplicate (ecshell_new_object 0 1 0) [108, 115, 0]
    (by decide)).2 (by simp [ecshell_new_object]) (by simp [cstr, SHELL_LINE_MAXLEN])
  have h1 : (linenoiseHistoryAdd (ecshell_new_object 0 1 0) [108, 115, 0]).2.history_used = 1 := by
    decide
  refine ⟨by decide, h1, ?_, ?_⟩
  · rw [h]
  · rw [h]; exact h1

/-! ## Redraw leaves the edit state alone -/

@[simp] theorem refreshLine_cmd_line (sh : ecshell_t) : (refreshLine sh).cmd_line = sh.cmd_line := by
  unfold refreshLine; split <;> rfl

@[simp] theorem refreshLine_cmd_len (sh : ecshell_t) : (refreshLine sh).cmd_len = sh.cmd_len := by
  unfold refreshLine; split <;> rfl

@[simp] theorem refreshLine_cmd_cursor (sh : ecshell_t) :
    (refreshLine sh).cmd_cursor = sh.cmd_cursor := by
  unfold refreshLine; split <;> rfl

@[simp] theorem refreshLine_history_head (sh : ecshell_t) :
    (refreshLine sh).history_head = sh.history_head := by
  unfold refreshLine; split <;> rfl

@[simp] theorem refreshLine_history_tail (sh : ecshell_t) :
    (refreshLine sh).history_tail = sh.history_tail := by
  unfold refreshLine; split <;> rfl

@[simp] theorem refreshLine_history_used (sh : ecshell_t) :
    (refreshLine sh).history_used = sh.history_used := by
  unfold refreshLine; split <;> rfl

@[simp] theorem refreshLine_history_offset (sh : ecshell_t) :
    (refreshLine sh).history_offset = sh.history_offset := by
  unfold refreshLine; split <;> rfl

@[simp] theorem refreshLine_cmd_history (sh : ecshell_t) :
    (refreshLine sh).cmd_history = sh.cmd_history := by
  unfold refreshLine; split <;> rfl

@[simp] theorem refreshLine_rx (sh : ecshell_t) : (refreshLine sh).rx = sh.rx := by
  unfold refreshLine; split <;> rfl

@[simp] theorem refreshLine_multiline_mode (sh : ecshell_t) :
    (refreshLine sh).multiline_mode = sh.multiline_mode := by
  unfold refreshLine; split <;> rfl

@[simp] theorem refreshLine_shell_status (sh : ecshell_t) :
    (refreshLine sh).shell_status = sh.shell_status := by
  unfold refreshLine; split <;> rfl

@[simp] theorem refreshLine_echo_mask_mode (sh : ecshell_t) :
    (refreshLine sh).echo_mask_mode = sh.echo_mask_mode := by
  unfold refreshLine; split <;> rfl

@[simp] theorem refreshLine_lit_tail (sh : ecshell_t) : (refreshLine sh).lit_tail = sh.lit_tail := by
  unfold refreshLine; split <;> rfl

@[simp] theorem refreshLine_shell_prompt (sh : ecshell_t) :
    (refreshLine sh).shell_prompt = sh.shell_prompt := by
  unfold refreshLine; split <;> rfl

/-- Redraw keeps the edit-buffer invariant. -/
theorem edit_inv_refreshLine (sh : ecshell_t) : edit_inv (refreshLine sh) ↔ edit_inv sh := by
  simp [edit_inv]

/-! ## Buffers -/

theorem memmove_length (b : List Nat) (dst src n : Nat) (h1 : src + n ≤ b.length)
    (h2 : dst + n ≤ b.length) : (memmove b dst src n).length = b.length := by
  simp only [memmove, List.length_append, List.length_take, List.length_drop]
  omega

theorem memmove_getD_moved (b : List Nat) (dst src n i : Nat) (h1 : src + n ≤ b.length)
    (h2 : dst + n ≤ b.length) (hi1 : dst ≤ i) (hi2 : i < dst + n) :
    (memmove b dst src n).getD i 0 = b.getD (src + (i - dst)) 0 := by
  simp only [memmove, List.getD_eq_getElem?_getD]
  rw [List.getElem?_append_right (by simp only [List.length_take]; omega)]
  rw [List.getElem?_append_left (by simp only [List.length_take, List.length_drop]; omega)]
  rw [List.getElem?_take_of_lt (by simp only [List.length_take]; omega), List.getElem?_drop]
  congr 2
  simp only [List.length_take]
  omega

theorem getD_cstr_length (l : List Nat) : l.getD (cstr l).length 0 = 0 := by
  unfold cstr
  induction l with
  | nil => simp
  | cons a l ih =>
    by_cases ha : a = 0
    · simp [ha]
    · simpa [ha] using ih

theorem cstr_length_le (l : List Nat) (i : Nat) (h : l.getD i 0 = 0) : (cstr l).length ≤ i := by
  unfold cstr
  induction l generalizing i with
  | nil => simp
  | cons a l ih =>
    by_cases ha : a = 0
    · simp [ha]
    · cases i with
      | zero => simp at h; exact absurd h ha
      | succ i =>
        simp only [List.getD_cons_succ] at h
        have := ih i h
        simp [ha]
        omega

theorem cstr_length_le_length (l : List Nat) : (cstr l).length ≤ l.length := by
  unfold cstr
  induction l with
  | nil => simp
  | cons a l ih =>
    by_cases ha : a = 0
    · simp [ha]
    · simp [ha]; omega

theorem strncpy_length (src : List Nat) (n : Nat) : (strncpy src n).length = n := by
  have h1 : (cstr (src.take n)).length ≤ (src.take n).length := cstr_length_le_length _
  have h2 : (src.take n).length ≤ n := by simp [List.length_take]
  simp only [strncpy, List.length_append, List.length_replicate]
  omega

theorem skip_spaces_back_le (line : List Nat) (pos : Nat) : skip_spaces_back line pos ≤ pos := by
  induction pos with
  | zero => simp [skip_spaces_back]
  | succ p ih =>
    simp only [skip_spaces_back]
    split_ifs <;> omega

theorem skip_word_back_le (line : List Nat) (pos : Nat) : skip_word_back line pos ≤ pos := by
  induction pos with
  | zero => simp [skip_word_back]
  | succ p ih =>
    simp only [skip_word_back]
    split_ifs <;> omega

/-! ## The edit-buffer invariant -/

theorem edit_inv_write (sh : ecshell_t) (bytes : List Nat) :
    edit_inv (write sh bytes) ↔ edit_inv sh := Iff.rfl

@[simp] theorem write_cmd_line (sh : ecshell_t) (b : List Nat) :
    (write sh b).cmd_line = sh.cmd_line := rfl

@[simp] theorem write_cmd_len (sh : ecshell_t) (b : List Nat) :
    (write sh b).cmd_len = sh.cmd_len := rfl

@[simp] theorem write_cmd_cursor (sh : ecshell_t) (b : List Nat) :
    (write sh b).cmd_cursor = sh.cmd_cursor := rfl

theorem linenoiseEditInsert_cmd_line (sh : ecshell_t) (c : Nat) :
    (linenoiseEditInsert sh c).2.cmd_line
      = if sh.cmd_len < SHELL_LINE_MAXLEN - 1 then
          if sh.cmd_len = sh.cmd_cursor then (sh.cmd_line.set sh.cmd_cursor c).set (sh.cmd_len + 1) 0
          else ((memmove sh.cmd_line (sh.cmd_cursor + 1) sh.cmd_cursor
            (sh.cmd_len - sh.cmd_cursor)).set sh.cmd_cursor c).set (sh.cmd_len + 1) 0
        else sh.cmd_line := by
  unfold linenoiseEditInsert
  simp only
  split_ifs <;> simp

theorem linenoiseEditInsert_cmd_len (sh : ecshell_t) (c : Nat) :
    (linenoiseEditInsert sh c).2.cmd_len
      = if sh.cmd_len < SHELL_LINE_MAXLEN - 1 then sh.cmd_len + 1 else sh.cmd_len := by
  unfold linenoiseEditInsert
  simp only
  split_ifs <;> simp

theorem linenoiseEditInsert_cmd_cursor (sh : ecshell_t) (c : Nat) :
    (linenoiseEditInsert sh c).2.cmd_cursor
      = if sh.cmd_len < SHELL_LINE_MAXLEN - 1 then sh.cmd_cursor + 1 else sh.cmd_cursor := by
  unfold linenoiseEditInsert
  simp only
  split_ifs <;> simp

theorem edit_inv_linenoiseEditInsert (sh : ecshell_t) (c : Nat) (h : edit_inv sh) :
    edit_inv (linenoiseEditInsert sh c).2 := by
  obtain ⟨hl, hc, hn, hz⟩ := h
  unfold edit_inv
  rw [linenoiseEditInsert_cmd_line, linenoiseEditInsert_cmd_len, linenoiseEditInsert_cmd_cursor]
  simp only [SHELL_LINE_MAXLEN] at hl hn ⊢
  by_cases h1 : sh.cmd_len < 256 - 1
  · simp only [if_pos h1]
    by_cases h2 : sh.cmd_len = sh.cmd_cursor
    · simp only [if_pos h2]
      refine ⟨by simp [hl], by omega, by omega, ?_⟩
      exact getD_set_eq _ _ _ _ (by simp [hl]; omega)
    · simp only [if_neg h2]
      have hm : (memmove sh.cmd_line (sh.cmd_cursor + 1) sh.cmd_cursor
          (sh.cmd_len - sh.cmd_cursor)).length = 256 := by
        rw [memmove_length _ _ _ _ (by omega) (by omega), hl]
      refine ⟨by simp [hm], by omega, by omega, ?_⟩
      exact getD_set_eq _ _ _ _ (by simp [hm]; omega)
  · simp only [if_neg h1]
    exact ⟨hl, hc, hn, hz⟩

theorem edit_inv_linenoiseEditMoveLeft (sh : ecshell_t) (h : edit_inv sh) :
    edit_inv (linenoiseEditMoveLeft sh) := by
  obtain ⟨hl, hc, hn, hz⟩ := h
  unfold linenoiseEditMoveLeft
  split_ifs
  · rw [edit_inv_refreshLine]; exact ⟨hl, by simp; omega, hn, hz⟩
  · exact ⟨hl, hc, hn, hz⟩

theorem edit_inv_linenoiseEditMoveRight (sh : ecshell_t) (h : edit_inv sh) :
    edit_inv (linenoiseEditMoveRight sh) := by
  obtain ⟨hl, hc, hn, hz⟩ := h
  unfold linenoiseEditMoveRight
  split_ifs
  · rw [edit_inv_refreshLine]; exact ⟨hl, by simp; omega, hn, hz⟩
  · exact ⟨hl, hc, hn, hz⟩

theorem edit_inv_linenoiseEditMoveHome (sh : ecshell_t) (h : edit_inv sh) :
    edit_inv (linenoiseEditMoveHome sh) := by
  obtain ⟨hl, hc, hn, hz⟩ := h
  unfold linenoiseEditMoveHome
  split_ifs
  · rw [edit_inv_refreshLine]; exact ⟨hl, by simp, hn, hz⟩
  · exact ⟨hl, hc, hn, hz⟩

theorem edit_inv_linenoiseEditMoveEnd (sh : ecshell_t) (h : edit_inv sh) :
    edit_inv (linenoiseEditMoveEnd sh) := by
  obtain ⟨hl, hc, hn, hz⟩ := h
  unfold linenoiseEditMoveEnd
  split_ifs
  · rw [edit_inv_refreshLine]; exact ⟨hl, by simp, hn, hz⟩
  · exact ⟨hl, hc, hn, hz⟩

theorem edit_inv_linenoiseEditDelete (sh : ecshell_t) (h : edit_inv sh) :
    edit_inv (linenoiseEditDelete sh) := by
  obtain ⟨hl, hc, hn, hz⟩ := h
  simp only [SHELL_LINE_MAXLEN] at hl hn
  unfold linenoiseEditDelete
  split_ifs with h1
  · rw [edit_inv_refreshLine]
    have hm : (memmove sh.cmd_line sh.cmd_cursor (sh.cmd_cursor + 1)
        (sh.cmd_len - sh.cmd_cursor - 1)).length = 256 := by
      rw [memmove_length _ _ _ _ (by omega) (by omega), hl]
    refine ⟨by simp [hm, SHELL_LINE_MAXLEN], by simp; omega, by simp [SHELL_LINE_MAXLEN]; omega, ?_⟩
    exact getD_set_eq _ _ _ _ (by simp [hm]; omega)
  · exact ⟨by simp [hl, SHELL_LINE_MAXLEN], hc, by simp [SHELL_LINE_MAXLEN]; omega, hz⟩

theorem edit_inv_linenoiseEditBackspace (sh : ecshell_t) (h : edit_inv sh) :
    edit_inv (linenoiseEditBackspace sh) := by
  obtain ⟨hl, hc, hn, hz⟩ := h
  simp only [SHELL_LINE_MAXLEN] at hl hn
  unfold linenoiseEditBackspace
  split_ifs with h1
  · rw [edit_inv_refreshLine]
    have hm : (memmove sh.cmd_line (sh.cmd_cursor - 1) sh.cmd_cursor
        (sh.cmd_len - sh.cmd_cursor)).length = 256 := by
      rw [memmove_length _ _ _ _ (by omega) (by omega), hl]
    refine ⟨by simp [hm, SHELL_LINE_MAXLEN], by simp; omega, by simp [SHELL_LINE_MAXLEN]; omega, ?_⟩
    exact getD_set_eq _ _ _ _ (by simp [hm]; omega)
  · exact ⟨by simp [hl, SHELL_LINE_MAXLEN], hc, by simp [SHELL_LINE_MAXLEN]; omega, hz⟩

theorem edit_inv_linenoiseEditDeletePrevWord (sh : ecshell_t) (h : edit_inv sh) :
    edit_inv (linenoiseEditDeletePrevWord sh) := by
  obtain ⟨hl, hc, hn, hz⟩ := h
  simp only [SHELL_LINE_MAXLEN] at hl hn
  unfold linenoiseEditDeletePrevWord
  rw [edit_inv_refreshLine]
  have hp : skip_word_back sh.cmd_line (skip_spaces_back sh.cmd_line sh.cmd_cursor)
      ≤ sh.cmd_cursor :=
    le_trans (skip_word_back_le _ _) (skip_spaces_back_le _ _)
  generalize skip_word_back sh.cmd_line (skip_spaces_back sh.cmd_line sh.cmd_cursor) = p at hp
  have hm : (memmove sh.cmd_line p sh.cmd_cursor (sh.cmd_len - sh.cmd_cursor + 1)).length = 256 := by
    rw [memmove_length _ _ _ _ (by omega) (by omega), hl]
  refine ⟨by simp [hm, SHELL_LINE_MAXLEN], by simp; omega, by simp [SHELL_LINE_MAXLEN]; omega, ?_⟩
  simp only
  rw [memmove_getD_moved _ _ _ _ _ (by omega) (by omega) (by omega) (by omega)]
  rw [show sh.cmd_cursor + (sh.cmd_len - (sh.cmd_cursor - p) - p) = sh.cmd_len by omega]
  exact hz

theorem edit_inv_linenoiseEdit_ctrl_u (sh : ecshell_t) (h : edit_inv sh) :
    edit_inv (linenoiseEdit_ctrl_u sh) := by
  obtain ⟨hl, hc, hn, hz⟩ := h
  simp only [SHELL_LINE_MAXLEN] at hl hn
  unfold linenoiseEdit_ctrl_u
  rw [edit_inv_refreshLine]
  refine ⟨by simp [hl, SHELL_LINE_MAXLEN], by simp, by simp [SHELL_LINE_MAXLEN], ?_⟩
  exact getD_set_eq _ _ _ _ (by omega)

theorem edit_inv_linenoiseEdit_ctrl_k (sh : ecshell_t) (h : edit_inv sh) :
    edit_inv (linenoiseEdit_ctrl_k sh) := by
  obtain ⟨hl, hc, hn, hz⟩ := h
  simp only [SHELL_LINE_MAXLEN] at hl hn
  unfold linenoiseEdit_ctrl_k
  rw [edit_inv_refreshLine]
  refine ⟨by simp [hl, SHELL_LINE_MAXLEN], by simp, by simp [SHELL_LINE_MAXLEN]; omega, ?_⟩
  exact getD_set_eq _ _ _ _ (by omega)

theorem edit_inv_linenoiseEdit_ctrl_t (sh : ecshell_t) (h : edit_inv sh) :
    edit_inv (linenoiseEdit_ctrl_t sh) := by
  obtain ⟨hl, hc, hn, hz⟩ := h
  simp only [SHELL_LINE_MAXLEN] at hl hn
  unfold linenoiseEdit_ctrl_t
  simp only
  by_cases h1 : sh.cmd_cursor > 0 ∧ sh.cmd_cursor < sh.cmd_len
  · rw [if_pos h1, edit_inv_refreshLine]
    refine ⟨by simp [hl, SHELL_LINE_MAXLEN], ?_, by simp [SHELL_LINE_MAXLEN]; omega, ?_⟩
    · show (if sh.cmd_cursor ≠ sh.cmd_len - 1 then sh.cmd_cursor + 1 else sh.cmd_cursor)
        ≤ sh.cmd_len
      split_ifs <;> omega
    · show ((sh.cmd_line.set (sh.cmd_cursor - 1) (sh.cmd_line.getD sh.cmd_cursor 0)).set
        sh.cmd_cursor (sh.cmd_line.getD (sh.cmd_cursor - 1) 0)).getD sh.cmd_len 0 = 0
      rw [getD_set_ne _ _ _ _ _ (by omega), getD_set_ne _ _ _ _ _ (by omega)]
      exact hz
  · rw [if_neg h1]
    exact ⟨by simp [hl, SHELL_LINE_MAXLEN], hc, by simp [SHELL_LINE_MAXLEN]; omega, hz⟩

/-- A line loaded from a history slot satisfies the invariant. -/
theorem edit_inv_of_loaded (s : ecshell_t) (slot : List Nat)
    (h1 : s.cmd_line = (strncpy slot SHELL_LINE_MAXLEN).set (SHELL_LINE_MAXLEN - 1) 0)
    (h2 : s.cmd_len = strlen s.cmd_line) (h3 : s.cmd_cursor = strlen s.cmd_line) :
    edit_inv s := by
  have hlen : s.cmd_line.length = SHELL_LINE_MAXLEN := by
    rw [h1, List.length_set, strncpy_length]
  have hz : s.cmd_line.getD (SHELL_LINE_MAXLEN - 1) 0 = 0 := by
    rw [h1]
    exact getD_set_eq _ _ _ _ (by rw [strncpy_length]; simp [SHELL_LINE_MAXLEN])
  have hle := cstr_length_le _ _ hz
  refine ⟨hlen, by rw [h2, h3], ?_, ?_⟩
  · rw [h2]
    unfold strlen
    simp only [SHELL_LINE_MAXLEN] at hle ⊢
    omega
  · rw [h2]
    exact getD_cstr_length _

theorem edit_inv_linenoiseEditHistoryNext (sh : ecshell_t) (dir : Nat) (h : edit_inv sh) :
    edit_inv (linenoiseEditHistoryNext sh dir) := by
  obtain ⟨hl, hc, hn, hz⟩ := h
  unfold linenoiseEditHistoryNext
  simp only
  split_ifs
  · exact ⟨hl, hc, hn, hz⟩
  · rw [edit_inv_refreshLine]; exact edit_inv_of_loaded _ _ rfl rfl rfl
  · exact ⟨hl, hc, hn, hz⟩
  · rw [edit_inv_refreshLine]; exact edit_inv_of_loaded _ _ rfl rfl rfl
  · exact ⟨hl, hc, hn, hz⟩

/-- Every editor operation keeps the edit-buffer invariant. -/
theorem edit_inv_apply (op : edit_op) (sh : ecshell_t) (h : edit_inv sh) :
    edit_inv (op.apply sh) := by
  cases op with
  | insert c => exact edit_inv_linenoiseEditInsert sh c h
  | backspace => exact edit_inv_linenoiseEditBackspace sh h
  | delete => exact edit_inv_linenoiseEditDelete sh h
  | delete_prev_word => exact edit_inv_linenoiseEditDeletePrevWord sh h
  | kill_to_end => exact edit_inv_linenoiseEdit_ctrl_k sh h
  | kill_line => exact edit_inv_linenoiseEdit_ctrl_u sh h
  | transpose => exact edit_inv_linenoiseEdit_ctrl_t sh h
  | move_left => exact edit_inv_linenoiseEditMoveLeft sh h
  | move_right => exact edit_inv_linenoiseEditMoveRight sh h
  | move_home => exact edit_inv_linenoiseEditMoveHome sh h
  | move_end => exact edit_inv_linenoiseEditMoveEnd sh h
  | history_prev => exact edit_inv_linenoiseEditHistoryNext sh _ h
  | history_next => exact edit_inv_linenoiseEditHistoryNext sh _ h

theorem edit_inv_congr (s t : ecshell_t) (h1 : t.cmd_line = s.cmd_line)
    (h2 : t.cmd_len = s.cmd_len) (h3 : t.cmd_cursor = s.cmd_cursor) (h : edit_inv s) :
    edit_inv t := by
  unfold edit_inv at *
  rw [h1, h2, h3]
  exact h

@[simp] theorem linenoiseHistoryAdd_cmd_line (sh : ecshell_t) (line : List Nat) :
    (linenoiseHistoryAdd sh line).2.cmd_line = sh.cmd_line := by
  unfold linenoiseHistoryAdd
  simp only
  split_ifs <;> rfl

@[simp] theorem linenoiseHistoryAdd_cmd_len (sh : ecshell_t) (line : List Nat) :
    (linenoiseHistoryAdd sh line).2.cmd_len = sh.cmd_len := by
  unfold linenoiseHistoryAdd
  simp only
  split_ifs <;> rfl

@[simp] theorem linenoiseHistoryAdd_cmd_cursor (sh : ecshell_t) (line : List Nat) :
    (linenoiseHistoryAdd sh line).2.cmd_cursor = sh.cmd_cursor := by
  unfold linenoiseHistoryAdd
  simp only
  split_ifs <;> rfl

/-- The state `linenoiseEdit` sets up satisfies the invariant. -/
theorem edit_inv_linenoiseEdit_setup (sh : ecshell_t)
    (hl : sh.cmd_line.length = SHELL_LINE_MAXLEN) : edit_inv (linenoiseEdit_setup sh) := by
  unfold linenoiseEdit_setup edit_inv
  simp only [linenoiseHistoryAdd_cmd_line, linenoiseHistoryAdd_cmd_len,
    linenoiseHistoryAdd_cmd_cursor, List.length_set]
  refine ⟨hl, le_refl _, by simp [SHELL_LINE_MAXLEN], ?_⟩
  exact getD_set_eq _ _ _ _ (by rw [hl]; simp [SHELL_LINE_MAXLEN])

theorem edit_inv_edit_ops (ops : List edit_op) :
    ∀ sh : ecshell_t, edit_inv sh → edit_inv (edit_ops ops sh) := by
  induction ops with
  | nil => intro sh h; exact h
  | cons op ops ih =>
    intro sh h
    exact ih _ (edit_inv_apply op sh h)

/-- C4. Edit-buffer invariant: from the state `linenoiseEdit` sets up, after
every sequence of editor operations (insert, backspace, delete, Ctrl-W, Ctrl-K,
Ctrl-U, Ctrl-T, cursor moves, history navigation), `cmd_cursor <= cmd_len`,
`cmd_len < SHELL_LINE_MAXLEN`, `cmd_line[cmd_len] == 0`, and `cmd_line` still
has its `SHELL_LINE_MAXLEN` bytes. -/
theorem edit_buffer_invariant (sh0 : ecshell_t) (ops : List edit_op)
    (hl : sh0.cmd_line.length = SHELL_LINE_MAXLEN) :
    (edit_ops ops (linenoiseEdit_setup sh0)).cmd_cursor
        ≤ (edit_ops ops (linenoiseEdit_setup sh0)).cmd_len
      ∧ (edit_ops ops (linenoiseEdit_setup sh0)).cmd_len < SHELL_LINE_MAXLEN
      ∧ (edit_ops ops (linenoiseEdit_setup sh0)).cmd_line.getD
          (edit_ops ops (linenoiseEdit_setup sh0)).cmd_len 0 = 0
      ∧ (edit_ops ops (linenoiseEdit_setup sh0)).cmd_line.length = SHELL_LINE_MAXLEN := by
  obtain ⟨h1, h2, h3, h4⟩ := edit_inv_edit_ops ops _ (edit_inv_linenoiseEdit_setup sh0 hl)
  exact ⟨h2, h3, h4, h1⟩

/-- C4, witness: a new session, then `a`, `b`, space, `c` typed, cursor left,
Ctrl-T, Ctrl-W, history older, Ctrl-K. -/
theorem edit_buffer_invariant_witness :
    (ecshell_new_object 0 1 0).cmd_line.length = SHELL_LINE_MAXLEN
      ∧ (edit_ops [.insert 97, .insert 98, .insert 32, .insert 99, .move_left, .transpose,
            .delete_prev_word, .history_prev, .kill_to_end]
          (linenoiseEdit_setup (ecshell_new_object 0 1 0))).cmd_len < SHELL_LINE_MAXLEN :=
  ⟨by simp [ecshell_new_object],
    (edit_buffer_invariant (ecshell_new_object 0 1 0)
      [.insert 97, .insert 98, .insert 32, .insert 99, .move_left, .transpose,
        .delete_prev_word, .history_prev, .kill_to_end] (by simp [ecshell_new_object])).2.1⟩

/-! ### The invariant along the edit loop -/

theorem read_edit_fields (sh : ecshell_t) :
    (read sh).2.cmd_line = sh.cmd_line ∧ (read sh).2.cmd_len = sh.cmd_len
      ∧ (read sh).2.cmd_cursor = sh.cmd_cursor := by
  unfold read
  split <;> exact ⟨rfl, rfl, rfl⟩

theorem edit_inv_read (sh : ecshell_t) (h : edit_inv sh) : edit_inv (read sh).2 :=
  edit_inv_congr sh _ (read_edit_fields sh).1 (read_edit_fields sh).2.1 (read_edit_fields sh).2.2 h

theorem edit_inv_read_seq0 (sh : ecshell_t) (h : edit_inv sh) : edit_inv (read_seq0 sh) := by
  have := edit_inv_read sh h
  unfold read_seq0
  split
  · next c s1 he => rw [he] at this; exact edit_inv_congr s1 _ rfl rfl rfl this
  · next s1 he => rw [he] at this; exact this

theorem edit_inv_read_seq1 (sh : ecshell_t) (h : edit_inv sh) : edit_inv (read_seq1 sh) := by
  have := edit_inv_read sh h
  unfold read_seq1
  split
  · next c s1 he => rw [he] at this; exact edit_inv_congr s1 _ rfl rfl rfl this
  · next s1 he => rw [he] at this; exact this

theorem edit_inv_read_seq2 (sh : ecshell_t) (h : edit_inv sh) : edit_inv (read_seq2 sh) := by
  have := edit_inv_read sh h
  unfold read_seq2
  split
  · next c s1 he => rw [he] at this; exact edit_inv_congr s1 _ rfl rfl rfl this
  · next s1 he => rw [he] at this; exact this

theorem edit_inv_linenoiseEdit_escape (sh : ecshell_t) (h : edit_inv sh) :
    edit_inv (linenoiseEdit_escape sh) := by
  have h1 := edit_inv_read_seq1 _ (edit_inv_read_seq0 sh h)
  have h2 := edit_inv_read_seq2 _ h1
  unfold linenoiseEdit_escape
  simp only
  split_ifs
  all_goals first
    | exact h1
    | exact h2
    | exact edit_inv_linenoiseEditDelete _ h2
    | exact edit_inv_linenoiseEditHistoryNext _ _ h1
    | exact edit_inv_linenoiseEditMoveRight _ h1
    | exact edit_inv_linenoiseEditMoveLeft _ h1
    | exact edit_inv_linenoiseEditMoveHome _ h1
    | exact edit_inv_linenoiseEditMoveEnd _ h1

theorem edit_inv_history_pop (sh : ecshell_t) (h : edit_inv sh) : edit_inv (history_pop sh) :=
  edit_inv_congr sh _ rfl rfl rfl h

theorem edit_inv_linenoiseEdit_enter (sh : ecshell_t) (h : edit_inv sh) :
    edit_inv (linenoiseEdit_enter sh) := by
  have h1 : edit_inv (if sh.history_used > 0 then history_pop sh else sh) := by
    split_ifs
    · exact edit_inv_history_pop _ h
    · exact h
  show edit_inv (if (if sh.history_used > 0 then history_pop sh else sh).multiline_mode
    then linenoiseEditMoveEnd (if sh.history_used > 0 then history_pop sh else sh)
    else (if sh.history_used > 0 then history_pop sh else sh))
  generalize (if sh.history_used > 0 then history_pop sh else sh) = s1 at h1 ⊢
  split_ifs
  · exact edit_inv_linenoiseEditMoveEnd _ h1
  · exact h1

/-- Every case of the key `switch` keeps the edit-buffer invariant. -/
theorem edit_inv_linenoiseEdit_key (c : Nat) (sh : ecshell_t) (h : edit_inv sh) :
    edit_inv (linenoiseEdit_key c sh).2 := by
  unfold linenoiseEdit_key
  by_cases h0 : c = 13
  · rw [if_pos h0]; exact edit_inv_linenoiseEdit_enter _ h
  rw [if_neg h0]
  by_cases h1 : c = 3
  · rw [if_pos h1]; exact h
  rw [if_neg h1]
  by_cases h2 : c = 127 ∨ c = 8
  · rw [if_pos h2]; exact edit_inv_linenoiseEditBackspace _ h
  rw [if_neg h2]
  by_cases h3 : c = 4
  · rw [if_pos h3]
    by_cases hlen : sh.cmd_len > 0
    · rw [if_pos hlen]; exact edit_inv_linenoiseEditDelete _ h
    · rw [if_neg hlen]; exact edit_inv_history_pop _ h
  rw [if_neg h3]
  by_cases h4 : c = 20
  · rw [if_pos h4]; exact edit_inv_linenoiseEdit_ctrl_t _ h
  rw [if_neg h4]
  by_cases h5 : c = 2
  · rw [if_pos h5]; exact edit_inv_linenoiseEditMoveLeft _ h
  rw [if_neg h5]
  by_cases h6 : c = 6
  · rw [if_pos h6]; exact edit_inv_linenoiseEditMoveRight _ h
  rw [if_neg h6]
  by_cases h7 : c = 16
  · rw [if_pos h7]; exact edit_inv_linenoiseEditHistoryNext _ _ h
  rw [if_neg h7]
  by_cases h8 : c = 14
  · rw [if_pos h8]; exact edit_inv_linenoiseEditHistoryNext _ _ h
  rw [if_neg h8]
  by_cases h9 : c = 27
  · rw [if_pos h9]; exact edit_inv_linenoiseEdit_escape _ h
  rw [if_neg h9]
  by_cases h10 : c = 21
  · rw [if_pos h10]; exact edit_inv_linenoiseEdit_ctrl_u _ h
  rw [if_neg h10]
  by_cases h11 : c = 11
  · rw [if_pos h11]; exact edit_inv_linenoiseEdit_ctrl_k _ h
  rw [if_neg h11]
  by_cases h12 : c = 1
  · rw [if_pos h12]; exact edit_inv_linenoiseEditMoveHome _ h
  rw [if_neg h12]
  by_cases h13 : c = 5
  · rw [if_pos h13]; exact edit_inv_linenoiseEditMoveEnd _ h
  rw [if_neg h13]
  by_cases h14 : c = 12
  · rw [if_pos h14]; exact (edit_inv_refreshLine _).2 ((edit_inv_write _ _).2 h)
  rw [if_neg h14]
  by_cases h15 : c = 23
  · rw [if_pos h15]; exact edit_inv_linenoiseEditDeletePrevWord _ h
  rw [if_neg h15]
  by_cases hr : (linenoiseEditInsert sh c).1 ≠ 0
  · rw [if_pos hr]; exact edit_inv_linenoiseEditInsert _ _ h
  · rw [if_neg hr]; exact edit_inv_linenoiseEditInsert _ _ h

/-- Whatever bytes arrive, the state in which the edit loop returns satisfies
the edit-buffer invariant. -/
theorem edit_inv_linenoiseEdit_loop :
    ∀ (fuel : Nat) (sh : ecshell_t) (r : Int) (sh' : ecshell_t), edit_inv sh →
      linenoiseEdit_loop fuel sh = some (r, sh') → edit_inv sh' := by
  intro fuel
  induction fuel with
  | zero => intro sh r sh' _ h; simp [linenoiseEdit_loop] at h
  | succ fuel ih =>
    intro sh r sh' hinv h
    have hr := edit_inv_read sh hinv
    unfold linenoiseEdit_loop at h
    split at h
    · next s1 he =>
      rw [he] at hr
      simp only [Option.some.injEq, Prod.mk.injEq] at h
      rw [← h.2]; exact hr
    · next c s1 he =>
      rw [he] at hr
      split_ifs at h
      · exact ih _ _ _ hr h
      · have hk := edit_inv_linenoiseEdit_key c s1 hr
        split at h
        · next r2 s2 hk2 =>
          rw [hk2] at hk
          simp only [Option.some.injEq, Prod.mk.injEq] at h
          rw [← h.2]; exact hk
        · next s2 hk2 =>
          rw [hk2] at hk
          exact ih _ _ _ hk h

/-! ## History navigation -/

theorem cstr_set_zero (l : List Nat) :
    ∀ i, (cstr l).length ≤ i → cstr (l.set i 0) = cstr l := by
  unfold cstr
  induction l with
  | nil => intro i _; simp
  | cons a l ih =>
    intro i hi
    by_cases ha : a = 0
    · cases i <;> simp [ha]
    · cases i with
      | zero => simp [ha] at hi
      | succ k =>
        simp only [ha, List.set_cons_succ, List.takeWhile_cons, bne_iff_ne, ne_eq,
          not_false_eq_true, decide_True, if_true, List.cons.injEq, true_and]
        apply ih
        simp [ha] at hi
        omega

/-- The string of a line loaded from a slot is the string of the slot, when
that string fits a line. -/
theorem cstr_loaded (slot : List Nat) (h : (cstr slot).length < SHELL_LINE_MAXLEN) :
    cstr ((strncpy slot SHELL_LINE_MAXLEN).set (SHELL_LINE_MAXLEN - 1) 0) = cstr slot := by
  have h1 : cstr (slot.take SHELL_LINE_MAXLEN) = cstr slot := cstr_take _ _ h
  have h2 : cstr (strncpy slot SHELL_LINE_MAXLEN) = cstr slot := by
    unfold strncpy
    simp only [h1]
    obtain ⟨k, hk⟩ : ∃ k, SHELL_LINE_MAXLEN - (cstr slot).length = k + 1 :=
      ⟨SHELL_LINE_MAXLEN - (cstr slot).length - 1, by omega⟩
    rw [hk, List.replicate_succ]
    apply cstr_append_zero
    intro c hc
    unfold cstr at hc
    have := List.mem_takeWhile_imp hc
    simpa using this
  rw [cstr_set_zero _ _ (by rw [h2]; omega), h2]

/-- Going older when there is an older entry. -/
theorem linenoiseEditHistoryNext_prev_move (sh : ecshell_t) (hu : sh.history_used > 0)
    (ho : sh.history_offset + 1 < sh.history_used) :
    linenoiseEditHistoryNext sh LINENOISE_HISTORY_PREV
      = refreshLine { sh with
          cmd_history := sh.cmd_history.set (history_index sh) (sh.cmd_line.take SHELL_LINE_MAXLEN)
          history_offset := sh.history_offset + 1
          cmd_line := (strncpy ((sh.cmd_history.set (history_index sh)
              (sh.cmd_line.take SHELL_LINE_MAXLEN)).getD
                (history_index { sh with history_offset := sh.history_offset + 1 }) [])
              SHELL_LINE_MAXLEN).set (SHELL_LINE_MAXLEN - 1) 0
          cmd_len := strlen ((strncpy ((sh.cmd_history.set (history_index sh)
              (sh.cmd_line.take SHELL_LINE_MAXLEN)).getD
                (history_index { sh with history_offset := sh.history_offset + 1 }) [])
              SHELL_LINE_MAXLEN).set (SHELL_LINE_MAXLEN - 1) 0)
          cmd_cursor := strlen ((strncpy ((sh.cmd_history.set (history_index sh)
              (sh.cmd_line.take SHELL_LINE_MAXLEN)).getD
                (history_index { sh with history_offset := sh.history_offset + 1 }) [])
              SHELL_LINE_MAXLEN).set (SHELL_LINE_MAXLEN - 1) 0) } := by
  have h1 : ¬ (sh.history_offset + 1 ≥ sh.history_used) := by omega
  unfold linenoiseEditHistoryNext
  simp only [if_pos hu, if_true, if_neg h1]
  rfl

/-- Going older at the oldest entry. -/
theorem linenoiseEditHistoryNext_prev_stay (sh : ecshell_t) (hu : sh.history_used > 0)
    (ho : sh.history_offset + 1 ≥ sh.history_used) :
    linenoiseEditHistoryNext sh LINENOISE_HISTORY_PREV
      = { sh with
          cmd_history := sh.cmd_history.set (history_index sh) (sh.cmd_line.take SHELL_LINE_MAXLEN)
          history_offset := sh.history_used - 1 } := by
  unfold linenoiseEditHistoryNext
  simp only [if_pos hu, if_true, if_pos ho]

/-- Going newer at offset 0. -/
theorem linenoiseEditHistoryNext_next_stay (sh : ecshell_t) (hu : sh.history_used > 0)
    (ho : sh.history_offset = 0) :
    linenoiseEditHistoryNext sh LINENOISE_HISTORY_NEXT
      = { sh with
          cmd_history := sh.cmd_history.set (history_index sh)
            (sh.cmd_line.take SHELL_LINE_MAXLEN) } := by
  have h1 : ¬ (LINENOISE_HISTORY_NEXT = LINENOISE_HISTORY_PREV) := by decide
  unfold linenoiseEditHistoryNext
  simp only [if_pos hu, if_neg h1, if_pos ho]

/-- Going newer from an older entry. -/
theorem linenoiseEditHistoryNext_next_move (sh : ecshell_t) (hu : sh.history_used > 0)
    (ho : sh.history_offset ≠ 0) :
    linenoiseEditHistoryNext sh LINENOISE_HISTORY_NEXT
      = refreshLine { sh with
          cmd_history := sh.cmd_history.set (history_index sh) (sh.cmd_line.take SHELL_LINE_MAXLEN)
          history_offset := sh.history_offset - 1
          cmd_line := (strncpy ((sh.cmd_history.set (history_index sh)
              (sh.cmd_line.take SHELL_LINE_MAXLEN)).getD
                (history_index { sh with history_offset := sh.history_offset - 1 }) [])
              SHELL_LINE_MAXLEN).set (SHELL_LINE_MAXLEN - 1) 0
          cmd_len := strlen ((strncpy ((sh.cmd_history.set (history_index sh)
              (sh.cmd_line.take SHELL_LINE_MAXLEN)).getD
                (history_index { sh with history_offset := sh.history_offset - 1 }) [])
              SHELL_LINE_MAXLEN).set (SHELL_LINE_MAXLEN - 1) 0)
          cmd_cursor := strlen ((strncpy ((sh.cmd_history.set (history_index sh)
              (sh.cmd_line.take SHELL_LINE_MAXLEN)).getD
                (history_index { sh with history_offset := sh.history_offset - 1 }) [])
              SHELL_LINE_MAXLEN).set (SHELL_LINE_MAXLEN - 1) 0) } := by
  have h1 : ¬ (LINENOISE_HISTORY_NEXT = LINENOISE_HISTORY_PREV) := by decide
  unfold linenoiseEditHistoryNext
  simp only [if_pos hu, if_neg h1, if_neg ho]
  rfl

theorem history_index_lt (s : ecshell_t) (ht : s.history_tail < SHELL_HISTORY_MAXNUM) :
    history_index s < SHELL_HISTORY_MAXNUM := by
  unfold history_index
  simp only [SHELL_HISTORY_MAXNUM] at ht ⊢
  split_ifs <;> omega

@[simp] theorem write_rx (sh : ecshell_t) (b : List Nat) : (write sh b).rx = sh.rx := rfl

theorem linenoiseEditInsert_rx (sh : ecshell_t) (c : Nat) :
    (linenoiseEditInsert sh c).2.rx = sh.rx := by
  unfold linenoiseEditInsert
  simp only
  split_ifs <;> simp

theorem linenoiseEditMoveLeft_rx (sh : ecshell_t) : (linenoiseEditMoveLeft sh).rx = sh.rx := by
  unfold linenoiseEditMoveLeft; split_ifs <;> simp

theorem linenoiseEditMoveRight_rx (sh : ecshell_t) : (linenoiseEditMoveRight sh).rx = sh.rx := by
  unfold linenoiseEditMoveRight; split_ifs <;> simp

theorem linenoiseEditMoveHome_rx (sh : ecshell_t) : (linenoiseEditMoveHome sh).rx = sh.rx := by
  unfold linenoiseEditMoveHome; split_ifs <;> simp

theorem linenoiseEditMoveEnd_rx (sh : ecshell_t) : (linenoiseEditMoveEnd sh).rx = sh.rx := by
  unfold linenoiseEditMoveEnd; split_ifs <;> simp

theorem linenoiseEditDelete_rx (sh : ecshell_t) : (linenoiseEditDelete sh).rx = sh.rx := by
  unfold linenoiseEditDelete; simp only; split_ifs <;> simp

theorem linenoiseEditBackspace_rx (sh : ecshell_t) : (linenoiseEditBackspace sh).rx = sh.rx := by
  unfold linenoiseEditBackspace; simp only; split_ifs <;> simp

theorem linenoiseEditDeletePrevWord_rx (sh : ecshell_t) :
    (linenoiseEditDeletePrevWord sh).rx = sh.rx := by
  unfold linenoiseEditDeletePrevWord; simp

theorem linenoiseEdit_ctrl_u_rx (sh : ecshell_t) : (linenoiseEdit_ctrl_u sh).rx = sh.rx := by
  unfold linenoiseEdit_ctrl_u; simp

theorem linenoiseEdit_ctrl_k_rx (sh : ecshell_t) : (linenoiseEdit_ctrl_k sh).rx = sh.rx := by
  unfold linenoiseEdit_ctrl_k; simp

theorem linenoiseEdit_ctrl_t_rx (sh : ecshell_t) : (linenoiseEdit_ctrl_t sh).rx = sh.rx := by
  unfold linenoiseEdit_ctrl_t; simp only; split_ifs <;> simp

theorem linenoiseEditHistoryNext_rx (sh : ecshell_t) (dir : Nat) :
    (linenoiseEditHistoryNext sh dir).rx = sh.rx := by
  unfold linenoiseEditHistoryNext; simp only; split_ifs <;> simp

theorem linenoiseEdit_enter_rx (sh : ecshell_t) : (linenoiseEdit_enter sh).rx = sh.rx := by
  unfold linenoiseEdit_enter history_pop
  simp only
  split_ifs <;> simp [linenoiseEditMoveEnd_rx]

theorem read_rx_le (sh : ecshell_t) : (read sh).2.rx.length ≤ sh.rx.length := by
  unfold read
  split
  · exact le_refl _
  · next c rest h => simp [h]

theorem read_seq0_rx_le (sh : ecshell_t) : (read_seq0 sh).rx.length ≤ sh.rx.length := by
  have := read_rx_le sh
  unfold read_seq0
  split
  · next c s1 h => rw [h] at this; exact this
  · next s1 h => rw [h] at this; exact this

theorem read_seq1_rx_le (sh : ecshell_t) : (read_seq1 sh).rx.length ≤ sh.rx.length := by
  have := read_rx_le sh
  unfold read_seq1
  split
  · next c s1 h => rw [h] at this; exact this
  · next s1 h => rw [h] at this; exact this

theorem read_seq2_rx_le (sh : ecshell_t) : (read_seq2 sh).rx.length ≤ sh.rx.length := by
  have := read_rx_le sh
  unfold read_seq2
  split
  · next c s1 h => rw [h] at this; exact this
  · next s1 h => rw [h] at this; exact this

theorem linenoiseEdit_escape_rx_le (sh : ecshell_t) :
    (linenoiseEdit_escape sh).rx.length ≤ sh.rx.length := by
  have h1 : (read_seq1 (read_seq0 sh)).rx.length ≤ sh.rx.length :=
    le_trans (read_seq1_rx_le _) (read_seq0_rx_le sh)
  have h2 : (read_seq2 (read_seq1 (read_seq0 sh))).rx.length ≤ sh.rx.length :=
    le_trans (read_seq2_rx_le _) h1
  unfold linenoiseEdit_escape
  simp only
  split_ifs
  all_goals first
    | exact h1
    | exact h2
    | (rw [linenoiseEditDelete_rx]; exact h2)
    | (rw [linenoiseEditHistoryNext_rx]; exact h1)
    | (rw [linenoiseEditMoveRight_rx]; exact h1)
    | (rw [linenoiseEditMoveLeft_rx]; exact h1)
    | (rw [linenoiseEditMoveHome_rx]; exact h1)
    | (rw [linenoiseEditMoveEnd_rx]; exact h1)

/-! ## Fields the editor leaves alone -/

theorem edit_frame_mk (s t : ecshell_t) (h1 : t.stdin_fd = s.stdin_fd)
    (h2 : t.stdout_fd = s.stdout_fd) (h3 : t.shell_cols = s.shell_cols)
    (h4 : t.echo_mode = s.echo_mode) (h5 : t.multiline_mode = s.multiline_mode)
    (h6 : t.echo_mask_mode = s.echo_mask_mode) (h7 : t.shell_status = s.shell_status)
    (h8 : t.shell_prompt = s.shell_prompt) (h9 : t.prompt_len = s.prompt_len)
    (h10 : t.timeout_ms = s.timeout_ms) (h11 : t.lit_tail = s.lit_tail) : edit_frame s t :=
  ⟨h1, h2, h3, h4, h5, h6, h7, h8, h9, h10, h11⟩

theorem edit_frame_refl (s : ecshell_t) : edit_frame s s :=
  edit_frame_mk s s rfl rfl rfl rfl rfl rfl rfl rfl rfl rfl rfl

theorem edit_frame_trans (s t u : ecshell_t) (h1 : edit_frame s t) (h2 : edit_frame t u) :
    edit_frame s u := by
  obtain ⟨a1, a2, a3, a4, a5, a6, a7, a8, a9, a10, a11⟩ := h1
  obtain ⟨b1, b2, b3, b4, b5, b6, b7, b8, b9, b10, b11⟩ := h2
  exact ⟨b1.trans a1, b2.trans a2, b3.trans a3, b4.trans a4, b5.trans a5, b6.trans a6,
    b7.trans a7, b8.trans a8, b9.trans a9, b10.trans a10, b11.trans a11⟩

theorem edit_frame_refreshLine (s t : ecshell_t) (h : edit_frame s t) :
    edit_frame s (refreshLine t) := by
  refine edit_frame_trans s t _ h ?_
  unfold refreshLine
  split <;> exact edit_frame_mk _ _ rfl rfl rfl rfl rfl rfl rfl rfl rfl rfl rfl

theorem edit_frame_linenoiseEditInsert (sh : ecshell_t) (c : Nat) :
    edit_frame sh (linenoiseEditInsert sh c).2 := by
  unfold linenoiseEditInsert
  simp only
  split_ifs
  all_goals first
    | exact edit_frame_refl sh
    | exact edit_frame_mk _ _ rfl rfl rfl rfl rfl rfl rfl rfl rfl rfl rfl
    | exact edit_frame_refreshLine _ _ (edit_frame_mk _ _ rfl rfl rfl rfl rfl rfl rfl rfl rfl rfl rfl)

theorem edit_frame_linenoiseEditMoveLeft (sh : ecshell_t) :
    edit_frame sh (linenoiseEditMoveLeft sh) := by
  unfold linenoiseEditMoveLeft
  split_ifs
  · exact edit_frame_refreshLine _ _ (edit_frame_mk _ _ rfl rfl rfl rfl rfl rfl rfl rfl rfl rfl rfl)
  · exact edit_frame_refl sh

theorem edit_frame_linenoiseEditMoveRight (sh : ecshell_t) :
    edit_frame sh (linenoiseEditMoveRight sh) := by
  unfold linenoiseEditMoveRight
  split_ifs
  · exact edit_frame_refreshLine _ _ (edit_frame_mk _ _ rfl rfl rfl rfl rfl rfl rfl rfl rfl rfl rfl)
  · exact edit_frame_refl sh

theorem edit_frame_linenoiseEditMoveHome (sh : ecshell_t) :
    edit_frame sh (linenoiseEditMoveHome sh) := by
  unfold linenoiseEditMoveHome
  split_ifs
  · exact edit_frame_refreshLine _ _ (edit_frame_mk _ _ rfl rfl rfl rfl rfl rfl rfl rfl rfl rfl rfl)
  · exact edit_frame_refl sh

theorem edit_frame_linenoiseEditMoveEnd (sh : ecshell_t) :
    edit_frame sh (linenoiseEditMoveEnd sh) := by
  unfold linenoiseEditMoveEnd
  split_ifs
  · exact edit_frame_refreshLine _ _ (edit_frame_mk _ _ rfl rfl rfl rfl rfl rfl rfl rfl rfl rfl rfl)
  · exact edit_frame_refl sh

theorem edit_frame_linenoiseEditDelete (sh : ecshell_t) :
    edit_frame sh (linenoiseEditDelete sh) := by
  unfold linenoiseEditDelete
  simp only
  split_ifs
  · exact edit_frame_refreshLine _ _ (edit_frame_mk _ _ rfl rfl rfl rfl rfl rfl rfl rfl rfl rfl rfl)
  · exact edit_frame_refl sh

theorem edit_frame_linenoiseEditBackspace (sh : ecshell_t) :
    edit_frame sh (linenoiseEditBackspace sh) := by
  unfold linenoiseEditBackspace
  simp only
  split_ifs
  · exact edit_frame_refreshLine _ _ (edit_frame_mk _ _ rfl rfl rfl rfl rfl rfl rfl rfl rfl rfl rfl)
  · exact edit_frame_refl sh

theorem edit_frame_linenoiseEditDeletePrevWord (sh : ecshell_t) :
    edit_frame sh (linenoiseEditDeletePrevWord sh) := by
  unfold linenoiseEditDeletePrevWord
  exact edit_frame_refreshLine _ _ (edit_frame_mk _ _ rfl rfl rfl rfl rfl rfl rfl rfl rfl rfl rfl)

theorem edit_frame_linenoiseEdit_ctrl_u (sh : ecshell_t) :
    edit_frame sh (linenoiseEdit_ctrl_u sh) := by
  unfold linenoiseEdit_ctrl_u
  exact edit_frame_refreshLine _ _ (edit_frame_mk _ _ rfl rfl rfl rfl rfl rfl rfl rfl rfl rfl rfl)

theorem edit_frame_linenoiseEdit_ctrl_k (sh : ecshell_t) :
    edit_frame sh (linenoiseEdit_ctrl_k sh) := by
  unfold linenoiseEdit_ctrl_k
  exact edit_frame_refreshLine _ _ (edit_frame_mk _ _ rfl rfl rfl rfl rfl rfl rfl rfl rfl rfl rfl)

theorem edit_frame_linenoiseEdit_ctrl_t (sh : ecshell_t) :
    edit_frame sh (linenoiseEdit_ctrl_t sh) := by
  unfold linenoiseEdit_ctrl_t
  simp only
  by_cases h : sh.cmd_cursor > 0 ∧ sh.cmd_cursor < sh.cmd_len
  · rw [if_pos h]
    exact edit_frame_refreshLine _ _ (edit_frame_mk _ _ rfl rfl rfl rfl rfl rfl rfl rfl rfl rfl rfl)
  · rw [if_neg h]; exact edit_frame_refl sh

theorem edit_frame_linenoiseEditHistoryNext (sh : ecshell_t) (dir : Nat) :
    edit_frame sh (linenoiseEditHistoryNext sh dir) := by
  unfold linenoiseEditHistoryNext
  simp only
  split_ifs
  all_goals first
    | exact edit_frame_refl sh
    | exact edit_frame_mk _ _ rfl rfl rfl rfl rfl rfl rfl rfl rfl rfl rfl
    | exact edit_frame_refreshLine _ _ (edit_frame_mk _ _ rfl rfl rfl rfl rfl rfl rfl rfl rfl rfl rfl)

theorem edit_frame_history_pop (sh : ecshell_t) : edit_frame sh (history_pop sh) :=
  edit_frame_mk _ _ rfl rfl rfl rfl rfl rfl rfl rfl rfl rfl rfl

theorem edit_frame_linenoiseEdit_enter (sh : ecshell_t) :
    edit_frame sh (linenoiseEdit_enter sh) := by
  have h1 : edit_frame sh (if sh.history_used > 0 then history_pop sh else sh) := by
    split_ifs
    · exact edit_frame_history_pop sh
    · exact edit_frame_refl sh
  show edit_frame sh (if (if sh.history_used > 0 then history_pop sh else sh).multiline_mode
    then linenoiseEditMoveEnd (if sh.history_used > 0 then history_pop sh else sh)
    else (if sh.history_used > 0 then history_pop sh else sh))
  generalize (if sh.history_used > 0 then history_pop sh else sh) = s1 at h1 ⊢
  split_ifs
  · exact edit_frame_trans _ _ _ h1 (edit_frame_linenoiseEditMoveEnd s1)
  · exact h1

theorem edit_frame_read (sh : ecshell_t) : edit_frame sh (read sh).2 := by
  unfold read
  split <;> exact edit_frame_mk _ _ rfl rfl rfl rfl rfl rfl rfl rfl rfl rfl rfl

theorem edit_frame_read_seq0 (sh : ecshell_t) : edit_frame sh (read_seq0 sh) := by
  have := edit_frame_read sh
  unfold read_seq0
  split
  · next c s1 h =>
    rw [h] at this
    exact edit_frame_trans _ _ _ this (edit_frame_mk _ _ rfl rfl rfl rfl rfl rfl rfl rfl rfl rfl rfl)
  · next s1 h => rw [h] at this; exact this

theorem edit_frame_read_seq1 (sh : ecshell_t) : edit_frame sh (read_seq1 sh) := by
  have := edit_frame_read sh
  unfold read_seq1
  split
  · next c s1 h =>
    rw [h] at this
    exact edit_frame_trans _ _ _ this (edit_frame_mk _ _ rfl rfl rfl rfl rfl rfl rfl rfl rfl rfl rfl)
  · next s1 h => rw [h] at this; exact this

theorem edit_frame_read_seq2 (sh : ecshell_t) : edit_frame sh (read_seq2 sh) := by
  have := edit_frame_read sh
  unfold read_seq2
  split
  · next c s1 h =>
    rw [h] at this
    exact edit_frame_trans _ _ _ this (edit_frame_mk _ _ rfl rfl rfl rfl rfl rfl rfl rfl rfl rfl rfl)
  · next s1 h => rw [h] at this; exact this

theorem edit_frame_linenoiseEdit_escape (sh : ecshell_t) :
    edit_frame sh (linenoiseEdit_escape sh) := by
  have h1 : edit_frame sh (read_seq1 (read_seq0 sh)) :=
    edit_frame_trans _ _ _ (edit_frame_read_seq0 sh) (edit_frame_read_seq1 _)
  have h2 : edit_frame sh (read_seq2 (read_seq1 (read_seq0 sh))) :=
    edit_frame_trans _ _ _ h1 (edit_frame_read_seq2 _)
  unfold linenoiseEdit_escape
  simp only
  split_ifs
  all_goals first
    | exact h1
    | exact h2
    | exact edit_frame_trans _ _ _ h2 (edit_frame_linenoiseEditDelete _)
    | exact edit_frame_trans _ _ _ h1 (edit_frame_linenoiseEditHistoryNext _ _)
    | exact edit_frame_trans _ _ _ h1 (edit_frame_linenoiseEditMoveRight _)
    | exact edit_frame_trans _ _ _ h1 (edit_frame_linenoiseEditMoveLeft _)
    | exact edit_frame_trans _ _ _ h1 (edit_frame_linenoiseEditMoveHome _)
    | exact edit_frame_trans _ _ _ h1 (edit_frame_linenoiseEditMoveEnd _)

/-- No case of the key `switch` touches the fields of `edit_frame`. -/
theorem edit_frame_linenoiseEdit_key (c : Nat) (sh : ecshell_t) :
    edit_frame sh (linenoiseEdit_key c sh).2 := by
  unfold linenoiseEdit_key
  by_cases h0 : c = 13
  · rw [if_pos h0]; exact edit_frame_linenoiseEdit_enter sh
  rw [if_neg h0]
  by_cases h1 : c = 3
  · rw [if_pos h1]; exact edit_frame_refl sh
  rw [if_neg h1]
  by_cases h2 : c = 127 ∨ c = 8
  · rw [if_pos h2]; exact edit_frame_linenoiseEditBackspace sh
  rw [if_neg h2]
  by_cases h3 : c = 4
  · rw [if_pos h3]
    by_cases hlen : sh.cmd_len > 0
    · rw [if_pos hlen]; exact edit_frame_linenoiseEditDelete sh
    · rw [if_neg hlen]; exact edit_frame_history_pop sh
  rw [if_neg h3]
  by_cases h4 : c = 20
  · rw [if_pos h4]; exact edit_frame_linenoiseEdit_ctrl_t sh
  rw [if_neg h4]
  by_cases h5 : c = 2
  · rw [if_pos h5]; exact edit_frame_linenoiseEditMoveLeft sh
  rw [if_neg h5]
  by_cases h6 : c = 6
  · rw [if_pos h6]; exact edit_frame_linenoiseEditMoveRight sh
  rw [if_neg h6]
  by_cases h7 : c = 16
  · rw [if_pos h7]; exact edit_frame_linenoiseEditHistoryNext sh _
  rw [if_neg h7]
  by_cases h8 : c = 14
  · rw [if_pos h8]; exact edit_frame_linenoiseEditHistoryNext sh _
  rw [if_neg h8]
  by_cases h9 : c = 27
  · rw [if_pos h9]; exact edit_frame_linenoiseEdit_escape sh
  rw [if_neg h9]
  by_cases h10 : c = 21
  · rw [if_pos h10]; exact edit_frame_linenoiseEdit_ctrl_u sh
  rw [if_neg h10]
  by_cases h11 : c = 11
  · rw [if_pos h11]; exact edit_frame_linenoiseEdit_ctrl_k sh
  rw [if_neg h11]
  by_cases h12 : c = 1
  · rw [if_pos h12]; exact edit_frame_linenoiseEditMoveHome sh
  rw [if_neg h12]
  by_cases h13 : c = 5
  · rw [if_pos h13]; exact edit_frame_linenoiseEditMoveEnd sh
  rw [if_neg h13]
  by_cases h14 : c = 12
  · rw [if_pos h14]; exact edit_frame_refreshLine _ _ (edit_frame_mk _ _ rfl rfl rfl rfl rfl rfl rfl rfl rfl rfl rfl)
  rw [if_neg h14]
  by_cases h15 : c = 23
  · rw [if_pos h15]; exact edit_frame_linenoiseEditDeletePrevWord sh
  rw [if_neg h15]
  by_cases hr : (linenoiseEditInsert sh c).1 ≠ 0
  · rw [if_pos hr]; exact edit_frame_linenoiseEditInsert sh c
  · rw [if_neg hr]; exact edit_frame_linenoiseEditInsert sh c

/-- No case of the key `switch` gives bytes back to the input. -/
theorem linenoiseEdit_key_rx_le (c : Nat) (sh : ecshell_t) :
    (linenoiseEdit_key c sh).2.rx.length ≤ sh.rx.length := by
  unfold linenoiseEdit_key
  by_cases h0 : c = 13
  · rw [if_pos h0]; exact le_of_eq (congrArg List.length (linenoiseEdit_enter_rx sh))
  rw [if_neg h0]
  by_cases h1 : c = 3
  · rw [if_pos h1]
  rw [if_neg h1]
  by_cases h2 : c = 127 ∨ c = 8
  · rw [if_pos h2]; exact le_of_eq (congrArg List.length (linenoiseEditBackspace_rx sh))
  rw [if_neg h2]
  by_cases h3 : c = 4
  · rw [if_pos h3]
    by_cases hlen : sh.cmd_len > 0
    · rw [if_pos hlen]; exact le_of_eq (congrArg List.length (linenoiseEditDelete_rx sh))
    · rw [if_neg hlen]; exact le_refl _
  rw [if_neg h3]
  by_cases h4 : c = 20
  · rw [if_pos h4]; exact le_of_eq (congrArg List.length (linenoiseEdit_ctrl_t_rx sh))
  rw [if_neg h4]
  by_cases h5 : c = 2
  · rw [if_pos h5]; exact le_of_eq (congrArg List.length (linenoiseEditMoveLeft_rx sh))
  rw [if_neg h5]
  by_cases h6 : c = 6
  · rw [if_pos h6]; exact le_of_eq (congrArg List.length (linenoiseEditMoveRight_rx sh))
  rw [if_neg h6]
  by_cases h7 : c = 16
  · rw [if_pos h7]; exact le_of_eq (congrArg List.length (linenoiseEditHistoryNext_rx sh _))
  rw [if_neg h7]
  by_cases h8 : c = 14
  · rw [if_pos h8]; exact le_of_eq (congrArg List.length (linenoiseEditHistoryNext_rx sh _))
  rw [if_neg h8]
  by_cases h9 : c = 27
  · rw [if_pos h9]; exact linenoiseEdit_escape_rx_le sh
  rw [if_neg h9]
  by_cases h10 : c = 21
  · rw [if_pos h10]; exact le_of_eq (congrArg List.length (linenoiseEdit_ctrl_u_rx sh))
  rw [if_neg h10]
  by_cases h11 : c = 11
  · rw [if_pos h11]; exact le_of_eq (congrArg List.length (linenoiseEdit_ctrl_k_rx sh))
  rw [if_neg h11]
  by_cases h12 : c = 1
  · rw [if_pos h12]; exact le_of_eq (congrArg List.length (linenoiseEditMoveHome_rx sh))
  rw [if_neg h12]
  by_cases h13 : c = 5
  · rw [if_pos h13]; exact le_of_eq (congrArg List.length (linenoiseEditMoveEnd_rx sh))
  rw [if_neg h13]
  by_cases h14 : c = 12
  · rw [if_pos h14]; exact le_of_eq (congrArg List.length (show (refreshLine (linenoiseClearScreen sh)).rx = sh.rx by simp [linenoiseClearScreen]))
  rw [if_neg h14]
  by_cases h15 : c = 23
  · rw [if_pos h15]; exact le_of_eq (congrArg List.length (linenoiseEditDeletePrevWord_rx sh))
  rw [if_neg h15]
  by_cases hr : (linenoiseEditInsert sh c).1 ≠ 0
  · rw [if_pos hr]; exact le_of_eq (congrArg List.length (linenoiseEditInsert_rx sh c))
  · rw [if_neg hr]; exact le_of_eq (congrArg List.length (linenoiseEditInsert_rx sh c))

/-- The edit loop returns: with fuel beyond the bytes left on the input, it
ends with a result. -/
theorem linenoiseEdit_loop_total :
    ∀ (fuel : Nat) (sh : ecshell_t), sh.rx.length < fuel →
      ∃ r sh', linenoiseEdit_loop fuel sh = some (r, sh') := by
  intro fuel
  induction fuel with
  | zero => intro sh h; omega
  | succ fuel ih =>
    intro sh h
    have hr := read_rx_le sh
    unfold linenoiseEdit_loop
    cases hrx : sh.rx with
    | nil =>
      have : read sh = (none, sh) := by unfold read; rw [hrx]
      rw [this]
      exact ⟨_, _, rfl⟩
    | cons c rest =>
      have : read sh = (some c, { sh with rx := rest }) := by unfold read; rw [hrx]
      rw [this]
      simp only
      have hlt : ({ sh with rx := rest } : ecshell_t).rx.length < fuel := by
        rw [hrx] at h; simp at h ⊢; omega
      by_cases h9 : c = 9
      · rw [if_pos h9]; exact ih _ hlt
      · rw [if_neg h9]
        have hk := linenoiseEdit_key_rx_le c { sh with rx := rest }
        rcases hkey : linenoiseEdit_key c { sh with rx := rest } with ⟨ro, s2⟩
        rw [hkey] at hk
        cases ro with
        | some r => exact ⟨_, _, rfl⟩
        | none => exact ih s2 (by simp at hk hlt ⊢; omega)

/-- The line read returns, for every session and every input. -/
theorem linenoiseEdit_total (sh : ecshell_t) : ∃ r sh', linenoiseEdit sh = some (r, sh') := by
  unfold linenoiseEdit
  exact linenoiseEdit_loop_total _ _ (by simp)

/-! ## The session loop -/

/-- The edit loop leaves the fields of `edit_frame` as they were. -/
theorem edit_frame_linenoiseEdit_loop :
    ∀ (fuel : Nat) (sh : ecshell_t) (r : Int) (sh' : ecshell_t),
      linenoiseEdit_loop fuel sh = some (r, sh') → edit_frame sh sh' := by
  intro fuel
  induction fuel with
  | zero => intro sh r sh' h; simp [linenoiseEdit_loop] at h
  | succ fuel ih =>
    intro sh r sh' h
    have hr := edit_frame_read sh
    unfold linenoiseEdit_loop at h
    split at h
    · next s1 he =>
      rw [he] at hr
      simp only [Option.some.injEq, Prod.mk.injEq] at h
      rw [← h.2]; exact hr
    · next c s1 he =>
      rw [he] at hr
      split_ifs at h
      · exact edit_frame_trans _ _ _ hr (ih _ _ _ h)
      · have hk := edit_frame_linenoiseEdit_key c s1
        split at h
        · next r2 s2 hk2 =>
          rw [hk2] at hk
          simp only [Option.some.injEq, Prod.mk.injEq] at h
          rw [← h.2]; exact edit_frame_trans _ _ _ hr hk
        · next s2 hk2 =>
          rw [hk2] at hk
          exact edit_frame_trans _ _ _ hr (edit_frame_trans _ _ _ hk (ih _ _ _ h))

theorem linenoiseHistoryAdd_frame (sh : ecshell_t) (line : List Nat) :
    (linenoiseHistoryAdd sh line).2.shell_status = sh.shell_status
      ∧ (linenoiseHistoryAdd sh line).2.echo_mask_mode = sh.echo_mask_mode
      ∧ (linenoiseHistoryAdd sh line).2.multiline_mode = sh.multiline_mode
      ∧ (linenoiseHistoryAdd sh line).2.rx = sh.rx
      ∧ (linenoiseHistoryAdd sh line).2.lit_tail = sh.lit_tail := by
  unfold linenoiseHistoryAdd
  simp only
  split_ifs <;> exact ⟨rfl, rfl, rfl, rfl, rfl⟩

/-- The line read changes neither the session state nor the echo flags. -/
theorem linenoiseEdit_frame (sh : ecshell_t) (r : Int) (sh' : ecshell_t)
    (h : linenoiseEdit sh = some (r, sh')) :
    sh'.shell_status = sh.shell_status ∧ sh'.echo_mask_mode = sh.echo_mask_mode
      ∧ sh'.multiline_mode = sh.multiline_mode ∧ sh'.lit_tail = sh.lit_tail := by
  unfold linenoiseEdit at h
  obtain ⟨_, _, _, _, h5, h6, h7, _, _, _, h11⟩ := edit_frame_linenoiseEdit_loop _ _ _ _ h
  have hs := linenoiseHistoryAdd_frame { sh with
    prompt_len := strlen sh.shell_prompt
    cmd_oldcursor := 0
    cmd_cursor := 0
    cmd_len := 0
    shell_cols := getColumns sh.stdin_fd sh.stdout_fd
    shell_used_rows := 0
    history_offset := 0
    cmd_line := sh.cmd_line.set 0 0 } (0 :: sh.lit_tail)
  obtain ⟨a1, a2, a3, _, a5⟩ := hs
  exact ⟨h7.trans a1, h6.trans a2, h5.trans a3, h11.trans a5⟩

/-- The dispatcher returns, for every line. -/
theorem ecshell_exec_by_line_total (cmd_map : cmd_map_t) (line : List Nat) (env : ecshell_env_t)
    (rx tx : List Nat) : ∃ e, ecshell_exec_by_line cmd_map line env rx tx = some e := by
  obtain ⟨r, hr, _⟩ := split_line_to_argv_ret_nonneg (cstr line ++ [0]) MAX_ARGC
  unfold ecshell_exec_by_line
  simp only [hr]
  split_ifs
  · split <;> exact ⟨_, rfl⟩
  · exact ⟨_, rfl⟩

/-- The state after a `WaitUserLogin` step, given what the line read returned. -/
theorem shell_run_login_done_status (rs : run_state) (err : Int) (sh1 : ecshell_t) :
    (shell_run_login_done rs err sh1).sh.shell_status
        = (if err > 0 then .e_SHELLSTAT_WaitUserAuthen else sh1.shell_status)
      ∧ (shell_run_login_done rs err sh1).sh.echo_mask_mode
        = (if err > 0 then true else sh1.echo_mask_mode)
      ∧ (shell_run_login_done rs err sh1).user_name
        = (if err > 0 then strncpy sh1.cmd_line sh1.cmd_len ++ [0] else rs.user_name)
      ∧ (shell_run_login_done rs err sh1).user_name_len
        = (if err > 0 then sh1.cmd_len else rs.user_name_len)
      ∧ (shell_run_login_done rs err sh1).sh.cmd_line = sh1.cmd_line
      ∧ (shell_run_login_done rs err sh1).sh.rx = sh1.rx
      ∧ (shell_run_login_done rs err sh1).auth_calls = rs.auth_calls := by
  unfold shell_run_login_done
  simp only
  split_ifs <;> exact ⟨rfl, rfl, rfl, rfl, rfl, rfl, rfl⟩

/-- The state after a `WaitUserAuthen` step, given what the line read returned. -/
theorem shell_run_authen_done_status (rs : run_state) (err : Int) (sh1 : ecshell_t) :
    (shell_run_authen_done rs err sh1).sh.shell_status
        = (if err > 0 then
            (if user_authentication rs.user_name rs.user_name_len
                (strncpy sh1.cmd_line sh1.cmd_len ++ [0]) sh1.cmd_len = 0
              then .e_SHELLSTAT_NormalCMDLine else .e_SHELLSTAT_WaitUserLogin)
          else .e_SHELLSTAT_WaitUserLogin)
      ∧ (shell_run_authen_done rs err sh1).sh.cmd_line
        = (if err > 0 then List.replicate SHELL_LINE_MAXLEN 0 else sh1.cmd_line)
      ∧ (shell_run_authen_done rs err sh1).auth_calls
        = (if err > 0 then rs.auth_calls ++ [⟨rs.user_name, rs.user_name_len,
            strncpy sh1.cmd_line sh1.cmd_len ++ [0], sh1.cmd_len,
            List.replicate SHELL_LINE_MAXLEN 0⟩] else rs.auth_calls)
      ∧ (shell_run_authen_done rs err sh1).sh.echo_mask_mode = false
      ∧ (shell_run_authen_done rs err sh1).sh.history_used = sh1.history_used
      ∧ (shell_run_authen_done rs err sh1).sh.cmd_history = sh1.cmd_history := by
  unfold shell_run_authen_done
  by_cases hpos : err > 0
  · simp only [if_pos hpos]
    refine ⟨?_, ?_, ?_, ?_, ?_, ?_⟩ <;> first | rfl | trivial
  · simp only [if_neg hpos]
    refine ⟨?_, ?_, ?_, ?_, ?_, ?_⟩ <;> first | rfl | trivial

theorem shell_run_cmdline_done_total (cmd_map : cmd_map_t) (rs : run_state) (err : Int)
    (sh1 : ecshell_t) :
    ∃ rs', shell_run_cmdline_done cmd_map rs err sh1 = some rs' := by
  unfold shell_run_cmdline_done
  simp only
  split_ifs
  · obtain ⟨e, hx⟩ := ecshell_exec_by_line_total cmd_map
      (linenoiseHistoryAdd (write sh1 [13, 10]) (write sh1 [13, 10]).cmd_line).2.cmd_line
      ⟨(linenoiseHistoryAdd (write sh1 [13, 10]) (write sh1 [13, 10]).cmd_line).2.stdin_fd,
        (linenoiseHistoryAdd (write sh1 [13, 10]) (write sh1 [13, 10]).cmd_line).2.stdout_fd,
        (linenoiseHistoryAdd (write sh1 [13, 10]) (write sh1 [13, 10]).cmd_line).2.shell_cols⟩
      (linenoiseHistoryAdd (write sh1 [13, 10]) (write sh1 [13, 10]).cmd_line).2.rx
      (linenoiseHistoryAdd (write sh1 [13, 10]) (write sh1 [13, 10]).cmd_line).2.tx
    rw [hx]
    exact ⟨_, rfl⟩
  · exact ⟨_, rfl⟩

/-- C9. No command loop without authentication: every iteration of the session
loop returns a next state, and it passes from a state other than
`NormalCMDLine` to `NormalCMDLine` only in a `WaitUserAuthen` step whose line
read returned more than 0 and in which `user_authentication` returned 0 for the
stored user name and the copy of the password just typed; in a `WaitUserAuthen`
step whose line read returned more than 0 and whose predicate rejects, the next
state is `WaitUserLogin`. -/
theorem shell_run_step_authentication (cmd_map : cmd_map_t) (rs : run_state) :
    ∃ rs', shell_run_step cmd_map rs = some rs'
      ∧ (rs.sh.shell_status ≠ .e_SHELLSTAT_NormalCMDLine →
          rs'.sh.shell_status = .e_SHELLSTAT_NormalCMDLine →
          rs.sh.shell_status = .e_SHELLSTAT_WaitUserAuthen
            ∧ ∃ err sh1, linenoiseEdit (sprintf_prompt rs.sh prompt_password) = some (err, sh1)
              ∧ 0 < err
              ∧ user_authentication rs.user_name rs.user_name_len
                  (strncpy sh1.cmd_line sh1.cmd_len ++ [0]) sh1.cmd_len = 0)
      ∧ (∀ err sh1, rs.sh.shell_status = .e_SHELLSTAT_WaitUserAuthen →
          linenoiseEdit (sprintf_prompt rs.sh prompt_password) = some (err, sh1) →
          0 < err →
          user_authentication rs.user_name rs.user_name_len
            (strncpy sh1.cmd_line sh1.cmd_len ++ [0]) sh1.cmd_len ≠ 0 →
          rs'.sh.shell_status = .e_SHELLSTAT_WaitUserLogin) := by
  cases hst : rs.sh.shell_status with
  | e_SHELLSTAT_WaitUserLogin =>
    obtain ⟨err, sh1, he⟩ := linenoiseEdit_total (sprintf_prompt rs.sh prompt_login)
    obtain ⟨hf, _⟩ := linenoiseEdit_frame _ _ _ he
    have hst1 : sh1.shell_status = .e_SHELLSTAT_WaitUserLogin := by rw [hf]; exact hst
    have hs := (shell_run_login_done_status rs err sh1).1
    refine ⟨shell_run_login_done rs err sh1, ?_, fun _ h => ?_, fun _ _ h => by simp at h⟩
    · unfold shell_run_step shell_run_login
      simp only [hst, he]
    · rw [hs, hst1] at h
      split_ifs at h
  | e_SHELLSTAT_WaitUserAuthen =>
    obtain ⟨err, sh1, he⟩ := linenoiseEdit_total (sprintf_prompt rs.sh prompt_password)
    have hs := (shell_run_authen_done_status rs err sh1).1
    refine ⟨shell_run_authen_done rs err sh1, ?_, fun _ h => ⟨rfl, err, sh1, he, ?_, ?_⟩, ?_⟩
    · unfold shell_run_step shell_run_authen
      simp only [hst, he]
    · rw [hs] at h
      by_cases hpos : err > 0
      · exact hpos
      · rw [if_neg hpos] at h; exact absurd h (by decide)
    · rw [hs] at h
      by_cases hpos : err > 0
      · rw [if_pos hpos] at h
        by_contra hne
        rw [if_neg hne] at h
        exact absurd h (by decide)
      · rw [if_neg hpos] at h; exact absurd h (by decide)
    · intro err' sh1' _ he' hpos hne
      rw [he] at he'
      simp only [Option.some.injEq, Prod.mk.injEq] at he'
      obtain ⟨e1, e2⟩ := he'
      subst e1; subst e2
      rw [hs, if_pos hpos, if_neg hne]
  | e_SHELLSTAT_NormalCMDLine =>
    obtain ⟨err, sh1, he⟩ := linenoiseEdit_total
      (sprintf_prompt rs.sh (cstr rs.user_name ++ prompt_suffix))
    obtain ⟨rs', hrs⟩ := shell_run_cmdline_done_total cmd_map rs err sh1
    refine ⟨rs', ?_, fun h => absurd rfl h, fun _ _ h => by simp at h⟩
    unfold shell_run_step shell_run_cmdline
    simp only [hst, he]
    exact hrs
  | e_SHELLSTAT_RecvTelnetIAC =>
    refine ⟨rs, ?_, fun _ h => ?_, fun _ _ h => by simp at h⟩
    · unfold shell_run_step
      simp only [hst]
    · rw [hst] at h
      exact absurd h (by decide)
  | e_SHELLSTAT_UserProgramIO =>
    refine ⟨rs, ?_, fun _ h => ?_, fun _ _ h => by simp at h⟩
    · unfold shell_run_step
      simp only [hst]
    · rw [hst] at h
      exact absurd h (by decide)

/-! ## Typing a line -/

theorem linenoiseEditInsert_fst (sh : ecshell_t) (c : Nat) : (linenoiseEditInsert sh c).1 = 0 := by
  unfold linenoiseEditInsert
  simp only
  split_ifs <;> rfl

/-- An ordinary byte is inserted and the loop goes on. -/
theorem linenoiseEdit_key_ordinary (c : Nat) (sh : ecshell_t) (h : ordinary_key c) :
    linenoiseEdit_key c sh = (none, (linenoiseEditInsert sh c).2) := by
  simp only [ordinary_key, List.mem_cons, List.mem_singleton, not_or, List.not_mem_nil,
    or_false] at h
  obtain ⟨h13, h3, h127, h8, h4, h20, h2, h6, h16, h14, h27, h21, h11, h1, h5, h12, h23, _⟩ := h
  unfold linenoiseEdit_key
  have h1278 : ¬ (c = 127 ∨ c = 8) := by rintro (h | h) <;> contradiction
  rw [if_neg h13, if_neg h3, if_neg h1278, if_neg h4, if_neg h20, if_neg h2, if_neg h6,
    if_neg h16, if_neg h14, if_neg h27, if_neg h21, if_neg h11, if_neg h1, if_neg h5,
    if_neg h12, if_neg h23, linenoiseEditInsert_fst]
  simp

theorem take_set_set_succ (line : List Nat) (n c : Nat) (h : n < line.length) :
    ((line.set n c).set (n + 1) 0).take (n + 1) = line.take n ++ [c] := by
  induction line generalizing n with
  | nil => simp at h
  | cons a line ih =>
    cases n with
    | zero => simp
    | succ n =>
      simp only [List.length_cons] at h
      simpa using ih n (by omega)

theorem linenoiseEdit_enter_fields (sh : ecshell_t) :
    (linenoiseEdit_enter sh).cmd_line = sh.cmd_line ∧ (linenoiseEdit_enter sh).cmd_len = sh.cmd_len := by
  have h1 : (if sh.history_used > 0 then history_pop sh else sh).cmd_line = sh.cmd_line
      ∧ (if sh.history_used > 0 then history_pop sh else sh).cmd_len = sh.cmd_len := by
    split_ifs <;> exact ⟨rfl, rfl⟩
  show (if (if sh.history_used > 0 then history_pop sh else sh).multiline_mode
      then linenoiseEditMoveEnd (if sh.history_used > 0 then history_pop sh else sh)
      else (if sh.history_used > 0 then history_pop sh else sh)).cmd_line = sh.cmd_line
    ∧ (if (if sh.history_used > 0 then history_pop sh else sh).multiline_mode
      then linenoiseEditMoveEnd (if sh.history_used > 0 then history_pop sh else sh)
      else (if sh.history_used > 0 then history_pop sh else sh)).cmd_len = sh.cmd_len
  generalize (if sh.history_used > 0 then history_pop sh else sh) = s1 at h1 ⊢
  have h2 : (linenoiseEditMoveEnd s1).cmd_line = s1.cmd_line
      ∧ (linenoiseEditMoveEnd s1).cmd_len = s1.cmd_len := by
    unfold linenoiseEditMoveEnd
    split_ifs <;> simp
  split_ifs
  · exact ⟨h2.1.trans h1.1, h2.2.trans h1.2⟩
  · exact h1

/-- One ordinary byte typed at the end of the line. -/
theorem linenoiseEditInsert_at_end (s1 : ecshell_t) (c : Nat) (hcur : s1.cmd_cursor = s1.cmd_len)
    (hlen : s1.cmd_line.length = SHELL_LINE_MAXLEN) (hn : s1.cmd_len < SHELL_LINE_MAXLEN) :
    (linenoiseEditInsert s1 c).2.cmd_cursor = (linenoiseEditInsert s1 c).2.cmd_len
      ∧ (linenoiseEditInsert s1 c).2.cmd_line.length = SHELL_LINE_MAXLEN
      ∧ (linenoiseEditInsert s1 c).2.cmd_len < SHELL_LINE_MAXLEN
      ∧ (linenoiseEditInsert s1 c).2.cmd_len = min (s1.cmd_len + 1) (SHELL_LINE_MAXLEN - 1)
      ∧ ∀ u : List Nat,
          ((linenoiseEditInsert s1 c).2.cmd_line.take (linenoiseEditInsert s1 c).2.cmd_len ++ u).take
              (SHELL_LINE_MAXLEN - 1)
            = (s1.cmd_line.take s1.cmd_len ++ c :: u).take (SHELL_LINE_MAXLEN - 1) := by
  have i1 := linenoiseEditInsert_cmd_line s1 c
  have i2 := linenoiseEditInsert_cmd_len s1 c
  have i3 := linenoiseEditInsert_cmd_cursor s1 c
  by_cases hroom : s1.cmd_len < SHELL_LINE_MAXLEN - 1
  · rw [if_pos hroom] at i1 i2 i3
    rw [if_pos hcur.symm] at i1
    rw [i1, i2, i3]
    simp only [SHELL_LINE_MAXLEN] at hlen hn hroom ⊢
    refine ⟨by omega, by simp [hlen], by omega, by omega, ?_⟩
    intro u
    rw [hcur, take_set_set_succ _ _ _ (by omega)]
    simp
  · rw [if_neg hroom] at i1 i2 i3
    rw [i1, i2, i3]
    simp only [SHELL_LINE_MAXLEN] at hlen hn hroom ⊢
    refine ⟨hcur, hlen, hn, by omega, ?_⟩
    intro u
    have e : s1.cmd_len = 255 := by omega
    have hl : (s1.cmd_line.take 255).length = 255 := by simp [hlen]
    rw [e, List.take_append_of_le_length (by omega), List.take_append_of_le_length (by omega)]

/-- Typing ordinary bytes at the end of the line and pressing Enter: the loop
returns the length, the line holds what was there followed by the bytes typed
(up to the capacity), and the bytes after Enter stay on the input. -/
theorem linenoiseEdit_loop_typed (rest : List Nat) :
    ∀ (u : List Nat) (fuel : Nat) (sh : ecshell_t), (∀ c ∈ u, ordinary_key c) →
      sh.rx = u ++ 13 :: rest → sh.cmd_cursor = sh.cmd_len →
      sh.cmd_line.length = SHELL_LINE_MAXLEN → sh.cmd_len < SHELL_LINE_MAXLEN →
      u.length < fuel →
      ∃ sh', linenoiseEdit_loop fuel sh = some ((sh'.cmd_len : Int), sh')
        ∧ sh'.cmd_len = min (sh.cmd_len + u.length) (SHELL_LINE_MAXLEN - 1)
        ∧ sh'.cmd_line.take sh'.cmd_len
            = (sh.cmd_line.take sh.cmd_len ++ u).take (SHELL_LINE_MAXLEN - 1)
        ∧ sh'.cmd_line.length = SHELL_LINE_MAXLEN
        ∧ sh'.rx = rest := by
  intro u
  induction u with
  | nil =>
    intro fuel sh _ hrx hcur hlen hn hf
    obtain ⟨f, rfl⟩ : ∃ f, fuel = f + 1 := ⟨fuel - 1, by omega⟩
    have hread : read sh = (some 13, { sh with rx := rest }) := by
      unfold read; rw [hrx]; rfl
    have hkey : linenoiseEdit_key 13 { sh with rx := rest }
        = (some ((linenoiseEdit_enter { sh with rx := rest }).cmd_len : Int),
            linenoiseEdit_enter { sh with rx := rest }) := by
      unfold linenoiseEdit_key; rw [if_pos rfl]
    obtain ⟨e1, e2⟩ := linenoiseEdit_enter_fields { sh with rx := rest }
    refine ⟨linenoiseEdit_enter { sh with rx := rest }, ?_, ?_, ?_, ?_, ?_⟩
    · unfold linenoiseEdit_loop
      rw [hread]
      simp only [hkey]
      rfl
    · rw [e2]; simp only [SHELL_LINE_MAXLEN] at hn ⊢; simp; omega
    · rw [e1, e2]
      simp only [SHELL_LINE_MAXLEN] at hn ⊢
      simp only [List.append_nil, List.take_take]
      congr 1
      omega
    · rw [e1]; exact hlen
    · rw [linenoiseEdit_enter_rx]
  | cons c u ih =>
    intro fuel sh hord hrx hcur hlen hn hf
    obtain ⟨f, rfl⟩ : ∃ f, fuel = f + 1 := ⟨fuel - 1, by omega⟩
    have hc : ordinary_key c := hord c (by simp)
    have hc9 : c ≠ 9 := by
      intro h; subst h; simp [ordinary_key] at hc
    have hread : read sh = (some c, { sh with rx := u ++ 13 :: rest }) := by
      unfold read; rw [hrx]; rfl
    have hkey := linenoiseEdit_key_ordinary c { sh with rx := u ++ 13 :: rest } hc
    have hstep : linenoiseEdit_loop (f + 1) sh
        = linenoiseEdit_loop f (linenoiseEditInsert { sh with rx := u ++ 13 :: rest } c).2 := by
      conv_lhs => unfold linenoiseEdit_loop
      rw [hread]
      simp only [if_neg hc9, hkey]
    obtain ⟨j1, j2, j3, j4, j5⟩ :=
      linenoiseEditInsert_at_end { sh with rx := u ++ 13 :: rest } c hcur hlen hn
    have j6 := linenoiseEditInsert_rx { sh with rx := u ++ 13 :: rest } c
    obtain ⟨sh', h1, h2, h3, h4, h5⟩ := ih f _ (fun d hd => hord d (by simp [hd])) j6 j1 j2 j3
      (by simp at hf; omega)
    refine ⟨sh', by rw [hstep]; exact h1, ?_, ?_, h4, h5⟩
    · rw [h2, j4]
      show min (min (sh.cmd_len + 1) (SHELL_LINE_MAXLEN - 1) + u.length) (SHELL_LINE_MAXLEN - 1)
        = min (sh.cmd_len + (c :: u).length) (SHELL_LINE_MAXLEN - 1)
      simp only [SHELL_LINE_MAXLEN, List.length_cons]
      omega
    · rw [h3]
      exact j5 u

theorem linenoiseEdit_setup_fields (sh : ecshell_t) :
    (linenoiseEdit_setup sh).cmd_len = 0 ∧ (linenoiseEdit_setup sh).cmd_cursor = 0
      ∧ (linenoiseEdit_setup sh).cmd_line = sh.cmd_line.set 0 0
      ∧ (linenoiseEdit_setup sh).rx = sh.rx := by
  unfold linenoiseEdit_setup
  simp only [linenoiseHistoryAdd_cmd_len, linenoiseHistoryAdd_cmd_cursor,
    linenoiseHistoryAdd_cmd_line, (linenoiseHistoryAdd_frame _ _).2.2.2.1, and_self]

/-- The state in which the line read returns satisfies the edit-buffer
invariant, whatever the input. -/
theorem edit_inv_linenoiseEdit (sh : ecshell_t) (r : Int) (sh' : ecshell_t)
    (hl : sh.cmd_line.length = SHELL_LINE_MAXLEN) (h : linenoiseEdit sh = some (r, sh')) :
    edit_inv sh' := by
  unfold linenoiseEdit at h
  exact edit_inv_linenoiseEdit_loop _ _ _ _
    ((edit_inv_write _ _).2 (edit_inv_linenoiseEdit_setup sh hl)) h

/-- A line of ordinary bytes typed and submitted with Enter: the line read
returns its length (at most 255), the edit buffer starts with the bytes typed,
and the input after Enter is left for the next read. -/
theorem linenoiseEdit_typed (sh : ecshell_t) (u rest : List Nat)
    (hord : ∀ c ∈ u, ordinary_key c) (hrx : sh.rx = u ++ 13 :: rest)
    (hlen : sh.cmd_line.length = SHELL_LINE_MAXLEN) :
    ∃ sh', linenoiseEdit sh = some (((min u.length (SHELL_LINE_MAXLEN - 1) : Nat) : Int), sh')
      ∧ sh'.cmd_len = min u.length (SHELL_LINE_MAXLEN - 1)
      ∧ sh'.cmd_line.take sh'.cmd_len = u.take (SHELL_LINE_MAXLEN - 1)
      ∧ sh'.cmd_line.length = SHELL_LINE_MAXLEN
      ∧ sh'.rx = rest := by
  obtain ⟨f1, f2, f3, f4⟩ := linenoiseEdit_setup_fields sh
  have g1 : (write (linenoiseEdit_setup sh)
      ((linenoiseEdit_setup sh).shell_prompt.take (linenoiseEdit_setup sh).prompt_len)).rx
        = u ++ 13 :: rest := by rw [write_rx, f4, hrx]
  obtain ⟨sh', h1, h2, h3, h4, h5⟩ := linenoiseEdit_loop_typed rest u
    ((write (linenoiseEdit_setup sh)
      ((linenoiseEdit_setup sh).shell_prompt.take (linenoiseEdit_setup sh).prompt_len)).rx.length + 1)
    (write (linenoiseEdit_setup sh)
      ((linenoiseEdit_setup sh).shell_prompt.take (linenoiseEdit_setup sh).prompt_len))
    hord g1 (by rw [write_cmd_cursor, write_cmd_len, f1, f2])
    (by rw [write_cmd_line, f3, List.length_set, hlen])
    (by rw [write_cmd_len, f1]; simp [SHELL_LINE_MAXLEN])
    (by rw [g1]; simp; omega)
  rw [write_cmd_len, f1, Nat.zero_add] at h2
  rw [write_cmd_len, f1, List.take_zero, List.nil_append] at h3
  refine ⟨sh', ?_, h2, h3, h4, h5⟩
  unfold linenoiseEdit
  simp only
  rw [h1, h2]

theorem strncpy_congr (a b : List Nat) (n : Nat) (h : a.take n = b.take n) :
    strncpy a n = strncpy b n := by
  unfold strncpy
  rw [h]

theorem ecshell_new_ok (i_fd o_fd : Int) (ty : shell_type_t) (tm : Nat) (hi : 0 ≤ i_fd)
    (ho : 0 ≤ o_fd) : ecshell_new i_fd o_fd ty tm = some (ecshell_new_object i_fd o_fd tm) := by
  unfold ecshell_new
  rw [if_neg (by omega)]

/-- C8. Session login scenario: `ecshell_new` with non-negative descriptors
yields a session in state `WaitUserLogin`; when the input then delivers a
non-empty user name of ordinary bytes and Enter, and the same bytes and Enter
again, the first iteration of the session loop ends in `WaitUserAuthen` with
masked echo on, and the second in `NormalCMDLine`. -/
theorem session_login_scenario (cmd_map : cmd_map_t) (i_fd o_fd : Int) (ty : shell_type_t)
    (tm : Nat) (u rest lit : List Nat) (q0 q1 q2 : Nat) (err0 : Int) (un0 : List Nat) (ul0 : Nat)
    (hi : 0 ≤ i_fd) (ho : 0 ≤ o_fd) (hu : u ≠ []) (hord : ∀ c ∈ u, ordinary_key c) :
    ∃ sh0 rs1 rs2, ecshell_new i_fd o_fd ty tm = some sh0
      ∧ sh0.shell_status = .e_SHELLSTAT_WaitUserLogin
      ∧ shell_run_step cmd_map (shell_run_init
          { sh0 with rx := u ++ 13 :: (u ++ 13 :: rest), lit_tail := lit, seq0 := q0, seq1 := q1,
                     seq2 := q2 } err0 un0 ul0) = some rs1
      ∧ rs1.sh.shell_status = .e_SHELLSTAT_WaitUserAuthen
      ∧ rs1.sh.echo_mask_mode = true
      ∧ shell_run_step cmd_map rs1 = some rs2
      ∧ rs2.sh.shell_status = .e_SHELLSTAT_NormalCMDLine := by
  have hpos : ((min u.length (SHELL_LINE_MAXLEN - 1) : Nat) : Int) > 0 := by
    have : 0 < u.length := List.length_pos.mpr hu
    simp only [SHELL_LINE_MAXLEN]
    omega
  -- the user name line
  obtain ⟨sh1, a1, a2, a3, a4, a5⟩ := linenoiseEdit_typed
    (sprintf_prompt { ecshell_new_object i_fd o_fd tm with
      rx := u ++ 13 :: (u ++ 13 :: rest), lit_tail := lit, seq0 := q0, seq1 := q1, seq2 := q2 }
      prompt_login) u (u ++ 13 :: rest) hord rfl (by simp [sprintf_prompt, ecshell_new_object])
  obtain ⟨b1, b2, b3, b4, b5, b6, _⟩ := shell_run_login_done_status
    (shell_run_init { ecshell_new_object i_fd o_fd tm with
      rx := u ++ 13 :: (u ++ 13 :: rest), lit_tail := lit, seq0 := q0, seq1 := q1, seq2 := q2 }
      err0 un0 ul0) (min u.length (SHELL_LINE_MAXLEN - 1) : Nat) sh1
  rw [if_pos hpos] at b1 b2 b3 b4
  generalize hrs1 : shell_run_login_done (shell_run_init { ecshell_new_object i_fd o_fd tm with
      rx := u ++ 13 :: (u ++ 13 :: rest), lit_tail := lit, seq0 := q0, seq1 := q1, seq2 := q2 }
      err0 un0 ul0) (min u.length (SHELL_LINE_MAXLEN - 1) : Nat) sh1 = rs1 at b1 b2 b3 b4 b5 b6
  -- the password line
  obtain ⟨sh2, c1, c2, c3, c4, c5⟩ := linenoiseEdit_typed
    (sprintf_prompt rs1.sh prompt_password) u rest hord
    (by show rs1.sh.rx = _; rw [b6, a5])
    (by show rs1.sh.cmd_line.length = _; rw [b5, a4])
  obtain ⟨d1, _⟩ := shell_run_authen_done_status rs1 (min u.length (SHELL_LINE_MAXLEN - 1) : Nat) sh2
  have hsame : strncpy sh2.cmd_line sh2.cmd_len ++ [0] = rs1.user_name := by
    have e2 := c3
    rw [c2] at e2
    have e1 := a3
    rw [a2] at e1
    rw [b3, c2, a2, strncpy_congr sh2.cmd_line sh1.cmd_line _ (e2.trans e1.symm)]
  have hauth : user_authentication rs1.user_name rs1.user_name_len
      (strncpy sh2.cmd_line sh2.cmd_len ++ [0]) sh2.cmd_len = 0 := by
    rw [hsame]
    simp [user_authentication, strcmp]
  rw [if_pos hpos, if_pos hauth] at d1
  refine ⟨ecshell_new_object i_fd o_fd tm, rs1, _, ecshell_new_ok i_fd o_fd ty tm hi ho, rfl,
    ?_, b1, b2, ?_, d1⟩
  · unfold shell_run_step shell_run_login
    show (match linenoiseEdit (sprintf_prompt { ecshell_new_object i_fd o_fd tm with
      rx := u ++ 13 :: (u ++ 13 :: rest), lit_tail := lit, seq0 := q0, seq1 := q1, seq2 := q2 }
      prompt_login) with
      | none => none
      | some (err, sh1) => some (shell_run_login_done _ err sh1)) = some rs1
    rw [a1]
    simp only
    rw [hrs1]
  · unfold shell_run_step shell_run_authen
    rw [b1]
    simp only
    rw [c1]

/-- C8, witness: `alice`, Enter, `alice`, Enter. -/
theorem session_login_scenario_witness :
    (0 : Int) ≤ 0 ∧ (0 : Int) ≤ 1 ∧ ([97, 108, 105, 99, 101] : List Nat) ≠ []
      ∧ (∀ c ∈ ([97, 108, 105, 99, 101] : List Nat), ordinary_key c)
      ∧ ∃ sh0 rs1 rs2, ecshell_new 0 1 .e_SHELLTYPE_Default 0 = some sh0
        ∧ sh0.shell_status = .e_SHELLSTAT_WaitUserLogin
        ∧ shell_run_step (fun _ => none) (shell_run_init
            { sh0 with rx := [97, 108, 105, 99, 101] ++ 13 :: ([97, 108, 105, 99, 101] ++ 13 :: []),
                       lit_tail := [], seq0 := 0, seq1 := 0, seq2 := 0 } 0 [] 0) = some rs1
        ∧ rs1.sh.shell_status = .e_SHELLSTAT_WaitUserAuthen
        ∧ rs1.sh.echo_mask_mode = true
        ∧ shell_run_step (fun _ => none) rs1 = some rs2
        ∧ rs2.sh.shell_status = .e_SHELLSTAT_NormalCMDLine :=
  ⟨by decide, by decide, by simp, by simp [ordinary_key],
    session_login_scenario (fun _ => none) 0 1 .e_SHELLTYPE_Default 0 [97, 108, 105, 99, 101] [] []
      0 0 0 0 [] 0 (by decide) (by decide) (by simp) (by simp [ordinary_key])⟩

set_option maxRecDepth 100000 in
/-- C1. A new session receives `a`, Enter at the login prompt and then, at the
password prompt, `p`, `w`, Ctrl-P, Ctrl-C. After the `WaitUserAuthen` step the
session is back in `WaitUserLogin`, `history_used` is 1 with `history_head` 0,
and slot 0 of the history store holds the text `pw` typed as the password. -/
theorem password_left_in_history :
    (shell_run_steps (fun _ => none) 2
        (shell_run_init { ecshell_new_object 0 1 0 with rx := [97, 13, 112, 119, 16, 3] }
          0 [] 0)).map
      (fun rs => (rs.sh.shell_status, rs.sh.history_used, rs.sh.history_head,
        cstr (rs.sh.cmd_history.getD 0 [])))
      = some (.e_SHELLSTAT_WaitUserLogin, 1, 0, [112, 119]) := by
  decide

set_option maxRecDepth 100000 in
/-- The same leak with every line submitted by Enter: an aborted login attempt
(`x`, Ctrl-P, Ctrl-C) leaves one history entry; at the password prompt of user
`a` the keys Ctrl-P, Ctrl-U, `a`, Ctrl-N, `a`, Enter authenticate with password
`a` and leave `a` in slot 0, counted by `history_used`. -/
theorem enter_submitted_password_kept_in_history :
    (shell_run_steps (fun _ => none) 3
        (shell_run_init { ecshell_new_object 0 1 0 with
          rx := [120, 16, 3, 97, 13, 16, 21, 97, 14, 97, 13] } 0 [] 0)).map
      (fun rs => (rs.sh.shell_status, rs.sh.history_used, rs.sh.history_head,
        cstr (rs.sh.cmd_history.getD 0 []), rs.auth_calls.map (fun c => cstr c.passwd)))
      = some (.e_SHELLSTAT_NormalCMDLine, 1, 0, [97], [[97]]) := by
  decide

/-! ## The authentication stub and the dispatcher -/

/-- C11. `user_authentication` returns 0 when the user name and the password
are the same string and -1 otherwise; the two length arguments play no part. -/
theorem user_authentication_same_string (uname passwd : List Nat) (ulen plen : Nat) :
    user_authentication uname ulen passwd plen = (if cstr uname = cstr passwd then 0 else -1)
      ∧ (user_authentication uname ulen passwd plen = 0 ↔ cstr uname = cstr passwd)
      ∧ ∀ ulen1 plen1 : Nat,
          user_authentication uname ulen1 passwd plen1
            = user_authentication uname ulen passwd plen := by
  unfold user_authentication strcmp
  refine ⟨?_, ?_, fun _ _ => rfl⟩ <;> split_ifs <;> simp_all

/-- C12. Dispatch: when the copy of the line is split into `argc > 0` arguments
and `argv[0]` is a registered name, `ecshell_exec_by_line` returns, having called
the handler registered under that name once, with `argc`, the arguments the
split produced and the context, and its result is the handler's result. -/
theorem ecshell_exec_by_line_dispatch (cmd_map : cmd_map_t) (line : List Nat)
    (env : ecshell_env_t) (rx tx : List Nat) (r : split_result) (cmd : ecshell_cmd_t)
    (hsplit : split_line_to_argv (cstr line ++ [0]) MAX_ARGC = some r) (hargc : r.ret > 0)
    (hreg : ecshell_get_cmd_by_name cmd_map ((argv_strings r).headD []) = some cmd) :
    ecshell_exec_by_line cmd_map line env rx tx
      = some ⟨(cmd.cmd r.ret (argv_strings r) env rx tx).ret,
          (cmd.cmd r.ret (argv_strings r) env rx tx).rx,
          (cmd.cmd r.ret (argv_strings r) env rx tx).tx,
          [(r.ret, argv_strings r, env)]⟩ := by
  unfold ecshell_exec_by_line
  simp only [hsplit, if_pos hargc, hreg]

/-- C12, witness: with `clear` registered, the line `clear --help` calls its
handler once with `argc = 2` and `argv = [clear, --help]`; the handler here
writes `7` and returns 5, which is what the dispatcher returns. -/
theorem ecshell_exec_by_line_dispatch_witness :
    ecshell_exec_by_line (ecshell_cmd_map_init ⟨fun _ _ _ rx tx => ⟨5, rx, tx ++ [55]⟩⟩)
        [99, 108, 101, 97, 114, 32, 45, 45, 104, 101, 108, 112, 0] ⟨0, 1, 132⟩ [] []
      = some ⟨5, [], [55],
          [(2, [[99, 108, 101, 97, 114], [45, 45, 104, 101, 108, 112]], ⟨0, 1, 132⟩)]⟩ :=
  ecshell_exec_by_line_dispatch (ecshell_cmd_map_init ⟨fun _ _ _ rx tx => ⟨5, rx, tx ++ [55]⟩⟩)
    [99, 108, 101, 97, 114, 32, 45, 45, 104, 101, 108, 112, 0] ⟨0, 1, 132⟩ [] []
    ⟨2, [99, 108, 101, 97, 114, 0, 45, 45, 104, 101, 108, 112, 0], [0, 6]⟩
    ⟨fun _ _ _ rx tx => ⟨5, rx, tx ++ [55]⟩⟩ (by decide) (by decide) rfl

/-- C14. A line that is empty or holds only whitespace is split into zero
arguments; `ecshell_exec_by_line` then writes `perror_cmd_400` to the output,
calls no handler and returns `-EINVAL`. -/
theorem ecshell_exec_by_line_blank (cmd_map : cmd_map_t) (line : List Nat)
    (env : ecshell_env_t) (rx tx : List Nat) (hblank : Blank (cstr line)) :
    (∃ r, split_line_to_argv (cstr line ++ [0]) MAX_ARGC = some r ∧ r.ret = 0)
      ∧ ecshell_exec_by_line cmd_map line env rx tx
          = some ⟨-EINVAL, rx, tx ++ perror_cmd_400, []⟩ := by
  have h := split_loop_eq_split_scan MAX_ARGC (cstr line ++ [0])
    ((cstr line ++ [0]).length + 1) .SKIP_SPACE [] [] (by omega)
  simp only [List.length_nil, List.nil_append] at h
  have h0 : (([] : List Nat).length : Int) < MAX_ARGC := by decide
  rw [split_scan_blank MAX_ARGC (cstr line) [] [0] [] hblank h0, split_scan_zero] at h
  have hs : split_line_to_argv (cstr line ++ [0]) MAX_ARGC
      = some ⟨0, [] ++ cstr line ++ [0], []⟩ := by
    unfold split_line_to_argv
    rw [h]
    simp
  refine ⟨⟨_, hs, rfl⟩, ?_⟩
  unfold ecshell_exec_by_line
  simp only [hs]
  rfl

/-- C14, witness: the line made of a space and a tab. -/
theorem ecshell_exec_by_line_blank_witness :
    ecshell_exec_by_line (fun _ => none) [32, 9, 0] ⟨0, 1, 132⟩ [] []
      = some ⟨-EINVAL, [], perror_cmd_400, []⟩ :=
  (ecshell_exec_by_line_blank (fun _ => none) [32, 9, 0] ⟨0, 1, 132⟩ [] []
    (by simp [Blank, cstr, isspace])).2

/-- C15. The line `clear "abc`, whose quote is never closed, with `clear`
registered: no parse error is reported; the handler of `clear` is called with
`argc = 2` and `argv = [clear, abc]`, and its result is returned. -/
theorem ecshell_exec_by_line_unterminated_quote (clear_screen : ecshell_cmd_t)
    (env : ecshell_env_t) (rx tx : List Nat) :
    ecshell_exec_by_line (ecshell_cmd_map_init clear_screen)
        [99, 108, 101, 97, 114, 32, 34, 97, 98, 99, 0] env rx tx
      = some ⟨(clear_screen.cmd 2 [[99, 108, 101, 97, 114], [97, 98, 99]] env rx tx).ret,
          (clear_screen.cmd 2 [[99, 108, 101, 97, 114], [97, 98, 99]] env rx tx).rx,
          (clear_screen.cmd 2 [[99, 108, 101, 97, 114], [97, 98, 99]] env rx tx).tx,
          [(2, [[99, 108, 101, 97, 114], [97, 98, 99]], env)]⟩ := by
  have hs : split_line_to_argv (cstr [99, 108, 101, 97, 114, 32, 34, 97, 98, 99, 0] ++ [0]) MAX_ARGC
      = some ⟨2, [99, 108, 101, 97, 114, 0, 34, 97, 98, 99, 0], [0, 7]⟩ := by decide
  unfold ecshell_exec_by_line
  simp only [hs]
  rfl

/-! ## End of input during an edit -/

/-- When the read finds the input at its end, the loop of `linenoiseEdit`
returns `cmd_len` and leaves the session as it is. -/
theorem linenoiseEdit_loop_end_of_input (fuel : Nat) (sh : ecshell_t) (hrx : sh.rx = []) :
    linenoiseEdit_loop (fuel + 1) sh = some ((sh.cmd_len : Int), sh) := by
  have hread : read sh = (none, sh) := by
    unfold read; rw [hrx]
  unfold linenoiseEdit_loop
  rw [hread]

/-- Typing ordinary bytes at the end of the line, after which the input ends: the
loop returns the length of the line, which holds what was there followed by the
bytes typed (up to the capacity). -/
theorem linenoiseEdit_loop_typed_end_of_input :
    ∀ (u : List Nat) (fuel : Nat) (sh : ecshell_t), (∀ c ∈ u, ordinary_key c) →
      sh.rx = u → sh.cmd_cursor = sh.cmd_len →
      sh.cmd_line.length = SHELL_LINE_MAXLEN → sh.cmd_len < SHELL_LINE_MAXLEN →
      u.length < fuel →
      ∃ sh', linenoiseEdit_loop fuel sh = some ((sh'.cmd_len : Int), sh')
        ∧ sh'.cmd_len = min (sh.cmd_len + u.length) (SHELL_LINE_MAXLEN - 1)
        ∧ sh'.cmd_line.take sh'.cmd_len
            = (sh.cmd_line.take sh.cmd_len ++ u).take (SHELL_LINE_MAXLEN - 1)
        ∧ sh'.cmd_line.length = SHELL_LINE_MAXLEN
        ∧ sh'.rx = [] := by
  intro u
  induction u with
  | nil =>
    intro fuel sh _ hrx hcur hlen hn hf
    obtain ⟨f, rfl⟩ : ∃ f, fuel = f + 1 := ⟨fuel - 1, by omega⟩
    refine ⟨sh, linenoiseEdit_loop_end_of_input f sh hrx, ?_, ?_, hlen, hrx⟩
    · simp only [SHELL_LINE_MAXLEN] at hn ⊢; simp; omega
    · simp only [SHELL_LINE_MAXLEN] at hn ⊢
      simp only [List.append_nil, List.take_take]
      congr 1
      omega
  | cons c u ih =>
    intro fuel sh hord hrx hcur hlen hn hf
    obtain ⟨f, rfl⟩ : ∃ f, fuel = f + 1 := ⟨fuel - 1, by omega⟩
    have hc : ordinary_key c := hord c (by simp)
    have hc9 : c ≠ 9 := by
      intro h; subst h; simp [ordinary_key] at hc
    have hread : read sh = (some c, { sh with rx := u }) := by
      unfold read; rw [hrx]
    have hkey := linenoiseEdit_key_ordinary c { sh with rx := u } hc
    have hstep : linenoiseEdit_loop (f + 1) sh
        = linenoiseEdit_loop f (linenoiseEditInsert { sh with rx := u } c).2 := by
      conv_lhs => unfold linenoiseEdit_loop
      rw [hread]
      simp only [if_neg hc9, hkey]
    obtain ⟨j1, j2, j3, j4, j5⟩ := linenoiseEditInsert_at_end { sh with rx := u } c hcur hlen hn
    have j6 := linenoiseEditInsert_rx { sh with rx := u } c
    obtain ⟨sh', h1, h2, h3, h4, h5⟩ := ih f _ (fun d hd => hord d (by simp [hd])) j6 j1 j2 j3
      (by simp at hf; omega)
    refine ⟨sh', by rw [hstep]; exact h1, ?_, ?_, h4, h5⟩
    · rw [h2, j4]
      show min (min (sh.cmd_len + 1) (SHELL_LINE_MAXLEN - 1) + u.length) (SHELL_LINE_MAXLEN - 1)
        = min (sh.cmd_len + (c :: u).length) (SHELL_LINE_MAXLEN - 1)
      simp only [SHELL_LINE_MAXLEN, List.length_cons]
      omega
    · rw [h3]
      exact j5 u

/-- C16, as amended. Ordinary bytes are typed and then the read returns 0: the
line read ends and returns the number of bytes in the edit buffer (at most 255,
never negative), the buffer holding the bytes typed. -/
theorem linenoiseEdit_end_of_input (sh : ecshell_t) (u : List Nat)
    (hord : ∀ c ∈ u, ordinary_key c) (hrx : sh.rx = u)
    (hlen : sh.cmd_line.length = SHELL_LINE_MAXLEN) :
    ∃ sh', linenoiseEdit sh = some (((min u.length (SHELL_LINE_MAXLEN - 1) : Nat) : Int), sh')
      ∧ sh'.cmd_len = min u.length (SHELL_LINE_MAXLEN - 1)
      ∧ sh'.cmd_line.take sh'.cmd_len = u.take (SHELL_LINE_MAXLEN - 1)
      ∧ sh'.rx = [] := by
  obtain ⟨f1, f2, f3, f4⟩ := linenoiseEdit_setup_fields sh
  have g1 : (write (linenoiseEdit_setup sh)
      ((linenoiseEdit_setup sh).shell_prompt.take (linenoiseEdit_setup sh).prompt_len)).rx
        = u := by rw [write_rx, f4, hrx]
  obtain ⟨sh', h1, h2, h3, _, h5⟩ := linenoiseEdit_loop_typed_end_of_input u
    ((write (linenoiseEdit_setup sh)
      ((linenoiseEdit_setup sh).shell_prompt.take (linenoiseEdit_setup sh).prompt_len)).rx.length + 1)
    (write (linenoiseEdit_setup sh)
      ((linenoiseEdit_setup sh).shell_prompt.take (linenoiseEdit_setup sh).prompt_len))
    hord g1 (by rw [write_cmd_cursor, write_cmd_len, f1, f2])
    (by rw [write_cmd_line, f3, List.length_set, hlen])
    (by rw [write_cmd_len, f1]; simp [SHELL_LINE_MAXLEN])
    (by rw [g1]; omega)
  rw [write_cmd_len, f1, Nat.zero_add] at h2
  rw [write_cmd_len, f1, List.take_zero, List.nil_append] at h3
  refine ⟨sh', ?_, h2, h3, h5⟩
  unfold linenoiseEdit
  simp only
  rw [h1, h2]

set_option maxRecDepth 100000 in
/-- C16 as amended, witness: `a`, `b` and then the end of the input. -/
theorem linenoiseEdit_end_of_input_witness :
    ∃ sh', linenoiseEdit { ecshell_new_object 0 1 0 with rx := [97, 98] } = some (2, sh')
      ∧ sh'.cmd_len = 2 ∧ sh'.cmd_line.take sh'.cmd_len = [97, 98] ∧ sh'.rx = [] := by
  obtain ⟨sh', h1, h2, h3, h4⟩ := linenoiseEdit_end_of_input
    { ecshell_new_object 0 1 0 with rx := [97, 98] } [97, 98]
    (by simp [ordinary_key]) rfl (by simp [ecshell_new_object])
  exact ⟨sh', h1, h2, h3, h4⟩

set_option maxRecDepth 100000 in
/-- C16, counterexample. A new session receives `a`, `b` and then the end of the
input: the line read returns 2, not a negative value, and the `WaitUserLogin`
step takes `ab` as a submitted user name and goes on to `WaitUserAuthen`. -/
theorem end_of_input_returns_length :
    (linenoiseEdit { ecshell_new_object 0 1 0 with rx := [97, 98] }).map (fun p => p.1) = some 2
      ∧ (shell_run_step (fun _ => none)
          (shell_run_init { ecshell_new_object 0 1 0 with rx := [97, 98] } 0 [] 0)).map
            (fun rs => (rs.err, rs.sh.shell_status, cstr rs.user_name))
          = some (2, .e_SHELLSTAT_WaitUserAuthen, [97, 98]) := by
  decide

/-! ## One history add -/

/-- The test `linenoiseHistoryAdd` makes for a duplicate fails when the store is
empty or its newest entry is another string. -/
theorem linenoiseHistoryAdd_no_duplicate (sh : ecshell_t) (line : List Nat) (hwf : history_wf sh)
    (hnd : sh.history_used = 0 ∨ cstr (history_entry sh (sh.history_used - 1)) ≠ cstr line) :
    ¬ (sh.history_used > 0 ∧ strcmp (sh.cmd_history.getD
      (if sh.history_tail = 0 then SHELL_HISTORY_MAXNUM - 1 else sh.history_tail - 1) []) line = 0) := by
  obtain ⟨_, hhead, hused, htail⟩ := hwf
  simp only [SHELL_HISTORY_MAXNUM] at hhead hused htail
  have hidx : (if sh.history_tail = 0 then SHELL_HISTORY_MAXNUM - 1 else sh.history_tail - 1)
      = (sh.history_head + (sh.history_used - 1)) % SHELL_HISTORY_MAXNUM ∨ sh.history_used = 0 := by
    simp only [SHELL_HISTORY_MAXNUM]
    split_ifs <;> omega
  rintro ⟨hpos, hz⟩
  rw [strcmp_eq_zero] at hz
  rcases hnd with h0 | hne
  · omega
  · rcases hidx with hi | h0
    · rw [hi] at hz; exact hne hz
    · omega

/-- C17. A line that is not the string of the newest entry (or any line, when
the store is empty) is added to a well-formed store: the call returns 1, the slot
at the old `history_tail` receives the `SHELL_LINE_MAXLEN` bytes copied from the
line (the line itself as a string, when it fits), `history_tail` becomes
`(tail + 1) mod N`, `history_used` becomes `min (used + 1) N`, `history_head`
becomes `(head + 1) mod N` when the store was full and stays otherwise, every
other slot is unchanged, and the store is well formed again. -/
theorem linenoiseHistoryAdd_non_duplicate (sh : ecshell_t) (line : List Nat)
    (hwf : history_wf sh)
    (hnd : sh.history_used = 0 ∨ cstr (history_entry sh (sh.history_used - 1)) ≠ cstr line) :
    (linenoiseHistoryAdd sh line).1 = 1
      ∧ (linenoiseHistoryAdd sh line).2.cmd_history.getD sh.history_tail []
          = line.take SHELL_LINE_MAXLEN
      ∧ ((cstr line).length < SHELL_LINE_MAXLEN →
          cstr ((linenoiseHistoryAdd sh line).2.cmd_history.getD sh.history_tail []) = cstr line)
      ∧ (linenoiseHistoryAdd sh line).2.history_tail
          = (sh.history_tail + 1) % SHELL_HISTORY_MAXNUM
      ∧ (linenoiseHistoryAdd sh line).2.history_used
          = min (sh.history_used + 1) SHELL_HISTORY_MAXNUM
      ∧ (linenoiseHistoryAdd sh line).2.history_head
          = (if sh.history_used = SHELL_HISTORY_MAXNUM
              then (sh.history_head + 1) % SHELL_HISTORY_MAXNUM else sh.history_head)
      ∧ (∀ i, i ≠ sh.history_tail →
          (linenoiseHistoryAdd sh line).2.cmd_history.getD i [] = sh.cmd_history.getD i [])
      ∧ history_wf (linenoiseHistoryAdd sh line).2 := by
  have hno := linenoiseHistoryAdd_no_duplicate sh line hwf hnd
  obtain ⟨hlen, hhead, hused, htail⟩ := hwf
  simp only [SHELL_HISTORY_MAXNUM] at hlen hhead hused htail
  have hslot : ∀ l : List (List Nat), l.length = 16 →
      (l.set sh.history_tail (line.take SHELL_LINE_MAXLEN)).getD sh.history_tail []
        = line.take SHELL_LINE_MAXLEN := by
    intro l hl
    rw [getD_set_eq]
    omega
  by_cases hf : sh.history_used ≥ SHELL_HISTORY_MAXNUM
  · have hu : sh.history_used = 16 := by simp only [SHELL_HISTORY_MAXNUM] at hf; omega
    have hth : sh.history_tail = sh.history_head := by omega
    simp only [linenoiseHistoryAdd, if_neg hno, if_pos hf, history_wf, List.length_set]
    have h2 := hslot (sh.cmd_history.set sh.history_head
      ((sh.cmd_history.getD sh.history_head []).set 0 0)) (by rw [List.length_set]; exact hlen)
    refine ⟨trivial, h2, ?_, ?_, ?_, ?_, ?_, hlen, ?_, ?_, ?_⟩
    · intro hfit
      rw [h2]
      exact cstr_take line SHELL_LINE_MAXLEN hfit
    · simp only [SHELL_HISTORY_MAXNUM]; split_ifs <;> omega
    · simp only [SHELL_HISTORY_MAXNUM]; omega
    · simp only [SHELL_HISTORY_MAXNUM]; split_ifs <;> omega
    · intro i hi
      rw [getD_set_ne _ _ _ _ _ (Ne.symm hi), getD_set_ne _ _ _ _ _ (by omega)]
    · simp only [SHELL_HISTORY_MAXNUM]; split_ifs <;> omega
    · simp only [SHELL_HISTORY_MAXNUM]; omega
    · simp only [SHELL_HISTORY_MAXNUM]; split_ifs <;> omega
  · have hu : sh.history_used < 16 := by simp only [SHELL_HISTORY_MAXNUM] at hf; omega
    simp only [linenoiseHistoryAdd, if_neg hno, if_neg hf, history_wf, List.length_set]
    have h2 := hslot sh.cmd_history hlen
    refine ⟨trivial, h2, ?_, ?_, ?_, ?_, ?_, hlen, ?_, ?_, ?_⟩
    · intro hfit
      rw [h2]
      exact cstr_take line SHELL_LINE_MAXLEN hfit
    · simp only [SHELL_HISTORY_MAXNUM]; split_ifs <;> omega
    · simp only [SHELL_HISTORY_MAXNUM]; omega
    · simp only [SHELL_HISTORY_MAXNUM]; split_ifs <;> omega
    · intro i hi
      rw [getD_set_ne _ _ _ _ _ (Ne.symm hi)]
    · simp only [SHELL_HISTORY_MAXNUM]; omega
    · simp only [SHELL_HISTORY_MAXNUM]; omega
    · simp only [SHELL_HISTORY_MAXNUM]; split_ifs <;> omega

set_option maxRecDepth 100000 in
/-- C17, witness: the line `ls` added to the empty store of a new session. -/
theorem linenoiseHistoryAdd_non_duplicate_witness :
    (linenoiseHistoryAdd (ecshell_new_object 0 1 0) [108, 115, 0]).1 = 1
      ∧ (linenoiseHistoryAdd (ecshell_new_object 0 1 0) [108, 115, 0]).2.cmd_history.getD 0 []
          = [108, 115, 0]
      ∧ (linenoiseHistoryAdd (ecshell_new_object 0 1 0) [108, 115, 0]).2.history_tail = 1
      ∧ (linenoiseHistoryAdd (ecshell_new_object 0 1 0) [108, 115, 0]).2.history_used = 1
      ∧ (linenoiseHistoryAdd (ecshell_new_object 0 1 0) [108, 115, 0]).2.history_head = 0 := by
  obtain ⟨h1, h2, _, h4, h5, h6, _, _⟩ := linenoiseHistoryAdd_non_duplicate
    (ecshell_new_object 0 1 0) [108, 115, 0]
    (by simp [history_wf, ecshell_new_object, SHELL_HISTORY_MAXNUM]) (Or.inl rfl)
  exact ⟨h1, h2, h4, h5, h6⟩

/-! ## The loops of the single-line redraw on the machine -/

/-- With `shell_cols == 0` the condition of the first loop holds at every test:
the loop never ends. -/
theorem refreshSingleLine_scroll_c_zero_cols (w plen : Nat) :
    ∀ fuel off len pos, refreshSingleLine_scroll_c w plen 0 fuel off len pos = none := by
  intro fuel
  induction fuel with
  | zero => intro off len pos; rfl
  | succ fuel ih =>
    intro off len pos
    rw [refreshSingleLine_scroll_c, if_pos (Nat.zero_le _)]
    exact ih _ _ _

/-- With `shell_cols == 0` the redraw loops never end, whatever the width of
`size_t` and the number of rounds allowed. -/
theorem refreshSingleLine_loops_c_zero_cols (w fuel : Nat) (sh : ecshell_t)
    (h : sh.shell_cols = 0) : refreshSingleLine_loops_c w fuel sh = none := by
  unfold refreshSingleLine_loops_c
  rw [h, refreshSingleLine_scroll_c_zero_cols]

theorem size_t_decrement (m n : Nat) (hn : n + 1 < m) : (n + 1 + (m - 1)) % m = n := by
  have e : n + 1 + (m - 1) = n + m := by omega
  rw [e, Nat.add_mod_right, Nat.mod_eq_of_lt (by omega)]

/-- The first loop on the machine with the prompt shorter than the line and the
cursor inside the text: no counter wraps, and the loop ends after
`plen + pos + 1 - cols` rounds (none when `plen + pos < cols`). -/
theorem refreshSingleLine_scroll_c_spec (w plen cols : Nat) (hp : plen < cols) :
    ∀ (pos fuel off len : Nat), pos ≤ len → len < 2 ^ w → plen + pos < 2 ^ w → pos < fuel →
      refreshSingleLine_scroll_c w plen cols fuel off len pos
        = some (off + (plen + pos + 1 - cols), len - (plen + pos + 1 - cols),
            pos - (plen + pos + 1 - cols)) := by
  intro pos
  induction pos with
  | zero =>
    intro fuel off len _ _ hw hf
    obtain ⟨f, rfl⟩ : ∃ f, fuel = f + 1 := ⟨fuel - 1, by omega⟩
    rw [refreshSingleLine_scroll_c, Nat.mod_eq_of_lt hw, if_neg (by omega)]
    have hk : plen + 0 + 1 - cols = 0 := by omega
    rw [hk]
    rfl
  | succ pos ih =>
    intro fuel off len hl hlen hw hf
    obtain ⟨f, rfl⟩ : ∃ f, fuel = f + 1 := ⟨fuel - 1, by omega⟩
    obtain ⟨len1, rfl⟩ : ∃ len1, len = len1 + 1 := ⟨len - 1, by omega⟩
    rw [refreshSingleLine_scroll_c, Nat.mod_eq_of_lt hw]
    by_cases hge : plen + (pos + 1) ≥ cols
    · rw [if_pos hge, size_t_decrement _ _ hlen, size_t_decrement _ _ (by omega),
        ih f (off + 1) len1 (by omega) (by omega) (by omega) (by omega)]
      have hk : plen + (pos + 1) + 1 - cols = (plen + pos + 1 - cols) + 1 := by omega
      rw [hk]
      congr 2
      · omega
      · congr 1
        · omega
        · omega
    · rw [if_neg hge]
      have hk : plen + (pos + 1) + 1 - cols = 0 := by omega
      rw [hk]
      rfl

/-- The second loop on the machine with the prompt no longer than the line: no
counter wraps, and the loop leaves `min len (cols - plen)`. -/
theorem refreshSingleLine_clip_c_spec (w plen cols : Nat) (hp : plen ≤ cols) :
    ∀ (len fuel : Nat), plen + len < 2 ^ w → len < fuel →
      refreshSingleLine_clip_c w plen cols fuel len = some (min len (cols - plen)) := by
  intro len
  induction len with
  | zero =>
    intro fuel hw hf
    obtain ⟨f, rfl⟩ : ∃ f, fuel = f + 1 := ⟨fuel - 1, by omega⟩
    rw [refreshSingleLine_clip_c, Nat.mod_eq_of_lt hw, if_neg (by omega)]
    simp
  | succ len ih =>
    intro fuel hw hf
    obtain ⟨f, rfl⟩ : ∃ f, fuel = f + 1 := ⟨fuel - 1, by omega⟩
    rw [refreshSingleLine_clip_c, Nat.mod_eq_of_lt hw]
    by_cases h : plen + (len + 1) > cols
    · rw [if_pos h, size_t_decrement _ _ (by omega), ih f (by omega) (by omega)]
      congr 1
      omega
    · rw [if_neg h]
      congr 1
      omega

/-- The redraw loops on the machine for a session with the prompt shorter than
the line and the cursor inside the text: both end, within `cmd_len + 1` tests
each and with no counter wrapped, on the window the redraw shows. -/
theorem refreshSingleLine_loops_c_spec (w fuel : Nat) (sh : ecshell_t)
    (hp : sh.prompt_len < sh.shell_cols) (hc : sh.cmd_cursor ≤ sh.cmd_len)
    (hw : sh.prompt_len + sh.cmd_len < 2 ^ w) (hf : sh.cmd_len < fuel) :
    refreshSingleLine_loops_c w fuel sh
      = some (sh.prompt_len + sh.cmd_cursor + 1 - sh.shell_cols,
          min (sh.cmd_len - (sh.prompt_len + sh.cmd_cursor + 1 - sh.shell_cols))
            (sh.shell_cols - sh.prompt_len),
          sh.cmd_cursor - (sh.prompt_len + sh.cmd_cursor + 1 - sh.shell_cols)) := by
  unfold refreshSingleLine_loops_c
  rw [refreshSingleLine_scroll_c_spec w _ _ hp _ _ _ _ hc (by omega) (by omega) (by omega)]
  simp only
  rw [refreshSingleLine_clip_c_spec w _ _ (by omega) _ _ (by omega) (by omega), Nat.zero_add]

/-- The redraw loops end for every session that satisfies the edit-buffer
invariant and has the prompt shorter than the line, on every machine whose
`size_t` holds `prompt_len + 256`, within 256 tests of each condition. -/
theorem refreshSingleLine_loops_c_ends (sh : ecshell_t) (h : edit_inv sh)
    (hp : sh.prompt_len < sh.shell_cols) (w fuel : Nat)
    (hw : sh.prompt_len + SHELL_LINE_MAXLEN ≤ 2 ^ w) (hf : SHELL_LINE_MAXLEN ≤ fuel) :
    refreshSingleLine_loops_c w fuel sh ≠ none := by
  obtain ⟨_, hc, hn, _⟩ := h
  rw [refreshSingleLine_loops_c_spec w fuel sh hp hc (by omega) (by omega)]
  exact Option.some_ne_none _

/-! ## One history navigation step -/

/-- The slot index `linenoiseEditHistoryNext` computes is `(tail - 1 - offset) mod N`. -/
theorem history_index_eq_mod (s : ecshell_t) (ht : s.history_tail < SHELL_HISTORY_MAXNUM)
    (ho : s.history_offset < SHELL_HISTORY_MAXNUM) :
    ((history_index s : Nat) : Int)
      = ((s.history_tail : Int) - 1 - (s.history_offset : Int)) % (SHELL_HISTORY_MAXNUM : Int) := by
  unfold history_index
  simp only [SHELL_HISTORY_MAXNUM] at ht ho ⊢
  split_ifs <;> omega

/-- Every direction other than `LINENOISE_HISTORY_PREV` is taken as 'newer'. -/
theorem linenoiseEditHistoryNext_dir (sh : ecshell_t) (dir : Nat)
    (hd : dir ≠ LINENOISE_HISTORY_PREV) :
    linenoiseEditHistoryNext sh dir = linenoiseEditHistoryNext sh LINENOISE_HISTORY_NEXT := by
  have h1 : ¬ (LINENOISE_HISTORY_NEXT = LINENOISE_HISTORY_PREV) := by decide
  unfold linenoiseEditHistoryNext
  simp only [if_neg hd, if_neg h1]

/-- The slot index depends on `history_tail` and `history_offset` only. -/
theorem history_index_refreshLine (s : ecshell_t) :
    history_index (refreshLine s) = history_index s := by
  unfold history_index
  simp only [refreshLine_history_tail, refreshLine_history_offset]

/-- The current line is saved in the slot of the old offset, whatever the step
then does. -/
theorem linenoiseEditHistoryNext_cmd_history (sh : ecshell_t) (dir : Nat)
    (hu : sh.history_used > 0) :
    (linenoiseEditHistoryNext sh dir).cmd_history
      = sh.cmd_history.set (history_index sh) (sh.cmd_line.take SHELL_LINE_MAXLEN) := by
  by_cases hd : dir = LINENOISE_HISTORY_PREV
  · subst hd
    by_cases hm : sh.history_offset + 1 < sh.history_used
    · rw [linenoiseEditHistoryNext_prev_move sh hu hm, refreshLine_cmd_history]
    · rw [linenoiseEditHistoryNext_prev_stay sh hu (by omega)]
  · rw [linenoiseEditHistoryNext_dir sh dir hd]
    by_cases hz : sh.history_offset = 0
    · rw [linenoiseEditHistoryNext_next_stay sh hu hz]
    · rw [linenoiseEditHistoryNext_next_move sh hu hz, refreshLine_cmd_history]

/-- The ring fields a navigation step leaves alone. -/
theorem linenoiseEditHistoryNext_ring (sh : ecshell_t) (dir : Nat) :
    (linenoiseEditHistoryNext sh dir).history_tail = sh.history_tail
      ∧ (linenoiseEditHistoryNext sh dir).history_used = sh.history_used
      ∧ (linenoiseEditHistoryNext sh dir).history_head = sh.history_head := by
  by_cases hu : sh.history_used > 0
  · by_cases hd : dir = LINENOISE_HISTORY_PREV
    · subst hd
      by_cases hm : sh.history_offset + 1 < sh.history_used
      · rw [linenoiseEditHistoryNext_prev_move sh hu hm]
        simp
      · rw [linenoiseEditHistoryNext_prev_stay sh hu (by omega)]
        exact ⟨rfl, rfl, rfl⟩
    · rw [linenoiseEditHistoryNext_dir sh dir hd]
      by_cases hz : sh.history_offset = 0
      · rw [linenoiseEditHistoryNext_next_stay sh hu hz]
        exact ⟨rfl, rfl, rfl⟩
      · rw [linenoiseEditHistoryNext_next_move sh hu hz]
        simp
  · unfold linenoiseEditHistoryNext
    rw [if_neg hu]
    exact ⟨rfl, rfl, rfl⟩

/-- The offset after a navigation step: it stays below `history_used`, and when
it has changed the line was loaded from the slot of the new offset. -/
theorem linenoiseEditHistoryNext_offset (sh : ecshell_t) (dir : Nat)
    (hu : sh.history_used > 0) (ho : sh.history_offset < sh.history_used) :
    (linenoiseEditHistoryNext sh dir).history_offset < sh.history_used
      ∧ ((linenoiseEditHistoryNext sh dir).history_offset ≠ sh.history_offset →
          (linenoiseEditHistoryNext sh dir).cmd_line
              = (strncpy ((linenoiseEditHistoryNext sh dir).cmd_history.getD
                  (history_index (linenoiseEditHistoryNext sh dir)) [])
                  SHELL_LINE_MAXLEN).set (SHELL_LINE_MAXLEN - 1) 0
            ∧ (linenoiseEditHistoryNext sh dir).cmd_len
                = strlen (linenoiseEditHistoryNext sh dir).cmd_line
            ∧ (linenoiseEditHistoryNext sh dir).cmd_cursor
                = strlen (linenoiseEditHistoryNext sh dir).cmd_line
            ∧ (sh.history_tail < SHELL_HISTORY_MAXNUM → sh.history_used ≤ SHELL_HISTORY_MAXNUM →
                history_index (linenoiseEditHistoryNext sh dir) ≠ history_index sh)) := by
  have hne : ∀ o : Nat, o ≠ sh.history_offset → o < sh.history_used →
      sh.history_tail < SHELL_HISTORY_MAXNUM → sh.history_used ≤ SHELL_HISTORY_MAXNUM →
      history_index { sh with history_offset := o } ≠ history_index sh := by
    intro o h1 h2 h3 h4
    unfold history_index
    simp only [SHELL_HISTORY_MAXNUM] at h3 h4 ⊢
    split_ifs <;> omega
  by_cases hd : dir = LINENOISE_HISTORY_PREV
  · subst hd
    by_cases hm : sh.history_offset + 1 < sh.history_used
    · rw [linenoiseEditHistoryNext_prev_move sh hu hm]
      refine ⟨by simpa using hm, fun _ => ⟨?_, ?_, ?_, ?_⟩⟩
      · simp only [refreshLine_cmd_line, refreshLine_cmd_history, history_index_refreshLine]
        rfl
      · simp only [refreshLine_cmd_line, refreshLine_cmd_len]
      · simp only [refreshLine_cmd_line, refreshLine_cmd_cursor]
      · intro h3 h4
        rw [history_index_refreshLine]
        exact hne (sh.history_offset + 1) (by omega) hm h3 h4
    · rw [linenoiseEditHistoryNext_prev_stay sh hu (by omega)]
      refine ⟨?_, fun hc => ?_⟩
      · show sh.history_used - 1 < sh.history_used
        omega
      · exfalso
        apply hc
        show sh.history_used - 1 = sh.history_offset
        omega
  · rw [linenoiseEditHistoryNext_dir sh dir hd]
    by_cases hz : sh.history_offset = 0
    · rw [linenoiseEditHistoryNext_next_stay sh hu hz]
      exact ⟨ho, fun hc => absurd rfl hc⟩
    · rw [linenoiseEditHistoryNext_next_move sh hu hz]
      refine ⟨?_, fun _ => ⟨?_, ?_, ?_, ?_⟩⟩
      · simp only [refreshLine_history_offset]
        omega
      · simp only [refreshLine_cmd_line, refreshLine_cmd_history, history_index_refreshLine]
        rfl
      · simp only [refreshLine_cmd_line, refreshLine_cmd_len]
      · simp only [refreshLine_cmd_line, refreshLine_cmd_cursor]
      · intro h3 h4
        rw [history_index_refreshLine]
        exact hne (sh.history_offset - 1) (by omega) (by omega) h3 h4

/-- C19, as amended. One navigation step in a store with `N` slots,
`history_tail < N`, `history_used <= N`, `history_offset < history_used` and a
terminated string in every slot, in a session whose prompt is shorter than the
line (`prompt_len < shell_cols`). The slot index of the old offset is
`(tail - 1 - offset) mod N`, it is below `N`, and after the step that slot holds
the bytes of the edit buffer, the other slots being unchanged. When the step has
changed `history_offset`, the edit buffer holds, as a string, the content of the
slot with index `(tail - 1 - offset') mod N` for the new offset, `cmd_len` and
`cmd_cursor` are the length of that string, and the loops of the redraw the step
ends with, run on the machine (`size_t` of any width `w` that holds
`prompt_len + 256`), end within 256 tests of their conditions. -/
theorem linenoiseEditHistoryNext_step (sh : ecshell_t) (dir : Nat)
    (hlen : sh.cmd_history.length = SHELL_HISTORY_MAXNUM)
    (ht : sh.history_tail < SHELL_HISTORY_MAXNUM) (hu : sh.history_used ≤ SHELL_HISTORY_MAXNUM)
    (ho : sh.history_offset < sh.history_used)
    (hslots : ∀ s ∈ sh.cmd_history, (cstr s).length < SHELL_LINE_MAXLEN)
    (hp : sh.prompt_len < sh.shell_cols) :
    ((history_index sh : Nat) : Int)
        = ((sh.history_tail : Int) - 1 - (sh.history_offset : Int)) % (SHELL_HISTORY_MAXNUM : Int)
      ∧ history_index sh < SHELL_HISTORY_MAXNUM
      ∧ (linenoiseEditHistoryNext sh dir).cmd_history
          = sh.cmd_history.set (history_index sh) (sh.cmd_line.take SHELL_LINE_MAXLEN)
      ∧ (linenoiseEditHistoryNext sh dir).cmd_history.getD (history_index sh) []
          = sh.cmd_line.take SHELL_LINE_MAXLEN
      ∧ ((linenoiseEditHistoryNext sh dir).history_offset ≠ sh.history_offset →
          ((history_index (linenoiseEditHistoryNext sh dir) : Nat) : Int)
              = ((sh.history_tail : Int) - 1
                  - ((linenoiseEditHistoryNext sh dir).history_offset : Int))
                % (SHELL_HISTORY_MAXNUM : Int)
            ∧ cstr (linenoiseEditHistoryNext sh dir).cmd_line
                = cstr ((linenoiseEditHistoryNext sh dir).cmd_history.getD
                    (history_index (linenoiseEditHistoryNext sh dir)) [])
            ∧ (linenoiseEditHistoryNext sh dir).cmd_history.getD
                  (history_index (linenoiseEditHistoryNext sh dir)) []
                = sh.cmd_history.getD (history_index (linenoiseEditHistoryNext sh dir)) []
            ∧ (linenoiseEditHistoryNext sh dir).cmd_len
                = (cstr ((linenoiseEditHistoryNext sh dir).cmd_history.getD
                    (history_index (linenoiseEditHistoryNext sh dir)) [])).length
            ∧ (linenoiseEditHistoryNext sh dir).cmd_cursor
                = (cstr ((linenoiseEditHistoryNext sh dir).cmd_history.getD
                    (history_index (linenoiseEditHistoryNext sh dir)) [])).length
            ∧ ∀ w fuel : Nat, sh.prompt_len + SHELL_LINE_MAXLEN ≤ 2 ^ w →
                SHELL_LINE_MAXLEN ≤ fuel →
                refreshSingleLine_loops_c w fuel (linenoiseEditHistoryNext sh dir) ≠ none) := by
  have hfit : ∀ i, (cstr (sh.cmd_history.getD i [])).length < SHELL_LINE_MAXLEN := by
    intro i
    by_cases hi : i < sh.cmd_history.length
    · rw [List.getD_eq_getElem _ _ hi]
      exact hslots _ (List.getElem_mem hi)
    · rw [List.getD_eq_default _ _ (by omega)]
      simp [cstr, SHELL_LINE_MAXLEN]
  have hpos : sh.history_used > 0 := by omega
  have hH := linenoiseEditHistoryNext_cmd_history sh dir hpos
  obtain ⟨r1, r2, _⟩ := linenoiseEditHistoryNext_ring sh dir
  obtain ⟨o1, o2⟩ := linenoiseEditHistoryNext_offset sh dir hpos ho
  have hi := history_index_lt sh ht
  refine ⟨history_index_eq_mod sh ht (by omega), hi, hH, ?_, fun hc => ?_⟩
  · rw [hH, getD_set_eq _ _ _ _ (by rw [hlen]; exact hi)]
  · obtain ⟨l1, l2, l3, l4⟩ := o2 hc
    have hslot : (linenoiseEditHistoryNext sh dir).cmd_history.getD
          (history_index (linenoiseEditHistoryNext sh dir)) []
        = sh.cmd_history.getD (history_index (linenoiseEditHistoryNext sh dir)) [] := by
      rw [hH, getD_set_ne _ _ _ _ _ (Ne.symm (l4 ht hu))]
    have hload : cstr (linenoiseEditHistoryNext sh dir).cmd_line
        = cstr ((linenoiseEditHistoryNext sh dir).cmd_history.getD
            (history_index (linenoiseEditHistoryNext sh dir)) []) := by
      rw [l1]
      exact cstr_loaded _ (by rw [hslot]; exact hfit _)
    refine ⟨?_, hload, hslot, ?_, ?_, fun w fuel hw hf => ?_⟩
    · have := history_index_eq_mod (linenoiseEditHistoryNext sh dir) (by rw [r1]; exact ht)
        (by omega)
      rw [r1] at this
      exact this
    · rw [l2]; unfold strlen; rw [hload]
    · rw [l3]; unfold strlen; rw [hload]
    · have hfr := edit_frame_linenoiseEditHistoryNext sh dir
      have e1 : (linenoiseEditHistoryNext sh dir).shell_cols = sh.shell_cols := hfr.2.2.1
      have e2 : (linenoiseEditHistoryNext sh dir).prompt_len = sh.prompt_len :=
        hfr.2.2.2.2.2.2.2.2.1
      have hlt : (linenoiseEditHistoryNext sh dir).cmd_len < SHELL_LINE_MAXLEN := by
        rw [l2]; unfold strlen; rw [hload, hslot]; exact hfit _
      rw [refreshSingleLine_loops_c_spec w fuel _ (by rw [e1, e2]; exact hp)
        (by rw [l2, l3]) (by rw [e2]; omega) (by omega)]
      exact Option.some_ne_none _

set_option maxRecDepth 100000 in
/-- C19 as amended, witness: a session with `ls` in its history starts an edit
(`shell_cols` is 132, the prompt is empty) and `x` is typed; 'older' is pressed:
the placeholder slot, slot 1, receives `x` and the edit buffer shows `ls`, with
length 2. -/
theorem linenoiseEditHistoryNext_step_witness :
    cstr ((linenoiseEditHistoryNext
        (edit_ops [.insert 120]
          (linenoiseEdit_setup (linenoiseHistoryAdd (ecshell_new_object 0 1 0) [108, 115, 0]).2))
        LINENOISE_HISTORY_PREV).cmd_history.getD 1 []) = [120]
      ∧ cstr (linenoiseEditHistoryNext
        (edit_ops [.insert 120]
          (linenoiseEdit_setup (linenoiseHistoryAdd (ecshell_new_object 0 1 0) [108, 115, 0]).2))
        LINENOISE_HISTORY_PREV).cmd_line = [108, 115]
      ∧ (linenoiseEditHistoryNext
        (edit_ops [.insert 120]
          (linenoiseEdit_setup (linenoiseHistoryAdd (ecshell_new_object 0 1 0) [108, 115, 0]).2))
        LINENOISE_HISTORY_PREV).cmd_len = 2 := by
  obtain ⟨_, _, _, h4, h5⟩ := linenoiseEditHistoryNext_step
    (edit_ops [.insert 120]
      (linenoiseEdit_setup (linenoiseHistoryAdd (ecshell_new_object 0 1 0) [108, 115, 0]).2))
    LINENOISE_HISTORY_PREV
    (by decide) (by decide) (by decide) (by decide) (by decide) (by decide)
  obtain ⟨_, h6, _, h8, _⟩ := h5 (by decide)
  have hidx : history_index
      (edit_ops [.insert 120]
        (linenoiseEdit_setup (linenoiseHistoryAdd (ecshell_new_object 0 1 0) [108, 115, 0]).2))
      = 1 := by decide
  rw [hidx] at h4
  refine ⟨?_, ?_, ?_⟩
  · rw [h4]; decide
  · rw [h6]; decide
  · rw [h8]; decide

set_option maxRecDepth 100000 in
/-- C19, counterexample. The session object as `ecshell_new` builds it, so with
`shell_cols == 0`, with `ls` in its history next to an empty newest slot and `x`
in the edit buffer: 16 slots, `history_tail == 2`, `history_used == 2`,
`history_offset == 0`, a terminated string in every slot. An 'older' step
changes the offset to 1, loads `ls` and redraws a session in single-line mode
with `prompt_len == 0`, `shell_cols == 0` and `cmd_len == cmd_cursor == 2`: the
condition `plen + pos >= 0` of the first redraw loop holds at every test, so
the loop does not end and the step does not return, whatever the width of
`size_t` and the number of rounds waited for. -/
theorem linenoiseEditHistoryNext_redraw_never_ends :
    ({ ecshell_new_object 0 1 0 with
        cmd_history := [[108, 115, 0], [0]] ++ List.replicate 14 [0]
        history_tail := 2, history_used := 2
        cmd_line := 120 :: List.replicate 255 0
        cmd_len := 1, cmd_cursor := 1 } : ecshell_t).history_offset
          < ({ ecshell_new_object 0 1 0 with
            cmd_history := [[108, 115, 0], [0]] ++ List.replicate 14 [0]
            history_tail := 2, history_used := 2
            cmd_line := 120 :: List.replicate 255 0
            cmd_len := 1, cmd_cursor := 1 } : ecshell_t).history_used
      ∧ linenoiseEditHistoryNext { ecshell_new_object 0 1 0 with
          cmd_history := [[108, 115, 0], [0]] ++ List.replicate 14 [0]
          history_tail := 2, history_used := 2
          cmd_line := 120 :: List.replicate 255 0
          cmd_len := 1, cmd_cursor := 1 } LINENOISE_HISTORY_PREV
        = refreshLine { ecshell_new_object 0 1 0 with
            cmd_history := [[108, 115, 0], 120 :: List.replicate 255 0]
              ++ List.replicate 14 [0]
            history_tail := 2, history_used := 2, history_offset := 1
            cmd_line := [108, 115] ++ List.replicate 254 0
            cmd_len := 2, cmd_cursor := 2 }
      ∧ ({ ecshell_new_object 0 1 0 with
            cmd_history := [[108, 115, 0], 120 :: List.replicate 255 0]
              ++ List.replicate 14 [0]
            history_tail := 2, history_used := 2, history_offset := 1
            cmd_line := [108, 115] ++ List.replicate 254 0
            cmd_len := 2, cmd_cursor := 2 } : ecshell_t).multiline_mode = false
      ∧ ({ ecshell_new_object 0 1 0 with
            cmd_history := [[108, 115, 0], 120 :: List.replicate 255 0]
              ++ List.replicate 14 [0]
            history_tail := 2, history_used := 2, history_offset := 1
            cmd_line := [108, 115] ++ List.replicate 254 0
            cmd_len := 2, cmd_cursor := 2 } : ecshell_t).shell_cols = 0
      ∧ ∀ w fuel : Nat, refreshSingleLine_loops_c w fuel
          { ecshell_new_object 0 1 0 with
            cmd_history := [[108, 115, 0], 120 :: List.replicate 255 0]
              ++ List.replicate 14 [0]
            history_tail := 2, history_used := 2, history_offset := 1
            cmd_line := [108, 115] ++ List.replicate 254 0
            cmd_len := 2, cmd_cursor := 2 } = none :=
  ⟨by decide, rfl, rfl, rfl,
    fun w fuel => refreshSingleLine_loops_c_zero_cols w fuel _ rfl⟩

/-! ## 'Newer' at offset 0 -/

/-- C20, as amended. With `history_offset == 0` a 'newer' step changes nothing
but one history slot: when the store is not empty the slot with index
`(tail - 1) mod N` (the one `history_index` yields) receives the bytes of the
edit buffer; every other field of the session, the output included, and every
other slot stay as they are. With an empty store nothing changes at all. -/
theorem linenoiseEditHistoryNext_newer_at_zero (sh : ecshell_t) (ho : sh.history_offset = 0) :
    linenoiseEditHistoryNext sh LINENOISE_HISTORY_NEXT
        = { sh with cmd_history :=
              if sh.history_used > 0 then
                sh.cmd_history.set (history_index sh) (sh.cmd_line.take SHELL_LINE_MAXLEN)
              else sh.cmd_history }
      ∧ (sh.history_tail < SHELL_HISTORY_MAXNUM →
          ((history_index sh : Nat) : Int)
            = ((sh.history_tail : Int) - 1) % (SHELL_HISTORY_MAXNUM : Int)) := by
  refine ⟨?_, fun ht => ?_⟩
  · by_cases hu : sh.history_used > 0
    · rw [linenoiseEditHistoryNext_next_stay sh hu ho, if_pos hu]
    · unfold linenoiseEditHistoryNext
      rw [if_neg hu, if_neg hu]
  · have := history_index_eq_mod sh ht (by rw [ho]; decide)
    rw [this, ho]
    simp

set_option maxRecDepth 100000 in
/-- C20 as amended, witness: in a new session the edit has started and `a` has
been typed; 'newer' copies the edit buffer into slot 0, the placeholder. -/
theorem linenoiseEditHistoryNext_newer_at_zero_witness :
    (linenoiseEditHistoryNext
        (linenoiseEditInsert (linenoiseEdit_setup (ecshell_new_object 0 1 0)) 97).2
        LINENOISE_HISTORY_NEXT).cmd_history
      = (linenoiseEditInsert (linenoiseEdit_setup (ecshell_new_object 0 1 0)) 97).2.cmd_history.set
          0 (linenoiseEditInsert (linenoiseEdit_setup (ecshell_new_object 0 1 0)) 97).2.cmd_line := by
  have h := (linenoiseEditHistoryNext_newer_at_zero
    (linenoiseEditInsert (linenoiseEdit_setup (ecshell_new_object 0 1 0)) 97).2 (by decide)).1
  rw [h]
  decide

set_option maxRecDepth 100000 in
/-- C20, counterexample. In a new session the edit has started and `a` has been
typed, so `history_offset` is 0 and slot 0 holds the empty placeholder. After
'newer' slot 0 holds `a`: a history slot has changed. -/
theorem linenoiseEditHistoryNext_newer_changes_slot :
    (linenoiseEditInsert (linenoiseEdit_setup (ecshell_new_object 0 1 0)) 97).2.history_offset = 0
      ∧ cstr ((linenoiseEditInsert (linenoiseEdit_setup (ecshell_new_object 0 1 0)) 97).2.cmd_history.getD
          0 []) = []
      ∧ cstr ((linenoiseEditHistoryNext
          (linenoiseEditInsert (linenoiseEdit_setup (ecshell_new_object 0 1 0)) 97).2
          LINENOISE_HISTORY_NEXT).cmd_history.getD 0 []) = [97]
      ∧ linenoiseEditHistoryNext
          (linenoiseEditInsert (linenoiseEdit_setup (ecshell_new_object 0 1 0)) 97).2
          LINENOISE_HISTORY_NEXT
        ≠ (linenoiseEditInsert (linenoiseEdit_setup (ecshell_new_object 0 1 0)) 97).2 := by
  decide

/-! ## What the editor does to the history store -/

theorem same_history_mk (s t : ecshell_t) (h1 : t.history_head = s.history_head)
    (h2 : t.history_tail = s.history_tail) (h3 : t.history_used = s.history_used)
    (h4 : t.history_offset = s.history_offset) (h5 : t.cmd_history = s.cmd_history) :
    same_history s t :=
  ⟨h1, h2, h3, h4, h5⟩

theorem same_history_refl (s : ecshell_t) : same_history s s :=
  same_history_mk s s rfl rfl rfl rfl rfl

theorem same_history_trans (s t u : ecshell_t) (h1 : same_history s t) (h2 : same_history t u) :
    same_history s u := by
  obtain ⟨a1, a2, a3, a4, a5⟩ := h1
  obtain ⟨b1, b2, b3, b4, b5⟩ := h2
  exact ⟨b1.trans a1, b2.trans a2, b3.trans a3, b4.trans a4, b5.trans a5⟩

theorem same_history_symm (s t : ecshell_t) (h : same_history s t) : same_history t s := by
  obtain ⟨a1, a2, a3, a4, a5⟩ := h
  exact ⟨a1.symm, a2.symm, a3.symm, a4.symm, a5.symm⟩

theorem same_history_write (s : ecshell_t) (bytes : List Nat) : same_history s (write s bytes) :=
  same_history_mk _ _ rfl rfl rfl rfl rfl

theorem same_history_refreshLine (s t : ecshell_t) (h : same_history s t) :
    same_history s (refreshLine t) := by
  refine same_history_trans s t _ h ?_
  unfold refreshLine
  split <;> exact same_history_mk _ _ rfl rfl rfl rfl rfl

theorem same_history_linenoiseEditInsert (sh : ecshell_t) (c : Nat) :
    same_history sh (linenoiseEditInsert sh c).2 := by
  unfold linenoiseEditInsert
  simp only
  split_ifs
  all_goals first
    | exact same_history_refl sh
    | exact same_history_mk _ _ rfl rfl rfl rfl rfl
    | exact same_history_refreshLine _ _ (same_history_mk _ _ rfl rfl rfl rfl rfl)

theorem same_history_linenoiseEditMoveLeft (sh : ecshell_t) :
    same_history sh (linenoiseEditMoveLeft sh) := by
  unfold linenoiseEditMoveLeft
  split_ifs
  · exact same_history_refreshLine _ _ (same_history_mk _ _ rfl rfl rfl rfl rfl)
  · exact same_history_refl sh

theorem same_history_linenoiseEditMoveRight (sh : ecshell_t) :
    same_history sh (linenoiseEditMoveRight sh) := by
  unfold linenoiseEditMoveRight
  split_ifs
  · exact same_history_refreshLine _ _ (same_history_mk _ _ rfl rfl rfl rfl rfl)
  · exact same_history_refl sh

theorem same_history_linenoiseEditMoveHome (sh : ecshell_t) :
    same_history sh (linenoiseEditMoveHome sh) := by
  unfold linenoiseEditMoveHome
  split_ifs
  · exact same_history_refreshLine _ _ (same_history_mk _ _ rfl rfl rfl rfl rfl)
  · exact same_history_refl sh

theorem same_history_linenoiseEditMoveEnd (sh : ecshell_t) :
    same_history sh (linenoiseEditMoveEnd sh) := by
  unfold linenoiseEditMoveEnd
  split_ifs
  · exact same_history_refreshLine _ _ (same_history_mk _ _ rfl rfl rfl rfl rfl)
  · exact same_history_refl sh

theorem same_history_linenoiseEditDelete (sh : ecshell_t) :
    same_history sh (linenoiseEditDelete sh) := by
  unfold linenoiseEditDelete
  simp only
  split_ifs
  · exact same_history_refreshLine _ _ (same_history_mk _ _ rfl rfl rfl rfl rfl)
  · exact same_history_refl sh

theorem same_history_linenoiseEditBackspace (sh : ecshell_t) :
    same_history sh (linenoiseEditBackspace sh) := by
  unfold linenoiseEditBackspace
  simp only
  split_ifs
  · exact same_history_refreshLine _ _ (same_history_mk _ _ rfl rfl rfl rfl rfl)
  · exact same_history_refl sh

theorem same_history_linenoiseEditDeletePrevWord (sh : ecshell_t) :
    same_history sh (linenoiseEditDeletePrevWord sh) := by
  unfold linenoiseEditDeletePrevWord
  exact same_history_refreshLine _ _ (same_history_mk _ _ rfl rfl rfl rfl rfl)

theorem same_history_linenoiseEdit_ctrl_u (sh : ecshell_t) :
    same_history sh (linenoiseEdit_ctrl_u sh) := by
  unfold linenoiseEdit_ctrl_u
  exact same_history_refreshLine _ _ (same_history_mk _ _ rfl rfl rfl rfl rfl)

theorem same_history_linenoiseEdit_ctrl_k (sh : ecshell_t) :
    same_history sh (linenoiseEdit_ctrl_k sh) := by
  unfold linenoiseEdit_ctrl_k
  exact same_history_refreshLine _ _ (same_history_mk _ _ rfl rfl rfl rfl rfl)

theorem same_history_linenoiseEdit_ctrl_t (sh : ecshell_t) :
    same_history sh (linenoiseEdit_ctrl_t sh) := by
  unfold linenoiseEdit_ctrl_t
  simp only
  by_cases h : sh.cmd_cursor > 0 ∧ sh.cmd_cursor < sh.cmd_len
  · rw [if_pos h]
    exact same_history_refreshLine _ _ (same_history_mk _ _ rfl rfl rfl rfl rfl)
  · rw [if_neg h]; exact same_history_refl sh

theorem same_history_read (sh : ecshell_t) : same_history sh (read sh).2 := by
  unfold read
  split <;> exact same_history_mk _ _ rfl rfl rfl rfl rfl

theorem same_history_read_seq0 (sh : ecshell_t) : same_history sh (read_seq0 sh) := by
  have := same_history_read sh
  unfold read_seq0
  split
  · next c s1 h =>
    rw [h] at this
    exact same_history_trans _ _ _ this (same_history_mk _ _ rfl rfl rfl rfl rfl)
  · next s1 h => rw [h] at this; exact this

theorem same_history_read_seq1 (sh : ecshell_t) : same_history sh (read_seq1 sh) := by
  have := same_history_read sh
  unfold read_seq1
  split
  · next c s1 h =>
    rw [h] at this
    exact same_history_trans _ _ _ this (same_history_mk _ _ rfl rfl rfl rfl rfl)
  · next s1 h => rw [h] at this; exact this

theorem same_history_read_seq2 (sh : ecshell_t) : same_history sh (read_seq2 sh) := by
  have := same_history_read sh
  unfold read_seq2
  split
  · next c s1 h =>
    rw [h] at this
    exact same_history_trans _ _ _ this (same_history_mk _ _ rfl rfl rfl rfl rfl)
  · next s1 h => rw [h] at this; exact this

theorem nav_step_of_same_history (s t : ecshell_t) (h : same_history s t) : nav_step s t := by
  obtain ⟨a1, a2, a3, a4, _⟩ := h
  exact ⟨a1, a2, a3, fun ho => by rw [a3, a4]; exact ho⟩

theorem nav_step_trans (s t u : ecshell_t) (h1 : nav_step s t) (h2 : nav_step t u) :
    nav_step s u := by
  obtain ⟨a1, a2, a3, a4⟩ := h1
  obtain ⟨b1, b2, b3, b4⟩ := h2
  exact ⟨b1.trans a1, b2.trans a2, b3.trans a3, fun ho => b4 (a4 ho)⟩

theorem nav_step_linenoiseEditHistoryNext (sh : ecshell_t) (dir : Nat) :
    nav_step sh (linenoiseEditHistoryNext sh dir) := by
  obtain ⟨r1, r2, r3⟩ := linenoiseEditHistoryNext_ring sh dir
  refine ⟨r3, r1, r2, fun ho => ?_⟩
  rw [r2]
  exact (linenoiseEditHistoryNext_offset sh dir (by omega) ho).1

theorem nav_step_linenoiseEdit_escape (sh : ecshell_t) :
    nav_step sh (linenoiseEdit_escape sh) := by
  have h1 : nav_step sh (read_seq1 (read_seq0 sh)) :=
    nav_step_of_same_history _ _
      (same_history_trans _ _ _ (same_history_read_seq0 sh) (same_history_read_seq1 _))
  have h2 : nav_step sh (read_seq2 (read_seq1 (read_seq0 sh))) :=
    nav_step_trans _ _ _ h1 (nav_step_of_same_history _ _ (same_history_read_seq2 _))
  unfold linenoiseEdit_escape
  simp only
  split_ifs
  all_goals first
    | exact h1
    | exact h2
    | exact nav_step_trans _ _ _ h2 (nav_step_of_same_history _ _ (same_history_linenoiseEditDelete _))
    | exact nav_step_trans _ _ _ h1 (nav_step_linenoiseEditHistoryNext _ _)
    | exact nav_step_trans _ _ _ h1 (nav_step_of_same_history _ _ (same_history_linenoiseEditMoveRight _))
    | exact nav_step_trans _ _ _ h1 (nav_step_of_same_history _ _ (same_history_linenoiseEditMoveLeft _))
    | exact nav_step_trans _ _ _ h1 (nav_step_of_same_history _ _ (same_history_linenoiseEditMoveHome _))
    | exact nav_step_trans _ _ _ h1 (nav_step_of_same_history _ _ (same_history_linenoiseEditMoveEnd _))

/-- Inside the edit loop the store holds at least the placeholder and the
offset points at a live entry; a key that goes on keeps it so. -/
theorem history_inv_nav_step (s t : ecshell_t) (h : nav_step s t) (hi : history_inv s)
    (h1 : 1 ≤ s.history_used) (h2 : s.history_offset < s.history_used) :
    history_inv t ∧ 1 ≤ t.history_used ∧ t.history_offset < t.history_used := by
  obtain ⟨a1, a2, a3, a4⟩ := h
  obtain ⟨i1, i2, i3, _⟩ := hi
  have := a4 h2
  exact ⟨⟨by rw [a3]; exact i1, by rw [a1]; exact i2, by rw [a2]; exact i3, by omega⟩,
    by rw [a3]; exact h1, this⟩

/-- The placeholder pop keeps the counters in range. -/
theorem history_inv_history_pop (s : ecshell_t) (hi : history_inv s)
    (h2 : s.history_offset < s.history_used) : history_inv (history_pop s) := by
  obtain ⟨i1, i2, i3, _⟩ := hi
  simp only [SHELL_HISTORY_MAXNUM] at i1 i2 i3
  simp only [history_inv, history_pop, SHELL_HISTORY_MAXNUM]
  refine ⟨by omega, i2, ?_, by omega⟩
  split_ifs <;> omega

theorem history_inv_same_history (s t : ecshell_t) (h : same_history s t) (hi : history_inv s) :
    history_inv t := by
  obtain ⟨a1, a2, a3, a4, _⟩ := h
  obtain ⟨i1, i2, i3, i4⟩ := hi
  exact ⟨by rw [a3]; exact i1, by rw [a1]; exact i2, by rw [a2]; exact i3,
    by rw [a3, a4]; exact i4⟩

theorem history_inv_linenoiseEdit_enter (s : ecshell_t) (hi : history_inv s)
    (h2 : s.history_offset < s.history_used) : history_inv (linenoiseEdit_enter s) := by
  have h1 : history_inv (if s.history_used > 0 then history_pop s else s) := by
    split_ifs
    · exact history_inv_history_pop s hi h2
    · exact hi
  show history_inv (if (if s.history_used > 0 then history_pop s else s).multiline_mode
    then linenoiseEditMoveEnd (if s.history_used > 0 then history_pop s else s)
    else (if s.history_used > 0 then history_pop s else s))
  generalize (if s.history_used > 0 then history_pop s else s) = s1 at h1 ⊢
  split_ifs
  · exact history_inv_same_history _ _ (same_history_linenoiseEditMoveEnd s1) h1
  · exact h1

/-- One key inside the edit loop: the counters stay in range, and when the loop
goes on the store still holds an entry and the offset is below `used`. -/
theorem history_inv_linenoiseEdit_key (c : Nat) (sh : ecshell_t) (hi : history_inv sh)
    (h1 : 1 ≤ sh.history_used) (h2 : sh.history_offset < sh.history_used) :
    history_inv (linenoiseEdit_key c sh).2
      ∧ ((linenoiseEdit_key c sh).1 = none →
          1 ≤ (linenoiseEdit_key c sh).2.history_used
            ∧ (linenoiseEdit_key c sh).2.history_offset
                < (linenoiseEdit_key c sh).2.history_used) := by
  have cont : ∀ t, nav_step sh t →
      history_inv t ∧ ((none : Option Int) = none → 1 ≤ t.history_used
        ∧ t.history_offset < t.history_used) := by
    intro t ht
    obtain ⟨b1, b2⟩ := history_inv_nav_step sh t ht hi h1 h2
    exact ⟨b1, fun _ => b2⟩
  have same : ∀ t, same_history sh t →
      history_inv t ∧ ((none : Option Int) = none → 1 ≤ t.history_used
        ∧ t.history_offset < t.history_used) :=
    fun t ht => cont t (nav_step_of_same_history _ _ ht)
  unfold linenoiseEdit_key
  by_cases k0 : c = 13
  · rw [if_pos k0]
    exact ⟨history_inv_linenoiseEdit_enter sh hi h2, fun h => by simp at h⟩
  rw [if_neg k0]
  by_cases k1 : c = 3
  · rw [if_pos k1]
    exact ⟨hi, fun h => by simp at h⟩
  rw [if_neg k1]
  by_cases k2 : c = 127 ∨ c = 8
  · rw [if_pos k2]; exact same _ (same_history_linenoiseEditBackspace sh)
  rw [if_neg k2]
  by_cases k3 : c = 4
  · rw [if_pos k3]
    by_cases hlen : sh.cmd_len > 0
    · rw [if_pos hlen]; exact same _ (same_history_linenoiseEditDelete sh)
    · rw [if_neg hlen]
      exact ⟨history_inv_history_pop sh hi h2, fun h => by simp at h⟩
  rw [if_neg k3]
  by_cases k4 : c = 20
  · rw [if_pos k4]; exact same _ (same_history_linenoiseEdit_ctrl_t sh)
  rw [if_neg k4]
  by_cases k5 : c = 2
  · rw [if_pos k5]; exact same _ (same_history_linenoiseEditMoveLeft sh)
  rw [if_neg k5]
  by_cases k6 : c = 6
  · rw [if_pos k6]; exact same _ (same_history_linenoiseEditMoveRight sh)
  rw [if_neg k6]
  by_cases k7 : c = 16
  · rw [if_pos k7]; exact cont _ (nav_step_linenoiseEditHistoryNext sh _)
  rw [if_neg k7]
  by_cases k8 : c = 14
  · rw [if_pos k8]; exact cont _ (nav_step_linenoiseEditHistoryNext sh _)
  rw [if_neg k8]
  by_cases k9 : c = 27
  · rw [if_pos k9]; exact cont _ (nav_step_linenoiseEdit_escape sh)
  rw [if_neg k9]
  by_cases k10 : c = 21
  · rw [if_pos k10]; exact same _ (same_history_linenoiseEdit_ctrl_u sh)
  rw [if_neg k10]
  by_cases k11 : c = 11
  · rw [if_pos k11]; exact same _ (same_history_linenoiseEdit_ctrl_k sh)
  rw [if_neg k11]
  by_cases k12 : c = 1
  · rw [if_pos k12]; exact same _ (same_history_linenoiseEditMoveHome sh)
  rw [if_neg k12]
  by_cases k13 : c = 5
  · rw [if_pos k13]; exact same _ (same_history_linenoiseEditMoveEnd sh)
  rw [if_neg k13]
  by_cases k14 : c = 12
  · rw [if_pos k14]
    exact same _ (same_history_refreshLine _ _ (same_history_mk _ _ rfl rfl rfl rfl rfl))
  rw [if_neg k14]
  by_cases k15 : c = 23
  · rw [if_pos k15]; exact same _ (same_history_linenoiseEditDeletePrevWord sh)
  rw [if_neg k15]
  have kr : ¬ ((linenoiseEditInsert sh c).1 ≠ 0) := by
    rw [linenoiseEditInsert_fst]; simp
  rw [if_neg kr]
  exact same _ (same_history_linenoiseEditInsert sh c)

/-- Any `linenoiseHistoryAdd` keeps the counters in range, leaves the offset,
and leaves a store that is not empty. -/
theorem history_inv_linenoiseHistoryAdd (s : ecshell_t) (line : List Nat) (hi : history_inv s) :
    history_inv (linenoiseHistoryAdd s line).2
      ∧ 1 ≤ (linenoiseHistoryAdd s line).2.history_used
      ∧ (linenoiseHistoryAdd s line).2.history_offset = s.history_offset := by
  obtain ⟨i1, i2, i3, i4⟩ := hi
  simp only [SHELL_HISTORY_MAXNUM] at i1 i2 i3
  by_cases hd : s.history_used > 0 ∧ strcmp (s.cmd_history.getD
      (if s.history_tail = 0 then SHELL_HISTORY_MAXNUM - 1 else s.history_tail - 1) []) line = 0
  · simp only [linenoiseHistoryAdd, if_pos hd]
    exact ⟨⟨i1, i2, i3, i4⟩, hd.1, trivial⟩
  · by_cases hf : s.history_used ≥ SHELL_HISTORY_MAXNUM
    · simp only [linenoiseHistoryAdd, if_neg hd, if_pos hf, history_inv]
      simp only [SHELL_HISTORY_MAXNUM] at hf ⊢
      refine ⟨⟨by omega, ?_, ?_, by omega⟩, by omega, trivial⟩
      · split_ifs <;> omega
      · split_ifs <;> omega
    · simp only [linenoiseHistoryAdd, if_neg hd, if_neg hf, history_inv]
      simp only [SHELL_HISTORY_MAXNUM] at hf ⊢
      refine ⟨⟨by omega, i2, ?_, by omega⟩, by omega, trivial⟩
      split_ifs <;> omega

theorem history_inv_linenoiseEdit_setup (s : ecshell_t) (hi : history_inv s) :
    history_inv (linenoiseEdit_setup s)
      ∧ 1 ≤ (linenoiseEdit_setup s).history_used
      ∧ (linenoiseEdit_setup s).history_offset < (linenoiseEdit_setup s).history_used := by
  obtain ⟨i1, i2, i3, _⟩ := hi
  unfold linenoiseEdit_setup
  simp only
  generalize hs1 : ({ s with
    prompt_len := strlen s.shell_prompt
    cmd_oldcursor := 0
    cmd_cursor := 0
    cmd_len := 0
    shell_cols := getColumns s.stdin_fd s.stdout_fd
    shell_used_rows := 0
    history_offset := 0
    cmd_line := s.cmd_line.set 0 0 } : ecshell_t) = s1
  have hi1 : history_inv s1 := by
    subst hs1
    exact ⟨i1, i2, i3, Nat.zero_le _⟩
  have ho1 : s1.history_offset = 0 := by subst hs1; rfl
  obtain ⟨b1, b2, b3⟩ := history_inv_linenoiseHistoryAdd s1 (0 :: s.lit_tail) hi1
  exact ⟨b1, b2, by rw [b3, ho1]; omega⟩

/-- The counters of the history store are in range in every reachable state;
inside the edit loop the store is not empty and the offset is below `used`. -/
theorem history_inv_session_reach (b : Bool) (sh : ecshell_t) (h : session_reach b sh) :
    history_inv sh ∧ (b = true → 1 ≤ sh.history_used
      ∧ sh.history_offset < sh.history_used) := by
  induction h with
  | new i_fd o_fd timeout =>
    refine ⟨?_, fun h => by simp at h⟩
    simp [history_inv, ecshell_new_object, SHELL_HISTORY_MAXNUM]
  | other b s t _ hst ih =>
    obtain ⟨a1, a2, a3, a4, _⟩ := hst
    refine ⟨history_inv_same_history s t ⟨a1, a2, a3, a4, ‹_›⟩ ih.1, fun hb => ?_⟩
    rw [a3, a4]
    exact ih.2 hb
  | add s line _ ih =>
    exact ⟨(history_inv_linenoiseHistoryAdd s line ih.1).1, fun h => by simp at h⟩
  | setup s _ ih =>
    obtain ⟨b1, b2, b3⟩ := history_inv_linenoiseEdit_setup s ih.1
    exact ⟨b1, fun _ => ⟨b2, b3⟩⟩
  | key c s _ hnone ih =>
    obtain ⟨j1, j2⟩ := ih.2 rfl
    obtain ⟨b1, b2⟩ := history_inv_linenoiseEdit_key c s ih.1 j1 j2
    exact ⟨b1, fun _ => b2 hnone⟩
  | ret c s _ _ ih =>
    obtain ⟨j1, j2⟩ := ih.2 rfl
    exact ⟨(history_inv_linenoiseEdit_key c s ih.1 j1 j2).1, fun h => by simp at h⟩
  | end_of_input s _ ih =>
    exact ⟨ih.1, fun h => by simp at h⟩

/-- C18. In every state reachable from a new session through line reads (any
keys) and history adds, inside the edit loop or between two line reads:
`history_used <= N`, `history_head < N`, `history_tail < N` and
`history_offset <= history_used`, with `N = 16`; inside the edit loop the store
is moreover not empty and `history_offset < history_used`. -/
theorem history_store_invariants (b : Bool) (sh : ecshell_t) (h : session_reach b sh) :
    sh.history_used ≤ 16 ∧ sh.history_head < 16 ∧ sh.history_tail < 16
      ∧ sh.history_offset ≤ sh.history_used
      ∧ (b = true → 1 ≤ sh.history_used ∧ sh.history_offset < sh.history_used) := by
  obtain ⟨⟨i1, i2, i3, i4⟩, k2⟩ := history_inv_session_reach b sh h
  exact ⟨i1, i2, i3, i4, k2⟩

/-- C18, witness: a new session in which the edit has started and 'older' has
been pressed. -/
theorem history_store_invariants_witness :
    (linenoiseEdit_key 16 (linenoiseEdit_setup (ecshell_new_object 0 1 0))).2.history_used ≤ 16
      ∧ (linenoiseEdit_key 16 (linenoiseEdit_setup (ecshell_new_object 0 1 0))).2.history_head < 16
      ∧ (linenoiseEdit_key 16 (linenoiseEdit_setup (ecshell_new_object 0 1 0))).2.history_tail < 16
      ∧ (linenoiseEdit_key 16 (linenoiseEdit_setup (ecshell_new_object 0 1 0))).2.history_offset
          ≤ (linenoiseEdit_key 16 (linenoiseEdit_setup (ecshell_new_object 0 1 0))).2.history_used := by
  obtain ⟨h1, h2, h3, h4, _⟩ := history_store_invariants true
    (linenoiseEdit_key 16 (linenoiseEdit_setup (ecshell_new_object 0 1 0))).2
    (session_reach.key 16 _ (session_reach.setup _ (session_reach.new 0 1 0)) rfl)
  exact ⟨h1, h2, h3, h4⟩

/-- The loop of `linenoiseEdit` stays within the reachable states, whatever the
input holds. -/
theorem session_reach_linenoiseEdit_loop :
    ∀ (fuel : Nat) (sh : ecshell_t) (r : Int) (sh' : ecshell_t),
      session_reach true sh → linenoiseEdit_loop fuel sh = some (r, sh') →
      session_reach false sh' := by
  intro fuel
  induction fuel with
  | zero => intro sh r sh' _ h; simp [linenoiseEdit_loop] at h
  | succ fuel ih =>
    intro sh r sh' hreach h
    have hr := same_history_read sh
    unfold linenoiseEdit_loop at h
    split at h
    · next s1 he =>
      rw [he] at hr
      simp only [Option.some.injEq, Prod.mk.injEq] at h
      rw [← h.2]
      exact session_reach.end_of_input _ (session_reach.other _ _ _ hreach hr)
    · next c s1 he =>
      rw [he] at hr
      have h1 : session_reach true s1 := session_reach.other _ _ _ hreach hr
      split_ifs at h
      · exact ih _ _ _ h1 h
      · split at h
        · next r2 s2 hk2 =>
          simp only [Option.some.injEq, Prod.mk.injEq] at h
          rw [← h.2]
          have := session_reach.ret c s1 h1 (by rw [hk2]; simp)
          rw [hk2] at this
          exact this
        · next s2 hk2 =>
          have := session_reach.key c s1 h1 (by rw [hk2])
          rw [hk2] at this
          exact ih _ _ _ this h

/-- A line read leads from a reachable state to a reachable state. -/
theorem session_reach_linenoiseEdit (sh : ecshell_t) (r : Int) (sh' : ecshell_t)
    (hreach : session_reach false sh) (h : linenoiseEdit sh = some (r, sh')) :
    session_reach false sh' := by
  unfold linenoiseEdit at h
  exact session_reach_linenoiseEdit_loop _ _ _ _
    (session_reach.other _ _ _ (session_reach.setup _ hreach) (same_history_write _ _)) h

/-- One iteration of the session loop leads from a reachable state to a
reachable state. -/
theorem session_reach_shell_run_step (cmd_map : cmd_map_t) (rs rs' : run_state)
    (hreach : session_reach false rs.sh) (h : shell_run_step cmd_map rs = some rs') :
    session_reach false rs'.sh := by
  have hp : ∀ s, session_reach false (sprintf_prompt rs.sh s) := fun s =>
    session_reach.other _ _ _ hreach (same_history_mk _ _ rfl rfl rfl rfl rfl)
  unfold shell_run_step at h
  split at h
  · unfold shell_run_login at h
    split at h
    · simp at h
    · next err sh1 he =>
      have h1 := session_reach_linenoiseEdit _ _ _ (hp _) he
      simp only [Option.some.injEq] at h
      rw [← h]
      unfold shell_run_login_done
      simp only
      split_ifs <;>
        exact session_reach.other _ _ _ h1 (same_history_mk _ _ rfl rfl rfl rfl rfl)
  · unfold shell_run_authen at h
    split at h
    · simp at h
    · next err sh1 he =>
      have h1 := session_reach_linenoiseEdit _ _ _ (hp _) he
      simp only [Option.some.injEq] at h
      rw [← h]
      unfold shell_run_authen_done
      simp only
      split_ifs <;>
        exact session_reach.other _ _ _ h1 (same_history_mk _ _ rfl rfl rfl rfl rfl)
  · unfold shell_run_cmdline at h
    split at h
    · simp at h
    · next err sh1 he =>
      have h1 := session_reach_linenoiseEdit _ _ _ (hp _) he
      have h2 : session_reach false (write sh1 [13, 10]) :=
        session_reach.other _ _ _ h1 (same_history_write _ _)
      unfold shell_run_cmdline_done at h
      simp only at h
      split_ifs at h
      · split at h
        · simp at h
        · next e _ =>
          simp only [Option.some.injEq] at h
          rw [← h]
          exact session_reach.other _ _ _ (session_reach.add _ _ h2)
            (same_history_mk _ _ rfl rfl rfl rfl rfl)
      · simp only [Option.some.injEq] at h
        rw [← h]
        exact h2
  · simp only [Option.some.injEq] at h
    rw [← h]; exact hreach
  · simp only [Option.some.injEq] at h
    rw [← h]; exact hreach

/-- Every state the session loop of `shell_run` passes through, started on a new
session with any input, is a reachable state. -/
theorem session_reach_shell_run_steps (cmd_map : cmd_map_t) :
    ∀ (n : Nat) (rs rs' : run_state), session_reach false rs.sh →
      shell_run_steps cmd_map n rs = some rs' → session_reach false rs'.sh := by
  intro n
  induction n with
  | zero =>
    intro rs rs' hreach h
    simp only [shell_run_steps, Option.some.injEq] at h
    rw [← h]; exact hreach
  | succ n ih =>
    intro rs rs' hreach h
    unfold shell_run_steps at h
    split at h
    · simp at h
    · next rs1 h1 => exact ih _ _ (session_reach_shell_run_step cmd_map rs rs1 hreach h1) h

/-- The history counters are in range after any number of iterations of the
session loop on a new session, for every input and every registry. -/
theorem history_inv_shell_run_steps (cmd_map : cmd_map_t) (n : Nat) (i_fd o_fd : Int)
    (timeout : Nat) (input : List Nat) (err : Int) (user_name : List Nat) (user_name_len : Nat)
    (rs : run_state)
    (h : shell_run_steps cmd_map n (shell_run_init
      { ecshell_new_object i_fd o_fd timeout with rx := input } err user_name user_name_len)
        = some rs) :
    history_inv rs.sh := by
  have h0 : session_reach false (shell_run_init
      { ecshell_new_object i_fd o_fd timeout with rx := input } err user_name user_name_len).sh :=
    session_reach.other _ _ _ (session_reach.new i_fd o_fd timeout)
      (same_history_mk _ _ rfl rfl rfl rfl rfl)
  have h1 := session_reach_shell_run_steps cmd_map n _ rs h0 h
  exact (history_inv_session_reach false rs.sh h1).1

/-! ## The history store across a typed line -/

theorem history_wf_same_history (s t : ecshell_t) (h : same_history s t) (hwf : history_wf s) :
    history_wf t := by
  obtain ⟨a1, a2, a3, _, a5⟩ := h
  obtain ⟨w1, w2, w3, w4⟩ := hwf
  exact ⟨by rw [a5]; exact w1, by rw [a1]; exact w2, by rw [a3]; exact w3,
    by rw [a1, a2, a3]; exact w4⟩

theorem history_entry_same_history (s t : ecshell_t) (h : same_history s t) (k : Nat) :
    history_entry t k = history_entry s k := by
  obtain ⟨a1, _, _, _, a5⟩ := h
  unfold history_entry
  rw [a1, a5]

/-- The placeholder pop on a well-formed store that is not empty: the newest
entry goes, the others stay. -/
theorem history_pop_entries (s : ecshell_t) (hwf : history_wf s) (h1 : 1 ≤ s.history_used) :
    history_wf (history_pop s)
      ∧ (history_pop s).history_head = s.history_head
      ∧ (history_pop s).history_used = s.history_used - 1
      ∧ (∀ k, k + 1 < s.history_used → history_entry (history_pop s) k = history_entry s k) := by
  obtain ⟨w1, w2, w3, w4⟩ := hwf
  simp only [SHELL_HISTORY_MAXNUM] at w1 w2 w3 w4
  have ht : (if s.history_tail = 0 then SHELL_HISTORY_MAXNUM - 1 else s.history_tail - 1)
      = (s.history_head + (s.history_used - 1)) % 16 := by
    simp only [SHELL_HISTORY_MAXNUM]
    split_ifs <;> omega
  simp only [history_pop, history_wf, history_entry, List.length_set, ht]
  refine ⟨⟨w1, w2, ?_, ?_⟩, trivial, trivial, ?_⟩
  · simp only [SHELL_HISTORY_MAXNUM]; omega
  · simp only [SHELL_HISTORY_MAXNUM]
  · intro k hk
    rw [getD_set_ne]
    simp only [SHELL_HISTORY_MAXNUM]
    omega

/-- On Enter with a store that is not empty the history store is the one the
placeholder pop leaves. -/
theorem linenoiseEdit_enter_history (s : ecshell_t) (h : s.history_used > 0) :
    same_history (history_pop s) (linenoiseEdit_enter s) := by
  show same_history (history_pop s)
    (if (if s.history_used > 0 then history_pop s else s).multiline_mode
      then linenoiseEditMoveEnd (if s.history_used > 0 then history_pop s else s)
      else (if s.history_used > 0 then history_pop s else s))
  rw [if_pos h]
  split_ifs
  · exact same_history_linenoiseEditMoveEnd _
  · exact same_history_refl _

/-- Typing ordinary bytes does not touch the history store: when Enter arrives
the store is the one the loop started with. -/
theorem linenoiseEdit_loop_typed_history (rest : List Nat) :
    ∀ (u : List Nat) (fuel : Nat) (sh : ecshell_t), (∀ c ∈ u, ordinary_key c) →
      sh.rx = u ++ 13 :: rest → u.length < fuel →
      ∃ s2, same_history sh s2
        ∧ linenoiseEdit_loop fuel sh
            = some (((linenoiseEdit_enter s2).cmd_len : Int), linenoiseEdit_enter s2) := by
  intro u
  induction u with
  | nil =>
    intro fuel sh _ hrx hf
    obtain ⟨f, rfl⟩ : ∃ f, fuel = f + 1 := ⟨fuel - 1, by omega⟩
    have hread : read sh = (some 13, { sh with rx := rest }) := by
      unfold read; rw [hrx]; rfl
    have hkey : linenoiseEdit_key 13 { sh with rx := rest }
        = (some ((linenoiseEdit_enter { sh with rx := rest }).cmd_len : Int),
            linenoiseEdit_enter { sh with rx := rest }) := by
      unfold linenoiseEdit_key; rw [if_pos rfl]
    refine ⟨{ sh with rx := rest }, same_history_mk _ _ rfl rfl rfl rfl rfl, ?_⟩
    unfold linenoiseEdit_loop
    rw [hread]
    simp only [hkey]
    rfl
  | cons c u ih =>
    intro fuel sh hord hrx hf
    obtain ⟨f, rfl⟩ : ∃ f, fuel = f + 1 := ⟨fuel - 1, by omega⟩
    have hc : ordinary_key c := hord c (by simp)
    have hc9 : c ≠ 9 := by
      intro h; subst h; simp [ordinary_key] at hc
    have hread : read sh = (some c, { sh with rx := u ++ 13 :: rest }) := by
      unfold read; rw [hrx]; rfl
    have hkey := linenoiseEdit_key_ordinary c { sh with rx := u ++ 13 :: rest } hc
    have hstep : linenoiseEdit_loop (f + 1) sh
        = linenoiseEdit_loop f (linenoiseEditInsert { sh with rx := u ++ 13 :: rest } c).2 := by
      conv_lhs => unfold linenoiseEdit_loop
      rw [hread]
      simp only [if_neg hc9, hkey]
    have j6 := linenoiseEditInsert_rx { sh with rx := u ++ 13 :: rest } c
    obtain ⟨s2, h1, h2⟩ := ih f _ (fun d hd => hord d (by simp [hd])) j6
      (by simp at hf; omega)
    refine ⟨s2, ?_, by rw [hstep]; exact h2⟩
    exact same_history_trans sh { sh with rx := u ++ 13 :: rest } s2
      (same_history_mk _ _ rfl rfl rfl rfl rfl)
      (same_history_trans _ _ _ (same_history_linenoiseEditInsert _ c) h1)

/-- The history store after a line of ordinary bytes submitted with Enter, on a
well-formed store whose newest entry is not the empty string: with a free slot
the store is as before; a full store has lost its oldest entry, which the
placeholder of the edit displaced. -/
theorem linenoiseEdit_typed_history (sh : ecshell_t) (u rest : List Nat)
    (hord : ∀ c ∈ u, ordinary_key c) (hrx : sh.rx = u ++ 13 :: rest) (hwf : history_wf sh)
    (hnew : sh.history_used = 0 ∨ cstr (history_entry sh (sh.history_used - 1)) ≠ []) :
    ∃ r sh', linenoiseEdit sh = some (r, sh')
      ∧ history_wf sh'
      ∧ sh'.history_head = (if sh.history_used = SHELL_HISTORY_MAXNUM
          then (sh.history_head + 1) % SHELL_HISTORY_MAXNUM else sh.history_head)
      ∧ sh'.history_used = (if sh.history_used = SHELL_HISTORY_MAXNUM
          then SHELL_HISTORY_MAXNUM - 1 else sh.history_used)
      ∧ ∀ k, k < sh'.history_used →
          history_entry sh' k
            = history_entry sh (if sh.history_used = SHELL_HISTORY_MAXNUM then k + 1 else k) := by
  -- the placeholder add
  have hsetup : history_wf (linenoiseEdit_setup sh)
      ∧ (linenoiseEdit_setup sh).history_head = (if sh.history_used = SHELL_HISTORY_MAXNUM
          then (sh.history_head + 1) % SHELL_HISTORY_MAXNUM else sh.history_head)
      ∧ (linenoiseEdit_setup sh).history_used = (if sh.history_used = SHELL_HISTORY_MAXNUM
          then SHELL_HISTORY_MAXNUM else sh.history_used + 1)
      ∧ ∀ k, k + 1 < (linenoiseEdit_setup sh).history_used →
          history_entry (linenoiseEdit_setup sh) k
            = history_entry sh (if sh.history_used = SHELL_HISTORY_MAXNUM then k + 1 else k) := by
    unfold linenoiseEdit_setup
    simp only
    generalize hs1 : ({ sh with
      prompt_len := strlen sh.shell_prompt
      cmd_oldcursor := 0
      cmd_cursor := 0
      cmd_len := 0
      shell_cols := getColumns sh.stdin_fd sh.stdout_fd
      shell_used_rows := 0
      history_offset := 0
      cmd_line := sh.cmd_line.set 0 0 } : ecshell_t) = s1
    have e1 : s1.history_head = sh.history_head := by subst hs1; rfl
    have e3 : s1.history_used = sh.history_used := by subst hs1; rfl
    have e5 : ∀ k, history_entry s1 k = history_entry sh k := by subst hs1; intro k; rfl
    have wf1 : history_wf s1 := by subst hs1; exact hwf
    have hc0 : cstr (0 :: sh.lit_tail) = [] := by simp [cstr]
    have hnd : s1.history_used = 0
        ∨ cstr (history_entry s1 (s1.history_used - 1)) ≠ cstr (0 :: sh.lit_tail) := by
      rw [e3, e5, hc0]; exact hnew
    by_cases hf : sh.history_used = SHELL_HISTORY_MAXNUM
    · have hnd2 : cstr (history_entry s1 (s1.history_used - 1)) ≠ cstr (0 :: sh.lit_tail) := by
        rcases hnd with h0 | h0
        · rw [e3, hf] at h0; simp [SHELL_HISTORY_MAXNUM] at h0
        · exact h0
      obtain ⟨_, b2, b3, b4, b5, _⟩ := linenoiseHistoryAdd_full s1 (0 :: sh.lit_tail) wf1
        (by rw [e3]; exact hf) hnd2
      rw [if_pos hf, if_pos hf]
      refine ⟨b2, by rw [b3, e1], b4, fun k hk => ?_⟩
      rw [if_pos hf, b5 k (by rw [b4] at hk; exact hk), e5]
    · have hlt : s1.history_used < SHELL_HISTORY_MAXNUM := by
        rw [e3]
        have := hwf.2.2.1
        omega
      obtain ⟨_, b2, b3, b4, b5, _⟩ := linenoiseHistoryAdd_not_full s1 (0 :: sh.lit_tail) wf1
        hlt hnd
      rw [if_neg hf, if_neg hf]
      refine ⟨b2, by rw [b3, e1], by rw [b4, e3], fun k hk => ?_⟩
      rw [if_neg hf, b5 k (by rw [b4] at hk; omega), e5]
  obtain ⟨s1, s2, s3, s4⟩ := hsetup
  -- the keys typed
  obtain ⟨f1, f2, f3, f4⟩ := linenoiseEdit_setup_fields sh
  have g1 : (write (linenoiseEdit_setup sh)
      ((linenoiseEdit_setup sh).shell_prompt.take (linenoiseEdit_setup sh).prompt_len)).rx
        = u ++ 13 :: rest := by rw [write_rx, f4, hrx]
  obtain ⟨t, ht1, ht2⟩ := linenoiseEdit_loop_typed_history rest u
    ((write (linenoiseEdit_setup sh)
      ((linenoiseEdit_setup sh).shell_prompt.take (linenoiseEdit_setup sh).prompt_len)).rx.length + 1)
    (write (linenoiseEdit_setup sh)
      ((linenoiseEdit_setup sh).shell_prompt.take (linenoiseEdit_setup sh).prompt_len))
    hord g1 (by rw [g1]; simp; omega)
  have hS : same_history (linenoiseEdit_setup sh) t :=
    same_history_trans _ _ _ (same_history_write _ _) ht1
  have wft : history_wf t := history_wf_same_history _ _ hS s1
  have usedt : t.history_used = (linenoiseEdit_setup sh).history_used := hS.2.2.1
  have hpos : t.history_used > 0 := by
    rw [usedt, s3]
    have := hwf.2.2.1
    simp only [SHELL_HISTORY_MAXNUM] at this ⊢
    split_ifs <;> omega
  -- Enter
  obtain ⟨p1, p2, p3, p4⟩ := history_pop_entries t wft hpos
  have hE := linenoiseEdit_enter_history t hpos
  refine ⟨((linenoiseEdit_enter t).cmd_len : Int), linenoiseEdit_enter t, ?_,
    history_wf_same_history _ _ hE p1, ?_, ?_, ?_⟩
  · unfold linenoiseEdit
    simp only
    exact ht2
  · rw [hE.1, p2, hS.1, s2]
  · rw [hE.2.2.1, p3, usedt, s3]
    have := hwf.2.2.1
    simp only [SHELL_HISTORY_MAXNUM] at this ⊢
    split_ifs <;> omega
  · intro k hk
    rw [hE.2.2.1, p3] at hk
    rw [history_entry_same_history _ _ hE, p4 k (by omega), history_entry_same_history _ _ hS]
    exact s4 k (by rw [← usedt]; omega)

/-- A line that repeats the newest entry is not added. -/
theorem linenoiseHistoryAdd_repeat (sh : ecshell_t) (line : List Nat) (hwf : history_wf sh)
    (hpos : sh.history_used > 0)
    (hdup : cstr (history_entry sh (sh.history_used - 1)) = cstr line) :
    linenoiseHistoryAdd sh line = (0, sh) := by
  obtain ⟨_, hhead, hused, htail⟩ := hwf
  simp only [SHELL_HISTORY_MAXNUM] at hhead hused htail
  have hidx : (if sh.history_tail = 0 then SHELL_HISTORY_MAXNUM - 1 else sh.history_tail - 1)
      = (sh.history_head + (sh.history_used - 1)) % SHELL_HISTORY_MAXNUM := by
    simp only [SHELL_HISTORY_MAXNUM]
    split_ifs <;> omega
  have hd : sh.history_used > 0 ∧ strcmp (sh.cmd_history.getD
      (if sh.history_tail = 0 then SHELL_HISTORY_MAXNUM - 1 else sh.history_tail - 1) []) line
        = 0 := by
    refine ⟨hpos, ?_⟩
    rw [strcmp_eq_zero, hidx]
    exact hdup
  simp only [linenoiseHistoryAdd, if_pos hd]

/-! ## An unknown command -/

/-- A buffer whose first `u.length` bytes are `u`, with a NUL after them, holds
the string `u`, provided `u` has no NUL of its own. -/
theorem cstr_of_take (l u : List Nat) (hnz : ∀ c ∈ u, c ≠ 0) (ht : l.take u.length = u)
    (hz : l.getD u.length 0 = 0) (hl : u.length < l.length) : cstr l = u := by
  have h1 : l = u ++ 0 :: l.drop (u.length + 1) := by
    conv_lhs => rw [← List.take_append_drop u.length l]
    rw [ht, List.drop_eq_getElem_cons hl]
    rw [List.getD_eq_getElem _ _ hl] at hz
    rw [hz]
  rw [h1]
  exact cstr_append_zero u _ hnz

/-- The dispatcher on a line whose first argument is not a registered name:
`perror_cmd_404` is written, no handler is called, `-ENOENT` is returned. -/
theorem ecshell_exec_by_line_not_found (cmd_map : cmd_map_t) (line : List Nat)
    (env : ecshell_env_t) (rx tx : List Nat) (r : split_result)
    (hsplit : split_line_to_argv (cstr line ++ [0]) MAX_ARGC = some r) (hargc : r.ret > 0)
    (hreg : ecshell_get_cmd_by_name cmd_map ((argv_strings r).headD []) = none) :
    ecshell_exec_by_line cmd_map line env rx tx
      = some ⟨-ENOENT, rx, tx ++ perror_cmd_404, []⟩ := by
  unfold ecshell_exec_by_line
  simp only [hsplit, if_pos hargc, hreg]

theorem linenoiseHistoryAdd_rx (sh : ecshell_t) (line : List Nat) :
    (linenoiseHistoryAdd sh line).2.rx = sh.rx :=
  (linenoiseHistoryAdd_frame sh line).2.2.2.1

/-- C13, as amended. A `NormalCMDLine` step in which a non-empty line `u` of
ordinary bytes is typed and submitted with Enter, the first argument of `u` not
being a registered name. For every history store the step returns;
`ecshell_exec_by_line` on the line yields `-ENOENT` after writing
`perror_cmd_404`, with which the output ends, and calls no handler; the state is
`NormalCMDLine` again. When the store is well formed, its newest entry is not
the empty string, and it is not both full and ending in `u`, the store is well
formed after the step and has changed by the append of `u` alone: unchanged when
`u` repeats the newest entry, and otherwise `u` is the newest entry, after the
entries there were before (less the oldest one when the store was full). -/
theorem shell_run_unknown_command (cmd_map : cmd_map_t) (rs : run_state) (u rest : List Nat)
    (r : split_result)
    (hst : rs.sh.shell_status = .e_SHELLSTAT_NormalCMDLine)
    (hlen : rs.sh.cmd_line.length = SHELL_LINE_MAXLEN)
    (hord : ∀ c ∈ u, ordinary_key c) (hnz : ∀ c ∈ u, c ≠ 0) (hu0 : u ≠ [])
    (hu : u.length < SHELL_LINE_MAXLEN) (hrx : rs.sh.rx = u ++ 13 :: rest)
    (hsplit : split_line_to_argv (u ++ [0]) MAX_ARGC = some r) (hargc : 0 < r.ret)
    (hreg : ecshell_get_cmd_by_name cmd_map ((argv_strings r).headD []) = none) :
    ∃ rs', shell_run_step cmd_map rs = some rs'
      ∧ cstr rs'.sh.cmd_line = u
      ∧ (∀ env rx tx, ecshell_exec_by_line cmd_map rs'.sh.cmd_line env rx tx
          = some ⟨-ENOENT, rx, tx ++ perror_cmd_404, []⟩)
      ∧ rs'.invoked = rs.invoked
      ∧ rs'.sh.shell_status = .e_SHELLSTAT_NormalCMDLine
      ∧ rs'.sh.rx = rest
      ∧ (∃ out, rs'.sh.tx = out ++ perror_cmd_404)
      ∧ (history_wf rs.sh →
          (rs.sh.history_used = 0
            ∨ cstr (history_entry rs.sh (rs.sh.history_used - 1)) ≠ []) →
          (rs.sh.history_used < SHELL_HISTORY_MAXNUM
            ∨ cstr (history_entry rs.sh (rs.sh.history_used - 1)) ≠ u) →
          history_wf rs'.sh
            ∧ (rs.sh.history_used > 0
                ∧ cstr (history_entry rs.sh (rs.sh.history_used - 1)) = u →
              rs'.sh.history_head = rs.sh.history_head
                ∧ rs'.sh.history_used = rs.sh.history_used
                ∧ ∀ k, k < rs.sh.history_used →
                    history_entry rs'.sh k = history_entry rs.sh k)
            ∧ (rs.sh.history_used = 0
                ∨ cstr (history_entry rs.sh (rs.sh.history_used - 1)) ≠ u →
              rs'.sh.history_used = min (rs.sh.history_used + 1) SHELL_HISTORY_MAXNUM
                ∧ rs'.sh.history_head = (if rs.sh.history_used = SHELL_HISTORY_MAXNUM
                    then (rs.sh.history_head + 1) % SHELL_HISTORY_MAXNUM
                    else rs.sh.history_head)
                ∧ cstr (history_entry rs'.sh (rs'.sh.history_used - 1)) = u
                ∧ ∀ k, k + 1 < rs'.sh.history_used →
                    history_entry rs'.sh k = history_entry rs.sh
                      (if rs.sh.history_used = SHELL_HISTORY_MAXNUM then k + 1 else k))) := by
  -- the line read
  obtain ⟨sh1b, e1, e2, e3, e4, e5⟩ := linenoiseEdit_typed
    (sprintf_prompt rs.sh (cstr rs.user_name ++ prompt_suffix)) u rest hord hrx hlen
  obtain ⟨_, _, _, hz⟩ := edit_inv_linenoiseEdit _ _ _ (by exact hlen) e1
  have hmin : min u.length (SHELL_LINE_MAXLEN - 1) = u.length := by
    simp only [SHELL_LINE_MAXLEN] at hu ⊢
    omega
  rw [hmin] at e1 e2
  have hcs : cstr sh1b.cmd_line = u := by
    apply cstr_of_take _ _ hnz
    · rw [← e2, e3, List.take_of_length_le (by simp only [SHELL_LINE_MAXLEN] at hu ⊢; omega)]
    · rw [← e2]; exact hz
    · rw [e4]; exact hu
  have hpos : ((u.length : Nat) : Int) > 0 := by
    have : u.length ≠ 0 := fun h => hu0 (List.length_eq_zero.mp h)
    omega
  -- the add and the dispatch
  have hexec := ecshell_exec_by_line_not_found cmd_map
    (linenoiseHistoryAdd (write sh1b [13, 10]) (write sh1b [13, 10]).cmd_line).2.cmd_line
    ⟨(linenoiseHistoryAdd (write sh1b [13, 10]) (write sh1b [13, 10]).cmd_line).2.stdin_fd,
      (linenoiseHistoryAdd (write sh1b [13, 10]) (write sh1b [13, 10]).cmd_line).2.stdout_fd,
      (linenoiseHistoryAdd (write sh1b [13, 10]) (write sh1b [13, 10]).cmd_line).2.shell_cols⟩
    (linenoiseHistoryAdd (write sh1b [13, 10]) (write sh1b [13, 10]).cmd_line).2.rx
    (linenoiseHistoryAdd (write sh1b [13, 10]) (write sh1b [13, 10]).cmd_line).2.tx r
    (by rw [linenoiseHistoryAdd_cmd_line, write_cmd_line, hcs]; exact hsplit) hargc hreg
  have hstep : shell_run_step cmd_map rs = some { rs with
      sh := { (linenoiseHistoryAdd (write sh1b [13, 10]) (write sh1b [13, 10]).cmd_line).2 with
        rx := (linenoiseHistoryAdd (write sh1b [13, 10]) (write sh1b [13, 10]).cmd_line).2.rx
        tx := (linenoiseHistoryAdd (write sh1b [13, 10]) (write sh1b [13, 10]).cmd_line).2.tx
          ++ perror_cmd_404
        shell_status := .e_SHELLSTAT_NormalCMDLine }
      err := ((u.length : Nat) : Int)
      invoked := rs.invoked ++ [] } := by
    unfold shell_run_step shell_run_cmdline
    rw [hst]
    simp only
    rw [e1]
    simp only
    unfold shell_run_cmdline_done
    simp only [if_pos hpos, hexec]
  have hS3 : same_history (linenoiseHistoryAdd (write sh1b [13, 10]) (write sh1b [13, 10]).cmd_line).2
      ({ (linenoiseHistoryAdd (write sh1b [13, 10]) (write sh1b [13, 10]).cmd_line).2 with
        rx := (linenoiseHistoryAdd (write sh1b [13, 10]) (write sh1b [13, 10]).cmd_line).2.rx
        tx := (linenoiseHistoryAdd (write sh1b [13, 10]) (write sh1b [13, 10]).cmd_line).2.tx
          ++ perror_cmd_404
        shell_status := .e_SHELLSTAT_NormalCMDLine } : ecshell_t) :=
    same_history_mk _ _ rfl rfl rfl rfl rfl
  have hcs2 : cstr (write sh1b [13, 10]).cmd_line = u := hcs
  have hfit : (cstr (write sh1b [13, 10]).cmd_line).length < SHELL_LINE_MAXLEN := by
    rw [hcs2]; exact hu
  refine ⟨_, hstep, ?_, ?_, by simp, rfl, ?_, ⟨_, rfl⟩, fun hwf hnew hroom => ?_⟩
  · show cstr (linenoiseHistoryAdd (write sh1b [13, 10]) (write sh1b [13, 10]).cmd_line).2.cmd_line
      = u
    rw [linenoiseHistoryAdd_cmd_line]; exact hcs
  · intro env rx tx
    exact ecshell_exec_by_line_not_found cmd_map _ env rx tx r
      (by
        show split_line_to_argv (cstr (linenoiseHistoryAdd (write sh1b [13, 10])
          (write sh1b [13, 10]).cmd_line).2.cmd_line ++ [0]) MAX_ARGC = some r
        rw [linenoiseHistoryAdd_cmd_line, write_cmd_line, hcs]; exact hsplit) hargc hreg
  · show (linenoiseHistoryAdd (write sh1b [13, 10]) (write sh1b [13, 10]).cmd_line).2.rx = rest
    rw [linenoiseHistoryAdd_rx, write_rx, e5]
  · -- the history store
    have hS0 : same_history rs.sh (sprintf_prompt rs.sh (cstr rs.user_name ++ prompt_suffix)) :=
      same_history_mk _ _ rfl rfl rfl rfl rfl
    have hent0 : ∀ k, history_entry (sprintf_prompt rs.sh (cstr rs.user_name ++ prompt_suffix)) k
        = history_entry rs.sh k := fun k => history_entry_same_history _ _ hS0 k
    obtain ⟨r1, sh1c, e1c, w1, w2, w3, w4⟩ := linenoiseEdit_typed_history
      (sprintf_prompt rs.sh (cstr rs.user_name ++ prompt_suffix)) u rest hord hrx
      (history_wf_same_history _ _ hS0 hwf) (by rw [hent0]; exact hnew)
    have hsame : sh1b = sh1c := by
      rw [e1] at e1c
      simp only [Option.some.injEq, Prod.mk.injEq] at e1c
      exact e1c.2
    subst hsame
    have w2 : sh1b.history_head = (if rs.sh.history_used = SHELL_HISTORY_MAXNUM
        then (rs.sh.history_head + 1) % SHELL_HISTORY_MAXNUM else rs.sh.history_head) := w2
    have w3 : sh1b.history_used = (if rs.sh.history_used = SHELL_HISTORY_MAXNUM
        then SHELL_HISTORY_MAXNUM - 1 else rs.sh.history_used) := w3
    have w4 : ∀ k, k < sh1b.history_used → history_entry sh1b k
        = history_entry rs.sh (if rs.sh.history_used = SHELL_HISTORY_MAXNUM then k + 1 else k) := by
      intro k hk
      rw [w4 k hk, hent0]
      rfl
    have hwf2 : history_wf (write sh1b [13, 10]) :=
      history_wf_same_history _ _ (same_history_write _ _) w1
    have hent2 : ∀ k, history_entry (write sh1b [13, 10]) k = history_entry sh1b k :=
      fun k => history_entry_same_history _ _ (same_history_write _ _) k
    have hlt : sh1b.history_used < SHELL_HISTORY_MAXNUM := by
      rw [w3]
      have := hwf.2.2.1
      simp only [SHELL_HISTORY_MAXNUM] at this ⊢
      split_ifs <;> omega
    refine ⟨?_, ?_, ?_⟩
    · -- well-formedness
      apply history_wf_same_history _ _ hS3
      by_cases hd : sh1b.history_used > 0
          ∧ cstr (history_entry sh1b (sh1b.history_used - 1)) = u
      · rw [linenoiseHistoryAdd_repeat _ _ hwf2 hd.1 (by rw [hent2, hcs2]; exact hd.2)]
        exact hwf2
      · exact (linenoiseHistoryAdd_not_full _ _ hwf2 hlt (by
          rw [hent2, hcs2]
          by_cases h0 : sh1b.history_used = 0
          · exact Or.inl h0
          · exact Or.inr (fun h => hd ⟨by omega, h⟩))).2.1
    · -- the line repeats the newest entry
      rintro ⟨hp, hdup⟩
      have hnf : rs.sh.history_used ≠ SHELL_HISTORY_MAXNUM := by
        rcases hroom with h | h
        · omega
        · exact absurd hdup h
      rw [if_neg hnf] at w2 w3
      have w4b : ∀ k, k < sh1b.history_used → history_entry sh1b k = history_entry rs.sh k := by
        intro k hk
        have := w4 k hk
        rw [if_neg hnf] at this
        exact this
      have hrep := linenoiseHistoryAdd_repeat (write sh1b [13, 10]) (write sh1b [13, 10]).cmd_line
        hwf2 (by show sh1b.history_used > 0; rw [w3]; exact hp)
        (by
          show cstr (history_entry (write sh1b [13, 10]) (sh1b.history_used - 1)) = _
          rw [hent2, hcs2, w4b _ (by rw [w3]; omega), w3]; exact hdup)
      refine ⟨?_, ?_, ?_⟩
      · show (linenoiseHistoryAdd (write sh1b [13, 10]) (write sh1b [13, 10]).cmd_line).2.history_head
          = rs.sh.history_head
        rw [hrep]; exact w2
      · show (linenoiseHistoryAdd (write sh1b [13, 10]) (write sh1b [13, 10]).cmd_line).2.history_used
          = rs.sh.history_used
        rw [hrep]; exact w3
      · intro k hk
        rw [history_entry_same_history _ _ hS3, hrep]
        show history_entry (write sh1b [13, 10]) k = _
        rw [hent2, w4b k (by rw [w3]; exact hk)]
    · -- the line is new
      intro hnd
      have hnd2 : (write sh1b [13, 10]).history_used = 0
          ∨ cstr (history_entry (write sh1b [13, 10]) ((write sh1b [13, 10]).history_used - 1))
            ≠ cstr (write sh1b [13, 10]).cmd_line := by
        show sh1b.history_used = 0
          ∨ cstr (history_entry (write sh1b [13, 10]) (sh1b.history_used - 1)) ≠ _
        rw [hent2, hcs2]
        by_cases h0 : sh1b.history_used = 0
        · exact Or.inl h0
        · right
          rw [w4 _ (by omega), w3]
          have hu16 := hwf.2.2.1
          rcases hnd with h | h
          · exfalso
            rw [w3, h] at h0
            simp [SHELL_HISTORY_MAXNUM] at h0
          · by_cases hf : rs.sh.history_used = SHELL_HISTORY_MAXNUM
            · rw [if_pos hf, if_pos hf]
              have e : SHELL_HISTORY_MAXNUM - 1 - 1 + 1 = rs.sh.history_used - 1 := by
                rw [hf]; simp [SHELL_HISTORY_MAXNUM]
              rw [e]; exact h
            · rw [if_neg hf, if_neg hf]; exact h
      obtain ⟨_, _, a3, a4, a5, a6⟩ := linenoiseHistoryAdd_not_full (write sh1b [13, 10])
        (write sh1b [13, 10]).cmd_line hwf2 hlt hnd2
      have a4 : (linenoiseHistoryAdd (write sh1b [13, 10]) (write sh1b [13, 10]).cmd_line).2.history_used
          = sh1b.history_used + 1 := a4
      have hu16 := hwf.2.2.1
      refine ⟨?_, ?_, ?_, ?_⟩
      · show (linenoiseHistoryAdd (write sh1b [13, 10]) (write sh1b [13, 10]).cmd_line).2.history_used
          = _
        rw [a4, w3]
        simp only [SHELL_HISTORY_MAXNUM] at hu16 ⊢
        split_ifs <;> omega
      · show (linenoiseHistoryAdd (write sh1b [13, 10]) (write sh1b [13, 10]).cmd_line).2.history_head
          = _
        rw [a3]; exact w2
      · rw [history_entry_same_history _ _ hS3]
        show cstr (history_entry _
          ((linenoiseHistoryAdd (write sh1b [13, 10]) (write sh1b [13, 10]).cmd_line).2.history_used
            - 1)) = u
        rw [a4, Nat.add_sub_cancel]
        have a6 : history_entry (linenoiseHistoryAdd (write sh1b [13, 10])
            (write sh1b [13, 10]).cmd_line).2 sh1b.history_used
              = (write sh1b [13, 10]).cmd_line.take SHELL_LINE_MAXLEN := a6
        rw [a6, cstr_take _ _ hfit, hcs2]
      · intro k hk
        have hk : k + 1 < (linenoiseHistoryAdd (write sh1b [13, 10])
            (write sh1b [13, 10]).cmd_line).2.history_used := hk
        rw [a4] at hk
        rw [history_entry_same_history _ _ hS3, a5 k (by show k < sh1b.history_used; omega), hent2]
        exact w4 k (by omega)

set_option maxRecDepth 100000 in
/-- C13 as amended, witness: `frobnicate` and Enter in a session at the command
prompt with an empty history and an empty registry. -/
theorem shell_run_unknown_command_witness :
    ∃ rs', shell_run_step (fun _ => none)
        (shell_run_init { ecshell_new_object 0 1 0 with
          shell_status := .e_SHELLSTAT_NormalCMDLine
          rx := [102, 114, 111, 98, 110, 105, 99, 97, 116, 101, 13] } 1 [97, 0] 1) = some rs'
      ∧ rs'.invoked = []
      ∧ rs'.sh.shell_status = .e_SHELLSTAT_NormalCMDLine
      ∧ rs'.sh.history_used = 1
      ∧ cstr (history_entry rs'.sh 0) = [102, 114, 111, 98, 110, 105, 99, 97, 116, 101] := by
  obtain ⟨rs', h1, _, _, h4, h5, _, _, h8⟩ := shell_run_unknown_command (fun _ => none)
    (shell_run_init { ecshell_new_object 0 1 0 with
      shell_status := .e_SHELLSTAT_NormalCMDLine
      rx := [102, 114, 111, 98, 110, 105, 99, 97, 116, 101, 13] } 1 [97, 0] 1)
    [102, 114, 111, 98, 110, 105, 99, 97, 116, 101] []
    ⟨1, [102, 114, 111, 98, 110, 105, 99, 97, 116, 101, 0], [0]⟩
    rfl (by simp [shell_run_init, ecshell_new_object])
    (by simp [ordinary_key]) (by simp) (by simp)
    (by decide) rfl (by decide) (by decide) rfl
  obtain ⟨_, _, h9⟩ := h8
    (by simp [history_wf, shell_run_init, ecshell_new_object, SHELL_HISTORY_MAXNUM])
    (Or.inl rfl) (Or.inl (by decide))
  obtain ⟨k1, _, k3, _⟩ := h9 (Or.inl rfl)
  have k1 : rs'.sh.history_used = 1 := k1
  rw [k1] at k3
  exact ⟨rs', h1, h4, h5, k1, k3⟩

set_option maxRecDepth 1000000 in
/-- C13, counterexample. A new session receives the login `a` / `a`, the sixteen
lines `b`, `c`, ..., `q`, and then `q` once more; the registry is empty, so every
line is an unknown command. After the sixteenth line the history store is full
and holds `b` to `q`. The step that submits the second `q` leaves the state
`NormalCMDLine`, calls no handler, appends nothing, and the oldest entry `b` is gone:
`history_used` is 15 and the store holds `c` to `q`. -/
theorem unknown_command_drops_oldest_entry :
    (shell_run_steps (fun _ => none) 18
        (shell_run_init { ecshell_new_object 0 1 0 with
          rx := [97, 13, 97, 13, 98, 13, 99, 13, 100, 13, 101, 13, 102, 13, 103, 13, 104, 13,
            105, 13, 106, 13, 107, 13, 108, 13, 109, 13, 110, 13, 111, 13, 112, 13, 113, 13,
            113, 13] } 0 [] 0)).map
      (fun rs => (rs.sh.shell_status, rs.sh.history_used, rs.sh.history_head, rs.invoked.length,
        (List.range rs.sh.history_used).map (fun k => cstr (history_entry rs.sh k))))
      = some (.e_SHELLSTAT_NormalCMDLine, 16, 0, 0,
          [[98], [99], [100], [101], [102], [103], [104], [105], [106], [107], [108], [109],
            [110], [111], [112], [113]])
    ∧ (shell_run_steps (fun _ => none) 19
        (shell_run_init { ecshell_new_object 0 1 0 with
          rx := [97, 13, 97, 13, 98, 13, 99, 13, 100, 13, 101, 13, 102, 13, 103, 13, 104, 13,
            105, 13, 106, 13, 107, 13, 108, 13, 109, 13, 110, 13, 111, 13, 112, 13, 113, 13,
            113, 13] } 0 [] 0)).map
      (fun rs => (rs.sh.shell_status, rs.sh.history_used, rs.sh.history_head, rs.invoked.length,
        (List.range rs.sh.history_used).map (fun k => cstr (history_entry rs.sh k))))
      = some (.e_SHELLSTAT_NormalCMDLine, 15, 1, 0,
          [[99], [100], [101], [102], [103], [104], [105], [106], [107], [108], [109],
            [110], [111], [112], [113]]) := by
  exact ⟨by decide, by decide⟩

set_option maxRecDepth 1000000 in
/-- Why the newest entry must not be the empty string: a new session receives
the login `a` / `a`, Ctrl-C at the command prompt, and then the unknown command
`x`. The aborted edit leaves its empty placeholder as the one entry of the
store; the step that submits `x` does not append to it but puts `x` in its
place. -/
theorem unknown_command_replaces_stale_placeholder :
    (shell_run_steps (fun _ => none) 3
        (shell_run_init { ecshell_new_object 0 1 0 with
          rx := [97, 13, 97, 13, 3, 120, 13] } 0 [] 0)).map
      (fun rs => (rs.sh.shell_status, rs.sh.history_used, rs.sh.history_head,
        (List.range rs.sh.history_used).map (fun k => cstr (history_entry rs.sh k))))
      = some (.e_SHELLSTAT_NormalCMDLine, 1, 0, [[]])
    ∧ (shell_run_steps (fun _ => none) 4
        (shell_run_init { ecshell_new_object 0 1 0 with
          rx := [97, 13, 97, 13, 3, 120, 13] } 0 [] 0)).map
      (fun rs => (rs.sh.shell_status, rs.sh.history_used, rs.sh.history_head,
        (List.range rs.sh.history_used).map (fun k => cstr (history_entry rs.sh k))))
      = some (.e_SHELLSTAT_NormalCMDLine, 1, 0, [[120]]) := by
  exact ⟨by decide, by decide⟩

/-! ## A line read that fails -/

/-- The line read on an input that starts with a key that makes the key
`switch` return: the line read returns what the `switch` returns. -/
theorem linenoiseEdit_first_key (sh : ecshell_t) (c : Nat) (rest : List Nat) (r : Int)
    (hrx : sh.rx = c :: rest) (hc : c ≠ 9)
    (hkey : (linenoiseEdit_key c { write (linenoiseEdit_setup sh)
        ((linenoiseEdit_setup sh).shell_prompt.take (linenoiseEdit_setup sh).prompt_len) with
          rx := rest }).1 = some r) :
    linenoiseEdit sh = some (r, (linenoiseEdit_key c { write (linenoiseEdit_setup sh)
        ((linenoiseEdit_setup sh).shell_prompt.take (linenoiseEdit_setup sh).prompt_len) with
          rx := rest }).2) := by
  obtain ⟨_, _, _, f4⟩ := linenoiseEdit_setup_fields sh
  have g1 : (write (linenoiseEdit_setup sh)
      ((linenoiseEdit_setup sh).shell_prompt.take (linenoiseEdit_setup sh).prompt_len)).rx
        = c :: rest := by rw [write_rx, f4, hrx]
  have hread : read (write (linenoiseEdit_setup sh)
      ((linenoiseEdit_setup sh).shell_prompt.take (linenoiseEdit_setup sh).prompt_len))
        = (some c, { write (linenoiseEdit_setup sh)
            ((linenoiseEdit_setup sh).shell_prompt.take (linenoiseEdit_setup sh).prompt_len) with
              rx := rest }) := by
    unfold read; rw [g1]
  have hk : linenoiseEdit_key c { write (linenoiseEdit_setup sh)
        ((linenoiseEdit_setup sh).shell_prompt.take (linenoiseEdit_setup sh).prompt_len) with
          rx := rest }
      = (some r, (linenoiseEdit_key c { write (linenoiseEdit_setup sh)
        ((linenoiseEdit_setup sh).shell_prompt.take (linenoiseEdit_setup sh).prompt_len) with
          rx := rest }).2) := by
    rw [← hkey]
  unfold linenoiseEdit
  simp only
  rw [g1]
  unfold linenoiseEdit_loop
  rw [hread]
  simp only [if_neg hc]
  rw [hk]

/-- Enter on an empty line: the line read returns 0. -/
theorem linenoiseEdit_empty_line (sh : ecshell_t) (rest : List Nat) (hrx : sh.rx = 13 :: rest) :
    ∃ sh', linenoiseEdit sh = some (0, sh') := by
  obtain ⟨f1, _, _, _⟩ := linenoiseEdit_setup_fields sh
  refine ⟨_, linenoiseEdit_first_key sh 13 rest 0 hrx (by decide) ?_⟩
  unfold linenoiseEdit_key
  rw [if_pos rfl]
  have h := (linenoiseEdit_enter_fields { write (linenoiseEdit_setup sh)
    ((linenoiseEdit_setup sh).shell_prompt.take (linenoiseEdit_setup sh).prompt_len) with
      rx := rest }).2
  show some ((linenoiseEdit_enter _).cmd_len : Int) = some 0
  rw [h]
  show some (((linenoiseEdit_setup sh).cmd_len : Nat) : Int) = some 0
  rw [f1]
  rfl

/-- Ctrl-C as the first key: the line read returns -1. -/
theorem linenoiseEdit_ctrl_c (sh : ecshell_t) (rest : List Nat) (hrx : sh.rx = 3 :: rest) :
    ∃ sh', linenoiseEdit sh = some (-1, sh') := by
  refine ⟨_, linenoiseEdit_first_key sh 3 rest (-1) hrx (by decide) ?_⟩
  unfold linenoiseEdit_key
  rw [if_neg (by decide), if_pos rfl]

/-- Ctrl-D as the first key, the line being empty: the line read returns -1. -/
theorem linenoiseEdit_first_ctrl_d (sh : ecshell_t) (rest : List Nat)
    (hrx : sh.rx = 4 :: rest) :
    ∃ sh', linenoiseEdit sh = some (-1, sh') := by
  obtain ⟨f1, _, _, _⟩ := linenoiseEdit_setup_fields sh
  refine ⟨_, linenoiseEdit_first_key sh 4 rest (-1) hrx (by decide) ?_⟩
  have h0 : ¬ (({ write (linenoiseEdit_setup sh)
      ((linenoiseEdit_setup sh).shell_prompt.take (linenoiseEdit_setup sh).prompt_len) with
        rx := rest } : ecshell_t).cmd_len > 0) := by
    show ¬ ((linenoiseEdit_setup sh).cmd_len > 0)
    rw [f1]; decide
  unfold linenoiseEdit_key
  rw [if_neg (by decide), if_neg (by decide), if_neg (by decide), if_pos rfl, if_neg h0]

/-- C21. A line read that returns 0 or less in `WaitUserLogin` leaves the state
`WaitUserLogin`; in `WaitUserAuthen` it makes the state `WaitUserLogin` without a
call of `user_authentication`. In both states the line read and the step return.
An empty line returns 0, Ctrl-C and Ctrl-D on an empty line return -1, so these
are such line reads. -/
theorem shell_run_line_read_failed (cmd_map : cmd_map_t) (rs : run_state) :
    (rs.sh.shell_status = .e_SHELLSTAT_WaitUserLogin →
        ∃ err sh1 rs', linenoiseEdit (sprintf_prompt rs.sh prompt_login) = some (err, sh1)
          ∧ shell_run_step cmd_map rs = some rs'
          ∧ (err ≤ 0 → rs'.sh.shell_status = .e_SHELLSTAT_WaitUserLogin
              ∧ rs'.auth_calls = rs.auth_calls))
      ∧ (rs.sh.shell_status = .e_SHELLSTAT_WaitUserAuthen →
        ∃ err sh1 rs', linenoiseEdit (sprintf_prompt rs.sh prompt_password) = some (err, sh1)
          ∧ shell_run_step cmd_map rs = some rs'
          ∧ (err ≤ 0 → rs'.sh.shell_status = .e_SHELLSTAT_WaitUserLogin
              ∧ rs'.auth_calls = rs.auth_calls))
      ∧ (∀ (sh : ecshell_t) (rest : List Nat),
          (sh.rx = 13 :: rest → ∃ sh', linenoiseEdit sh = some (0, sh'))
            ∧ (sh.rx = 3 :: rest → ∃ sh', linenoiseEdit sh = some (-1, sh'))
            ∧ (sh.rx = 4 :: rest → ∃ sh', linenoiseEdit sh = some (-1, sh'))) := by
  refine ⟨fun hst => ?_, fun hst => ?_, fun sh rest =>
    ⟨linenoiseEdit_empty_line sh rest, linenoiseEdit_ctrl_c sh rest,
      linenoiseEdit_first_ctrl_d sh rest⟩⟩
  · obtain ⟨err, sh1, he⟩ := linenoiseEdit_total (sprintf_prompt rs.sh prompt_login)
    obtain ⟨hf, _⟩ := linenoiseEdit_frame _ _ _ he
    have hst1 : sh1.shell_status = .e_SHELLSTAT_WaitUserLogin := by rw [hf]; exact hst
    obtain ⟨d1, _, _, _, _, _, d7⟩ := shell_run_login_done_status rs err sh1
    refine ⟨err, sh1, shell_run_login_done rs err sh1, he, ?_, fun hle => ⟨?_, d7⟩⟩
    · unfold shell_run_step shell_run_login
      simp only [hst, he]
    · rw [d1, if_neg (by omega), hst1]
  · obtain ⟨err, sh1, he⟩ := linenoiseEdit_total (sprintf_prompt rs.sh prompt_password)
    obtain ⟨d1, _, d3, _⟩ := shell_run_authen_done_status rs err sh1
    refine ⟨err, sh1, shell_run_authen_done rs err sh1, he, ?_, fun hle => ⟨?_, ?_⟩⟩
    · unfold shell_run_step shell_run_authen
      simp only [hst, he]
    · rw [d1, if_neg (by omega)]
    · rw [d3, if_neg (by omega)]

set_option maxRecDepth 100000 in
/-- C21, witness: Enter alone at the first `User Login:` prompt. The line read
returns 0, the step returns and the state is `WaitUserLogin`. -/
theorem shell_run_line_read_failed_witness :
    ∃ rs', shell_run_step (fun _ => none)
          (shell_run_init { ecshell_new_object 0 1 0 with rx := [13] } 0 [] 0) = some rs'
      ∧ rs'.sh.shell_status = shell_status_t.e_SHELLSTAT_WaitUserLogin := by
  obtain ⟨h1, _, h3⟩ := shell_run_line_read_failed (fun _ => none)
    (shell_run_init { ecshell_new_object 0 1 0 with rx := [13] } 0 [] 0)
  obtain ⟨err, sh1, rs', he, hs, hd⟩ := h1 (by decide)
  obtain ⟨sh', h0⟩ := (h3 (sprintf_prompt
    (shell_run_init { ecshell_new_object 0 1 0 with rx := [13] } 0 [] 0).sh prompt_login) []).1
    (by decide)
  rw [h0] at he
  simp only [Option.some.injEq, Prod.mk.injEq] at he
  exact ⟨rs', hs, (hd (by omega)).1⟩

/-! ## The placeholder after an edit -/

set_option maxRecDepth 1000000 in
/-- C22. Three line reads on a new session. After Ctrl-C, and after the end of
the input, the line read has returned with the placeholder still counted
(`history_used` 1, `history_tail` 1). With `x`, Ctrl-P, Ctrl-C the counted slot
holds `x`, a line never submitted; the next line read shows it: Ctrl-P and Enter
at the second `User Login:` prompt submit `x` as the user name. -/
theorem placeholder_left_counted :
    (linenoiseEdit { ecshell_new_object 0 1 0 with rx := [3] }).map
        (fun p => (p.1, p.2.history_used, p.2.history_tail)) = some (-1, 1, 1)
      ∧ (linenoiseEdit { ecshell_new_object 0 1 0 with rx := [] }).map
        (fun p => (p.1, p.2.history_used, p.2.history_tail)) = some (0, 1, 1)
      ∧ (linenoiseEdit { ecshell_new_object 0 1 0 with rx := [120, 16, 3] }).map
        (fun p => (p.1, p.2.history_used, p.2.history_tail, cstr (p.2.cmd_history.getD 0 [])))
          = some (-1, 1, 1, [120])
      ∧ (shell_run_steps (fun _ => none) 2
          (shell_run_init { ecshell_new_object 0 1 0 with rx := [120, 16, 3, 16, 13] }
            0 [] 0)).map
        (fun rs => (rs.sh.shell_status, cstr rs.user_name, rs.sh.history_used,
          cstr (rs.sh.cmd_history.getD 0 [])))
          = some (.e_SHELLSTAT_WaitUserAuthen, [120], 1, [120]) := by
  exact ⟨by decide, by decide, by decide, by decide⟩

/-! ## Enter and the history store -/

/-- C23, as amended. A line of `n <= 255` ordinary bytes followed by Enter: the
line read returns `n` and the edit buffer holds those bytes followed by a NUL,
for every history state. When the store is well formed, has a free slot and its
newest entry is not the empty string, `history_head`, `history_tail`,
`history_used` and every entry of the store are as before the call. -/
theorem linenoiseEdit_typed_restores (sh : ecshell_t) (u rest : List Nat)
    (hord : ∀ c ∈ u, ordinary_key c) (hrx : sh.rx = u ++ 13 :: rest)
    (hu : u.length ≤ SHELL_LINE_MAXLEN - 1) (hlen : sh.cmd_line.length = SHELL_LINE_MAXLEN) :
    ∃ sh', linenoiseEdit sh = some ((u.length : Int), sh')
      ∧ sh'.cmd_len = u.length
      ∧ sh'.cmd_line.take u.length = u
      ∧ sh'.cmd_line.getD u.length 0 = 0
      ∧ (history_wf sh →
          (sh.history_used = 0 ∨ cstr (history_entry sh (sh.history_used - 1)) ≠ []) →
          sh.history_used < SHELL_HISTORY_MAXNUM →
          sh'.history_head = sh.history_head
            ∧ sh'.history_tail = sh.history_tail
            ∧ sh'.history_used = sh.history_used
            ∧ ∀ k, k < sh.history_used → history_entry sh' k = history_entry sh k) := by
  obtain ⟨sh1, e1, e2, e3, _, _⟩ := linenoiseEdit_typed sh u rest hord hrx hlen
  obtain ⟨_, _, _, hz⟩ := edit_inv_linenoiseEdit _ _ _ hlen e1
  have hmin : min u.length (SHELL_LINE_MAXLEN - 1) = u.length := Nat.min_eq_left hu
  have e1k := e1
  rw [hmin] at e1 e2
  refine ⟨sh1, e1, e2, ?_, ?_, fun hwf hnew hroom => ?_⟩
  · rw [← e2, e3, List.take_of_length_le (by omega)]
  · rw [← e2]; exact hz
  · obtain ⟨r1, sh1b, e1b, w1, w2, w3, w4⟩ :=
      linenoiseEdit_typed_history sh u rest hord hrx hwf hnew
    have hsame : sh1b = sh1 := by
      rw [e1] at e1b
      simp only [Option.some.injEq, Prod.mk.injEq] at e1b
      exact e1b.2.symm
    subst hsame
    have hnf : sh.history_used ≠ SHELL_HISTORY_MAXNUM := by omega
    rw [if_neg hnf] at w2 w3
    refine ⟨w2, ?_, w3, ?_⟩
    · rw [w1.2.2.2, hwf.2.2.2, w2, w3]
    · intro k hk
      have := w4 k (by rw [w3]; exact hk)
      rw [if_neg hnf] at this
      exact this

set_option maxRecDepth 100000 in
/-- C23 as amended, witness: `ls` and Enter in a new session. -/
theorem linenoiseEdit_typed_restores_witness :
    ∃ sh', linenoiseEdit { ecshell_new_object 0 1 0 with rx := [108, 115, 13] } = some (2, sh')
      ∧ sh'.cmd_line.take 2 = [108, 115]
      ∧ sh'.history_head = 0 ∧ sh'.history_tail = 0 ∧ sh'.history_used = 0 := by
  obtain ⟨sh', h1, _, h3, _, h5⟩ := linenoiseEdit_typed_restores
    { ecshell_new_object 0 1 0 with rx := [108, 115, 13] } [108, 115] []
    (by simp [ordinary_key]) rfl (by decide) (by simp [ecshell_new_object])
  obtain ⟨k1, k2, k3, _⟩ := h5
    (by simp [history_wf, ecshell_new_object, SHELL_HISTORY_MAXNUM]) (Or.inl rfl) (by decide)
  exact ⟨sh', h1, h3, k1, k2, k3⟩

set_option maxRecDepth 1000000 in
/-- C23, counterexample. A new session receives the login `a` / `a` and the
sixteen lines `b`, ..., `q`, which fill the history store; then `x` and Enter are
read as one more line. The line read returns 1, but the store is not as before:
`history_used` went from 16 to 15, `history_head` from 0 to 1, and the oldest
entry `b` is gone. -/
theorem typed_line_drops_oldest_entry :
    (shell_run_steps (fun _ => none) 18
        (shell_run_init { ecshell_new_object 0 1 0 with
          rx := [97, 13, 97, 13, 98, 13, 99, 13, 100, 13, 101, 13, 102, 13, 103, 13, 104, 13,
            105, 13, 106, 13, 107, 13, 108, 13, 109, 13, 110, 13, 111, 13, 112, 13, 113, 13,
            120, 13] } 0 [] 0)).map
      (fun rs => (rs.sh.history_used, rs.sh.history_head, rs.sh.history_tail,
        (List.range rs.sh.history_used).map (fun k => cstr (history_entry rs.sh k))))
      = some (16, 0, 0,
          [[98], [99], [100], [101], [102], [103], [104], [105], [106], [107], [108], [109],
            [110], [111], [112], [113]])
    ∧ ((shell_run_steps (fun _ => none) 18
        (shell_run_init { ecshell_new_object 0 1 0 with
          rx := [97, 13, 97, 13, 98, 13, 99, 13, 100, 13, 101, 13, 102, 13, 103, 13, 104, 13,
            105, 13, 106, 13, 107, 13, 108, 13, 109, 13, 110, 13, 111, 13, 112, 13, 113, 13,
            120, 13] } 0 [] 0)).bind (fun rs => linenoiseEdit rs.sh)).map
      (fun p => (p.1, p.2.history_used, p.2.history_head, p.2.history_tail,
        (List.range p.2.history_used).map (fun k => cstr (history_entry p.2 k))))
      = some (1, 15, 1, 0,
          [[99], [100], [101], [102], [103], [104], [105], [106], [107], [108], [109],
            [110], [111], [112], [113]]) := by
  exact ⟨by decide, by decide⟩

set_option maxRecDepth 1000000 in
/-- A line read on a store whose newest entry is the empty string: the
placeholder of an edit ended by Ctrl-C is still counted when `x` and Enter are
read as the next line, and Enter removes it, so `history_used` goes from 1 to 0. -/
theorem typed_line_pops_stale_placeholder :
    (linenoiseEdit { ecshell_new_object 0 1 0 with rx := [3, 120, 13] }).map
        (fun p => (p.1, p.2.history_used, p.2.rx)) = some (-1, 1, [120, 13])
      ∧ ((linenoiseEdit { ecshell_new_object 0 1 0 with rx := [3, 120, 13] }).bind
          (fun p => linenoiseEdit p.2)).map
        (fun p => (p.1, p.2.history_used)) = some (1, 0) := by
  exact ⟨by decide, by decide⟩

/-! ## Bytes moved inside the edit buffer -/

theorem take_set_of_le (l : List Nat) (i n v : Nat) (h : n ≤ i) :
    (l.set i v).take n = l.take n := by
  apply List.ext_getElem?
  intro k
  simp only [List.getElem?_take, List.getElem?_set]
  split_ifs <;> first | rfl | omega

theorem memmove_zero (line : List Nat) (dst src : Nat) : memmove line dst src 0 = line := by
  simp [memmove]

/-- The text after a byte has been inserted at `cur`. -/
theorem insert_text (line : List Nat) (cur len c : Nat) (h1 : cur ≤ len)
    (h2 : len + 1 < line.length) :
    (((memmove line (cur + 1) cur (len - cur)).set cur c).set (len + 1) 0).take (len + 1)
      = line.take cur ++ c :: (line.drop cur).take (len - cur) := by
  rw [take_set_of_le _ _ _ _ (le_refl _)]
  apply List.ext_getElem?
  intro k
  simp only [memmove, List.getElem?_take, List.getElem?_set, List.getElem?_append,
    List.getElem?_cons, List.length_take, List.length_append, List.length_drop,
    List.getElem?_drop]
  split_ifs <;> first | rfl | omega | (congr 1; omega)

/-- The text after the bytes from `p` to `cur` have been cut out; the byte at
`len`, the terminator, moves with the rest. -/
theorem cut_text (line : List Nat) (p cur len : Nat) (h0 : p ≤ cur) (h1 : cur ≤ len)
    (h2 : len < line.length) :
    (memmove line p cur (len - cur + 1)).take (len - (cur - p) + 1)
      = line.take p ++ (line.drop cur).take (len - cur + 1) := by
  apply List.ext_getElem?
  intro k
  simp only [memmove, List.getElem?_take, List.getElem?_append,
    List.length_take, List.length_append, List.length_drop, List.getElem?_drop]
  split_ifs <;> first | rfl | omega

/-- The first loop of `linenoiseEditDeletePrevWord` stops right after the run of
spaces that ends at `pos`. -/
theorem skip_spaces_back_spec (line : List Nat) (pos : Nat) :
    (∀ i, skip_spaces_back line pos ≤ i → i < pos → line.getD i 0 = 32)
      ∧ (skip_spaces_back line pos = 0
          ∨ line.getD (skip_spaces_back line pos - 1) 0 ≠ 32) := by
  induction pos with
  | zero => simp [skip_spaces_back]
  | succ p ih =>
    simp only [skip_spaces_back]
    by_cases h : line.getD p 0 = 32
    · rw [if_pos h]
      refine ⟨fun i hi1 hi2 => ?_, ih.2⟩
      by_cases hip : i = p
      · rw [hip]; exact h
      · exact ih.1 i hi1 (by omega)
    · rw [if_neg h]
      exact ⟨fun i hi1 hi2 => by omega, Or.inr (by simpa using h)⟩

/-- The second loop of `linenoiseEditDeletePrevWord` stops right after the run
of bytes other than a space that ends at `pos`. -/
theorem skip_word_back_spec (line : List Nat) (pos : Nat) :
    (∀ i, skip_word_back line pos ≤ i → i < pos → line.getD i 0 ≠ 32)
      ∧ (skip_word_back line pos = 0 ∨ line.getD (skip_word_back line pos - 1) 0 = 32) := by
  induction pos with
  | zero => simp [skip_word_back]
  | succ p ih =>
    simp only [skip_word_back]
    by_cases h : line.getD p 0 ≠ 32
    · rw [if_pos h]
      refine ⟨fun i hi1 hi2 => ?_, ih.2⟩
      by_cases hip : i = p
      · rw [hip]; exact h
      · exact ih.1 i hi1 (by omega)
    · rw [if_neg h]
      exact ⟨fun i hi1 hi2 => by omega, Or.inr (by simpa using h)⟩

/-! ## Insert -/

/-- C25, as amended. In a state that satisfies the edit-buffer invariant: with
`cmd_len < 255` and the prompt shorter than the line (`prompt_len < shell_cols`),
`linenoiseEditInsert` returns 0 and leaves the text
`old[0..cursor) ++ [c] ++ old[cursor..len)` followed by a NUL, `cmd_len + 1` and
`cmd_cursor + 1`, whether the cursor is at the end of the line or inside it, and
the loops of the redraw of the new line, run on the machine (`size_t` of any
width `w` that holds `prompt_len + 256`), end within 256 tests of their
conditions; with `cmd_len == 255` it returns 0 and the session is unchanged. -/
theorem linenoiseEditInsert_text (sh : ecshell_t) (c : Nat) (h : edit_inv sh) :
    (sh.prompt_len < sh.shell_cols → sh.cmd_len < SHELL_LINE_MAXLEN - 1 →
        (linenoiseEditInsert sh c).1 = 0
          ∧ (linenoiseEditInsert sh c).2.cmd_line.take (sh.cmd_len + 1)
              = sh.cmd_line.take sh.cmd_cursor
                ++ c :: (sh.cmd_line.drop sh.cmd_cursor).take (sh.cmd_len - sh.cmd_cursor)
          ∧ (linenoiseEditInsert sh c).2.cmd_line.getD (sh.cmd_len + 1) 0 = 0
          ∧ (linenoiseEditInsert sh c).2.cmd_len = sh.cmd_len + 1
          ∧ (linenoiseEditInsert sh c).2.cmd_cursor = sh.cmd_cursor + 1
          ∧ (∀ w fuel : Nat, sh.prompt_len + SHELL_LINE_MAXLEN ≤ 2 ^ w →
              SHELL_LINE_MAXLEN ≤ fuel →
              refreshSingleLine_loops_c w fuel (linenoiseEditInsert sh c).2 ≠ none))
      ∧ (sh.cmd_len = SHELL_LINE_MAXLEN - 1 → linenoiseEditInsert sh c = (0, sh)) := by
  have hinv := edit_inv_linenoiseEditInsert sh c h
  have hfr := edit_frame_linenoiseEditInsert sh c
  obtain ⟨hl, hc, hn, hz⟩ := h
  refine ⟨fun hp h1 => ?_, fun h1 => ?_⟩
  · have e2 := linenoiseEditInsert_cmd_len sh c
    have e3 := linenoiseEditInsert_cmd_cursor sh c
    have e1 := linenoiseEditInsert_cmd_line sh c
    rw [if_pos h1] at e1 e2 e3
    refine ⟨linenoiseEditInsert_fst sh c, ?_, ?_, e2, e3, fun w fuel hw hf => ?_⟩
    · have ht := insert_text sh.cmd_line sh.cmd_cursor sh.cmd_len c hc
        (by rw [hl]; simp only [SHELL_LINE_MAXLEN] at h1 ⊢; omega)
      rw [e1]
      by_cases h2 : sh.cmd_len = sh.cmd_cursor
      · rw [if_pos h2]
        have hz0 : sh.cmd_len - sh.cmd_cursor = 0 := by omega
        rw [hz0, memmove_zero] at ht
        rw [hz0]
        exact ht
      · rw [if_neg h2]
        exact ht
    · have := hinv.2.2.2
      rw [e2] at this
      exact this
    · have f1 : (linenoiseEditInsert sh c).2.shell_cols = sh.shell_cols := hfr.2.2.1
      have f2 : (linenoiseEditInsert sh c).2.prompt_len = sh.prompt_len :=
        hfr.2.2.2.2.2.2.2.2.1
      exact refreshSingleLine_loops_c_ends _ hinv (by rw [f1, f2]; exact hp) w fuel
        (by rw [f2]; exact hw) hf
  · have hn1 : ¬ (sh.cmd_len < SHELL_LINE_MAXLEN - 1) := by omega
    unfold linenoiseEditInsert
    rw [if_neg hn1]

set_option maxRecDepth 100000 in
/-- C25 as amended, witness: an edit starts on a new session (`shell_cols` is
132, the prompt is empty), `a` and `c` are typed and the cursor is moved one
place left; `b` is then inserted between `a` and `c`. -/
theorem linenoiseEditInsert_text_witness :
    (linenoiseEditInsert
        (edit_ops [.insert 97, .insert 99, .move_left]
          (linenoiseEdit_setup (ecshell_new_object 0 1 0))) 98).2.cmd_line.take 3 = [97, 98, 99]
      ∧ (linenoiseEditInsert
        (edit_ops [.insert 97, .insert 99, .move_left]
          (linenoiseEdit_setup (ecshell_new_object 0 1 0))) 98).2.cmd_len = 3 := by
  obtain ⟨h1, _⟩ := linenoiseEditInsert_text
    (edit_ops [.insert 97, .insert 99, .move_left]
      (linenoiseEdit_setup (ecshell_new_object 0 1 0))) 98
    (by unfold edit_inv; exact ⟨by decide, by decide, by decide, by decide⟩)
  obtain ⟨_, k2, _, k4, _⟩ := h1 (by decide) (by decide)
  exact ⟨k2, k4⟩

set_option maxRecDepth 100000 in
/-- C25, counterexample. The session object as `ecshell_new` builds it, so with
`shell_cols == 0`, with `ac` in the edit buffer and the cursor on `c`: the
edit-buffer invariant holds and `cmd_len` is 2. `linenoiseEditInsert` of `b`
takes the middle-insert path and redraws a session in single-line mode with
`prompt_len == 0`, `shell_cols == 0`, `cmd_len == 3` and `cmd_cursor == 2`: the
condition `plen + pos >= 0` of the first redraw loop holds at every test, so
the loop does not end and the call does not return, whatever the width of
`size_t` and the number of rounds waited for. -/
theorem linenoiseEditInsert_redraw_never_ends :
    edit_inv { ecshell_new_object 0 1 0 with
        cmd_line := [97, 99] ++ List.replicate 254 0, cmd_len := 2, cmd_cursor := 1 }
      ∧ ({ ecshell_new_object 0 1 0 with
          cmd_line := [97, 99] ++ List.replicate 254 0, cmd_len := 2, cmd_cursor := 1 }
            : ecshell_t).cmd_len < SHELL_LINE_MAXLEN - 1
      ∧ linenoiseEditInsert { ecshell_new_object 0 1 0 with
          cmd_line := [97, 99] ++ List.replicate 254 0, cmd_len := 2, cmd_cursor := 1 } 98
        = (0, refreshLine { ecshell_new_object 0 1 0 with
            cmd_line := [97, 98, 99] ++ List.replicate 253 0, cmd_len := 3, cmd_cursor := 2 })
      ∧ ({ ecshell_new_object 0 1 0 with
          cmd_line := [97, 98, 99] ++ List.replicate 253 0, cmd_len := 3, cmd_cursor := 2 }
            : ecshell_t).multiline_mode = false
      ∧ ({ ecshell_new_object 0 1 0 with
          cmd_line := [97, 98, 99] ++ List.replicate 253 0, cmd_len := 3, cmd_cursor := 2 }
            : ecshell_t).shell_cols = 0
      ∧ ∀ w fuel : Nat, refreshSingleLine_loops_c w fuel
          { ecshell_new_object 0 1 0 with
            cmd_line := [97, 98, 99] ++ List.replicate 253 0, cmd_len := 3, cmd_cursor := 2 }
          = none :=
  ⟨by unfold edit_inv; exact ⟨by decide, by decide, by decide, by decide⟩, by decide, rfl, rfl,
    rfl, fun w fuel => refreshSingleLine_loops_c_zero_cols w fuel _ rfl⟩

/-! ## One key of the loop -/

/-- A key for which the `switch` breaks: the loop goes on with the state the key
leaves. -/
theorem linenoiseEdit_loop_key_go (fuel : Nat) (sh : ecshell_t) (c : Nat) (rest : List Nat)
    (hrx : sh.rx = c :: rest) (hc : c ≠ 9)
    (hk : (linenoiseEdit_key c { sh with rx := rest }).1 = none) :
    linenoiseEdit_loop (fuel + 1) sh
      = linenoiseEdit_loop fuel (linenoiseEdit_key c { sh with rx := rest }).2 := by
  have hread : read sh = (some c, { sh with rx := rest }) := by
    unfold read; rw [hrx]
  have hk2 : linenoiseEdit_key c { sh with rx := rest }
      = (none, (linenoiseEdit_key c { sh with rx := rest }).2) := by
    rw [← hk]
  conv_lhs => unfold linenoiseEdit_loop
  rw [hread]
  simp only [if_neg hc]
  rw [hk2]

/-- What `linenoiseEditDeletePrevWord` leaves. -/
theorem linenoiseEditDeletePrevWord_fields (sh : ecshell_t) :
    (linenoiseEditDeletePrevWord sh).cmd_cursor
        = skip_word_back sh.cmd_line (skip_spaces_back sh.cmd_line sh.cmd_cursor)
      ∧ (linenoiseEditDeletePrevWord sh).cmd_len
        = sh.cmd_len - (sh.cmd_cursor
            - skip_word_back sh.cmd_line (skip_spaces_back sh.cmd_line sh.cmd_cursor))
      ∧ (linenoiseEditDeletePrevWord sh).cmd_line
        = memmove sh.cmd_line
            (skip_word_back sh.cmd_line (skip_spaces_back sh.cmd_line sh.cmd_cursor))
            sh.cmd_cursor (sh.cmd_len - sh.cmd_cursor + 1) := by
  unfold linenoiseEditDeletePrevWord
  simp only [refreshLine_cmd_line, refreshLine_cmd_len, refreshLine_cmd_cursor, and_self]

/-- C26, as amended. Ctrl-W in a state that satisfies the edit-buffer invariant
and has the prompt shorter than the line (`prompt_len < shell_cols`). Let `q` be
the position reached from the cursor by stepping back over spaces and `p` the
position reached from `q` by stepping back over bytes other than a space. Then
the cursor is moved to `p`, the text is `old[0..p) ++ old[cursor..len)`, the
length is `len - (cursor - p)`, and a NUL stands at the new length. The loops of
the redraw the call ends with, run on the machine (`size_t` of any width `w`
that holds `prompt_len + 256`), end within 256 tests of their conditions. -/
theorem linenoiseEditDeletePrevWord_text (sh : ecshell_t) (h : edit_inv sh)
    (hp : sh.prompt_len < sh.shell_cols) :
    ∃ q p, q = skip_spaces_back sh.cmd_line sh.cmd_cursor
      ∧ p = skip_word_back sh.cmd_line q
      ∧ p ≤ q ∧ q ≤ sh.cmd_cursor
      ∧ (∀ i, q ≤ i → i < sh.cmd_cursor → sh.cmd_line.getD i 0 = 32)
      ∧ (q = 0 ∨ sh.cmd_line.getD (q - 1) 0 ≠ 32)
      ∧ (∀ i, p ≤ i → i < q → sh.cmd_line.getD i 0 ≠ 32)
      ∧ (p = 0 ∨ sh.cmd_line.getD (p - 1) 0 = 32)
      ∧ (linenoiseEditDeletePrevWord sh).cmd_cursor = p
      ∧ (linenoiseEditDeletePrevWord sh).cmd_len = sh.cmd_len - (sh.cmd_cursor - p)
      ∧ (linenoiseEditDeletePrevWord sh).cmd_line.take (sh.cmd_len - (sh.cmd_cursor - p))
          = sh.cmd_line.take p
            ++ (sh.cmd_line.drop sh.cmd_cursor).take (sh.cmd_len - sh.cmd_cursor)
      ∧ (linenoiseEditDeletePrevWord sh).cmd_line.getD (sh.cmd_len - (sh.cmd_cursor - p)) 0
          = 0
      ∧ (∀ w fuel : Nat, sh.prompt_len + SHELL_LINE_MAXLEN ≤ 2 ^ w → SHELL_LINE_MAXLEN ≤ fuel →
          refreshSingleLine_loops_c w fuel (linenoiseEditDeletePrevWord sh) ≠ none) := by
  have hinv := edit_inv_linenoiseEditDeletePrevWord sh h
  have hfr := edit_frame_linenoiseEditDeletePrevWord sh
  have hends : ∀ w fuel : Nat, sh.prompt_len + SHELL_LINE_MAXLEN ≤ 2 ^ w →
      SHELL_LINE_MAXLEN ≤ fuel →
      refreshSingleLine_loops_c w fuel (linenoiseEditDeletePrevWord sh) ≠ none := by
    intro w fuel hw hf
    have e1 : (linenoiseEditDeletePrevWord sh).shell_cols = sh.shell_cols := hfr.2.2.1
    have e2 : (linenoiseEditDeletePrevWord sh).prompt_len = sh.prompt_len :=
      hfr.2.2.2.2.2.2.2.2.1
    exact refreshSingleLine_loops_c_ends _ hinv (by rw [e1, e2]; exact hp) w fuel
      (by rw [e2]; exact hw) hf
  obtain ⟨hl, hc, hn, hz⟩ := h
  simp only [SHELL_LINE_MAXLEN] at hl hn
  obtain ⟨f1, f2, f3⟩ := linenoiseEditDeletePrevWord_fields sh
  obtain ⟨a1, a2⟩ := skip_spaces_back_spec sh.cmd_line sh.cmd_cursor
  obtain ⟨b1, b2⟩ := skip_word_back_spec sh.cmd_line
    (skip_spaces_back sh.cmd_line sh.cmd_cursor)
  have hq := skip_spaces_back_le sh.cmd_line sh.cmd_cursor
  have hpq := skip_word_back_le sh.cmd_line (skip_spaces_back sh.cmd_line sh.cmd_cursor)
  refine ⟨_, _, rfl, rfl, hpq, hq, a1, a2, b1, b2, f1, f2, ?_, ?_, hends⟩
  · have hcut := cut_text sh.cmd_line
      (skip_word_back sh.cmd_line (skip_spaces_back sh.cmd_line sh.cmd_cursor))
      sh.cmd_cursor sh.cmd_len (by omega) hc (by rw [hl]; exact hn)
    have h2 := congrArg (List.take (sh.cmd_len - (sh.cmd_cursor
      - skip_word_back sh.cmd_line (skip_spaces_back sh.cmd_line sh.cmd_cursor)))) hcut
    rw [List.take_take, Nat.min_eq_left (Nat.le_succ _)] at h2
    rw [f3, h2, List.take_append_eq_append_take, List.take_take, List.take_take,
      List.length_take]
    have e1 : min (sh.cmd_len - (sh.cmd_cursor - skip_word_back sh.cmd_line
          (skip_spaces_back sh.cmd_line sh.cmd_cursor)))
        (skip_word_back sh.cmd_line (skip_spaces_back sh.cmd_line sh.cmd_cursor))
        = skip_word_back sh.cmd_line (skip_spaces_back sh.cmd_line sh.cmd_cursor) := by
      omega
    have e2 : min (sh.cmd_len - (sh.cmd_cursor - skip_word_back sh.cmd_line
          (skip_spaces_back sh.cmd_line sh.cmd_cursor))
          - min (skip_word_back sh.cmd_line (skip_spaces_back sh.cmd_line sh.cmd_cursor))
              sh.cmd_line.length) (sh.cmd_len - sh.cmd_cursor + 1)
        = sh.cmd_len - sh.cmd_cursor := by
      rw [hl]; omega
    rw [e1, e2]
  · have := hinv.2.2.2
    rw [f2] at this
    exact this

set_option maxRecDepth 100000 in
/-- C26 as amended, witness: an edit starts on a new session (`shell_cols` is
132, the prompt is empty), `ab cd  ef` is typed and the cursor is moved two
places left, behind the two spaces; Ctrl-W removes `cd` and the two spaces and
leaves `ab ef` with the cursor at 3. -/
theorem linenoiseEditDeletePrevWord_text_witness :
    (linenoiseEditDeletePrevWord
        (edit_ops [.insert 97, .insert 98, .insert 32, .insert 99, .insert 100, .insert 32,
            .insert 32, .insert 101, .insert 102, .move_left, .move_left]
          (linenoiseEdit_setup (ecshell_new_object 0 1 0)))).cmd_cursor = 3
      ∧ (linenoiseEditDeletePrevWord
        (edit_ops [.insert 97, .insert 98, .insert 32, .insert 99, .insert 100, .insert 32,
            .insert 32, .insert 101, .insert 102, .move_left, .move_left]
          (linenoiseEdit_setup (ecshell_new_object 0 1 0)))).cmd_line.take 5
          = [97, 98, 32, 101, 102] := by
  obtain ⟨q, p, hq, hp, _, _, _, _, _, _, k1, _, k3, _⟩ := linenoiseEditDeletePrevWord_text
    (edit_ops [.insert 97, .insert 98, .insert 32, .insert 99, .insert 100, .insert 32,
        .insert 32, .insert 101, .insert 102, .move_left, .move_left]
      (linenoiseEdit_setup (ecshell_new_object 0 1 0)))
    (by unfold edit_inv; exact ⟨by decide, by decide, by decide, by decide⟩) (by decide)
  have hq5 : q = 5 := by rw [hq]; decide
  have hp3 : p = 3 := by rw [hp, hq5]; decide
  subst hp3
  exact ⟨k1, k3⟩

set_option maxRecDepth 100000 in
/-- C26, counterexample. The session object as `ecshell_new` builds it, so with
`shell_cols == 0`, with `ab cd  ef` in the edit buffer and the cursor behind the
two spaces: the edit-buffer invariant holds. `linenoiseEditDeletePrevWord` moves
the text and redraws a session in single-line mode with `prompt_len == 0`,
`shell_cols == 0`, `cmd_len == 5` and `cmd_cursor == 3`: the condition
`plen + pos >= 0` of the first redraw loop holds at every test, so the loop does
not end and the call does not return, whatever the width of `size_t` and the
number of rounds waited for. -/
theorem linenoiseEditDeletePrevWord_redraw_never_ends :
    edit_inv { ecshell_new_object 0 1 0 with
        cmd_line := [97, 98, 32, 99, 100, 32, 32, 101, 102] ++ List.replicate 247 0
        cmd_len := 9, cmd_cursor := 7 }
      ∧ linenoiseEditDeletePrevWord { ecshell_new_object 0 1 0 with
          cmd_line := [97, 98, 32, 99, 100, 32, 32, 101, 102] ++ List.replicate 247 0
          cmd_len := 9, cmd_cursor := 7 }
        = refreshLine { ecshell_new_object 0 1 0 with
            cmd_line := [97, 98, 32, 101, 102, 0, 32, 101, 102] ++ List.replicate 247 0
            cmd_len := 5, cmd_cursor := 3 }
      ∧ ({ ecshell_new_object 0 1 0 with
          cmd_line := [97, 98, 32, 101, 102, 0, 32, 101, 102] ++ List.replicate 247 0
          cmd_len := 5, cmd_cursor := 3 } : ecshell_t).multiline_mode = false
      ∧ ({ ecshell_new_object 0 1 0 with
          cmd_line := [97, 98, 32, 101, 102, 0, 32, 101, 102] ++ List.replicate 247 0
          cmd_len := 5, cmd_cursor := 3 } : ecshell_t).shell_cols = 0
      ∧ ∀ w fuel : Nat, refreshSingleLine_loops_c w fuel
          { ecshell_new_object 0 1 0 with
            cmd_line := [97, 98, 32, 101, 102, 0, 32, 101, 102] ++ List.replicate 247 0
            cmd_len := 5, cmd_cursor := 3 } = none :=
  ⟨by unfold edit_inv; exact ⟨by decide, by decide, by decide, by decide⟩, rfl, rfl, rfl,
    fun w fuel => refreshSingleLine_loops_c_zero_cols w fuel _ rfl⟩

/-! ## Ctrl-T -/

/-- C27. Ctrl-T in a state that satisfies the edit-buffer invariant. The key
calls the transposition and the loop goes on. With `0 < cmd_cursor < cmd_len`,
in a state of the edit loop (the prompt is shorter than the line,
`prompt_len < shell_cols`: `linenoiseEdit` sets `shell_cols` to 132 and
`prompt_len` to the length of the prompt held in its 64 bytes before it reads
its first key, and no key changes either), the bytes at `cmd_cursor - 1` and
`cmd_cursor` are exchanged, every other byte and the length stay, the cursor
moves one place right unless it stands on the last byte of the line, and the
loops of the redraw of the new line, run on the machine (`size_t` of any width
`w` that holds `prompt_len + 256`), end within 256 tests of their conditions.
In every other state nothing changes. -/
theorem linenoiseEdit_ctrl_t_swap (sh : ecshell_t) (h : edit_inv sh) :
    linenoiseEdit_key 20 sh = (none, linenoiseEdit_ctrl_t sh)
      ∧ (sh.prompt_len < sh.shell_cols → 0 < sh.cmd_cursor ∧ sh.cmd_cursor < sh.cmd_len →
          (linenoiseEdit_ctrl_t sh).cmd_line.getD (sh.cmd_cursor - 1) 0
              = sh.cmd_line.getD sh.cmd_cursor 0
            ∧ (linenoiseEdit_ctrl_t sh).cmd_line.getD sh.cmd_cursor 0
              = sh.cmd_line.getD (sh.cmd_cursor - 1) 0
            ∧ (∀ i, i ≠ sh.cmd_cursor - 1 → i ≠ sh.cmd_cursor →
                (linenoiseEdit_ctrl_t sh).cmd_line.getD i 0 = sh.cmd_line.getD i 0)
            ∧ (linenoiseEdit_ctrl_t sh).cmd_line.length = sh.cmd_line.length
            ∧ (linenoiseEdit_ctrl_t sh).cmd_len = sh.cmd_len
            ∧ (linenoiseEdit_ctrl_t sh).cmd_cursor
              = (if sh.cmd_cursor = sh.cmd_len - 1 then sh.cmd_cursor else sh.cmd_cursor + 1)
            ∧ (∀ w fuel : Nat, sh.prompt_len + SHELL_LINE_MAXLEN ≤ 2 ^ w →
                SHELL_LINE_MAXLEN ≤ fuel →
                refreshSingleLine_loops_c w fuel (linenoiseEdit_ctrl_t sh) ≠ none))
      ∧ (¬ (0 < sh.cmd_cursor ∧ sh.cmd_cursor < sh.cmd_len) →
          linenoiseEdit_ctrl_t sh = sh) := by
  have hinv := edit_inv_linenoiseEdit_ctrl_t sh h
  have hfr := edit_frame_linenoiseEdit_ctrl_t sh
  have hends : sh.prompt_len < sh.shell_cols →
      ∀ w fuel : Nat, sh.prompt_len + SHELL_LINE_MAXLEN ≤ 2 ^ w → SHELL_LINE_MAXLEN ≤ fuel →
      refreshSingleLine_loops_c w fuel (linenoiseEdit_ctrl_t sh) ≠ none := by
    intro hp w fuel hw hf
    have e1 : (linenoiseEdit_ctrl_t sh).shell_cols = sh.shell_cols := hfr.2.2.1
    have e2 : (linenoiseEdit_ctrl_t sh).prompt_len = sh.prompt_len := hfr.2.2.2.2.2.2.2.2.1
    exact refreshSingleLine_loops_c_ends _ hinv (by rw [e1, e2]; exact hp) w fuel
      (by rw [e2]; exact hw) hf
  obtain ⟨hl, hc, hn, hz⟩ := h
  simp only [SHELL_LINE_MAXLEN] at hl hn
  refine ⟨?_, fun hp hcur => ?_, fun hno => ?_⟩
  · unfold linenoiseEdit_key
    rw [if_neg (by decide), if_neg (by decide), if_neg (by decide), if_neg (by decide),
      if_pos rfl]
  · have hcur2 : sh.cmd_cursor > 0 ∧ sh.cmd_cursor < sh.cmd_len := hcur
    refine ⟨?_, ?_, ?_, ?_, ?_, ?_, hends hp⟩
    all_goals unfold linenoiseEdit_ctrl_t
    all_goals simp only [if_pos hcur2, refreshLine_cmd_line, refreshLine_cmd_len,
      refreshLine_cmd_cursor, List.length_set]
    · rw [getD_set_ne _ _ _ _ _ (by omega), getD_set_eq _ _ _ _ (by omega)]
    · rw [getD_set_eq _ _ _ _ (by rw [List.length_set]; omega)]
    · intro i h1 h2
      rw [getD_set_ne _ _ _ _ _ (Ne.symm h2), getD_set_ne _ _ _ _ _ (Ne.symm h1)]
    · split_ifs <;> first | rfl | omega
  · have hno2 : ¬ (sh.cmd_cursor > 0 ∧ sh.cmd_cursor < sh.cmd_len) := hno
    unfold linenoiseEdit_ctrl_t
    rw [if_neg hno2]

set_option maxRecDepth 100000 in
/-- C27, witness: an edit starts on a new session (`shell_cols` is 132, the
prompt is empty), `abc` is typed and the cursor is moved two places left, onto
`b`; Ctrl-T leaves `bac` with the cursor on `c`. -/
theorem linenoiseEdit_ctrl_t_swap_witness :
    (linenoiseEdit_ctrl_t
        (edit_ops [.insert 97, .insert 98, .insert 99, .move_left, .move_left]
          (linenoiseEdit_setup (ecshell_new_object 0 1 0)))).cmd_line.take 3 = [98, 97, 99]
      ∧ (linenoiseEdit_ctrl_t
        (edit_ops [.insert 97, .insert 98, .insert 99, .move_left, .move_left]
          (linenoiseEdit_setup (ecshell_new_object 0 1 0)))).cmd_cursor = 2
      ∧ (linenoiseEdit_key 20
        (edit_ops [.insert 97, .insert 98, .insert 99, .move_left, .move_left]
          (linenoiseEdit_setup (ecshell_new_object 0 1 0)))).1 = none := by
  obtain ⟨h1, h2, _⟩ := linenoiseEdit_ctrl_t_swap
    (edit_ops [.insert 97, .insert 98, .insert 99, .move_left, .move_left]
      (linenoiseEdit_setup (ecshell_new_object 0 1 0)))
    (by unfold edit_inv; exact ⟨by decide, by decide, by decide, by decide⟩)
  obtain ⟨_, _, _, _, _, k6, _⟩ := h2 (by decide) (by decide)
  refine ⟨by decide, ?_, ?_⟩
  · rw [k6]; decide
  · rw [h1]

/-! ## Escape sequences -/

theorem refreshLine_with_seq (s : ecshell_t) (a b c : Nat) :
    refreshLine (with_seq s a b c) = with_seq (refreshLine s) a b c := by
  unfold refreshLine
  by_cases h : s.multiline_mode = true
  · have h2 : (with_seq s a b c).multiline_mode = true := h
    rw [if_pos h, if_pos h2]
    rfl
  · have h2 : ¬ ((with_seq s a b c).multiline_mode = true) := h
    rw [if_neg h, if_neg h2]
    rfl

theorem linenoiseEditMoveLeft_with_seq (s : ecshell_t) (a b c : Nat) :
    linenoiseEditMoveLeft (with_seq s a b c) = with_seq (linenoiseEditMoveLeft s) a b c := by
  unfold linenoiseEditMoveLeft
  by_cases h : s.cmd_cursor > 0
  · have h2 : (with_seq s a b c).cmd_cursor > 0 := h
    rw [if_pos h, if_pos h2]
    exact refreshLine_with_seq { s with cmd_cursor := s.cmd_cursor - 1 } a b c
  · have h2 : ¬ ((with_seq s a b c).cmd_cursor > 0) := h
    rw [if_neg h, if_neg h2]

theorem linenoiseEditMoveRight_with_seq (s : ecshell_t) (a b c : Nat) :
    linenoiseEditMoveRight (with_seq s a b c) = with_seq (linenoiseEditMoveRight s) a b c := by
  unfold linenoiseEditMoveRight
  by_cases h : s.cmd_cursor ≠ s.cmd_len
  · have h2 : (with_seq s a b c).cmd_cursor ≠ (with_seq s a b c).cmd_len := h
    rw [if_pos h, if_pos h2]
    exact refreshLine_with_seq { s with cmd_cursor := s.cmd_cursor + 1 } a b c
  · have h2 : ¬ ((with_seq s a b c).cmd_cursor ≠ (with_seq s a b c).cmd_len) := h
    rw [if_neg h, if_neg h2]

theorem linenoiseEditMoveHome_with_seq (s : ecshell_t) (a b c : Nat) :
    linenoiseEditMoveHome (with_seq s a b c) = with_seq (linenoiseEditMoveHome s) a b c := by
  unfold linenoiseEditMoveHome
  by_cases h : s.cmd_cursor ≠ 0
  · have h2 : (with_seq s a b c).cmd_cursor ≠ 0 := h
    rw [if_pos h, if_pos h2]
    exact refreshLine_with_seq { s with cmd_cursor := 0 } a b c
  · have h2 : ¬ ((with_seq s a b c).cmd_cursor ≠ 0) := h
    rw [if_neg h, if_neg h2]

theorem linenoiseEditMoveEnd_with_seq (s : ecshell_t) (a b c : Nat) :
    linenoiseEditMoveEnd (with_seq s a b c) = with_seq (linenoiseEditMoveEnd s) a b c := by
  unfold linenoiseEditMoveEnd
  by_cases h : s.cmd_cursor ≠ s.cmd_len
  · have h2 : (with_seq s a b c).cmd_cursor ≠ (with_seq s a b c).cmd_len := h
    rw [if_pos h, if_pos h2]
    exact refreshLine_with_seq { s with cmd_cursor := s.cmd_len } a b c
  · have h2 : ¬ ((with_seq s a b c).cmd_cursor ≠ (with_seq s a b c).cmd_len) := h
    rw [if_neg h, if_neg h2]

theorem linenoiseEditDelete_with_seq (s : ecshell_t) (a b c : Nat) :
    linenoiseEditDelete (with_seq s a b c) = with_seq (linenoiseEditDelete s) a b c := by
  unfold linenoiseEditDelete
  by_cases h : s.cmd_len > 0 ∧ s.cmd_cursor < s.cmd_len
  · have h2 : (with_seq s a b c).cmd_len > 0
        ∧ (with_seq s a b c).cmd_cursor < (with_seq s a b c).cmd_len := h
    rw [if_pos h, if_pos h2]
    exact refreshLine_with_seq { s with
      cmd_line := (memmove s.cmd_line s.cmd_cursor (s.cmd_cursor + 1)
        (s.cmd_len - s.cmd_cursor - 1)).set (s.cmd_len - 1) 0
      cmd_len := s.cmd_len - 1 } a b c
  · have h2 : ¬ ((with_seq s a b c).cmd_len > 0
        ∧ (with_seq s a b c).cmd_cursor < (with_seq s a b c).cmd_len) := h
    rw [if_neg h, if_neg h2]

theorem linenoiseEditHistoryNext_with_seq (s : ecshell_t) (dir a b c : Nat) :
    linenoiseEditHistoryNext (with_seq s a b c) dir
      = with_seq (linenoiseEditHistoryNext s dir) a b c := by
  unfold linenoiseEditHistoryNext
  by_cases hu : s.history_used > 0
  · have hu2 : (with_seq s a b c).history_used > 0 := hu
    rw [if_pos hu, if_pos hu2]
    simp only
    by_cases hd : dir = LINENOISE_HISTORY_PREV
    · rw [if_pos hd, if_pos hd]
      by_cases hm : s.history_offset + 1 ≥ s.history_used
      · have hm2 : (with_seq s a b c).history_offset + 1 ≥ (with_seq s a b c).history_used := hm
        rw [if_pos hm, if_pos hm2]
        rfl
      · have hm2 : ¬ ((with_seq s a b c).history_offset + 1
            ≥ (with_seq s a b c).history_used) := hm
        rw [if_neg hm, if_neg hm2]
        refine Eq.trans ?_ (refreshLine_with_seq _ a b c)
        rfl
    · rw [if_neg hd, if_neg hd]
      by_cases hz : s.history_offset = 0
      · have hz2 : (with_seq s a b c).history_offset = 0 := hz
        rw [if_pos hz, if_pos hz2]
        rfl
      · have hz2 : ¬ ((with_seq s a b c).history_offset = 0) := hz
        rw [if_neg hz, if_neg hz2]
        refine Eq.trans ?_ (refreshLine_with_seq _ a b c)
        rfl
  · have hu2 : ¬ ((with_seq s a b c).history_used > 0) := hu
    rw [if_neg hu, if_neg hu2]

theorem linenoiseEdit_key_ctrl_b (sh : ecshell_t) :
    linenoiseEdit_key 2 sh = (none, linenoiseEditMoveLeft sh) := by
  unfold linenoiseEdit_key
  rw [if_neg (by decide), if_neg (by decide), if_neg (by decide), if_neg (by decide), if_neg (by decide), if_pos rfl]

theorem linenoiseEdit_key_ctrl_f (sh : ecshell_t) :
    linenoiseEdit_key 6 sh = (none, linenoiseEditMoveRight sh) := by
  unfold linenoiseEdit_key
  rw [if_neg (by decide), if_neg (by decide), if_neg (by decide), if_neg (by decide), if_neg (by decide), if_neg (by decide), if_pos rfl]

theorem linenoiseEdit_key_ctrl_p (sh : ecshell_t) :
    linenoiseEdit_key 16 sh = (none, linenoiseEditHistoryNext sh LINENOISE_HISTORY_PREV) := by
  unfold linenoiseEdit_key
  rw [if_neg (by decide), if_neg (by decide), if_neg (by decide), if_neg (by decide), if_neg (by decide), if_neg (by decide), if_neg (by decide), if_pos rfl]

theorem linenoiseEdit_key_ctrl_n (sh : ecshell_t) :
    linenoiseEdit_key 14 sh = (none, linenoiseEditHistoryNext sh LINENOISE_HISTORY_NEXT) := by
  unfold linenoiseEdit_key
  rw [if_neg (by decide), if_neg (by decide), if_neg (by decide), if_neg (by decide), if_neg (by decide), if_neg (by decide), if_neg (by decide), if_neg (by decide), if_pos rfl]

theorem linenoiseEdit_key_escape (sh : ecshell_t) :
    linenoiseEdit_key 27 sh = (none, linenoiseEdit_escape sh) := by
  unfold linenoiseEdit_key
  rw [if_neg (by decide), if_neg (by decide), if_neg (by decide), if_neg (by decide), if_neg (by decide), if_neg (by decide), if_neg (by decide), if_neg (by decide), if_neg (by decide), if_pos rfl]

theorem linenoiseEdit_key_ctrl_a (sh : ecshell_t) :
    linenoiseEdit_key 1 sh = (none, linenoiseEditMoveHome sh) := by
  unfold linenoiseEdit_key
  rw [if_neg (by decide), if_neg (by decide), if_neg (by decide), if_neg (by decide), if_neg (by decide), if_neg (by decide), if_neg (by decide), if_neg (by decide), if_neg (by decide), if_neg (by decide), if_neg (by decide), if_neg (by decide), if_pos rfl]

theorem linenoiseEdit_key_ctrl_e (sh : ecshell_t) :
    linenoiseEdit_key 5 sh = (none, linenoiseEditMoveEnd sh) := by
  unfold linenoiseEdit_key
  rw [if_neg (by decide), if_neg (by decide), if_neg (by decide), if_neg (by decide), if_neg (by decide), if_neg (by decide), if_neg (by decide), if_neg (by decide), if_neg (by decide), if_neg (by decide), if_neg (by decide), if_neg (by decide), if_neg (by decide), if_pos rfl]

/-- The two reads of the ESC case, when the input holds two more bytes. -/
theorem read_seq_two (sh : ecshell_t) (a b : Nat) (rest : List Nat) :
    read_seq1 (read_seq0 { sh with rx := a :: b :: rest })
      = with_seq { sh with rx := rest } a b sh.seq2 := rfl

/-- The third read of the ESC case, when the input holds one more byte. -/
theorem read_seq_third (sh : ecshell_t) (a b c z : Nat) (rest : List Nat) :
    read_seq2 (with_seq { sh with rx := z :: rest } a b c)
      = with_seq { sh with rx := rest } a b z := rfl

/-- The ESC case on two more bytes that are not `[` and a digit. -/
theorem linenoiseEdit_escape_two (sh : ecshell_t) (a b : Nat) (rest : List Nat)
    (hnd : ¬ (a = 91 ∧ 48 ≤ b ∧ b ≤ 57)) :
    linenoiseEdit_escape { sh with rx := a :: b :: rest }
      = if a = 91 then
          if b = 65 then
            linenoiseEditHistoryNext (with_seq { sh with rx := rest } a b sh.seq2)
              LINENOISE_HISTORY_PREV
          else if b = 66 then
            linenoiseEditHistoryNext (with_seq { sh with rx := rest } a b sh.seq2)
              LINENOISE_HISTORY_NEXT
          else if b = 67 then linenoiseEditMoveRight (with_seq { sh with rx := rest } a b sh.seq2)
          else if b = 68 then linenoiseEditMoveLeft (with_seq { sh with rx := rest } a b sh.seq2)
          else if b = 72 then linenoiseEditMoveHome (with_seq { sh with rx := rest } a b sh.seq2)
          else if b = 70 then linenoiseEditMoveEnd (with_seq { sh with rx := rest } a b sh.seq2)
          else with_seq { sh with rx := rest } a b sh.seq2
        else if a = 79 then
          if b = 72 then linenoiseEditMoveHome (with_seq { sh with rx := rest } a b sh.seq2)
          else if b = 70 then linenoiseEditMoveEnd (with_seq { sh with rx := rest } a b sh.seq2)
          else with_seq { sh with rx := rest } a b sh.seq2
        else with_seq { sh with rx := rest } a b sh.seq2 := by
  unfold linenoiseEdit_escape
  simp only
  rw [read_seq_two]
  by_cases ha : a = 91
  · have ha2 : (with_seq { sh with rx := rest } a b sh.seq2).seq0 = 91 := ha
    have hb2 : ¬ (48 ≤ (with_seq { sh with rx := rest } a b sh.seq2).seq1
        ∧ (with_seq { sh with rx := rest } a b sh.seq2).seq1 ≤ 57) := fun h => hnd ⟨ha, h⟩
    rw [if_pos ha2, if_neg hb2, if_pos ha]
    rfl
  · have ha2 : ¬ ((with_seq { sh with rx := rest } a b sh.seq2).seq0 = 91) := ha
    rw [if_neg ha2, if_neg ha]
    rfl

/-- The ESC case on `[`, a digit and one more byte. -/
theorem linenoiseEdit_escape_three (sh : ecshell_t) (d z : Nat) (rest : List Nat)
    (h1 : 48 ≤ d) (h2 : d ≤ 57) :
    linenoiseEdit_escape { sh with rx := 91 :: d :: z :: rest }
      = if z = 126 then
          if d = 51 then linenoiseEditDelete (with_seq { sh with rx := rest } 91 d z)
          else with_seq { sh with rx := rest } 91 d z
        else with_seq { sh with rx := rest } 91 d z := by
  unfold linenoiseEdit_escape
  simp only
  rw [read_seq_two]
  have ha2 : (with_seq { sh with rx := z :: rest } 91 d sh.seq2).seq0 = 91 := rfl
  have hb2 : 48 ≤ (with_seq { sh with rx := z :: rest } 91 d sh.seq2).seq1
      ∧ (with_seq { sh with rx := z :: rest } 91 d sh.seq2).seq1 ≤ 57 := ⟨h1, h2⟩
  rw [if_pos ha2, if_pos hb2, read_seq_third]
  rfl

/-- C28. The ESC case after the two (or three) bytes of a known sequence have
been read, against the control key of the same action on the same state:
`ESC [ A`, `ESC [ B`, `ESC [ C`, `ESC [ D` against Ctrl-P, Ctrl-N, Ctrl-F,
Ctrl-B; `ESC [ H` and `ESC O H` against Ctrl-A; `ESC [ F` and `ESC O F` against
Ctrl-E; `ESC [ 3 ~` against `linenoiseEditDelete`. In each pair the loop goes on
and the two sessions are equal, output and remaining input included, up to the
scratch bytes of `seq`, which hold the sequence read. -/
theorem escape_sequence_decoding (sh : ecshell_t) (rest : List Nat) :
    linenoiseEdit_key 27 { sh with rx := 91 :: 65 :: rest }
        = ((linenoiseEdit_key 16 { sh with rx := rest }).1,
            with_seq (linenoiseEdit_key 16 { sh with rx := rest }).2 91 65 sh.seq2)
      ∧ linenoiseEdit_key 27 { sh with rx := 91 :: 66 :: rest }
        = ((linenoiseEdit_key 14 { sh with rx := rest }).1,
            with_seq (linenoiseEdit_key 14 { sh with rx := rest }).2 91 66 sh.seq2)
      ∧ linenoiseEdit_key 27 { sh with rx := 91 :: 67 :: rest }
        = ((linenoiseEdit_key 6 { sh with rx := rest }).1,
            with_seq (linenoiseEdit_key 6 { sh with rx := rest }).2 91 67 sh.seq2)
      ∧ linenoiseEdit_key 27 { sh with rx := 91 :: 68 :: rest }
        = ((linenoiseEdit_key 2 { sh with rx := rest }).1,
            with_seq (linenoiseEdit_key 2 { sh with rx := rest }).2 91 68 sh.seq2)
      ∧ linenoiseEdit_key 27 { sh with rx := 91 :: 72 :: rest }
        = ((linenoiseEdit_key 1 { sh with rx := rest }).1,
            with_seq (linenoiseEdit_key 1 { sh with rx := rest }).2 91 72 sh.seq2)
      ∧ linenoiseEdit_key 27 { sh with rx := 79 :: 72 :: rest }
        = ((linenoiseEdit_key 1 { sh with rx := rest }).1,
            with_seq (linenoiseEdit_key 1 { sh with rx := rest }).2 79 72 sh.seq2)
      ∧ linenoiseEdit_key 27 { sh with rx := 91 :: 70 :: rest }
        = ((linenoiseEdit_key 5 { sh with rx := rest }).1,
            with_seq (linenoiseEdit_key 5 { sh with rx := rest }).2 91 70 sh.seq2)
      ∧ linenoiseEdit_key 27 { sh with rx := 79 :: 70 :: rest }
        = ((linenoiseEdit_key 5 { sh with rx := rest }).1,
            with_seq (linenoiseEdit_key 5 { sh with rx := rest }).2 79 70 sh.seq2)
      ∧ linenoiseEdit_key 27 { sh with rx := 91 :: 51 :: 126 :: rest }
        = (none, with_seq (linenoiseEditDelete { sh with rx := rest }) 91 51 126)
      ∧ (linenoiseEdit_key 16 { sh with rx := rest }).1 = none
      ∧ (linenoiseEdit_key 14 { sh with rx := rest }).1 = none
      ∧ (linenoiseEdit_key 6 { sh with rx := rest }).1 = none
      ∧ (linenoiseEdit_key 2 { sh with rx := rest }).1 = none
      ∧ (linenoiseEdit_key 1 { sh with rx := rest }).1 = none
      ∧ (linenoiseEdit_key 5 { sh with rx := rest }).1 = none := by
  refine ⟨?_, ?_, ?_, ?_, ?_, ?_, ?_, ?_, ?_, ?_, ?_, ?_, ?_, ?_, ?_⟩
  · rw [linenoiseEdit_key_escape, linenoiseEdit_key_ctrl_p,
      linenoiseEdit_escape_two sh 91 65 rest (by decide)]
    exact congrArg (Prod.mk none) (linenoiseEditHistoryNext_with_seq _ _ 91 65 sh.seq2)
  · rw [linenoiseEdit_key_escape, linenoiseEdit_key_ctrl_n,
      linenoiseEdit_escape_two sh 91 66 rest (by decide)]
    exact congrArg (Prod.mk none) (linenoiseEditHistoryNext_with_seq _ _ 91 66 sh.seq2)
  · rw [linenoiseEdit_key_escape, linenoiseEdit_key_ctrl_f,
      linenoiseEdit_escape_two sh 91 67 rest (by decide)]
    exact congrArg (Prod.mk none) (linenoiseEditMoveRight_with_seq _ 91 67 sh.seq2)
  · rw [linenoiseEdit_key_escape, linenoiseEdit_key_ctrl_b,
      linenoiseEdit_escape_two sh 91 68 rest (by decide)]
    exact congrArg (Prod.mk none) (linenoiseEditMoveLeft_with_seq _ 91 68 sh.seq2)
  · rw [linenoiseEdit_key_escape, linenoiseEdit_key_ctrl_a,
      linenoiseEdit_escape_two sh 91 72 rest (by decide)]
    exact congrArg (Prod.mk none) (linenoiseEditMoveHome_with_seq _ 91 72 sh.seq2)
  · rw [linenoiseEdit_key_escape, linenoiseEdit_key_ctrl_a,
      linenoiseEdit_escape_two sh 79 72 rest (by decide)]
    exact congrArg (Prod.mk none) (linenoiseEditMoveHome_with_seq _ 79 72 sh.seq2)
  · rw [linenoiseEdit_key_escape, linenoiseEdit_key_ctrl_e,
      linenoiseEdit_escape_two sh 91 70 rest (by decide)]
    exact congrArg (Prod.mk none) (linenoiseEditMoveEnd_with_seq _ 91 70 sh.seq2)
  · rw [linenoiseEdit_key_escape, linenoiseEdit_key_ctrl_e,
      linenoiseEdit_escape_two sh 79 70 rest (by decide)]
    exact congrArg (Prod.mk none) (linenoiseEditMoveEnd_with_seq _ 79 70 sh.seq2)
  · rw [linenoiseEdit_key_escape, linenoiseEdit_escape_three sh 51 126 rest (by decide) (by decide)]
    exact congrArg (Prod.mk none) (linenoiseEditDelete_with_seq _ 91 51 126)
  · rw [linenoiseEdit_key_ctrl_p]
  · rw [linenoiseEdit_key_ctrl_n]
  · rw [linenoiseEdit_key_ctrl_f]
  · rw [linenoiseEdit_key_ctrl_b]
  · rw [linenoiseEdit_key_ctrl_a]
  · rw [linenoiseEdit_key_ctrl_e]

/-- An ESC followed by two bytes that start no known sequence: the two bytes are
read into `seq` and nothing else is done. -/
theorem linenoiseEdit_escape_unknown_two (sh : ecshell_t) (a b : Nat) (rest : List Nat)
    (h1 : ¬ (a = 91 ∧ ((48 ≤ b ∧ b ≤ 57) ∨ b = 65 ∨ b = 66 ∨ b = 67 ∨ b = 68 ∨ b = 72 ∨ b = 70)))
    (h2 : ¬ (a = 79 ∧ (b = 72 ∨ b = 70))) :
    linenoiseEdit_escape { sh with rx := a :: b :: rest }
      = with_seq { sh with rx := rest } a b sh.seq2 := by
  rw [linenoiseEdit_escape_two sh a b rest (fun h => h1 ⟨h.1, Or.inl h.2⟩)]
  by_cases ha : a = 91
  · rw [if_pos ha,
      if_neg (fun h => h1 ⟨ha, Or.inr (Or.inl h)⟩),
      if_neg (fun h => h1 ⟨ha, Or.inr (Or.inr (Or.inl h))⟩),
      if_neg (fun h => h1 ⟨ha, Or.inr (Or.inr (Or.inr (Or.inl h)))⟩),
      if_neg (fun h => h1 ⟨ha, Or.inr (Or.inr (Or.inr (Or.inr (Or.inl h))))⟩),
      if_neg (fun h => h1 ⟨ha, Or.inr (Or.inr (Or.inr (Or.inr (Or.inr (Or.inl h)))))⟩),
      if_neg (fun h => h1 ⟨ha, Or.inr (Or.inr (Or.inr (Or.inr (Or.inr (Or.inr h)))))⟩)]
  · rw [if_neg ha]
    by_cases ho : a = 79
    · rw [if_pos ho, if_neg (fun h => h2 ⟨ho, Or.inl h⟩), if_neg (fun h => h2 ⟨ho, Or.inr h⟩)]
    · rw [if_neg ho]

/-- An ESC, `[`, a digit and a third byte that do not make `ESC [ 3 ~`: the three
bytes are read into `seq` and nothing else is done. -/
theorem linenoiseEdit_escape_unknown_three (sh : ecshell_t) (d z : Nat) (rest : List Nat)
    (hd1 : 48 ≤ d) (hd2 : d ≤ 57) (hz : ¬ (z = 126 ∧ d = 51)) :
    linenoiseEdit_escape { sh with rx := 91 :: d :: z :: rest }
      = with_seq { sh with rx := rest } 91 d z := by
  rw [linenoiseEdit_escape_three sh d z rest hd1 hd2]
  by_cases h : z = 126
  · rw [if_pos h, if_neg (fun h3 => hz ⟨h, h3⟩)]
  · rw [if_neg h]

/-- C29. Ignored input. A Tab byte is taken from the input and the loop goes on
from the same session. An ESC followed by two bytes `a b` that start no known
sequence, and an ESC `[` digit `d` followed by a byte `z` where `z` is not `~`
or `d` is not `3`, are taken from the input, the `switch` does not return, and
the loop goes on from a session that differs from the one before only in the
input consumed and in the scratch bytes `seq`: the edit buffer, its length, the
cursor, the history store and its counters, and the output are unchanged. -/
theorem ignored_input_no_effect (sh : ecshell_t) (a b d z : Nat) (rest : List Nat) (fuel : Nat)
    (h1 : ¬ (a = 91 ∧ ((48 ≤ b ∧ b ≤ 57) ∨ b = 65 ∨ b = 66 ∨ b = 67 ∨ b = 68 ∨ b = 72 ∨ b = 70)))
    (h2 : ¬ (a = 79 ∧ (b = 72 ∨ b = 70)))
    (hd1 : 48 ≤ d) (hd2 : d ≤ 57) (hz : ¬ (z = 126 ∧ d = 51)) :
    linenoiseEdit_loop (fuel + 1) { sh with rx := 9 :: rest }
        = linenoiseEdit_loop fuel { sh with rx := rest }
      ∧ linenoiseEdit_key 27 { sh with rx := a :: b :: rest }
        = (none, with_seq { sh with rx := rest } a b sh.seq2)
      ∧ linenoiseEdit_loop (fuel + 1) { sh with rx := 27 :: a :: b :: rest }
        = linenoiseEdit_loop fuel (with_seq { sh with rx := rest } a b sh.seq2)
      ∧ linenoiseEdit_key 27 { sh with rx := 91 :: d :: z :: rest }
        = (none, with_seq { sh with rx := rest } 91 d z)
      ∧ linenoiseEdit_loop (fuel + 1) { sh with rx := 27 :: 91 :: d :: z :: rest }
        = linenoiseEdit_loop fuel (with_seq { sh with rx := rest } 91 d z)
      ∧ ∀ p q r : Nat,
          (with_seq { sh with rx := rest } p q r).cmd_line = sh.cmd_line
          ∧ (with_seq { sh with rx := rest } p q r).cmd_len = sh.cmd_len
          ∧ (with_seq { sh with rx := rest } p q r).cmd_cursor = sh.cmd_cursor
          ∧ (with_seq { sh with rx := rest } p q r).cmd_history = sh.cmd_history
          ∧ (with_seq { sh with rx := rest } p q r).history_head = sh.history_head
          ∧ (with_seq { sh with rx := rest } p q r).history_tail = sh.history_tail
          ∧ (with_seq { sh with rx := rest } p q r).history_used = sh.history_used
          ∧ (with_seq { sh with rx := rest } p q r).history_offset = sh.history_offset
          ∧ (with_seq { sh with rx := rest } p q r).tx = sh.tx
          ∧ (with_seq { sh with rx := rest } p q r).rx = rest
          ∧ with_seq { sh with rx := rest } sh.seq0 sh.seq1 sh.seq2 = { sh with rx := rest } := by
  have k2 : linenoiseEdit_key 27 { sh with rx := a :: b :: rest }
      = (none, with_seq { sh with rx := rest } a b sh.seq2) := by
    rw [linenoiseEdit_key_escape, linenoiseEdit_escape_unknown_two sh a b rest h1 h2]
  have k3 : linenoiseEdit_key 27 { sh with rx := 91 :: d :: z :: rest }
      = (none, with_seq { sh with rx := rest } 91 d z) := by
    rw [linenoiseEdit_key_escape, linenoiseEdit_escape_unknown_three sh d z rest hd1 hd2 hz]
  refine ⟨?_, k2, ?_, k3, ?_, ?_⟩
  · conv_lhs => unfold linenoiseEdit_loop
    rfl
  · have e := linenoiseEdit_loop_key_go fuel { sh with rx := 27 :: a :: b :: rest } 27
      (a :: b :: rest) rfl (by decide) (by rw [k2])
    rw [e]
    exact congrArg (linenoiseEdit_loop fuel) (congrArg Prod.snd k2)
  · have e := linenoiseEdit_loop_key_go fuel { sh with rx := 27 :: 91 :: d :: z :: rest } 27
      (91 :: d :: z :: rest) rfl (by decide) (by rw [k3])
    rw [e]
    exact congrArg (linenoiseEdit_loop fuel) (congrArg Prod.snd k3)
  · intro p q r
    exact ⟨rfl, rfl, rfl, rfl, rfl, rfl, rfl, rfl, rfl, rfl, rfl⟩

/-- Witness of C29 on a fresh edit session: `ESC [ Z` meets the hypotheses, and
`ESC [ 5 ~` before an Enter is skipped. -/
theorem ignored_input_no_effect_witness :
    (¬ ((91 : Nat) = 91 ∧ ((48 ≤ 90 ∧ 90 ≤ 57) ∨ 90 = 65 ∨ 90 = 66 ∨ 90 = 67 ∨ 90 = 68
          ∨ 90 = 72 ∨ 90 = 70)))
      ∧ linenoiseEdit_loop 3
          { linenoiseEdit_setup (ecshell_new_object 0 1 0) with rx := 27 :: 91 :: 53 :: 126 :: [13] }
        = linenoiseEdit_loop 2
            (with_seq { linenoiseEdit_setup (ecshell_new_object 0 1 0) with rx := [13] } 91 53 126) :=
  ⟨by decide,
    (ignored_input_no_effect (linenoiseEdit_setup (ecshell_new_object 0 1 0))
      91 90 53 126 [13] 2 (by decide) (by decide) (by decide) (by decide) (by decide)).2.2.2.2.1⟩

/-- The first loop of `refreshSingleLine` with the prompt shorter than the line
and the cursor inside the text: it stops after
`plen + pos + 1 - cols` rounds (none when `plen + pos < cols`), with no index
taken below zero. -/
theorem refreshSingleLine_scroll_spec (plen cols : Nat) (hp : plen < cols) :
    ∀ (pos off len : Nat), pos ≤ len →
      refreshSingleLine_scroll plen cols off len pos
        = some (off + (plen + pos + 1 - cols), len - (plen + pos + 1 - cols),
            pos - (plen + pos + 1 - cols)) := by
  intro pos
  induction pos with
  | zero =>
    intro off len _
    unfold refreshSingleLine_scroll
    have h0 : ¬ (plen + 0 ≥ cols) := by omega
    rw [if_neg h0]
    have hk : plen + 0 + 1 - cols = 0 := by omega
    rw [hk]
    rfl
  | succ pos ih =>
    intro off len hl
    obtain ⟨len1, rfl⟩ : ∃ len1, len = len1 + 1 := ⟨len - 1, by omega⟩
    unfold refreshSingleLine_scroll
    by_cases hge : plen + (pos + 1) ≥ cols
    · rw [if_pos hge]
      simp only
      rw [ih (off + 1) len1 (by omega)]
      have hk : plen + (pos + 1) + 1 - cols = (plen + pos + 1 - cols) + 1 := by omega
      rw [hk]
      congr 2
      · omega
      · congr 1
        · omega
        · omega
    · rw [if_neg hge]
      have hk : plen + (pos + 1) + 1 - cols = 0 := by omega
      rw [hk]
      rfl

/-- The second loop of `refreshSingleLine` with the prompt no longer than the
line: it leaves `min len (cols - plen)`. -/
theorem refreshSingleLine_clip_spec (plen cols : Nat) (hp : plen ≤ cols) :
    ∀ len : Nat, refreshSingleLine_clip plen cols len = some (min len (cols - plen)) := by
  intro len
  induction len with
  | zero =>
    unfold refreshSingleLine_clip
    rw [if_neg (by omega)]
    simp
  | succ len ih =>
    unfold refreshSingleLine_clip
    by_cases h : plen + (len + 1) > cols
    · rw [if_pos h, ih]
      congr 1
      omega
    · rw [if_neg h]
      congr 1
      omega

/-- In a session with the prompt shorter than the line and the cursor inside
the text, the two loops of the model of `refreshSingleLine` are the loops the
machine runs: no counter wraps, and both give the same offset, length and
position. -/
theorem refreshSingleLine_loops_c_model (w fuel : Nat) (sh : ecshell_t)
    (hp : sh.prompt_len < sh.shell_cols) (hc : sh.cmd_cursor ≤ sh.cmd_len)
    (hw : sh.prompt_len + sh.cmd_len < 2 ^ w) (hf : sh.cmd_len < fuel) :
    refreshSingleLine_loops_c w fuel sh
      = (refreshSingleLine_scroll sh.prompt_len sh.shell_cols 0 sh.cmd_len sh.cmd_cursor).bind
          (fun t => (refreshSingleLine_clip sh.prompt_len sh.shell_cols t.2.1).map
            (fun len1 => (t.1, len1, t.2.2))) := by
  rw [refreshSingleLine_loops_c_spec w fuel sh hp hc hw hf,
    refreshSingleLine_scroll_spec _ _ hp _ _ _ hc, Option.some_bind,
    refreshSingleLine_clip_spec _ _ (by omega), Option.map_some', Nat.zero_add]

/-- C30. The single-line redraw with `prompt_len < shell_cols` and the cursor
inside the text. With `k = max (0, prompt_len + cursor - shell_cols + 1)` and
`n = min (len - k, shell_cols - prompt_len)`: the two loops end with no index
taken below zero, the first after dropping `k` leading bytes, the second leaving
`n` bytes; the bytes written are a carriage return, the prompt, the `n` bytes of
the text from offset `k` (or `n` stars in masked mode), `ESC [ 0 K`, a carriage
return and `ESC [ <prompt_len + cursor - k> C`, where `k ≤ cursor` and
`prompt_len + cursor - k < shell_cols`; the session differs from the one before
only in the output. -/
theorem refreshSingleLine_window (sh : ecshell_t)
    (hp : sh.prompt_len < sh.shell_cols) (hc : sh.cmd_cursor ≤ sh.cmd_len) :
    ∃ k n : Nat,
      (k : Int) = max 0 ((sh.prompt_len : Int) + sh.cmd_cursor - sh.shell_cols + 1)
      ∧ n = min (sh.cmd_len - k) (sh.shell_cols - sh.prompt_len)
      ∧ k ≤ sh.cmd_cursor
      ∧ sh.prompt_len + sh.cmd_cursor - k < sh.shell_cols
      ∧ refreshSingleLine_scroll sh.prompt_len sh.shell_cols 0 sh.cmd_len sh.cmd_cursor
          = some (k, sh.cmd_len - k, sh.cmd_cursor - k)
      ∧ refreshSingleLine_clip sh.prompt_len sh.shell_cols (sh.cmd_len - k) = some n
      ∧ refreshSingleLine_bytes sh
          = some ([13] ++ sh.shell_prompt.take sh.prompt_len
              ++ (if sh.echo_mask_mode then List.replicate n 42 else (sh.cmd_line.drop k).take n)
              ++ [27, 91, 48, 75]
              ++ ([13, 27, 91] ++ fmt_nat (sh.prompt_len + sh.cmd_cursor - k) ++ [67]))
      ∧ refreshSingleLine sh
          = { sh with tx := sh.tx ++ ([13] ++ sh.shell_prompt.take sh.prompt_len
              ++ (if sh.echo_mask_mode then List.replicate n 42 else (sh.cmd_line.drop k).take n)
              ++ [27, 91, 48, 75]
              ++ ([13, 27, 91] ++ fmt_nat (sh.prompt_len + sh.cmd_cursor - k) ++ [67])) } := by
  have hs := refreshSingleLine_scroll_spec sh.prompt_len sh.shell_cols hp sh.cmd_cursor 0
    sh.cmd_len hc
  rw [Nat.zero_add] at hs
  have hcl := refreshSingleLine_clip_spec sh.prompt_len sh.shell_cols (Nat.le_of_lt hp)
    (sh.cmd_len - (sh.prompt_len + sh.cmd_cursor + 1 - sh.shell_cols))
  have hfmt : fmt_d (((sh.cmd_cursor - (sh.prompt_len + sh.cmd_cursor + 1 - sh.shell_cols)
        + sh.prompt_len : Nat)) : Int)
      = fmt_nat (sh.prompt_len + sh.cmd_cursor
          - (sh.prompt_len + sh.cmd_cursor + 1 - sh.shell_cols)) := by
    unfold fmt_d
    rw [if_neg (by omega), Int.toNat_ofNat]
    congr 1
    omega
  have hb : refreshSingleLine_bytes sh
      = some ([13] ++ sh.shell_prompt.take sh.prompt_len
          ++ (if sh.echo_mask_mode then
                List.replicate (min (sh.cmd_len - (sh.prompt_len + sh.cmd_cursor + 1 - sh.shell_cols))
                  (sh.shell_cols - sh.prompt_len)) 42
              else (sh.cmd_line.drop (sh.prompt_len + sh.cmd_cursor + 1 - sh.shell_cols)).take
                (min (sh.cmd_len - (sh.prompt_len + sh.cmd_cursor + 1 - sh.shell_cols))
                  (sh.shell_cols - sh.prompt_len)))
          ++ [27, 91, 48, 75]
          ++ ([13, 27, 91] ++ fmt_nat (sh.prompt_len + sh.cmd_cursor
                - (sh.prompt_len + sh.cmd_cursor + 1 - sh.shell_cols)) ++ [67])) := by
    unfold refreshSingleLine_bytes
    rw [hs]
    simp only
    rw [hcl]
    simp only
    rw [hfmt]
  refine ⟨sh.prompt_len + sh.cmd_cursor + 1 - sh.shell_cols,
    min (sh.cmd_len - (sh.prompt_len + sh.cmd_cursor + 1 - sh.shell_cols))
      (sh.shell_cols - sh.prompt_len), ?_, rfl, ?_, ?_, hs, hcl, hb, ?_⟩
  · omega
  · omega
  · omega
  · unfold refreshSingleLine write
    rw [hb]
    rfl

/-- Witness of C30: a ten column line, the prompt `> `, the text `abcdefghijkl`
with the cursor at offset 9. Two bytes are dropped, eight are shown, and the
cursor goes to column 9. -/
theorem refreshSingleLine_window_witness :
    ∃ k n : Nat,
      k = 2 ∧ n = 8
      ∧ refreshSingleLine_bytes
          { ecshell_new_object 0 1 0 with
              shell_cols := 10, shell_prompt := [62, 32, 0], prompt_len := 2,
              cmd_line := [97, 98, 99, 100, 101, 102, 103, 104, 105, 106, 107, 108, 0],
              cmd_len := 12, cmd_cursor := 9 }
          = some ([13] ++ [62, 32] ++ [99, 100, 101, 102, 103, 104, 105, 106]
              ++ [27, 91, 48, 75] ++ ([13, 27, 91] ++ [57] ++ [67])) := by
  obtain ⟨k, n, hk, hn, _, _, _, _, hb, _⟩ := refreshSingleLine_window
    { ecshell_new_object 0 1 0 with
        shell_cols := 10, shell_prompt := [62, 32, 0], prompt_len := 2,
        cmd_line := [97, 98, 99, 100, 101, 102, 103, 104, 105, 106, 107, 108, 0],
        cmd_len := 12, cmd_cursor := 9 }
    (by decide) (by decide)
  have hk2 : k = 2 := by
    have : (k : Int) = 2 := by rw [hk]; decide
    exact_mod_cast this
  subst hk2
  have hn2 : n = 8 := by rw [hn]; decide
  subst hn2
  exact ⟨2, 8, rfl, rfl, by rw [hb]; decide⟩

/-- The row count of `refreshMultiLine`, `(plen + len + cols - 1) / cols` in
`int`, is the quotient of the same natural numbers. -/
theorem refreshMultiLine_rows_cast (plen len cols : Nat) (hc : 0 < cols) :
    ((plen : Int) + (len : Int) + (cols : Int) - 1) / (cols : Int)
      = (((plen + len + cols - 1) / cols : Nat) : Int) := by
  have h : ((plen : Int) + (len : Int) + (cols : Int) - 1) = ((plen + len + cols - 1 : Nat) : Int) := by
    omega
  rw [h]
  norm_cast

/-- The quotient `(x + c - 1) / c` is the ceiling of `x / c`. -/
theorem ceil_div_spec (x c : Nat) (hc : 0 < c) :
    x ≤ (x + c - 1) / c * c ∧ (x + c - 1) / c * c < x + c := by
  have h1 := Nat.div_add_mod (x + c - 1) c
  have h2 := Nat.mod_lt (x + c - 1) hc
  rw [Nat.mul_comm] at h1
  constructor <;> omega

/-- C31. The multi-line redraw with `shell_cols > 0`. Let `rows` be
`ceil ((prompt_len + cmd_len) / shell_cols)` and let the cursor wrap when it is
not zero, stands at the end of the line and `prompt_len + cmd_cursor` is a
multiple of `shell_cols`. Then a line feed and a carriage return are written
after the text exactly when the cursor wraps, the row count is `rows + 1` in
that case and `rows` otherwise, `shell_used_rows` becomes the maximum of its old
value and the row count, `cmd_oldcursor` becomes `cmd_cursor`, and the edit
buffer, the cursor and the length stay. -/
theorem refreshMultiLine_rows (sh : ecshell_t) (hc : 0 < sh.shell_cols) :
    ∃ rows count : Nat,
      sh.prompt_len + sh.cmd_len ≤ rows * sh.shell_cols
      ∧ rows * sh.shell_cols < sh.prompt_len + sh.cmd_len + sh.shell_cols
      ∧ count = (if sh.cmd_cursor ≠ 0 ∧ sh.cmd_cursor = sh.cmd_len
                    ∧ (sh.prompt_len + sh.cmd_cursor) % sh.shell_cols = 0
                  then rows + 1 else rows)
      ∧ (refreshMultiLine sh).shell_used_rows = max sh.shell_used_rows count
      ∧ (refreshMultiLine sh).cmd_oldcursor = sh.cmd_cursor
      ∧ (refreshMultiLine sh).cmd_line = sh.cmd_line
      ∧ (refreshMultiLine sh).cmd_cursor = sh.cmd_cursor
      ∧ (refreshMultiLine sh).cmd_len = sh.cmd_len
      ∧ (refreshMultiLine sh).tx
          = sh.tx
            ++ ((if (sh.shell_used_rows : Int)
                    - ((sh.prompt_len : Int) + sh.cmd_oldcursor + sh.shell_cols) / sh.shell_cols > 0
                  then [27, 91] ++ fmt_d ((sh.shell_used_rows : Int)
                    - ((sh.prompt_len : Int) + sh.cmd_oldcursor + sh.shell_cols) / sh.shell_cols)
                    ++ [66]
                  else [])
              ++ (List.replicate (sh.shell_used_rows - 1)
                    [13, 27, 91, 48, 75, 27, 91, 49, 65]).flatten
              ++ [13, 27, 91, 48, 75]
              ++ (sh.shell_prompt.take sh.prompt_len
                  ++ (if sh.echo_mask_mode then List.replicate sh.cmd_len 42
                      else sh.cmd_line.take sh.cmd_len))
              ++ (if sh.cmd_cursor ≠ 0 ∧ sh.cmd_cursor = sh.cmd_len
                    ∧ (sh.prompt_len + sh.cmd_cursor) % sh.shell_cols = 0
                  then [10, 13] else [])
              ++ (if (count : Int)
                    - ((sh.prompt_len : Int) + sh.cmd_cursor + sh.shell_cols) / sh.shell_cols > 0
                  then [27, 91] ++ fmt_d ((count : Int)
                    - ((sh.prompt_len : Int) + sh.cmd_cursor + sh.shell_cols) / sh.shell_cols)
                    ++ [65]
                  else [])
              ++ (if ((sh.prompt_len : Int) + sh.cmd_cursor) % sh.shell_cols ≠ 0
                  then [13, 27, 91]
                    ++ fmt_d (((sh.prompt_len : Int) + sh.cmd_cursor) % sh.shell_cols) ++ [67]
                  else [13])) := by
  obtain ⟨c1, c2⟩ := ceil_div_spec (sh.prompt_len + sh.cmd_len) sh.shell_cols hc
  have hrows := refreshMultiLine_rows_cast sh.prompt_len sh.cmd_len sh.shell_cols hc
  have hwiff : (sh.cmd_cursor != 0 && sh.cmd_cursor == sh.cmd_len
      && ((sh.cmd_cursor + sh.prompt_len) % sh.shell_cols == 0)) = true
      ↔ (sh.cmd_cursor ≠ 0 ∧ sh.cmd_cursor = sh.cmd_len
          ∧ (sh.prompt_len + sh.cmd_cursor) % sh.shell_cols = 0) := by
    simp only [Bool.and_eq_true, bne_iff_ne, beq_iff_eq, ne_eq, Nat.add_comm, and_assoc]
  have ht : ((sh.shell_used_rows : Int) - 1).toNat = sh.shell_used_rows - 1 := by omega
  refine ⟨(sh.prompt_len + sh.cmd_len + sh.shell_cols - 1) / sh.shell_cols, _, c1, c2, rfl,
    ?_, rfl, rfl, rfl, rfl, ?_⟩
  · unfold refreshMultiLine write
    simp only [hrows]
    generalize (sh.prompt_len + sh.cmd_len + sh.shell_cols - 1) / sh.shell_cols = rows
    by_cases hw : sh.cmd_cursor ≠ 0 ∧ sh.cmd_cursor = sh.cmd_len
        ∧ (sh.prompt_len + sh.cmd_cursor) % sh.shell_cols = 0
    · have hwb := hwiff.2 hw
      simp only [hwb, if_pos hw, if_true, true_and]
      by_cases h1 : (rows : Int) > (sh.shell_used_rows : Int)
      · rw [if_pos h1, Int.toNat_ofNat, if_pos (by omega)]
        omega
      · rw [if_neg h1]
        by_cases h2 : (rows : Int) + 1 > (sh.shell_used_rows : Int)
        · rw [if_pos h2]; omega
        · rw [if_neg h2]; omega
    · have hwb : (sh.cmd_cursor != 0 && sh.cmd_cursor == sh.cmd_len
          && ((sh.cmd_cursor + sh.prompt_len) % sh.shell_cols == 0)) = false :=
        Bool.eq_false_iff.2 (fun h => hw (hwiff.1 h))
      simp only [hwb, if_neg hw, Bool.false_eq_true, false_and, if_false]
      by_cases h1 : (rows : Int) > (sh.shell_used_rows : Int)
      · rw [if_pos h1, Int.toNat_ofNat]; omega
      · rw [if_neg h1]; omega
  · unfold refreshMultiLine write
    simp only [hrows, ht]
    by_cases hw : sh.cmd_cursor ≠ 0 ∧ sh.cmd_cursor = sh.cmd_len
        ∧ (sh.prompt_len + sh.cmd_cursor) % sh.shell_cols = 0
    · have hwb := hwiff.2 hw
      simp only [hwb, if_pos hw, if_true, Nat.cast_add, Nat.cast_one]
    · have hwb : (sh.cmd_cursor != 0 && sh.cmd_cursor == sh.cmd_len
          && ((sh.cmd_cursor + sh.prompt_len) % sh.shell_cols == 0)) = false :=
        Bool.eq_false_iff.2 (fun h => hw (hwiff.1 h))
      simp only [hwb, if_neg hw, Bool.false_eq_true, if_false]

set_option maxRecDepth 100000 in
/-- Witness of C31: eight columns, the prompt `> `, the text `abcdef` with the
cursor at its end. The text fills the first row, so the cursor wraps: two rows
are counted. -/
theorem refreshMultiLine_rows_witness :
    (refreshMultiLine { ecshell_new_object 0 1 0 with
        shell_cols := 8, shell_prompt := [62, 32, 0], prompt_len := 2,
        cmd_line := [97, 98, 99, 100, 101, 102, 0], cmd_len := 6, cmd_cursor := 6,
        shell_used_rows := 1 }).shell_used_rows = 2 := by
  obtain ⟨rows, count, h1, h2, h3, h4, _⟩ := refreshMultiLine_rows
    { ecshell_new_object 0 1 0 with
        shell_cols := 8, shell_prompt := [62, 32, 0], prompt_len := 2,
        cmd_line := [97, 98, 99, 100, 101, 102, 0], cmd_len := 6, cmd_cursor := 6,
        shell_used_rows := 1 } (by decide)
  have h1 : 2 + 6 ≤ rows * 8 := h1
  have h2 : rows * 8 < 2 + 6 + 8 := h2
  have hr : rows = 1 := by omega
  subst hr
  rw [h4, h3]
  decide

/-! ## The argument limit -/

/-- The scan never writes past the limit: started with at most `max_argc` entries
it ends with at most `max_argc`, it returns their number, and it keeps the
entries it started with. -/
theorem split_scan_argv_bound (max_argc : Int) :
    ∀ (rest : List Nat) (state : split_state) (pre argv : List Nat),
      (argv.length : Int) ≤ max_argc →
      ((split_scan max_argc state pre rest argv).argv.length : Int) ≤ max_argc
        ∧ (split_scan max_argc state pre rest argv).ret
            = ((split_scan max_argc state pre rest argv).argv.length : Int)
        ∧ argv.length ≤ (split_scan max_argc state pre rest argv).argv.length := by
  intro rest
  induction rest with
  | nil => intro state pre argv h; simp [split_scan, h]
  | cons c rest ih =>
    intro state pre argv h
    by_cases hc : (argv.length : Int) < max_argc ∧ c ≠ 0
    · have hc0 : ¬ (c = 0) := hc.2
      have h1 : ∀ p : Nat, ((argv ++ [p]).length : Int) ≤ max_argc := by
        intro p; simp only [List.length_append, List.length_cons, List.length_nil]; omega
      have h2 : ∀ (p : Nat) (st : split_state) (q : List Nat),
          argv.length ≤ (split_scan max_argc st q rest (argv ++ [p])).argv.length := by
        intro p st q
        have := (ih st q (argv ++ [p]) (h1 p)).2.2
        simp only [List.length_append, List.length_cons, List.length_nil] at this
        omega
      simp only [split_scan, if_pos hc]
      cases state <;> simp only [hc0, if_false] <;> split_ifs <;>
        first
        | exact ih _ _ _ h
        | exact ⟨(ih _ _ _ (h1 _)).1, (ih _ _ _ (h1 _)).2.1, h2 _ _ _⟩
    · simp [split_scan, if_neg hc, h]

/-- A line of tokens starts with a byte that is neither NUL nor whitespace. -/
theorem lineOf_cons_head (t : Token) (ws : List Nat) (rest : List (Token × List Nat))
    (h : t.wf) :
    ∃ c x, lineOf ((t, ws) :: rest) ++ [0] = c :: x ∧ c ≠ 0 ∧ isspace c = false := by
  cases t with
  | bare w =>
    obtain ⟨hwne, hw, _, _⟩ := h
    cases w with
    | nil => exact absurd rfl hwne
    | cons c w =>
      exact ⟨c, w ++ (ws ++ (lineOf rest ++ [0])), by simp [lineOf, Token.text],
        (hw c (by simp)).1, (hw c (by simp)).2⟩
  | dquoted w =>
    exact ⟨34, w ++ 34 :: (ws ++ (lineOf rest ++ [0])), by simp [lineOf, Token.text],
      by decide, by decide⟩
  | squoted w =>
    exact ⟨39, w ++ 39 :: (ws ++ (lineOf rest ++ [0])), by simp [lineOf, Token.text],
      by decide, by decide⟩

/-- The first byte of a token, met below the limit, adds an entry. -/
theorem split_scan_first_byte (max_argc : Int) (c : Nat) (pre x argv : List Nat)
    (hlt : (argv.length : Int) < max_argc) (hc0 : c ≠ 0) (hcs : isspace c = false) :
    ∃ st p, split_scan max_argc .SKIP_SPACE pre (c :: x) argv
      = split_scan max_argc st (pre ++ [c]) x (argv ++ [p]) := by
  by_cases h34 : c = 34
  · subst h34
    exact ⟨_, _, split_scan_space_dq max_argc pre x argv hlt⟩
  · by_cases h39 : c = 39
    · subst h39
      exact ⟨_, _, split_scan_space_sq max_argc pre x argv hlt⟩
    · exact ⟨_, _, split_scan_space_bare max_argc c pre x argv hlt hc0 hcs h34 h39⟩

/-- One token and the whitespace after it, met with room for two more entries:
the scan goes on at the next token with one entry more. -/
theorem split_scan_token (max_argc : Int) (t : Token) (ws : List Nat)
    (rest : List (Token × List Nat)) (pre argv : List Nat)
    (hsep : Separated ((t, ws) :: rest)) (hlt : ((argv.length : Int) + 1) < max_argc) :
    ∃ pre1 p, split_scan max_argc .SKIP_SPACE pre (lineOf ((t, ws) :: rest) ++ [0]) argv
      = split_scan max_argc .SKIP_SPACE pre1 (lineOf rest ++ [0]) (argv ++ [p]) := by
  obtain ⟨htwf, hws, hne, _⟩ := hsep
  have hlt0 : (argv.length : Int) < max_argc := by omega
  have hlt1 : ∀ p : Nat, ((argv ++ [p]).length : Int) < max_argc := by
    intro p; simp only [List.length_append, List.length_cons, List.length_nil]; omega
  cases t with
  | bare w =>
    obtain ⟨hwne, hw, hq1, hq2⟩ := htwf
    cases w with
    | nil => exact absurd rfl hwne
    | cons c w =>
      obtain ⟨hc0, hcs⟩ := hw c (by simp)
      have hc34 : c ≠ 34 := by intro h; apply hq1; simp [h]
      have hc39 : c ≠ 39 := by intro h; apply hq2; simp [h]
      have hw' : ∀ d ∈ w, d ≠ 0 ∧ isspace d = false := fun d hd => hw d (by simp [hd])
      have hl : lineOf ((Token.bare (c :: w), ws) :: rest) ++ [0]
          = c :: (w ++ (ws ++ (lineOf rest ++ [0]))) := by
        simp [lineOf, Token.text]
      have e1 : split_scan max_argc .SKIP_SPACE pre
            (lineOf ((Token.bare (c :: w), ws) :: rest) ++ [0]) argv
          = split_scan max_argc .SKIP_NONSPACE (pre ++ c :: w) (ws ++ (lineOf rest ++ [0]))
              (argv ++ [pre.length]) := by
        rw [hl, split_scan_space_bare max_argc c pre _ argv hlt0 hc0 hcs hc34 hc39,
          split_scan_word max_argc w _ _ _ hw' (hlt1 _)]
        simp
      cases ws with
      | nil =>
        have hr : rest = [] := by
          by_contra h; exact hne h rfl
        subst hr
        refine ⟨pre ++ c :: w, pre.length, ?_⟩
        rw [e1]
        simp [lineOf, split_scan_zero]
      | cons s ws =>
        have hs : isspace s = true := hws s (by simp)
        have hws' : Blank ws := fun d hd => hws d (by simp [hd])
        refine ⟨pre ++ c :: w ++ [0] ++ ws, pre.length, ?_⟩
        rw [e1, List.cons_append, split_scan_word_end max_argc s _ _ _ (hlt1 _) hs,
          split_scan_blank max_argc ws _ _ _ hws' (hlt1 _)]
  | dquoted w =>
    have hl : lineOf ((Token.dquoted w, ws) :: rest) ++ [0]
        = 34 :: (w ++ (34 :: (ws ++ (lineOf rest ++ [0])))) := by
      simp [lineOf, Token.text]
    refine ⟨pre ++ [34] ++ w ++ [0] ++ ws, pre.length + 1, ?_⟩
    rw [hl, split_scan_space_dq max_argc pre _ argv hlt0,
      split_scan_dquote max_argc w _ _ _ htwf (hlt1 _),
      split_scan_dq_close max_argc _ _ _ (hlt1 _),
      split_scan_blank max_argc ws _ _ _ hws (hlt1 _)]
  | squoted w =>
    have hl : lineOf ((Token.squoted w, ws) :: rest) ++ [0]
        = 39 :: (w ++ (39 :: (ws ++ (lineOf rest ++ [0])))) := by
      simp [lineOf, Token.text]
    refine ⟨pre ++ [39] ++ w ++ [0] ++ ws, pre.length + 1, ?_⟩
    rw [hl, split_scan_space_sq max_argc pre _ argv hlt0,
      split_scan_squote max_argc w _ _ _ htwf (hlt1 _),
      split_scan_sq_close max_argc _ _ _ (hlt1 _),
      split_scan_blank max_argc ws _ _ _ hws (hlt1 _)]

/-- On a line of tokens the scan returns the number of entries it started with
plus the number of tokens, cut at the limit. -/
theorem split_scan_items_min (max_argc : Int) :
    ∀ (items : List (Token × List Nat)) (pre argv : List Nat), Separated items →
      (argv.length : Int) ≤ max_argc →
      (split_scan max_argc .SKIP_SPACE pre (lineOf items ++ [0]) argv).ret
        = min (((argv.length + items.length : Nat)) : Int) max_argc := by
  intro items
  induction items with
  | nil =>
    intro pre argv _ h
    simp only [lineOf, List.nil_append, split_scan_zero, List.length_nil, Nat.add_zero]
    omega
  | cons it rest ih =>
    obtain ⟨t, ws⟩ := it
    intro pre argv hsep h
    obtain ⟨b1, b2, b3⟩ := split_scan_argv_bound max_argc
      (lineOf ((t, ws) :: rest) ++ [0]) .SKIP_SPACE pre argv h
    by_cases hlt0 : (argv.length : Int) < max_argc
    · by_cases hlt1 : (argv.length : Int) + 1 < max_argc
      · obtain ⟨pre1, p, e⟩ := split_scan_token max_argc t ws rest pre argv hsep hlt1
        rw [e, ih pre1 (argv ++ [p]) hsep.2.2.2
          (by simp only [List.length_append, List.length_cons, List.length_nil]; omega)]
        simp only [List.length_append, List.length_cons, List.length_nil]
        congr 2
        omega
      · obtain ⟨c, x, hx, hc0, hcs⟩ := lineOf_cons_head t ws rest hsep.1
        obtain ⟨st, p, e⟩ := split_scan_first_byte max_argc c pre x argv hlt0 hc0 hcs
        obtain ⟨d1, d2, d3⟩ := split_scan_argv_bound max_argc x st (pre ++ [c]) (argv ++ [p])
          (by simp only [List.length_append, List.length_cons, List.length_nil]; omega)
        rw [hx, e, d2]
        simp only [List.length_append, List.length_cons, List.length_nil] at d3 ⊢
        omega
    · rw [b2]
      simp only [List.length_cons]
      omega

/-- C32. For every line and every limit `max_argc >= 0` the call returns, the
value returned is at least 0 and at most `max_argc`, it is the number of `argv`
entries written (entries `0 .. ret - 1`, so none at an index `>= max_argc`), and on
a line made of `n` tokens separated by whitespace it is `min (n, max_argc)`. -/
theorem split_line_to_argv_limit (line : List Nat) (max_argc : Int) (hmax : 0 ≤ max_argc) :
    ∃ r, split_line_to_argv line max_argc = some r
      ∧ 0 ≤ r.ret ∧ r.ret ≤ max_argc
      ∧ r.ret = (r.argv.length : Int)
      ∧ (r.argv.length : Int) ≤ max_argc
      ∧ ∀ (lead : List Nat) (items : List (Token × List Nat)), Blank lead → Separated items →
          line = lead ++ lineOf items ++ [0] → r.ret = min (items.length : Int) max_argc := by
  have h := split_loop_eq_split_scan max_argc line (line.length + 1) .SKIP_SPACE [] [] (by omega)
  simp only [List.length_nil, List.nil_append] at h
  obtain ⟨b1, b2, _⟩ := split_scan_argv_bound max_argc line .SKIP_SPACE [] []
    (by simpa using hmax)
  refine ⟨_, h, split_scan_ret_nonneg max_argc line _ _ _, by rw [b2]; exact b1, b2, b1, ?_⟩
  intro lead items hlead hsep hline
  subst hline
  by_cases h0 : (0 : Int) < max_argc
  · rw [List.append_assoc, split_scan_blank max_argc lead [] _ [] hlead (by simpa using h0),
      List.nil_append, split_scan_items_min max_argc items lead [] hsep (by simpa using hmax)]
    simp
  · rw [b2]
    have : max_argc = 0 := by omega
    subst this
    omega

/-- Witness of C32: the line `a b c` with room for two arguments. -/
theorem split_line_to_argv_limit_witness :
    ∃ r, split_line_to_argv [97, 32, 98, 32, 99, 0] 2 = some r ∧ r.ret = 2
      ∧ r.argv.length = 2 := by
  obtain ⟨r, h1, _, _, h4, _, h6⟩ := split_line_to_argv_limit [97, 32, 98, 32, 99, 0] 2
    (by decide)
  have h := h6 [] [(Token.bare [97], [32]), (Token.bare [98], [32]), (Token.bare [99], [])]
    (by simp [Blank]) (by simp [Separated, Token.wf, Blank, isspace])
    (by simp [lineOf, Token.text])
  have h2 : r.ret = 2 := by rw [h]; decide
  exact ⟨r, h1, h2, by omega⟩

/-! ## The order of history navigation -/

/-- The slot of the current offset, counted from `head`. -/
theorem history_index_entry (s : ecshell_t) (hwf : history_wf s)
    (ho : s.history_offset < s.history_used) :
    history_index s
      = (s.history_head + (s.history_used - 1 - s.history_offset)) % SHELL_HISTORY_MAXNUM := by
  obtain ⟨_, hh, hu, ht⟩ := hwf
  unfold history_index
  rw [ht]
  simp only [SHELL_HISTORY_MAXNUM] at hh hu ⊢
  split_ifs <;> omega

/-- The offset the placeholder add of an edit leaves. -/
theorem linenoiseEdit_setup_history_offset (sh : ecshell_t) :
    (linenoiseEdit_setup sh).history_offset = 0 := by
  unfold linenoiseEdit_setup linenoiseHistoryAdd
  simp only
  split_ifs <;> rfl

/-- One more press of a history key, seen from the state the presses so far left. -/
theorem history_nav_succ (dir : Nat) :
    ∀ (n : Nat) (sh : ecshell_t),
      history_nav dir (n + 1) sh = linenoiseEditHistoryNext (history_nav dir n sh) dir := by
  intro n
  induction n with
  | zero => intro sh; rfl
  | succ n ih =>
    intro sh
    show history_nav dir (n + 1) (linenoiseEditHistoryNext sh dir) = _
    rw [ih]
    rfl

/-- One step to an older entry: the offset goes up by one, the ring is as
before, the entries older than the one left are untouched, and the edit buffer is
loaded from the entry one place older than the one left. -/
theorem linenoiseEditHistoryNext_older_entry (s : ecshell_t) (hwf : history_wf s)
    (ho : s.history_offset + 1 < s.history_used) :
    (linenoiseEditHistoryNext s LINENOISE_HISTORY_PREV).history_offset = s.history_offset + 1
      ∧ history_wf (linenoiseEditHistoryNext s LINENOISE_HISTORY_PREV)
      ∧ (linenoiseEditHistoryNext s LINENOISE_HISTORY_PREV).history_used = s.history_used
      ∧ (linenoiseEditHistoryNext s LINENOISE_HISTORY_PREV).history_head = s.history_head
      ∧ (∀ k, k + s.history_offset + 1 < s.history_used →
          history_entry (linenoiseEditHistoryNext s LINENOISE_HISTORY_PREV) k = history_entry s k)
      ∧ (linenoiseEditHistoryNext s LINENOISE_HISTORY_PREV).cmd_line
          = (strncpy (history_entry s (s.history_used - 2 - s.history_offset))
              SHELL_LINE_MAXLEN).set (SHELL_LINE_MAXLEN - 1) 0
      ∧ (linenoiseEditHistoryNext s LINENOISE_HISTORY_PREV).cmd_len
          = strlen (linenoiseEditHistoryNext s LINENOISE_HISTORY_PREV).cmd_line := by
  have hidx := history_index_entry s hwf (by omega)
  have hidx2 : history_index { s with history_offset := s.history_offset + 1 }
      = (s.history_head + (s.history_used - 2 - s.history_offset)) % SHELL_HISTORY_MAXNUM := by
    have := history_index_entry { s with history_offset := s.history_offset + 1 } hwf
      (by show s.history_offset + 1 < s.history_used; exact ho)
    rw [this]
    show (s.history_head + (s.history_used - 1 - (s.history_offset + 1))) % _ = _
    congr 2
    omega
  obtain ⟨hlen, hh, hu, ht⟩ := hwf
  have hne : ∀ k, k + s.history_offset + 1 < s.history_used →
      history_index s ≠ (s.history_head + k) % SHELL_HISTORY_MAXNUM := by
    intro k hk
    rw [hidx]
    simp only [SHELL_HISTORY_MAXNUM] at hh hu ⊢
    omega
  have hload : (s.cmd_history.set (history_index s) (s.cmd_line.take SHELL_LINE_MAXLEN)).getD
        (history_index { s with history_offset := s.history_offset + 1 }) []
      = history_entry s (s.history_used - 2 - s.history_offset) := by
    rw [hidx2]
    unfold history_entry
    exact getD_set_ne _ _ _ _ _ (hne _ (by omega))
  rw [linenoiseEditHistoryNext_prev_move s (by omega) ho]
  simp only [refreshLine_history_offset, refreshLine_history_used, refreshLine_history_head,
    refreshLine_cmd_line, refreshLine_cmd_len, hload]
  refine ⟨trivial, ?_, trivial, trivial, ?_, trivial, trivial⟩
  · unfold history_wf
    simp only [refreshLine_history_offset, refreshLine_history_used, refreshLine_history_head,
      refreshLine_history_tail, refreshLine_cmd_history, List.length_set]
    exact ⟨hlen, hh, hu, ht⟩
  · intro k hk
    unfold history_entry
    simp only [refreshLine_history_head, refreshLine_cmd_history]
    exact getD_set_ne _ _ _ _ _ (hne k hk)

/-- The start of an edit after `m` lines were added to an empty store: the
placeholder is the newest of `m + 1` entries, the offset is 0 and the `m` lines
are the older entries. -/
theorem linenoiseEdit_setup_after_adds (line : Nat → List Nat) (sh : ecshell_t) (m : Nat)
    (hwf : history_wf sh) (hempty : sh.history_used = 0) (hm : m < SHELL_HISTORY_MAXNUM)
    (hfit : ∀ i, i < m → (cstr (line i)).length < SHELL_LINE_MAXLEN)
    (hne : ∀ i, i < m → cstr (line i) ≠ [])
    (hdist : ∀ i, i + 1 < m → cstr (line i) ≠ cstr (line (i + 1))) :
    history_wf (linenoiseEdit_setup (history_add_seq line m sh))
      ∧ (linenoiseEdit_setup (history_add_seq line m sh)).history_used = m + 1
      ∧ (linenoiseEdit_setup (history_add_seq line m sh)).history_offset = 0
      ∧ ∀ k, k < m → history_entry (linenoiseEdit_setup (history_add_seq line m sh)) k
          = (line k).take SHELL_LINE_MAXLEN := by
  obtain ⟨a1, a2, a3, a4⟩ := history_add_seq_fill line sh hwf hempty m (by omega) hfit hdist
  obtain ⟨s1, hs1⟩ : ∃ s1 : ecshell_t, s1 = { history_add_seq line m sh with
      prompt_len := strlen (history_add_seq line m sh).shell_prompt
      cmd_oldcursor := 0
      cmd_cursor := 0
      cmd_len := 0
      shell_cols := getColumns (history_add_seq line m sh).stdin_fd
        (history_add_seq line m sh).stdout_fd
      shell_used_rows := 0
      history_offset := 0
      cmd_line := (history_add_seq line m sh).cmd_line.set 0 0 } := ⟨_, rfl⟩
  have hset : linenoiseEdit_setup (history_add_seq line m sh)
      = (linenoiseHistoryAdd s1 (0 :: s1.lit_tail)).2 := by
    rw [hs1]; rfl
  have w1 : history_wf s1 := by
    rw [hs1]; exact a1
  have u1 : s1.history_used = m := by
    rw [hs1]; exact a3
  have e1 : ∀ k, history_entry s1 k = history_entry (history_add_seq line m sh) k := by
    intro k; rw [hs1]; rfl
  have hnd : s1.history_used = 0
      ∨ cstr (history_entry s1 (s1.history_used - 1)) ≠ cstr (0 :: s1.lit_tail) := by
    rcases Nat.eq_zero_or_pos m with h0 | hpos
    · left; omega
    · right
      rw [u1, e1, a4 (m - 1) (by omega), cstr_take _ _ (hfit _ (by omega))]
      have hz : cstr (0 :: s1.lit_tail) = [] := by simp [cstr]
      rw [hz]
      exact hne (m - 1) (by omega)
  obtain ⟨_, b2, _, b4, b5, _⟩ :=
    linenoiseHistoryAdd_not_full s1 (0 :: s1.lit_tail) w1 (by omega) hnd
  refine ⟨by rw [hset]; exact b2, by rw [hset, b4, u1], linenoiseEdit_setup_history_offset _, ?_⟩
  intro k hk
  rw [hset, b5 k (by omega), e1, a4 k hk]

/-- After `m` lines were added to an empty store and an edit has started,
`j <= m` presses of 'older' leave offset `j`, the lines older than the one shown
untouched, and for `j >= 1` the edit buffer loaded from line `m - j`. -/
theorem history_nav_older_entries (line : Nat → List Nat) (s : ecshell_t) (m : Nat)
    (hwf : history_wf s) (hu : s.history_used = m + 1) (ho : s.history_offset = 0)
    (he : ∀ k, k < m → history_entry s k = (line k).take SHELL_LINE_MAXLEN) :
    ∀ j, j ≤ m →
      history_wf (history_nav LINENOISE_HISTORY_PREV j s)
        ∧ (history_nav LINENOISE_HISTORY_PREV j s).history_used = m + 1
        ∧ (history_nav LINENOISE_HISTORY_PREV j s).history_offset = j
        ∧ (∀ k, k + j < m → history_entry (history_nav LINENOISE_HISTORY_PREV j s) k
            = (line k).take SHELL_LINE_MAXLEN)
        ∧ (1 ≤ j →
            (history_nav LINENOISE_HISTORY_PREV j s).cmd_line
                = (strncpy ((line (m - j)).take SHELL_LINE_MAXLEN)
                    SHELL_LINE_MAXLEN).set (SHELL_LINE_MAXLEN - 1) 0
              ∧ (history_nav LINENOISE_HISTORY_PREV j s).cmd_len
                = strlen (history_nav LINENOISE_HISTORY_PREV j s).cmd_line) := by
  intro j
  induction j with
  | zero =>
    intro _
    exact ⟨hwf, hu, ho, fun k hk => he k (by omega), fun h => absurd h (by omega)⟩
  | succ j ih =>
    intro hj
    obtain ⟨i1, i2, i3, i4, _⟩ := ih (by omega)
    obtain ⟨c1, c2, c3, _, c5, c6, c7⟩ := linenoiseEditHistoryNext_older_entry
      (history_nav LINENOISE_HISTORY_PREV j s) i1 (by rw [i2, i3]; omega)
    rw [history_nav_succ]
    refine ⟨c2, c3.trans i2, by rw [c1, i3], ?_, fun _ => ⟨?_, c7⟩⟩
    · intro k hk
      rw [c5 k (by rw [i2, i3]; omega), i4 k (by omega)]
    · rw [c6, i2, i3, i4 (m + 1 - 2 - j) (by omega)]
      congr 4
      omega

/-- C34. Lines `line 0`, ..., `line (m - 1)` with `m < N`, each a non-empty
string shorter than the line buffer and none the same as the one before it
(pairwise distinct lines in particular), are added to an empty history, and an
edit starts: the placeholder is reserved, the offset is 0, the prompt is
written. After `k` presses of 'older', `1 <= k <= m`, the edit buffer holds the
string of `line (m - k)`, the `k`-th most recently added line, `cmd_len` is its
length, and `history_offset` is `k`. -/
theorem history_navigation_order (line : Nat → List Nat) (sh : ecshell_t) (m k : Nat)
    (hwf : history_wf sh) (hempty : sh.history_used = 0) (hm : m < SHELL_HISTORY_MAXNUM)
    (hfit : ∀ i, i < m → (cstr (line i)).length < SHELL_LINE_MAXLEN)
    (hne : ∀ i, i < m → cstr (line i) ≠ [])
    (hdist : ∀ i, i + 1 < m → cstr (line i) ≠ cstr (line (i + 1)))
    (hk1 : 1 ≤ k) (hk2 : k ≤ m) :
    cstr (history_nav LINENOISE_HISTORY_PREV k
        (write (linenoiseEdit_setup (history_add_seq line m sh))
          ((linenoiseEdit_setup (history_add_seq line m sh)).shell_prompt.take
            (linenoiseEdit_setup (history_add_seq line m sh)).prompt_len))).cmd_line
        = cstr (line (m - k))
      ∧ (history_nav LINENOISE_HISTORY_PREV k
          (write (linenoiseEdit_setup (history_add_seq line m sh))
            ((linenoiseEdit_setup (history_add_seq line m sh)).shell_prompt.take
              (linenoiseEdit_setup (history_add_seq line m sh)).prompt_len))).cmd_len
        = (cstr (line (m - k))).length
      ∧ (history_nav LINENOISE_HISTORY_PREV k
          (write (linenoiseEdit_setup (history_add_seq line m sh))
            ((linenoiseEdit_setup (history_add_seq line m sh)).shell_prompt.take
              (linenoiseEdit_setup (history_add_seq line m sh)).prompt_len))).history_offset
        = k := by
  obtain ⟨s1, s2, s3, s4⟩ := linenoiseEdit_setup_after_adds line sh m hwf hempty hm hfit hne hdist
  obtain ⟨_, _, n3, _, n5⟩ := history_nav_older_entries line
    (write (linenoiseEdit_setup (history_add_seq line m sh))
      ((linenoiseEdit_setup (history_add_seq line m sh)).shell_prompt.take
        (linenoiseEdit_setup (history_add_seq line m sh)).prompt_len)) m s1 s2 s3 s4 k hk2
  obtain ⟨n6, n7⟩ := n5 hk1
  have hc : cstr ((strncpy ((line (m - k)).take SHELL_LINE_MAXLEN)
      SHELL_LINE_MAXLEN).set (SHELL_LINE_MAXLEN - 1) 0) = cstr (line (m - k)) := by
    have h1 := cstr_take (line (m - k)) SHELL_LINE_MAXLEN (hfit _ (by omega))
    rw [cstr_loaded _ (by rw [h1]; exact hfit _ (by omega)), h1]
  refine ⟨by rw [n6, hc], ?_, n3⟩
  rw [n7, n6]
  unfold strlen
  rw [hc]

/-- Witness of C34: the lines `a`, `b`, `c` are added to the store of a new
session, an edit starts, and 'older' is pressed twice: the edit buffer holds `b`. -/
theorem history_navigation_order_witness :
    cstr (history_nav LINENOISE_HISTORY_PREV 2
        (write (linenoiseEdit_setup (history_add_seq (fun i => [97 + i, 0]) 3
            (ecshell_new_object 0 1 0)))
          ((linenoiseEdit_setup (history_add_seq (fun i => [97 + i, 0]) 3
            (ecshell_new_object 0 1 0))).shell_prompt.take
            (linenoiseEdit_setup (history_add_seq (fun i => [97 + i, 0]) 3
              (ecshell_new_object 0 1 0))).prompt_len))).cmd_line = [98] := by
  have hc : ∀ i : Nat, cstr [97 + i, 0] = [97 + i] := by
    intro i
    simp [cstr]
  have h := (history_navigation_order (fun i => [97 + i, 0]) (ecshell_new_object 0 1 0) 3 2
    (by simp [history_wf, ecshell_new_object, SHELL_HISTORY_MAXNUM]) rfl (by decide)
    (fun i _ => by rw [hc]; simp [SHELL_LINE_MAXLEN]) (fun i _ => by rw [hc]; simp)
    (fun i _ => by rw [hc, hc]; simp) (by decide) (by decide)).1
  exact h.trans (by decide)

/-! ## Invalid construction arguments -/

/-- C33. `ecshell_new` with a negative input or output descriptor yields no
session. `shell_run` on a `NULL` session returns `-EINVAL`, and on a session
with a negative descriptor `-EBADF`, in both cases at once: for every number of
loop iterations allowed the result is the return, with the session (its input
and output streams included) as it was, and no iteration of the loop is made. -/
theorem shell_run_invalid_arguments (cmd_map : cmd_map_t) (i_fd o_fd : Int)
    (type : shell_type_t) (timeout : Nat) (s : ecshell_t) (err : Int) (user_name : List Nat)
    (user_name_len n : Nat) :
    (i_fd < 0 ∨ o_fd < 0 → ecshell_new i_fd o_fd type timeout = none)
      ∧ shell_run_check none = some (-EINVAL)
      ∧ shell_run cmd_map none err user_name user_name_len n = Sum.inl (-EINVAL, none)
      ∧ (s.stdin_fd < 0 ∨ s.stdout_fd < 0 →
          shell_run_check (some s) = some (-EBADF)
            ∧ shell_run cmd_map (some s) err user_name user_name_len n
                = Sum.inl (-EBADF, some s))
      ∧ (¬ (s.stdin_fd < 0 ∨ s.stdout_fd < 0) →
          shell_run_check (some s) = none
            ∧ shell_run cmd_map (some s) err user_name user_name_len n
                = Sum.inr (shell_run_steps cmd_map n
                    (shell_run_init s err user_name user_name_len))) := by
  refine ⟨fun h => ?_, rfl, rfl, fun h => ⟨?_, ?_⟩, fun h => ⟨?_, ?_⟩⟩
  · unfold ecshell_new
    rw [if_pos h]
  · unfold shell_run_check
    simp only [if_pos h]
  · unfold shell_run
    simp only [if_pos h]
  · unfold shell_run_check
    simp only [if_neg h]
  · unfold shell_run
    simp only [if_neg h]

/-- Witness of C33: the descriptors -1 and 1. -/
theorem shell_run_invalid_arguments_witness :
    ecshell_new (-1) 1 shell_type_t.e_SHELLTYPE_Default 0 = none
      ∧ shell_run (fun _ => none) (some { ecshell_new_object (-1) 1 0 with rx := [97, 13] })
          0 [] 0 5
        = Sum.inl (-EBADF, some { ecshell_new_object (-1) 1 0 with rx := [97, 13] }) := by
  obtain ⟨h1, _, _, h4, _⟩ := shell_run_invalid_arguments (fun _ => none) (-1) 1
    shell_type_t.e_SHELLTYPE_Default 0 { ecshell_new_object (-1) 1 0 with rx := [97, 13] } 0 [] 0 5
  exact ⟨h1 (Or.inl (by decide)), (h4 (Or.inl (by decide))).2⟩

/-! ## Masked echo -/

/-- In masked mode the bytes of the single-line redraw do not depend on the
content of the edit buffer. -/
theorem refreshSingleLine_masked (a : ecshell_t) (l : List Nat)
    (hm : a.echo_mask_mode = true) :
    (refreshSingleLine { a with cmd_line := l }).tx = (refreshSingleLine a).tx := by
  unfold refreshSingleLine refreshSingleLine_bytes write
  simp only [hm, if_true]

/-- In masked mode the bytes of the multi-line redraw do not depend on the
content of the edit buffer. -/
theorem refreshMultiLine_masked (a : ecshell_t) (l : List Nat)
    (hm : a.echo_mask_mode = true) :
    (refreshMultiLine { a with cmd_line := l }).tx = (refreshMultiLine a).tx := by
  unfold refreshMultiLine write
  simp only [hm, if_true]

/-- In masked mode the bytes of a redraw do not depend on the content of the
edit buffer. -/
theorem refreshLine_masked (a : ecshell_t) (l : List Nat) (hm : a.echo_mask_mode = true) :
    (refreshLine { a with cmd_line := l }).tx = (refreshLine a).tx := by
  unfold refreshLine
  by_cases h : a.multiline_mode = true
  · have h2 : ({ a with cmd_line := l } : ecshell_t).multiline_mode = true := h
    rw [if_pos h, if_pos h2]
    exact refreshMultiLine_masked a l hm
  · have h2 : ¬ (({ a with cmd_line := l } : ecshell_t).multiline_mode = true) := h
    rw [if_neg h, if_neg h2]
    exact refreshSingleLine_masked a l hm

/-- In masked mode the bytes `linenoiseEditInsert` writes depend neither on the
content of the edit buffer nor on the byte inserted. -/
theorem linenoiseEditInsert_masked (a : ecshell_t) (l : List Nat) (c1 c2 : Nat)
    (hm : a.echo_mask_mode = true) :
    (linenoiseEditInsert { a with cmd_line := l } c2).2.tx = (linenoiseEditInsert a c1).2.tx := by
  unfold linenoiseEditInsert
  by_cases h1 : a.cmd_len < SHELL_LINE_MAXLEN - 1
  · have h1b : ({ a with cmd_line := l } : ecshell_t).cmd_len < SHELL_LINE_MAXLEN - 1 := h1
    rw [if_pos h1, if_pos h1b]
    by_cases h2 : a.cmd_len = a.cmd_cursor
    · have h2b : ({ a with cmd_line := l } : ecshell_t).cmd_len
          = ({ a with cmd_line := l } : ecshell_t).cmd_cursor := h2
      rw [if_pos h2, if_pos h2b]
      simp only
      by_cases h3 : ¬ a.multiline_mode = true ∧ a.prompt_len + (a.cmd_len + 1) < a.shell_cols
      · rw [if_pos h3, if_pos h3]
        simp only [write, hm, if_true]
      · rw [if_neg h3, if_neg h3]
        exact refreshLine_masked { a with
          cmd_line := (a.cmd_line.set a.cmd_cursor c1).set (a.cmd_len + 1) 0
          cmd_cursor := a.cmd_cursor + 1
          cmd_len := a.cmd_len + 1 } ((l.set a.cmd_cursor c2).set (a.cmd_len + 1) 0) hm
    · have h2b : ¬ (({ a with cmd_line := l } : ecshell_t).cmd_len
          = ({ a with cmd_line := l } : ecshell_t).cmd_cursor) := h2
      rw [if_neg h2, if_neg h2b]
      exact refreshLine_masked { a with
        cmd_line := ((memmove a.cmd_line (a.cmd_cursor + 1) a.cmd_cursor
          (a.cmd_len - a.cmd_cursor)).set a.cmd_cursor c1).set (a.cmd_len + 1) 0
        cmd_len := a.cmd_len + 1
        cmd_cursor := a.cmd_cursor + 1 }
        (((memmove l (a.cmd_cursor + 1) a.cmd_cursor
          (a.cmd_len - a.cmd_cursor)).set a.cmd_cursor c2).set (a.cmd_len + 1) 0) hm
  · have h1b : ¬ (({ a with cmd_line := l } : ecshell_t).cmd_len < SHELL_LINE_MAXLEN - 1) := h1
    rw [if_neg h1, if_neg h1b]

/-- A text in the middle of three pieces before it and three after it. -/
theorem append_middle (t x1 x2 x3 m y1 y2 y3 : List Nat) :
    ∃ pre post, t ++ (x1 ++ x2 ++ x3 ++ m ++ y1 ++ y2 ++ y3) = t ++ (pre ++ m ++ post) :=
  ⟨x1 ++ x2 ++ x3, y1 ++ y2 ++ y3, by simp only [List.append_assoc]⟩

/-- C35. Masked echo. Let `echo_mask_mode` be on and let two sessions differ
only in the bytes of the edit buffer. The single-line redraw, the multi-line
redraw and `linenoiseEditInsert` (its fast path and its redraw paths, whatever
byte is inserted) leave the same output in both. The fast path of
`linenoiseEditInsert` writes one `*`; the single-line redraw writes one `*` for
each byte of the window it shows; the multi-line redraw writes the prompt
followed by `cmd_len` stars. -/
theorem masked_echo_hides_content (a : ecshell_t) (l : List Nat) (c1 c2 : Nat)
    (hm : a.echo_mask_mode = true) :
    (refreshSingleLine { a with cmd_line := l }).tx = (refreshSingleLine a).tx
      ∧ (refreshMultiLine { a with cmd_line := l }).tx = (refreshMultiLine a).tx
      ∧ (linenoiseEditInsert { a with cmd_line := l } c2).2.tx = (linenoiseEditInsert a c1).2.tx
      ∧ (a.cmd_len < SHELL_LINE_MAXLEN - 1 → a.cmd_len = a.cmd_cursor →
          ¬ a.multiline_mode = true → a.prompt_len + (a.cmd_len + 1) < a.shell_cols →
          (linenoiseEditInsert a c1).2.tx = a.tx ++ [42])
      ∧ (a.prompt_len < a.shell_cols → a.cmd_cursor ≤ a.cmd_len →
          (refreshSingleLine a).tx
            = a.tx ++ ([13] ++ a.shell_prompt.take a.prompt_len
                ++ List.replicate
                    (min (a.cmd_len - (a.prompt_len + a.cmd_cursor + 1 - a.shell_cols))
                      (a.shell_cols - a.prompt_len)) 42
                ++ [27, 91, 48, 75]
                ++ ([13, 27, 91]
                  ++ fmt_d (((a.cmd_cursor - (a.prompt_len + a.cmd_cursor + 1 - a.shell_cols)
                      + a.prompt_len : Nat)) : Int)
                  ++ [67])))
      ∧ ∃ pre post, (refreshMultiLine a).tx
          = a.tx ++ (pre ++ (a.shell_prompt.take a.prompt_len ++ List.replicate a.cmd_len 42)
              ++ post) := by
  refine ⟨refreshSingleLine_masked a l hm, refreshMultiLine_masked a l hm,
    linenoiseEditInsert_masked a l c1 c2 hm, fun h1 h2 h3 h4 => ?_, fun hp hc => ?_, ?_⟩
  · unfold linenoiseEditInsert
    rw [if_pos h1, if_pos h2]
    simp only
    rw [if_pos ⟨h3, h4⟩]
    simp only [write, hm, if_true]
  · have hs := refreshSingleLine_scroll_spec a.prompt_len a.shell_cols hp a.cmd_cursor 0
      a.cmd_len hc
    rw [Nat.zero_add] at hs
    have hcl := refreshSingleLine_clip_spec a.prompt_len a.shell_cols (Nat.le_of_lt hp)
      (a.cmd_len - (a.prompt_len + a.cmd_cursor + 1 - a.shell_cols))
    unfold refreshSingleLine refreshSingleLine_bytes write
    rw [hs]
    simp only
    rw [hcl]
    simp only [hm, if_true, Option.getD_some]
  · unfold refreshMultiLine write
    simp only [hm, if_true]
    exact append_middle _ _ _ _ _ _ _ _

set_option maxRecDepth 100000 in
/-- Witness of C35: the masked buffers `ab` and `xy` with the cursor at the end;
the single-line redraw writes the same bytes for both. -/
theorem masked_echo_hides_content_witness :
    (refreshSingleLine { ecshell_new_object 0 1 0 with
        echo_mask_mode := true, shell_cols := 10, shell_prompt := [62, 0], prompt_len := 1,
        cmd_len := 2, cmd_cursor := 2, cmd_line := [120, 121, 0] }).tx
      = (refreshSingleLine { ecshell_new_object 0 1 0 with
        echo_mask_mode := true, shell_cols := 10, shell_prompt := [62, 0], prompt_len := 1,
        cmd_len := 2, cmd_cursor := 2, cmd_line := [97, 98, 0] }).tx
      ∧ (refreshSingleLine { ecshell_new_object 0 1 0 with
        echo_mask_mode := true, shell_cols := 10, shell_prompt := [62, 0], prompt_len := 1,
        cmd_len := 2, cmd_cursor := 2, cmd_line := [97, 98, 0] }).tx
        = [13, 62, 42, 42, 27, 91, 48, 75, 13, 27, 91, 51, 67] := by
  obtain ⟨h1, _, _, _, h5, _⟩ := masked_echo_hides_content
    { ecshell_new_object 0 1 0 with
        echo_mask_mode := true, shell_cols := 10, shell_prompt := [62, 0], prompt_len := 1,
        cmd_len := 2, cmd_cursor := 2, cmd_line := [97, 98, 0] } [120, 121, 0] 0 0 rfl
  exact ⟨h1, (h5 (by decide) (by decide)).trans (by decide)⟩

/-! ## Masked echo and the session state -/

/-- One iteration of the session loop returns and keeps the relation between
`echo_mask_mode` and the state `WaitUserAuthen`. -/
theorem shell_run_step_echo_mask (cmd_map : cmd_map_t) (rs : run_state)
    (h0 : rs.sh.echo_mask_mode = true ↔ rs.sh.shell_status = .e_SHELLSTAT_WaitUserAuthen) :
    ∃ rs', shell_run_step cmd_map rs = some rs'
      ∧ (rs'.sh.echo_mask_mode = true ↔ rs'.sh.shell_status = .e_SHELLSTAT_WaitUserAuthen) := by
  unfold shell_run_step
  split
  · next hst =>
    obtain ⟨err, sh1, he⟩ := linenoiseEdit_total (sprintf_prompt rs.sh prompt_login)
    obtain ⟨f1, f2, _, _⟩ := linenoiseEdit_frame _ _ _ he
    have f1 : sh1.shell_status = rs.sh.shell_status := f1
    have f2 : sh1.echo_mask_mode = rs.sh.echo_mask_mode := f2
    obtain ⟨d1, d2, _⟩ := shell_run_login_done_status rs err sh1
    refine ⟨shell_run_login_done rs err sh1, ?_, ?_⟩
    · unfold shell_run_login
      simp only [he]
    · rw [d1, d2]
      by_cases hpos : err > 0
      · simp only [if_pos hpos]
      · rw [if_neg hpos, if_neg hpos, f1, f2]
        exact h0
  · next hst =>
    obtain ⟨err, sh1, he⟩ := linenoiseEdit_total (sprintf_prompt rs.sh prompt_password)
    obtain ⟨d1, _, _, d4, _⟩ := shell_run_authen_done_status rs err sh1
    refine ⟨shell_run_authen_done rs err sh1, ?_, ?_⟩
    · unfold shell_run_authen
      simp only [he]
    · rw [d1, d4]
      constructor
      · intro h; exact absurd h (by decide)
      · intro h
        split_ifs at h
  · next hst =>
    obtain ⟨err, sh1, he⟩ := linenoiseEdit_total
      (sprintf_prompt rs.sh (cstr rs.user_name ++ prompt_suffix))
    obtain ⟨f1, f2, _, _⟩ := linenoiseEdit_frame _ _ _ he
    have f1 : sh1.shell_status = rs.sh.shell_status := f1
    have f2 : sh1.echo_mask_mode = rs.sh.echo_mask_mode := f2
    have hm : ¬ (sh1.echo_mask_mode = true) := by
      rw [f2]
      intro h
      have := h0.1 h
      rw [hst] at this
      exact absurd this (by decide)
    obtain ⟨rs', hd⟩ := shell_run_cmdline_done_total cmd_map rs err sh1
    refine ⟨rs', ?_, ?_⟩
    · unfold shell_run_cmdline
      simp only [he]
      exact hd
    · unfold shell_run_cmdline_done at hd
      simp only at hd
      by_cases hpos : err > 0
      · rw [if_pos hpos] at hd
        split at hd
        · simp at hd
        · next e hx =>
          simp only [Option.some.injEq] at hd
          rw [← hd]
          have ha := (linenoiseHistoryAdd_frame (write sh1 [13, 10])
            (write sh1 [13, 10]).cmd_line).2.1
          constructor
          · intro h
            exact absurd (show sh1.echo_mask_mode = true from ha ▸ h) hm
          · intro h
            exact absurd (show shell_status_t.e_SHELLSTAT_NormalCMDLine
              = shell_status_t.e_SHELLSTAT_WaitUserAuthen from h) (by decide)
      · rw [if_neg hpos] at hd
        simp only [Option.some.injEq] at hd
        rw [← hd]
        constructor
        · intro h
          exact absurd (show sh1.echo_mask_mode = true from h) hm
        · intro h
          have h2 : sh1.shell_status = .e_SHELLSTAT_WaitUserAuthen := h
          rw [f1, hst] at h2
          exact absurd h2 (by decide)
  · exact ⟨rs, rfl, h0⟩
  · exact ⟨rs, rfl, h0⟩

/-- Any number of iterations of the session loop return and keep the relation
between `echo_mask_mode` and the state `WaitUserAuthen`. -/
theorem shell_run_steps_echo_mask (cmd_map : cmd_map_t) :
    ∀ (n : Nat) (rs : run_state),
      (rs.sh.echo_mask_mode = true ↔ rs.sh.shell_status = .e_SHELLSTAT_WaitUserAuthen) →
      ∃ rs', shell_run_steps cmd_map n rs = some rs'
        ∧ (rs'.sh.echo_mask_mode = true
            ↔ rs'.sh.shell_status = .e_SHELLSTAT_WaitUserAuthen) := by
  intro n
  induction n with
  | zero => intro rs h0; exact ⟨rs, rfl, h0⟩
  | succ n ih =>
    intro rs h0
    obtain ⟨rs1, h1, h2⟩ := shell_run_step_echo_mask cmd_map rs h0
    obtain ⟨rs2, h3, h4⟩ := ih rs1 h2
    refine ⟨rs2, ?_, h4⟩
    unfold shell_run_steps
    simp only [h1]
    exact h3

/-- C36. A session made by `ecshell_new`, with any input, is handed to
`shell_run`. For every `n` the loop is entered and its first `n` iterations
return, and at the start of the next iteration `echo_mask_mode` is set exactly
when the state is `WaitUserAuthen`. So the line read of a `WaitUserLogin` or
`NormalCMDLine` iteration starts with the mask off, the line read of a
`WaitUserAuthen` iteration starts with the mask on, and no key of the edit loop
changes the flag. -/
theorem shell_run_echo_mask (cmd_map : cmd_map_t) (i_fd o_fd : Int) (type : shell_type_t)
    (timeout : Nat) (s : ecshell_t) (input : List Nat) (err : Int) (user_name : List Nat)
    (user_name_len n : Nat) (hnew : ecshell_new i_fd o_fd type timeout = some s) :
    ∃ rs, shell_run cmd_map (some { s with rx := input }) err user_name user_name_len n
          = Sum.inr (some rs)
      ∧ (rs.sh.echo_mask_mode = true ↔ rs.sh.shell_status = .e_SHELLSTAT_WaitUserAuthen)
      ∧ (rs.sh.shell_status = .e_SHELLSTAT_WaitUserLogin →
          (sprintf_prompt rs.sh prompt_login).echo_mask_mode = false)
      ∧ (rs.sh.shell_status = .e_SHELLSTAT_NormalCMDLine →
          (sprintf_prompt rs.sh (cstr rs.user_name ++ prompt_suffix)).echo_mask_mode = false)
      ∧ (rs.sh.shell_status = .e_SHELLSTAT_WaitUserAuthen →
          (sprintf_prompt rs.sh prompt_password).echo_mask_mode = true)
      ∧ (∀ (c : Nat) (x : ecshell_t), (linenoiseEdit_key c x).2.echo_mask_mode = x.echo_mask_mode)
      ∧ (∀ (x : ecshell_t) (r : Int) (x' : ecshell_t), linenoiseEdit x = some (r, x') →
          x'.echo_mask_mode = x.echo_mask_mode) := by
  unfold ecshell_new at hnew
  by_cases hfd : i_fd < 0 ∨ o_fd < 0
  · rw [if_pos hfd] at hnew
    simp at hnew
  · rw [if_neg hfd] at hnew
    simp only [Option.some.injEq] at hnew
    subst hnew
    have hfd2 : ¬ (({ ecshell_new_object i_fd o_fd timeout with rx := input } : ecshell_t).stdin_fd
        < 0 ∨ ({ ecshell_new_object i_fd o_fd timeout with rx := input } : ecshell_t).stdout_fd
        < 0) := hfd
    have h0 : (shell_run_init { ecshell_new_object i_fd o_fd timeout with rx := input } err
          user_name user_name_len).sh.echo_mask_mode = true
        ↔ (shell_run_init { ecshell_new_object i_fd o_fd timeout with rx := input } err
          user_name user_name_len).sh.shell_status = .e_SHELLSTAT_WaitUserAuthen := by
      constructor
      · intro h
        exact absurd (show false = true from h) (by decide)
      · intro h
        exact absurd (show shell_status_t.e_SHELLSTAT_WaitUserLogin
          = shell_status_t.e_SHELLSTAT_WaitUserAuthen from h) (by decide)
    obtain ⟨rs, h1, h2⟩ := shell_run_steps_echo_mask cmd_map n _ h0
    refine ⟨rs, ?_, h2, fun hst => ?_, fun hst => ?_, fun hst => h2.2 hst,
      fun c x => (edit_frame_linenoiseEdit_key c x).2.2.2.2.2.1,
      fun x r x' hx => (linenoiseEdit_frame x r x' hx).2.1⟩
    · unfold shell_run
      simp only [if_neg hfd2]
      rw [h1]
    · show rs.sh.echo_mask_mode = false
      rw [Bool.eq_false_iff]
      intro h
      have := h2.1 h
      rw [hst] at this
      exact absurd this (by decide)
    · show rs.sh.echo_mask_mode = false
      rw [Bool.eq_false_iff]
      intro h
      have := h2.1 h
      rw [hst] at this
      exact absurd this (by decide)

set_option maxRecDepth 100000 in
/-- Witness of C36: a new session on the descriptors 0 and 1 that receives `a`
and Enter; after one iteration the mask and the state agree. -/
theorem shell_run_echo_mask_witness :
    ∃ rs, shell_run (fun _ => none) (some { ecshell_new_object 0 1 0 with rx := [97, 13] })
          0 [] 0 1 = Sum.inr (some rs)
      ∧ (rs.sh.echo_mask_mode = true ↔ rs.sh.shell_status = .e_SHELLSTAT_WaitUserAuthen) := by
  obtain ⟨rs, h1, h2, _⟩ := shell_run_echo_mask (fun _ => none) 0 1
    shell_type_t.e_SHELLTYPE_Default 0 (ecshell_new_object 0 1 0) [97, 13] 0 [] 0 1 rfl
  exact ⟨rs, h1, h2⟩

/-! ## The ring relation -/

/-- An add keeps `tail = (head + used) mod N`. -/
theorem ring_linenoiseHistoryAdd (s : ecshell_t) (line : List Nat) (hi : history_inv s)
    (hr : s.history_tail = (s.history_head + s.history_used) % SHELL_HISTORY_MAXNUM) :
    (linenoiseHistoryAdd s line).2.history_tail
      = ((linenoiseHistoryAdd s line).2.history_head
          + (linenoiseHistoryAdd s line).2.history_used) % SHELL_HISTORY_MAXNUM := by
  obtain ⟨i1, i2, i3, _⟩ := hi
  simp only [SHELL_HISTORY_MAXNUM] at i1 i2 i3 hr
  by_cases hd : s.history_used > 0 ∧ strcmp (s.cmd_history.getD
      (if s.history_tail = 0 then SHELL_HISTORY_MAXNUM - 1 else s.history_tail - 1) []) line = 0
  · simp only [linenoiseHistoryAdd, if_pos hd]
    simp only [SHELL_HISTORY_MAXNUM]
    exact hr
  · by_cases hf : s.history_used ≥ SHELL_HISTORY_MAXNUM
    · simp only [linenoiseHistoryAdd, if_neg hd, if_pos hf]
      simp only [SHELL_HISTORY_MAXNUM] at hf ⊢
      split_ifs <;> omega
    · simp only [linenoiseHistoryAdd, if_neg hd, if_neg hf]
      simp only [SHELL_HISTORY_MAXNUM] at hf ⊢
      split_ifs <;> omega

/-- The placeholder pop on a store that is not empty keeps
`tail = (head + used) mod N`. -/
theorem ring_history_pop (s : ecshell_t) (hi : history_inv s) (h1 : 1 ≤ s.history_used)
    (hr : s.history_tail = (s.history_head + s.history_used) % SHELL_HISTORY_MAXNUM) :
    (history_pop s).history_tail
      = ((history_pop s).history_head + (history_pop s).history_used)
          % SHELL_HISTORY_MAXNUM := by
  obtain ⟨i1, i2, i3, _⟩ := hi
  simp only [SHELL_HISTORY_MAXNUM] at i1 i2 i3 hr
  simp only [history_pop, SHELL_HISTORY_MAXNUM]
  split_ifs <;> omega

/-- A step that leaves `head`, `tail` and `used` alone keeps the ring relation. -/
theorem ring_nav_step (s t : ecshell_t) (h : nav_step s t)
    (hr : s.history_tail = (s.history_head + s.history_used) % SHELL_HISTORY_MAXNUM) :
    t.history_tail = (t.history_head + t.history_used) % SHELL_HISTORY_MAXNUM := by
  obtain ⟨a1, a2, a3, _⟩ := h
  rw [a1, a2, a3]
  exact hr

/-- The Enter case keeps the ring relation. -/
theorem ring_linenoiseEdit_enter (s : ecshell_t) (hi : history_inv s)
    (hr : s.history_tail = (s.history_head + s.history_used) % SHELL_HISTORY_MAXNUM) :
    (linenoiseEdit_enter s).history_tail
      = ((linenoiseEdit_enter s).history_head + (linenoiseEdit_enter s).history_used)
          % SHELL_HISTORY_MAXNUM := by
  have h1 : (if s.history_used > 0 then history_pop s else s).history_tail
      = ((if s.history_used > 0 then history_pop s else s).history_head
        + (if s.history_used > 0 then history_pop s else s).history_used)
          % SHELL_HISTORY_MAXNUM := by
    split_ifs with hu
    · exact ring_history_pop s hi (by omega) hr
    · exact hr
  have h2 : ∀ s1 : ecshell_t,
      s1.history_tail = (s1.history_head + s1.history_used) % SHELL_HISTORY_MAXNUM →
      (if s1.multiline_mode then linenoiseEditMoveEnd s1 else s1).history_tail
        = ((if s1.multiline_mode then linenoiseEditMoveEnd s1 else s1).history_head
          + (if s1.multiline_mode then linenoiseEditMoveEnd s1 else s1).history_used)
            % SHELL_HISTORY_MAXNUM := by
    intro s1 h
    split_ifs
    · exact ring_nav_step _ _
        (nav_step_of_same_history _ _ (same_history_linenoiseEditMoveEnd s1)) h
    · exact h
  exact h2 _ h1

/-- One key inside the edit loop keeps the ring relation. -/
theorem ring_linenoiseEdit_key (c : Nat) (sh : ecshell_t) (hi : history_inv sh)
    (h1 : 1 ≤ sh.history_used)
    (hr : sh.history_tail = (sh.history_head + sh.history_used) % SHELL_HISTORY_MAXNUM) :
    (linenoiseEdit_key c sh).2.history_tail
      = ((linenoiseEdit_key c sh).2.history_head + (linenoiseEdit_key c sh).2.history_used)
          % SHELL_HISTORY_MAXNUM := by
  have cont : ∀ t, nav_step sh t →
      t.history_tail = (t.history_head + t.history_used) % SHELL_HISTORY_MAXNUM :=
    fun t ht => ring_nav_step sh t ht hr
  have same : ∀ t, same_history sh t →
      t.history_tail = (t.history_head + t.history_used) % SHELL_HISTORY_MAXNUM :=
    fun t ht => cont t (nav_step_of_same_history _ _ ht)
  unfold linenoiseEdit_key
  by_cases k0 : c = 13
  · rw [if_pos k0]
    exact ring_linenoiseEdit_enter sh hi hr
  rw [if_neg k0]
  by_cases k1 : c = 3
  · rw [if_pos k1]
    exact hr
  rw [if_neg k1]
  by_cases k2 : c = 127 ∨ c = 8
  · rw [if_pos k2]; exact same _ (same_history_linenoiseEditBackspace sh)
  rw [if_neg k2]
  by_cases k3 : c = 4
  · rw [if_pos k3]
    by_cases hlen : sh.cmd_len > 0
    · rw [if_pos hlen]; exact same _ (same_history_linenoiseEditDelete sh)
    · rw [if_neg hlen]
      exact ring_history_pop sh hi h1 hr
  rw [if_neg k3]
  by_cases k4 : c = 20
  · rw [if_pos k4]; exact same _ (same_history_linenoiseEdit_ctrl_t sh)
  rw [if_neg k4]
  by_cases k5 : c = 2
  · rw [if_pos k5]; exact same _ (same_history_linenoiseEditMoveLeft sh)
  rw [if_neg k5]
  by_cases k6 : c = 6
  · rw [if_pos k6]; exact same _ (same_history_linenoiseEditMoveRight sh)
  rw [if_neg k6]
  by_cases k7 : c = 16
  · rw [if_pos k7]; exact cont _ (nav_step_linenoiseEditHistoryNext sh _)
  rw [if_neg k7]
  by_cases k8 : c = 14
  · rw [if_pos k8]; exact cont _ (nav_step_linenoiseEditHistoryNext sh _)
  rw [if_neg k8]
  by_cases k9 : c = 27
  · rw [if_pos k9]; exact cont _ (nav_step_linenoiseEdit_escape sh)
  rw [if_neg k9]
  by_cases k10 : c = 21
  · rw [if_pos k10]; exact same _ (same_history_linenoiseEdit_ctrl_u sh)
  rw [if_neg k10]
  by_cases k11 : c = 11
  · rw [if_pos k11]; exact same _ (same_history_linenoiseEdit_ctrl_k sh)
  rw [if_neg k11]
  by_cases k12 : c = 1
  · rw [if_pos k12]; exact same _ (same_history_linenoiseEditMoveHome sh)
  rw [if_neg k12]
  by_cases k13 : c = 5
  · rw [if_pos k13]; exact same _ (same_history_linenoiseEditMoveEnd sh)
  rw [if_neg k13]
  by_cases k14 : c = 12
  · rw [if_pos k14]
    exact same _ (same_history_refreshLine _ _ (same_history_mk _ _ rfl rfl rfl rfl rfl))
  rw [if_neg k14]
  by_cases k15 : c = 23
  · rw [if_pos k15]; exact same _ (same_history_linenoiseEditDeletePrevWord sh)
  rw [if_neg k15]
  have kr : ¬ ((linenoiseEditInsert sh c).1 ≠ 0) := by
    rw [linenoiseEditInsert_fst]; simp
  rw [if_neg kr]
  exact same _ (same_history_linenoiseEditInsert sh c)

/-- The ring relation holds in every reachable state. -/
theorem ring_session_reach (b : Bool) (sh : ecshell_t) (h : session_reach b sh) :
    sh.history_tail = (sh.history_head + sh.history_used) % SHELL_HISTORY_MAXNUM := by
  induction h with
  | new i_fd o_fd timeout => simp [ecshell_new_object, SHELL_HISTORY_MAXNUM]
  | other b s t _ hst ih =>
    exact ring_nav_step s t (nav_step_of_same_history _ _ hst) ih
  | add s line hs ih =>
    exact ring_linenoiseHistoryAdd s line (history_inv_session_reach _ _ hs).1 ih
  | setup s hs ih =>
    obtain ⟨i1, i2, i3, _⟩ := (history_inv_session_reach _ _ hs).1
    unfold linenoiseEdit_setup
    exact ring_linenoiseHistoryAdd _ _ ⟨i1, i2, i3, Nat.zero_le _⟩ ih
  | key c s hs _ ih =>
    obtain ⟨hi, hu⟩ := history_inv_session_reach _ _ hs
    exact ring_linenoiseEdit_key c s hi (hu rfl).1 ih
  | ret c s hs _ ih =>
    obtain ⟨hi, hu⟩ := history_inv_session_reach _ _ hs
    exact ring_linenoiseEdit_key c s hi (hu rfl).1 ih
  | end_of_input s _ ih => exact ih

/-- C37. In every state reachable from a new session through history adds, line
reads with any keys (history navigation, the placeholder pops of Enter and
Ctrl-D among them) and everything that leaves the store alone,
`history_tail = (history_head + history_used) mod N`; and in every state inside
the edit loop, from the placeholder add to the return, `history_used >= 1`. -/
theorem history_ring_relation (b : Bool) (sh : ecshell_t) (h : session_reach b sh) :
    sh.history_tail = (sh.history_head + sh.history_used) % SHELL_HISTORY_MAXNUM
      ∧ (b = true → 1 ≤ sh.history_used) :=
  ⟨ring_session_reach b sh h, fun hb => ((history_inv_session_reach b sh h).2 hb).1⟩

/-- Witness of C37: a new session in which an edit has started, `a` was typed
and Ctrl-D was pressed with the cursor at the end. -/
theorem history_ring_relation_witness :
    (linenoiseEdit_key 4 (linenoiseEdit_key 97
        (linenoiseEdit_setup (ecshell_new_object 0 1 0))).2).2.history_tail
      = ((linenoiseEdit_key 4 (linenoiseEdit_key 97
          (linenoiseEdit_setup (ecshell_new_object 0 1 0))).2).2.history_head
        + (linenoiseEdit_key 4 (linenoiseEdit_key 97
          (linenoiseEdit_setup (ecshell_new_object 0 1 0))).2).2.history_used)
          % SHELL_HISTORY_MAXNUM
      ∧ 1 ≤ (linenoiseEdit_key 4 (linenoiseEdit_key 97
          (linenoiseEdit_setup (ecshell_new_object 0 1 0))).2).2.history_used := by
  obtain ⟨h1, h2⟩ := history_ring_relation true
    (linenoiseEdit_key 4 (linenoiseEdit_key 97
      (linenoiseEdit_setup (ecshell_new_object 0 1 0))).2).2
    (session_reach.key 4 _
      (session_reach.key 97 _ (session_reach.setup _ (session_reach.new 0 1 0)) rfl) rfl)
  exact ⟨h1, h2 rfl⟩

/-! ## The length of the line and the length of its string -/

/-- A byte of the buffer after a `memmove`: moved or in place. -/
theorem memmove_getD (b : List Nat) (dst src n i : Nat) (h1 : src + n ≤ b.length)
    (h2 : dst + n ≤ b.length) :
    (memmove b dst src n).getD i 0
      = if dst ≤ i ∧ i < dst + n then b.getD (src + (i - dst)) 0 else b.getD i 0 := by
  by_cases h : dst ≤ i ∧ i < dst + n
  · rw [if_pos h]
    exact memmove_getD_moved b dst src n i h1 h2 h.1 h.2
  · rw [if_neg h]
    simp only [memmove, List.getD_eq_getElem?_getD]
    congr 1
    simp only [List.getElem?_append, List.getElem?_take, List.getElem?_drop, List.length_take,
      List.length_drop]
    split_ifs <;> first | rfl | omega | (congr 1; omega)

theorem text_inv_congr (s t : ecshell_t) (h1 : t.cmd_line = s.cmd_line)
    (h2 : t.cmd_len = s.cmd_len) (h : text_inv s) : text_inv t := by
  unfold text_inv at *
  rw [h1, h2]
  exact h

theorem text_inv_refreshLine (s : ecshell_t) : text_inv (refreshLine s) ↔ text_inv s := by
  unfold text_inv
  rw [refreshLine_cmd_line, refreshLine_cmd_len]

/-- No byte before the end of a string is zero. -/
theorem getD_ne_zero_of_lt_strlen (l : List Nat) (i : Nat) (h : i < strlen l) :
    l.getD i 0 ≠ 0 := by
  intro h0
  have := cstr_length_le l i h0
  unfold strlen at h
  omega

/-- With no NUL in the text and a NUL at `cmd_len`, `cmd_len` is the length of
the string in `cmd_line`. -/
theorem strlen_eq_cmd_len (sh : ecshell_t) (hz : sh.cmd_line.getD sh.cmd_len 0 = 0)
    (ht : text_inv sh) : strlen sh.cmd_line = sh.cmd_len := by
  have h1 := cstr_length_le sh.cmd_line sh.cmd_len hz
  have h2 := getD_cstr_length sh.cmd_line
  unfold strlen
  by_contra hne
  exact ht (cstr sh.cmd_line).length (by omega) h2

theorem text_inv_linenoiseEditInsert (sh : ecshell_t) (c : Nat) (hc : c ≠ 0) (h : edit_inv sh)
    (ht : text_inv sh) : text_inv (linenoiseEditInsert sh c).2 := by
  obtain ⟨hl, hcur, hn, _⟩ := h
  unfold text_inv
  rw [linenoiseEditInsert_cmd_line, linenoiseEditInsert_cmd_len]
  simp only [SHELL_LINE_MAXLEN] at hl hn ⊢
  by_cases h1 : sh.cmd_len < 256 - 1
  · simp only [if_pos h1]
    intro i hi
    by_cases h2 : sh.cmd_len = sh.cmd_cursor
    · simp only [if_pos h2]
      rw [getD_set_ne _ _ _ _ _ (by omega)]
      by_cases hi2 : i = sh.cmd_cursor
      · rw [hi2, getD_set_eq _ _ _ _ (by omega)]
        exact hc
      · rw [getD_set_ne _ _ _ _ _ (Ne.symm hi2)]
        exact ht i (by omega)
    · simp only [if_neg h2]
      have hm : (memmove sh.cmd_line (sh.cmd_cursor + 1) sh.cmd_cursor
          (sh.cmd_len - sh.cmd_cursor)).length = 256 := by
        rw [memmove_length _ _ _ _ (by omega) (by omega), hl]
      rw [getD_set_ne _ _ _ _ _ (by omega)]
      by_cases hi2 : i = sh.cmd_cursor
      · rw [hi2, getD_set_eq _ _ _ _ (by omega)]
        exact hc
      · rw [getD_set_ne _ _ _ _ _ (Ne.symm hi2), memmove_getD _ _ _ _ _ (by omega) (by omega)]
        split_ifs
        · exact ht _ (by omega)
        · exact ht i (by omega)
  · simp only [if_neg h1]
    exact ht

theorem text_inv_linenoiseEditDelete (sh : ecshell_t) (h : edit_inv sh) (ht : text_inv sh) :
    text_inv (linenoiseEditDelete sh) := by
  obtain ⟨hl, hcur, hn, _⟩ := h
  simp only [SHELL_LINE_MAXLEN] at hl hn
  unfold linenoiseEditDelete
  split_ifs with h1
  · rw [text_inv_refreshLine]
    intro i hi
    have hi : i < sh.cmd_len - 1 := hi
    show ((memmove sh.cmd_line sh.cmd_cursor (sh.cmd_cursor + 1)
      (sh.cmd_len - sh.cmd_cursor - 1)).set (sh.cmd_len - 1) 0).getD i 0 ≠ 0
    rw [getD_set_ne _ _ _ _ _ (by omega), memmove_getD _ _ _ _ _ (by omega) (by omega)]
    split_ifs
    · exact ht _ (by omega)
    · exact ht i (by omega)
  · exact ht

theorem text_inv_linenoiseEditBackspace (sh : ecshell_t) (h : edit_inv sh) (ht : text_inv sh) :
    text_inv (linenoiseEditBackspace sh) := by
  obtain ⟨hl, hcur, hn, _⟩ := h
  simp only [SHELL_LINE_MAXLEN] at hl hn
  unfold linenoiseEditBackspace
  split_ifs with h1
  · rw [text_inv_refreshLine]
    intro i hi
    have hi : i < sh.cmd_len - 1 := hi
    show ((memmove sh.cmd_line (sh.cmd_cursor - 1) sh.cmd_cursor
      (sh.cmd_len - sh.cmd_cursor)).set (sh.cmd_len - 1) 0).getD i 0 ≠ 0
    rw [getD_set_ne _ _ _ _ _ (by omega), memmove_getD _ _ _ _ _ (by omega) (by omega)]
    split_ifs
    · exact ht _ (by omega)
    · exact ht i (by omega)
  · exact ht

theorem text_inv_linenoiseEditDeletePrevWord (sh : ecshell_t) (h : edit_inv sh)
    (ht : text_inv sh) : text_inv (linenoiseEditDeletePrevWord sh) := by
  obtain ⟨hl, hcur, hn, _⟩ := h
  simp only [SHELL_LINE_MAXLEN] at hl hn
  unfold linenoiseEditDeletePrevWord
  rw [text_inv_refreshLine]
  have hp : skip_word_back sh.cmd_line (skip_spaces_back sh.cmd_line sh.cmd_cursor)
      ≤ sh.cmd_cursor :=
    le_trans (skip_word_back_le _ _) (skip_spaces_back_le _ _)
  generalize skip_word_back sh.cmd_line (skip_spaces_back sh.cmd_line sh.cmd_cursor) = p at hp
  intro i hi
  have hi : i < sh.cmd_len - (sh.cmd_cursor - p) := hi
  show (memmove sh.cmd_line p sh.cmd_cursor (sh.cmd_len - sh.cmd_cursor + 1)).getD i 0 ≠ 0
  rw [memmove_getD _ _ _ _ _ (by omega) (by omega)]
  split_ifs
  · exact ht _ (by omega)
  · exact ht i (by omega)

theorem text_inv_linenoiseEdit_ctrl_u (sh : ecshell_t) : text_inv (linenoiseEdit_ctrl_u sh) := by
  unfold linenoiseEdit_ctrl_u
  rw [text_inv_refreshLine]
  intro i hi
  exact absurd (show i < 0 from hi) (by omega)

theorem text_inv_linenoiseEdit_ctrl_k (sh : ecshell_t) (h : edit_inv sh) (ht : text_inv sh) :
    text_inv (linenoiseEdit_ctrl_k sh) := by
  obtain ⟨_, hcur, _, _⟩ := h
  unfold linenoiseEdit_ctrl_k
  rw [text_inv_refreshLine]
  intro i hi
  have hi : i < sh.cmd_cursor := hi
  show (sh.cmd_line.set sh.cmd_cursor 0).getD i 0 ≠ 0
  rw [getD_set_ne _ _ _ _ _ (by omega)]
  exact ht i (by omega)

theorem text_inv_linenoiseEdit_ctrl_t (sh : ecshell_t) (h : edit_inv sh) (ht : text_inv sh) :
    text_inv (linenoiseEdit_ctrl_t sh) := by
  obtain ⟨hl, hcur, hn, _⟩ := h
  simp only [SHELL_LINE_MAXLEN] at hl hn
  unfold linenoiseEdit_ctrl_t
  simp only
  by_cases h1 : sh.cmd_cursor > 0 ∧ sh.cmd_cursor < sh.cmd_len
  · rw [if_pos h1, text_inv_refreshLine]
    intro i hi
    have hi : i < sh.cmd_len := hi
    show ((sh.cmd_line.set (sh.cmd_cursor - 1) (sh.cmd_line.getD sh.cmd_cursor 0)).set
      sh.cmd_cursor (sh.cmd_line.getD (sh.cmd_cursor - 1) 0)).getD i 0 ≠ 0
    by_cases e1 : i = sh.cmd_cursor
    · rw [e1, getD_set_eq _ _ _ _ (by simp only [List.length_set]; omega)]
      exact ht _ (by omega)
    · rw [getD_set_ne _ _ _ _ _ (Ne.symm e1)]
      by_cases e2 : i = sh.cmd_cursor - 1
      · rw [e2, getD_set_eq _ _ _ _ (by omega)]
        exact ht _ h1.2
      · rw [getD_set_ne _ _ _ _ _ (Ne.symm e2)]
        exact ht i hi
  · rw [if_neg h1]
    exact ht

theorem text_inv_linenoiseEditMoveLeft (sh : ecshell_t) (ht : text_inv sh) :
    text_inv (linenoiseEditMoveLeft sh) := by
  unfold linenoiseEditMoveLeft
  split_ifs
  · rw [text_inv_refreshLine]; exact ht
  · exact ht

theorem text_inv_linenoiseEditMoveRight (sh : ecshell_t) (ht : text_inv sh) :
    text_inv (linenoiseEditMoveRight sh) := by
  unfold linenoiseEditMoveRight
  split_ifs
  · rw [text_inv_refreshLine]; exact ht
  · exact ht

theorem text_inv_linenoiseEditMoveHome (sh : ecshell_t) (ht : text_inv sh) :
    text_inv (linenoiseEditMoveHome sh) := by
  unfold linenoiseEditMoveHome
  split_ifs
  · rw [text_inv_refreshLine]; exact ht
  · exact ht

theorem text_inv_linenoiseEditMoveEnd (sh : ecshell_t) (ht : text_inv sh) :
    text_inv (linenoiseEditMoveEnd sh) := by
  unfold linenoiseEditMoveEnd
  split_ifs
  · rw [text_inv_refreshLine]; exact ht
  · exact ht

/-- A line loaded from a history slot has the length of its string. -/
theorem text_inv_of_loaded (s : ecshell_t) (h2 : s.cmd_len = strlen s.cmd_line) :
    text_inv s := by
  intro i hi
  exact getD_ne_zero_of_lt_strlen _ _ (by rw [← h2]; exact hi)

theorem text_inv_linenoiseEditHistoryNext (sh : ecshell_t) (dir : Nat) (ht : text_inv sh) :
    text_inv (linenoiseEditHistoryNext sh dir) := by
  unfold linenoiseEditHistoryNext
  simp only
  split_ifs
  · exact ht
  · rw [text_inv_refreshLine]; exact text_inv_of_loaded _ rfl
  · exact ht
  · rw [text_inv_refreshLine]; exact text_inv_of_loaded _ rfl
  · exact ht

theorem text_inv_read (sh : ecshell_t) (ht : text_inv sh) : text_inv (read sh).2 :=
  text_inv_congr sh _ (read_edit_fields sh).1 (read_edit_fields sh).2.1 ht

theorem text_inv_read_seq0 (sh : ecshell_t) (ht : text_inv sh) : text_inv (read_seq0 sh) := by
  have := text_inv_read sh ht
  unfold read_seq0
  split
  · next c s1 he => rw [he] at this; exact text_inv_congr s1 _ rfl rfl this
  · next s1 he => rw [he] at this; exact this

theorem text_inv_read_seq1 (sh : ecshell_t) (ht : text_inv sh) : text_inv (read_seq1 sh) := by
  have := text_inv_read sh ht
  unfold read_seq1
  split
  · next c s1 he => rw [he] at this; exact text_inv_congr s1 _ rfl rfl this
  · next s1 he => rw [he] at this; exact this

theorem text_inv_read_seq2 (sh : ecshell_t) (ht : text_inv sh) : text_inv (read_seq2 sh) := by
  have := text_inv_read sh ht
  unfold read_seq2
  split
  · next c s1 he => rw [he] at this; exact text_inv_congr s1 _ rfl rfl this
  · next s1 he => rw [he] at this; exact this

theorem text_inv_linenoiseEdit_escape (sh : ecshell_t) (h : edit_inv sh) (ht : text_inv sh) :
    text_inv (linenoiseEdit_escape sh) := by
  have h1 := text_inv_read_seq1 _ (text_inv_read_seq0 sh ht)
  have h2 := text_inv_read_seq2 _ h1
  have e2 := edit_inv_read_seq2 _ (edit_inv_read_seq1 _ (edit_inv_read_seq0 sh h))
  unfold linenoiseEdit_escape
  simp only
  split_ifs
  all_goals first
    | exact h1
    | exact h2
    | exact text_inv_linenoiseEditDelete _ e2 h2
    | exact text_inv_linenoiseEditHistoryNext _ _ h1
    | exact text_inv_linenoiseEditMoveRight _ h1
    | exact text_inv_linenoiseEditMoveLeft _ h1
    | exact text_inv_linenoiseEditMoveHome _ h1
    | exact text_inv_linenoiseEditMoveEnd _ h1

theorem text_inv_linenoiseEdit_enter (sh : ecshell_t) (ht : text_inv sh) :
    text_inv (linenoiseEdit_enter sh) := by
  have h1 : text_inv (if sh.history_used > 0 then history_pop sh else sh) := by
    split_ifs
    · exact text_inv_congr sh _ rfl rfl ht
    · exact ht
  have h2 : ∀ s1 : ecshell_t, text_inv s1 →
      text_inv (if s1.multiline_mode then linenoiseEditMoveEnd s1 else s1) := by
    intro s1 hs
    split_ifs
    · exact text_inv_linenoiseEditMoveEnd _ hs
    · exact hs
  exact h2 _ h1

/-- Every case of the key `switch`, for a byte that is not NUL, keeps the text
free of NUL bytes. -/
theorem text_inv_linenoiseEdit_key (c : Nat) (sh : ecshell_t) (hc : c ≠ 0) (h : edit_inv sh)
    (ht : text_inv sh) : text_inv (linenoiseEdit_key c sh).2 := by
  unfold linenoiseEdit_key
  by_cases h0 : c = 13
  · rw [if_pos h0]; exact text_inv_linenoiseEdit_enter _ ht
  rw [if_neg h0]
  by_cases h1 : c = 3
  · rw [if_pos h1]; exact ht
  rw [if_neg h1]
  by_cases h2 : c = 127 ∨ c = 8
  · rw [if_pos h2]; exact text_inv_linenoiseEditBackspace _ h ht
  rw [if_neg h2]
  by_cases h3 : c = 4
  · rw [if_pos h3]
    by_cases hlen : sh.cmd_len > 0
    · rw [if_pos hlen]; exact text_inv_linenoiseEditDelete _ h ht
    · rw [if_neg hlen]; exact text_inv_congr sh _ rfl rfl ht
  rw [if_neg h3]
  by_cases h4 : c = 20
  · rw [if_pos h4]; exact text_inv_linenoiseEdit_ctrl_t _ h ht
  rw [if_neg h4]
  by_cases h5 : c = 2
  · rw [if_pos h5]; exact text_inv_linenoiseEditMoveLeft _ ht
  rw [if_neg h5]
  by_cases h6 : c = 6
  · rw [if_pos h6]; exact text_inv_linenoiseEditMoveRight _ ht
  rw [if_neg h6]
  by_cases h7 : c = 16
  · rw [if_pos h7]; exact text_inv_linenoiseEditHistoryNext _ _ ht
  rw [if_neg h7]
  by_cases h8 : c = 14
  · rw [if_pos h8]; exact text_inv_linenoiseEditHistoryNext _ _ ht
  rw [if_neg h8]
  by_cases h9 : c = 27
  · rw [if_pos h9]; exact text_inv_linenoiseEdit_escape _ h ht
  rw [if_neg h9]
  by_cases h10 : c = 21
  · rw [if_pos h10]; exact text_inv_linenoiseEdit_ctrl_u _
  rw [if_neg h10]
  by_cases h11 : c = 11
  · rw [if_pos h11]; exact text_inv_linenoiseEdit_ctrl_k _ h ht
  rw [if_neg h11]
  by_cases h12 : c = 1
  · rw [if_pos h12]; exact text_inv_linenoiseEditMoveHome _ ht
  rw [if_neg h12]
  by_cases h13 : c = 5
  · rw [if_pos h13]; exact text_inv_linenoiseEditMoveEnd _ ht
  rw [if_neg h13]
  by_cases h14 : c = 12
  · rw [if_pos h14]
    exact (text_inv_refreshLine _).2 (text_inv_congr sh _ rfl rfl ht)
  rw [if_neg h14]
  by_cases h15 : c = 23
  · rw [if_pos h15]; exact text_inv_linenoiseEditDeletePrevWord _ h ht
  rw [if_neg h15]
  by_cases hr : (linenoiseEditInsert sh c).1 ≠ 0
  · rw [if_pos hr]; exact text_inv_linenoiseEditInsert _ _ hc h ht
  · rw [if_neg hr]; exact text_inv_linenoiseEditInsert _ _ hc h ht

/-! ### The bytes left on the input -/

theorem read_rx_suffix (sh : ecshell_t) : (read sh).2.rx <:+ sh.rx := by
  unfold read
  split
  · exact List.suffix_refl _
  · next c rest h => rw [h]; exact List.suffix_cons c rest

theorem read_seq0_rx_suffix (sh : ecshell_t) : (read_seq0 sh).rx <:+ sh.rx := by
  have := read_rx_suffix sh
  unfold read_seq0
  split
  · next c s1 h => rw [h] at this; exact this
  · next s1 h => rw [h] at this; exact this

theorem read_seq1_rx_suffix (sh : ecshell_t) : (read_seq1 sh).rx <:+ sh.rx := by
  have := read_rx_suffix sh
  unfold read_seq1
  split
  · next c s1 h => rw [h] at this; exact this
  · next s1 h => rw [h] at this; exact this

theorem read_seq2_rx_suffix (sh : ecshell_t) : (read_seq2 sh).rx <:+ sh.rx := by
  have := read_rx_suffix sh
  unfold read_seq2
  split
  · next c s1 h => rw [h] at this; exact this
  · next s1 h => rw [h] at this; exact this

theorem suffix_of_eq {a b : List Nat} (h : a = b) : a <:+ b := by
  rw [h]

theorem linenoiseEdit_escape_rx_suffix (sh : ecshell_t) :
    (linenoiseEdit_escape sh).rx <:+ sh.rx := by
  have h1 : (read_seq1 (read_seq0 sh)).rx <:+ sh.rx :=
    (read_seq1_rx_suffix _).trans (read_seq0_rx_suffix sh)
  have h2 : (read_seq2 (read_seq1 (read_seq0 sh))).rx <:+ sh.rx :=
    (read_seq2_rx_suffix _).trans h1
  unfold linenoiseEdit_escape
  simp only
  split_ifs
  all_goals first
    | exact h1
    | exact h2
    | (rw [linenoiseEditDelete_rx]; exact h2)
    | (rw [linenoiseEditHistoryNext_rx]; exact h1)
    | (rw [linenoiseEditMoveRight_rx]; exact h1)
    | (rw [linenoiseEditMoveLeft_rx]; exact h1)
    | (rw [linenoiseEditMoveHome_rx]; exact h1)
    | (rw [linenoiseEditMoveEnd_rx]; exact h1)

/-- A key takes bytes from the front of the input only. -/
theorem linenoiseEdit_key_rx_suffix (c : Nat) (sh : ecshell_t) :
    (linenoiseEdit_key c sh).2.rx <:+ sh.rx := by
  unfold linenoiseEdit_key
  by_cases h0 : c = 13
  · rw [if_pos h0]; exact suffix_of_eq (linenoiseEdit_enter_rx sh)
  rw [if_neg h0]
  by_cases h1 : c = 3
  · rw [if_pos h1]
  rw [if_neg h1]
  by_cases h2 : c = 127 ∨ c = 8
  · rw [if_pos h2]; exact suffix_of_eq (linenoiseEditBackspace_rx sh)
  rw [if_neg h2]
  by_cases h3 : c = 4
  · rw [if_pos h3]
    by_cases hlen : sh.cmd_len > 0
    · rw [if_pos hlen]; exact suffix_of_eq (linenoiseEditDelete_rx sh)
    · rw [if_neg hlen]; exact List.suffix_refl _
  rw [if_neg h3]
  by_cases h4 : c = 20
  · rw [if_pos h4]; exact suffix_of_eq (linenoiseEdit_ctrl_t_rx sh)
  rw [if_neg h4]
  by_cases h5 : c = 2
  · rw [if_pos h5]; exact suffix_of_eq (linenoiseEditMoveLeft_rx sh)
  rw [if_neg h5]
  by_cases h6 : c = 6
  · rw [if_pos h6]; exact suffix_of_eq (linenoiseEditMoveRight_rx sh)
  rw [if_neg h6]
  by_cases h7 : c = 16
  · rw [if_pos h7]; exact suffix_of_eq (linenoiseEditHistoryNext_rx sh _)
  rw [if_neg h7]
  by_cases h8 : c = 14
  · rw [if_pos h8]; exact suffix_of_eq (linenoiseEditHistoryNext_rx sh _)
  rw [if_neg h8]
  by_cases h9 : c = 27
  · rw [if_pos h9]; exact linenoiseEdit_escape_rx_suffix sh
  rw [if_neg h9]
  by_cases h10 : c = 21
  · rw [if_pos h10]; exact suffix_of_eq (linenoiseEdit_ctrl_u_rx sh)
  rw [if_neg h10]
  by_cases h11 : c = 11
  · rw [if_pos h11]; exact suffix_of_eq (linenoiseEdit_ctrl_k_rx sh)
  rw [if_neg h11]
  by_cases h12 : c = 1
  · rw [if_pos h12]; exact suffix_of_eq (linenoiseEditMoveHome_rx sh)
  rw [if_neg h12]
  by_cases h13 : c = 5
  · rw [if_pos h13]; exact suffix_of_eq (linenoiseEditMoveEnd_rx sh)
  rw [if_neg h13]
  by_cases h14 : c = 12
  · rw [if_pos h14]
    exact suffix_of_eq (show (refreshLine (linenoiseClearScreen sh)).rx = sh.rx by
      simp [linenoiseClearScreen])
  rw [if_neg h14]
  by_cases h15 : c = 23
  · rw [if_pos h15]; exact suffix_of_eq (linenoiseEditDeletePrevWord_rx sh)
  rw [if_neg h15]
  by_cases hr : (linenoiseEditInsert sh c).1 ≠ 0
  · rw [if_pos hr]; exact suffix_of_eq (linenoiseEditInsert_rx sh c)
  · rw [if_neg hr]; exact suffix_of_eq (linenoiseEditInsert_rx sh c)

/-- With no NUL on the input, the state in which the edit loop returns has no
NUL in its text. -/
theorem text_inv_linenoiseEdit_loop :
    ∀ (fuel : Nat) (sh : ecshell_t) (r : Int) (sh' : ecshell_t), edit_inv sh → text_inv sh →
      (∀ x ∈ sh.rx, x ≠ 0) →
      linenoiseEdit_loop fuel sh = some (r, sh') → text_inv sh' := by
  intro fuel
  induction fuel with
  | zero => intro sh r sh' _ _ _ h; simp [linenoiseEdit_loop] at h
  | succ fuel ih =>
    intro sh r sh' hinv ht hnz h
    unfold linenoiseEdit_loop at h
    cases hrx : sh.rx with
    | nil =>
      have hread : read sh = (none, sh) := by unfold read; rw [hrx]
      rw [hread] at h
      simp only [Option.some.injEq, Prod.mk.injEq] at h
      rw [← h.2]; exact ht
    | cons c rest =>
      have hread : read sh = (some c, { sh with rx := rest }) := by unfold read; rw [hrx]
      rw [hread] at h
      simp only at h
      have hc : c ≠ 0 := hnz c (by rw [hrx]; simp)
      have hrest : ∀ x ∈ ({ sh with rx := rest } : ecshell_t).rx, x ≠ 0 :=
        fun x hx => hnz x (by rw [hrx]; exact List.mem_cons_of_mem _ hx)
      have hinv1 : edit_inv ({ sh with rx := rest } : ecshell_t) :=
        edit_inv_congr sh _ rfl rfl rfl hinv
      have ht1 : text_inv ({ sh with rx := rest } : ecshell_t) :=
        text_inv_congr sh _ rfl rfl ht
      by_cases h9 : c = 9
      · rw [if_pos h9] at h
        exact ih _ _ _ hinv1 ht1 hrest h
      · rw [if_neg h9] at h
        have hk := text_inv_linenoiseEdit_key c _ hc hinv1 ht1
        have hki := edit_inv_linenoiseEdit_key c _ hinv1
        have hks := linenoiseEdit_key_rx_suffix c { sh with rx := rest }
        rcases hkey : linenoiseEdit_key c { sh with rx := rest } with ⟨ro, s2⟩
        rw [hkey] at h hk hki hks
        cases ro with
        | some r2 =>
          simp only [Option.some.injEq, Prod.mk.injEq] at h
          rw [← h.2]; exact hk
        | none =>
          exact ih _ _ _ hki hk (fun x hx => hrest x (hks.subset hx)) h

/-- What a case of the key `switch` returns: the length of the line, or -1. -/
theorem linenoiseEdit_key_result (c : Nat) (sh : ecshell_t) (r : Int)
    (h : (linenoiseEdit_key c sh).1 = some r) :
    r = ((linenoiseEdit_key c sh).2.cmd_len : Int) ∨ r = -1 := by
  unfold linenoiseEdit_key at h ⊢
  by_cases h0 : c = 13
  · rw [if_pos h0] at h ⊢
    simp only [Option.some.injEq] at h
    exact Or.inl h.symm
  rw [if_neg h0] at h ⊢
  by_cases h1 : c = 3
  · rw [if_pos h1] at h
    simp only [Option.some.injEq] at h
    exact Or.inr h.symm
  rw [if_neg h1] at h ⊢
  by_cases h2 : c = 127 ∨ c = 8
  · rw [if_pos h2] at h; simp at h
  rw [if_neg h2] at h ⊢
  by_cases h3 : c = 4
  · rw [if_pos h3] at h
    by_cases hlen : sh.cmd_len > 0
    · rw [if_pos hlen] at h; simp at h
    · rw [if_neg hlen] at h
      simp only [Option.some.injEq] at h
      exact Or.inr h.symm
  rw [if_neg h3] at h ⊢
  by_cases h4 : c = 20
  · rw [if_pos h4] at h; simp at h
  rw [if_neg h4] at h ⊢
  by_cases h5 : c = 2
  · rw [if_pos h5] at h; simp at h
  rw [if_neg h5] at h ⊢
  by_cases h6 : c = 6
  · rw [if_pos h6] at h; simp at h
  rw [if_neg h6] at h ⊢
  by_cases h7 : c = 16
  · rw [if_pos h7] at h; simp at h
  rw [if_neg h7] at h ⊢
  by_cases h8 : c = 14
  · rw [if_pos h8] at h; simp at h
  rw [if_neg h8] at h ⊢
  by_cases h9 : c = 27
  · rw [if_pos h9] at h; simp at h
  rw [if_neg h9] at h ⊢
  by_cases h10 : c = 21
  · rw [if_pos h10] at h; simp at h
  rw [if_neg h10] at h ⊢
  by_cases h11 : c = 11
  · rw [if_pos h11] at h; simp at h
  rw [if_neg h11] at h ⊢
  by_cases h12 : c = 1
  · rw [if_pos h12] at h; simp at h
  rw [if_neg h12] at h ⊢
  by_cases h13 : c = 5
  · rw [if_pos h13] at h; simp at h
  rw [if_neg h13] at h ⊢
  by_cases h14 : c = 12
  · rw [if_pos h14] at h; simp at h
  rw [if_neg h14] at h ⊢
  by_cases h15 : c = 23
  · rw [if_pos h15] at h; simp at h
  rw [if_neg h15] at h ⊢
  by_cases hr : (linenoiseEditInsert sh c).1 ≠ 0
  · rw [if_pos hr] at h
    simp only [Option.some.injEq] at h
    exact Or.inr h.symm
  · rw [if_neg hr] at h; simp at h

/-- What the edit loop returns: the length of the line it leaves, or -1. -/
theorem linenoiseEdit_loop_result :
    ∀ (fuel : Nat) (sh : ecshell_t) (r : Int) (sh' : ecshell_t),
      linenoiseEdit_loop fuel sh = some (r, sh') → r = (sh'.cmd_len : Int) ∨ r = -1 := by
  intro fuel
  induction fuel with
  | zero => intro sh r sh' h; simp [linenoiseEdit_loop] at h
  | succ fuel ih =>
    intro sh r sh' h
    unfold linenoiseEdit_loop at h
    split at h
    · next s1 he =>
      simp only [Option.some.injEq, Prod.mk.injEq] at h
      rw [← h.1, ← h.2]
      exact Or.inl rfl
    · next c s1 he =>
      split_ifs at h
      · exact ih _ _ _ h
      · split at h
        · next r2 s2 hk2 =>
          have hk := linenoiseEdit_key_result c s1 r2 (by rw [hk2])
          rw [hk2] at hk
          simp only [Option.some.injEq, Prod.mk.injEq] at h
          rw [← h.1, ← h.2]
          exact hk
        · next s2 hk2 => exact ih _ _ _ h

/-- C38, as amended. An input that holds no zero byte is fed to the line read:
the line read returns, in the state it leaves no byte below `cmd_len` is zero and
`cmd_len` is the length of the string in `cmd_line`; the value returned is that
length or -1, so a count returned on Enter is the length of the line the caller
then copies. -/
theorem linenoiseEdit_cmd_len_strlen (sh : ecshell_t)
    (hl : sh.cmd_line.length = SHELL_LINE_MAXLEN) (hnz : ∀ x ∈ sh.rx, x ≠ 0) :
    ∃ r sh', linenoiseEdit sh = some (r, sh')
      ∧ (∀ i, i < sh'.cmd_len → sh'.cmd_line.getD i 0 ≠ 0)
      ∧ sh'.cmd_line.getD sh'.cmd_len 0 = 0
      ∧ strlen sh'.cmd_line = sh'.cmd_len
      ∧ (r = (strlen sh'.cmd_line : Int) ∨ r = -1) := by
  obtain ⟨r, sh', he⟩ := linenoiseEdit_total sh
  have hinv := edit_inv_linenoiseEdit sh r sh' hl he
  have hloop := he
  unfold linenoiseEdit at hloop
  have h0 : text_inv (write (linenoiseEdit_setup sh)
      ((linenoiseEdit_setup sh).shell_prompt.take (linenoiseEdit_setup sh).prompt_len)) := by
    intro i hi
    have hi : i < (linenoiseEdit_setup sh).cmd_len := hi
    rw [(linenoiseEdit_setup_fields sh).1] at hi
    exact absurd hi (by omega)
  have hrx : ∀ x ∈ (write (linenoiseEdit_setup sh)
      ((linenoiseEdit_setup sh).shell_prompt.take (linenoiseEdit_setup sh).prompt_len)).rx,
      x ≠ 0 := by
    intro x hx
    have hx : x ∈ (linenoiseEdit_setup sh).rx := hx
    rw [(linenoiseEdit_setup_fields sh).2.2.2] at hx
    exact hnz x hx
  have ht := text_inv_linenoiseEdit_loop _ _ r sh'
    ((edit_inv_write _ _).2 (edit_inv_linenoiseEdit_setup sh hl)) h0 hrx hloop
  have hs := strlen_eq_cmd_len sh' hinv.2.2.2 ht
  refine ⟨r, sh', he, ht, hinv.2.2.2, hs, ?_⟩
  rw [hs]
  exact linenoiseEdit_loop_result _ _ r sh' hloop

set_option maxRecDepth 100000 in
/-- C38 as amended, witness: `ab` and Enter in a new session. -/
theorem linenoiseEdit_cmd_len_strlen_witness :
    ∃ r sh', linenoiseEdit { ecshell_new_object 0 1 0 with rx := [97, 98, 13] } = some (r, sh')
      ∧ strlen sh'.cmd_line = sh'.cmd_len := by
  obtain ⟨r, sh', h1, _, _, h4, _⟩ := linenoiseEdit_cmd_len_strlen
    { ecshell_new_object 0 1 0 with rx := [97, 98, 13] } (by simp [ecshell_new_object])
    (by simp)
  exact ⟨r, sh', h1, h4⟩

set_option maxRecDepth 1000000 in
/-- C38, counterexample. A new session receives `a`, a NUL byte, `b` and Enter.
The NUL is inserted like any other byte: the line read returns 3 with
`cmd_len == 3`, but the string in `cmd_line` is `a`, of length 1. The session
loop then records the user name `a` with the length 3. -/
theorem nul_byte_is_inserted :
    (linenoiseEdit { ecshell_new_object 0 1 0 with rx := [97, 0, 98, 13] }).map
        (fun p => (p.1, p.2.cmd_len, strlen p.2.cmd_line, p.2.cmd_line.take 4))
      = some (3, 3, 1, [97, 0, 98, 0])
    ∧ (shell_run_steps (fun _ => none) 1
        (shell_run_init { ecshell_new_object 0 1 0 with rx := [97, 0, 98, 13] } 0 [] 0)).map
        (fun rs => (rs.sh.shell_status, rs.user_name_len, cstr rs.user_name))
      = some (.e_SHELLSTAT_WaitUserAuthen, 3, [97]) := by
  exact ⟨by decide, by decide⟩

/-! ## The command prompt and its buffer -/

set_option maxRecDepth 1000000 in
/-- C39. The prompt of `NormalCMDLine` is the user name followed by `@ecshell>`,
so its length is the length of the user name plus 9, whatever the name. A new
session receives a user name of 55 bytes `a` and the same bytes as password: it
reaches `NormalCMDLine`, and the prompt formatted there has `prompt_len == 64`
and takes 65 bytes with its terminator, one more than the
`SHELL_PROMPT_MAXLEN` bytes of `shell_prompt`. -/
theorem command_prompt_overflow :
    (∀ rs : run_state,
        (sprintf_prompt rs.sh (cstr rs.user_name ++ prompt_suffix)).prompt_len
          = strlen rs.user_name + 9)
      ∧ (shell_run_steps (fun _ => none) 2
          (shell_run_init { ecshell_new_object 0 1 0 with
            rx := [97, 97, 97, 97, 97, 97, 97, 97, 97, 97, 97, 97, 97, 97, 97, 97, 97, 97, 97, 97, 97, 97, 97, 97, 97, 97, 97, 97, 97, 97, 97, 97, 97, 97, 97, 97, 97, 97, 97, 97, 97, 97, 97, 97, 97, 97, 97, 97, 97, 97, 97, 97, 97, 97, 97, 13, 97, 97, 97, 97, 97, 97, 97, 97, 97, 97, 97, 97, 97, 97, 97, 97, 97, 97, 97, 97, 97, 97, 97, 97, 97, 97, 97, 97, 97, 97, 97, 97, 97, 97, 97, 97, 97, 97, 97, 97, 97, 97, 97, 97, 97, 97, 97, 97, 97, 97, 97, 97, 97, 97, 97, 13] } 0 [] 0)).map
          (fun rs => (rs.sh.shell_status, strlen rs.user_name,
            (sprintf_prompt rs.sh (cstr rs.user_name ++ prompt_suffix)).prompt_len,
            strlen (sprintf_prompt rs.sh (cstr rs.user_name ++ prompt_suffix)).shell_prompt + 1,
            SHELL_PROMPT_MAXLEN))
        = some (.e_SHELLSTAT_NormalCMDLine, 55, 64, 65, 64) := by
  refine ⟨fun rs => ?_, by decide⟩
  show (cstr rs.user_name ++ prompt_suffix).length = strlen rs.user_name + 9
  rw [List.length_append]
  rfl

end ECShell
